import Mathlib

/-!
Extensive form games: the `efgGame` tree editor.

A shallow embedding of `sources/game/efg.cc`.  C++ objects live in heaps
(lists indexed by handle); a pointer is a handle, a null pointer is `none`.
Every member function of `efgGame` becomes a function from the game state to
either an error or the new state together with the returned value.
-/

set_option autoImplicit false

namespace Gambit

/-! ## Errors and the container library -/

/-- The ways a call leaves without a value. -/
inductive Err where
  /-- `efgGame::Exception` thrown by the game itself -/
  | efgException
  /-- `BadIndex` thrown by `gArray`, `gBlock`, `gList` on an index out of range -/
  | badIndex
  /-- a pointer that refers to no live object was followed -/
  | badHandle
  /-- the recursion budget of the model was used up -/
  | noFuel
  /-- a negative size or count reached an allocation or a countdown loop -/
  | undefined
  deriving DecidableEq

/-- Result of a call. -/
abbrev Res (α : Type) := Except Err α

/-- Modelled from the spec: `gArray<T>::operator[]` of the base library (not
under src/): one-based, an index out of range raises `BadIndex`. -/
def gAt {α : Type} (l : List α) (i : Nat) : Res α :=
  match i with
  | 0 => .error .badIndex
  | k + 1 =>
    match l[k]? with
    | some a => .ok a
    | none => .error .badIndex

/-- Modelled from the spec: assignment through `gArray<T>::operator[]`. -/
def gSet {α : Type} (l : List α) (i : Nat) (a : α) : Res (List α) :=
  match i with
  | 0 => .error .badIndex
  | k + 1 => if k < l.length then .ok (l.set k a) else .error .badIndex

/-- Modelled from the spec: `gBlock<T>::Find`, the one-based position of the
first occurrence, `0` when absent. -/
def gFind {α : Type} [DecidableEq α] (l : List α) (a : α) : Nat :=
  if a ∈ l then l.indexOf a + 1 else 0

/-- Modelled from the spec: `gBlock<T>::Remove(n)`, which returns the removed
element and raises `BadIndex` when `n` is out of range. -/
def gRemove {α : Type} (l : List α) (i : Nat) : Res (α × List α) :=
  match i with
  | 0 => .error .badIndex
  | k + 1 =>
    match l[k]? with
    | some a => .ok (a, l.eraseIdx k)
    | none => .error .badIndex

/-- Modelled from the spec: `gBlock<T>::Insert(t, n)`, which clamps `n` into
`1 .. Length()+1` and puts `t` at that position. -/
def gInsert {α : Type} (l : List α) (a : α) (i : Nat) : List α :=
  let k := min (i - 1) l.length
  l.take k ++ a :: l.drop k

/-! ## Data model -/

/-- An action object (`gbt_efg_action_rep`); `uid` is the identity of the object. -/
structure Action where
  uid : Nat
  m_id : Nat
  m_label : String
  deriving DecidableEq

/-- An information set object (`gbt_efg_infoset_rep`).  `m_player` is the id of
the owning player, `0` for chance. -/
structure Infoset where
  m_id : Nat
  m_player : Nat
  m_label : String
  m_actions : List Action
  m_chanceProbs : List ℚ
  m_members : List Nat
  deriving DecidableEq

/-- A player object (`gbt_efg_player_rep`); its id is its position in
`efgGame::players`, `0` for the chance player. -/
structure Player where
  m_label : String
  m_infosets : List Nat
  deriving DecidableEq

/-- An outcome object (`gbt_efg_outcome_rep`). -/
structure Outcome where
  m_id : Nat
  m_label : String
  m_payoffs : List ℚ
  deriving DecidableEq

/-- A node object (`Node`). -/
structure Node where
  mark : Bool
  number : Nat
  name : String
  infoset : Option Nat
  parent : Option Nat
  outcome : Option Nat
  children : List Nat
  ptr : Option Nat
  gameroot : Option Nat
  deriving DecidableEq

/-- The game (`efgGame`) together with the heaps its pointers point into. -/
structure efgGame where
  sortisets : Bool
  m_dirty : Bool
  m_revision : Nat
  title : String
  comment : String
  players : List Player
  outcomes : List Nat
  root : Nat
  chance : Player
  lexicon : Option Nat
  /-- heap of `Node` objects; `none` is a deleted object -/
  nodes : List (Option Node)
  /-- heap of information set objects -/
  infosets : List (Option Infoset)
  /-- heap of outcome objects -/
  outcomeReps : List (Option Outcome)
  /-- number of action objects created so far -/
  actionCount : Nat
  deriving DecidableEq

/-! ## Heap access -/

/-- Follow a pointer into a heap. -/
def deref {α : Type} (heap : List (Option α)) (h : Nat) : Res α :=
  match heap[h]? with
  | some (some a) => .ok a
  | _ => .error .badHandle

/-- Overwrite the object a pointer refers to. -/
def store {α : Type} (heap : List (Option α)) (h : Nat) (a : α) : List (Option α) :=
  heap.set h (some a)

/-- The player object with id `p`: `chance` for `0`, `players[p]` otherwise. -/
def efgGame.playerRep (g : efgGame) (p : Nat) : Res Player :=
  if p = 0 then .ok g.chance
  else match g.players[p - 1]? with
    | some x => .ok x
    | none => .error .badHandle

/-- Overwrite the player object with id `p`. -/
def efgGame.setPlayerRep (g : efgGame) (p : Nat) (x : Player) : efgGame :=
  if p = 0 then { g with chance := x }
  else { g with players := g.players.set (p - 1) x }

/-- Modelled from the spec: the constructor `Node(efgGame *, Node *parent)` of
node.h (not under src/): a fresh terminal node without infoset or outcome whose
subgame root is that of its parent, or itself when it has no parent. -/
def newNode (nodes : List (Option Node)) (parent : Option Nat) :
    Res (List (Option Node) × Nat) :=
  let h := nodes.length
  match parent with
  | none =>
    .ok (nodes ++ [some ⟨false, 0, "", none, none, none, [], none, some h⟩], h)
  | some p => do
    let x ← deref nodes p
    pure (nodes ++ [some ⟨false, 0, "", none, some p, none, [], none, x.gameroot⟩], h)

/-- Modelled from the spec: initial probability of a chance action (the
constructor of the information set object is not under src/). -/
def defaultChanceProb : ℚ := 0

/-- Fresh action objects with ids `from .. from+n-1`. -/
def newActions (uid : Nat) (start : Nat) : Nat → List Action
  | 0 => []
  | n + 1 => ⟨uid, start, ""⟩ :: newActions (uid + 1) (start + 1) n

/-- Modelled from the spec: the constructor
`gbt_efg_infoset_rep(player, id, br)` of efgint.h (not under src/): `br`
actions numbered `1 .. br`, one probability per action for chance, no members. -/
def newInfoset (uid : Nat) (player id br : Nat) : Infoset :=
  { m_id := id, m_player := player, m_label := "",
    m_actions := newActions uid 1 br,
    m_chanceProbs := if player = 0 then List.replicate br defaultChanceProb else [],
    m_members := [] }

/-! ## Private member functions -/

/-- `efgGame::DeleteLexicon` -/
def DeleteLexicon (g : efgGame) : efgGame := { g with lexicon := none }

/-- Loop body of `Reindex` over one player's infosets: `m_infosets[j]->m_id = j`. -/
def Reindex.infosetIds (infosets : List (Option Infoset)) :
    List Nat → Nat → Res (List (Option Infoset))
  | [], _ => .ok infosets
  | h :: t, j => do
    let s ← deref infosets h
    Reindex.infosetIds (store infosets h { s with m_id := j }) t (j + 1)

/-- Loop of `Reindex` over the personal players. -/
def Reindex.players (infosets : List (Option Infoset)) :
    List Player → Res (List (Option Infoset))
  | [] => .ok infosets
  | p :: ps => do
    let infosets1 ← Reindex.infosetIds infosets p.m_infosets 1
    Reindex.players infosets1 ps

/-- Loop of `Reindex` over the outcomes: `outcomes[i]->m_id = i`. -/
def Reindex.outcomeIds (reps : List (Option Outcome)) :
    List Nat → Nat → Res (List (Option Outcome))
  | [], _ => .ok reps
  | h :: t, i => do
    let o ← deref reps h
    Reindex.outcomeIds (store reps h { o with m_id := i }) t (i + 1)

/-- `efgGame::Reindex` -/
def Reindex (g : efgGame) : Res efgGame := do
  let infosets ← Reindex.players g.infosets g.players
  let reps ← Reindex.outcomeIds g.outcomeReps g.outcomes 1
  pure { g with infosets := infosets, outcomeReps := reps }

/-- `efgGame::NumberNodes(Node *n, int &index)`: the state is the node heap and
the running index. -/
def NumberNodes : Nat → Nat → List (Option Node) × Nat → Res (List (Option Node) × Nat)
  | 0, _, _ => .error .noFuel
  | fuel + 1, n, (nodes, index) => do
    let x ← deref nodes n
    let nodes1 := store nodes n { x with number := index }
    x.children.foldlM (fun st c => NumberNodes fuel c st) (nodes1, index + 1)

/-- Modelled from the spec: the recursion behind `Nodes(efg, list)` of
efgutils (not under src/), the full preorder node list: append the node, then
visit the children from first to last. -/
def NDoChild (nodes : List (Option Node)) : Nat → Nat → List Nat → Res (List Nat)
  | 0, _, _ => .error .noFuel
  | fuel + 1, n, list => do
    let x ← deref nodes n
    x.children.foldlM (fun acc c => NDoChild nodes fuel c acc) (list ++ [n])

/-- Modelled from the spec: `Nodes(efg, list)`, the preorder list of all nodes
below the root.  The recursion budget is the size of the node heap, which no
path of a tree exceeds. -/
def Nodes (g : efgGame) : Res (List Nat) :=
  NDoChild g.nodes g.nodes.length g.root []

/-- First loop of `SortInfosets`, `while (i < foo)`, on one player's list; the
first argument is `foo - i`. -/
def SortInfosets.moveEmpty (infosets : List (Option Infoset)) :
    Nat → Nat → List Nat → Res (List Nat)
  | 0, _, l => .ok l
  | k + 1, i, l => do
    let foo := i + (k + 1)
    let bar ← gAt l i
    let s ← deref infosets bar
    if s.m_members.length = 0 then
      let last ← gAt l foo
      let l1 ← gSet l i last
      let l2 ← gSet l1 foo bar
      SortInfosets.moveEmpty infosets k i l2
    else
      SortInfosets.moveEmpty infosets k (i + 1) l

/-- Second loop of `SortInfosets`: an empty infoset gets its position as id, a
non-empty one gets `0`. -/
def SortInfosets.numberEmpty (infosets : List (Option Infoset)) :
    List Nat → Nat → Res (List (Option Infoset))
  | [], _ => .ok infosets
  | h :: t, i => do
    let s ← deref infosets h
    let id := if s.m_members.length = 0 then i else 0
    SortInfosets.numberEmpty (store infosets h { s with m_id := id }) t (i + 1)

/-- Third loop of `SortInfosets` over the preorder list: a node of this player
whose infoset still has id `0` gives that infoset the next id and slot.  The
state is the infoset heap, the player's list and `isets`. -/
def SortInfosets.place (nodes : List (Option Node)) (pl : Nat) :
    List Nat → List (Option Infoset) × List Nat × Nat →
      Res (List (Option Infoset) × List Nat × Nat)
  | [], st => .ok st
  | n :: rest, (infosets, l, isets) => do
    let x ← deref nodes n
    match x.infoset with
    | none => SortInfosets.place nodes pl rest (infosets, l, isets)
    | some h => do
      let s ← deref infosets h
      if s.m_player = pl ∧ s.m_id = 0 then
        let isets1 := isets + 1
        let infosets1 := store infosets h { s with m_id := isets1 }
        let l1 ← gSet l isets1 h
        SortInfosets.place nodes pl rest (infosets1, l1, isets1)
      else
        SortInfosets.place nodes pl rest (infosets, l, isets)

/-- Body of the first `for (pl = 0; ...)` loop of `SortInfosets` for player `pl`. -/
def SortInfosets.sortPlayer (g : efgGame) (pl : Nat) : Res efgGame := do
  let nodes ← Nodes g
  let player ← g.playerRep pl
  let foo := player.m_infosets.length
  let l1 ← SortInfosets.moveEmpty g.infosets (foo - 1) 1 player.m_infosets
  let infosets1 ← SortInfosets.numberEmpty g.infosets l1 1
  let (infosets2, l2, _) ← SortInfosets.place g.nodes pl nodes (infosets1, l1, 0)
  pure ({ g with infosets := infosets2 }.setPlayerRep pl { player with m_infosets := l2 })

/-- The first `for (pl = 0; pl <= players.Length(); pl++)` loop of `SortInfosets`;
the first argument counts the players still to do. -/
def SortInfosets.sortPlayers : Nat → Nat → efgGame → Res efgGame
  | 0, _, g => .ok g
  | k + 1, pl, g => do
    let g1 ← SortInfosets.sortPlayer g pl
    SortInfosets.sortPlayers k (pl + 1) g1

/-- Innermost loop of the member sort: `if (nodes[i]->infoset == s)
s->m_members[j++] = nodes[i]`. -/
def SortInfosets.fillMembers (nodes : List (Option Node)) (h : Nat) :
    List Nat → List Nat × Nat → Res (List Nat × Nat)
  | [], st => .ok st
  | n :: rest, (members, j) => do
    let x ← deref nodes n
    if x.infoset = some h then
      let members1 ← gSet members j n
      SortInfosets.fillMembers nodes h rest (members1, j + 1)
    else
      SortInfosets.fillMembers nodes h rest (members, j)

/-- Loop over one player's infosets in the member sort. -/
def SortInfosets.sortMembers (nodes : List (Option Node)) (list : List Nat) :
    List Nat → List (Option Infoset) → Res (List (Option Infoset))
  | [], infosets => .ok infosets
  | h :: t, infosets => do
    let s ← deref infosets h
    let (members, _) ← SortInfosets.fillMembers nodes h list (s.m_members, 1)
    SortInfosets.sortMembers nodes list t (store infosets h { s with m_members := members })

/-- The second `for (pl = 0; ...)` loop of `SortInfosets`. -/
def SortInfosets.sortAllMembers (nodes : List (Option Node)) (list : List Nat) :
    List Player → List (Option Infoset) → Res (List (Option Infoset))
  | [], infosets => .ok infosets
  | p :: ps, infosets => do
    let infosets1 ← SortInfosets.sortMembers nodes list p.m_infosets infosets
    SortInfosets.sortAllMembers nodes list ps infosets1

/-- `efgGame::SortInfosets` -/
def SortInfosets (g : efgGame) : Res efgGame :=
  if !g.sortisets then .ok g
  else do
    let g1 ← SortInfosets.sortPlayers (g.players.length + 1) 0 g
    let nodes ← Nodes g1
    let infosets ← SortInfosets.sortAllMembers g1.nodes nodes (g1.chance :: g1.players) g1.infosets
    let (nodes1, _) ← NumberNodes g1.nodes.length g1.root (g1.nodes, 1)
    pure { g1 with infosets := infosets, nodes := nodes1 }

/-- `efgGame::CreateInfoset(int n, gbtEfgPlayer p, int br)` -/
def CreateInfoset (g : efgGame) (n : Nat) (p : Nat) (br : Nat) : Res (efgGame × Nat) := do
  let player ← g.playerRep p
  let s := g.infosets.length
  let g1 : efgGame :=
    { g with
      infosets := g.infosets ++ [some (newInfoset g.actionCount p n br)],
      actionCount := g.actionCount + br }
  pure (g1.setPlayerRep p { player with m_infosets := player.m_infosets ++ [s] }, s)

/-! ## Construction, players, outcomes -/

/-- `efgGame::efgGame(void)` -/
def efgGame.new : Res efgGame := do
  let (nodes, root) ← newNode [] none
  SortInfosets
    { sortisets := true, m_dirty := false, m_revision := 0, title := "UNTITLED",
      comment := "", players := [], outcomes := [], root := root,
      chance := ⟨"", []⟩, lexicon := none, nodes := nodes, infosets := [],
      outcomeReps := [], actionCount := 0 }

/-- `efgGame::NumPlayers` -/
def NumPlayers (g : efgGame) : Nat := g.players.length

/-- Loop of `NewPlayer` over the outcomes: `outcomes[outc]->m_payoffs.Append(0)`. -/
def NewPlayer.extend (reps : List (Option Outcome)) : List Nat → Res (List (Option Outcome))
  | [] => .ok reps
  | h :: t => do
    let o ← deref reps h
    NewPlayer.extend (store reps h { o with m_payoffs := o.m_payoffs ++ [0] }) t

/-- `efgGame::NewPlayer`; returns the id of the new player. -/
def NewPlayer (g : efgGame) : Res (efgGame × Nat) := do
  let g1 : efgGame := { g with m_revision := g.m_revision + 1, m_dirty := true }
  let ret := g1.players.length + 1
  let g2 : efgGame := { g1 with players := g1.players ++ [Player.mk "" []] }
  let reps ← NewPlayer.extend g2.outcomeReps g2.outcomes
  pure (DeleteLexicon { g2 with outcomeReps := reps }, ret)

/-- `efgGame::NumOutcomes` -/
def NumOutcomes (g : efgGame) : Nat := g.outcomes.length

/-- `efgGame::NewOutcome(int index)`.  Modelled from the spec: the constructor
of the outcome object (not under src/) gives one zero payoff per player. -/
def NewOutcomeIndex (g : efgGame) (index : Nat) : efgGame × Nat :=
  let h := g.outcomeReps.length
  ({ g with m_revision := g.m_revision + 1, m_dirty := true,
            outcomeReps := g.outcomeReps ++
              [some ⟨index, "", List.replicate g.players.length 0⟩],
            outcomes := g.outcomes ++ [h] }, h)

/-- `efgGame::NewOutcome(void)` -/
def NewOutcome (g : efgGame) : efgGame × Nat :=
  let g1 : efgGame := { g with m_revision := g.m_revision + 1, m_dirty := true }
  NewOutcomeIndex g1 (g1.outcomes.length + 1)

/-- `efgGame::SetPayoff(outcome, pl, value)` -/
def SetPayoff (g : efgGame) (p_outcome : Option Nat) (pl : Nat) (value : ℚ) : Res efgGame :=
  match p_outcome with
  | none => .ok g
  | some h => do
    let g1 : efgGame := { g with m_revision := g.m_revision + 1, m_dirty := true }
    let o ← deref g1.outcomeReps h
    let payoffs ← gSet o.m_payoffs pl value
    pure { g1 with outcomeReps := store g1.outcomeReps h { o with m_payoffs := payoffs } }

/-! ## Editing operations -/

/-- The loop `n->children.Append(new Node(this, n))`, run `count` times. -/
def appendChildren (nodes : List (Option Node)) (n : Nat) : Nat → Res (List (Option Node))
  | 0 => .ok nodes
  | count + 1 => do
    let (nodes1, c) ← newNode nodes (some n)
    let x ← deref nodes1 n
    appendChildren (store nodes1 n { x with children := x.children ++ [c] }) n count

/-- `efgGame::AppendNode(Node *n, gbtEfgPlayer p, int count)` -/
def AppendNode (g : efgGame) (n : Option Nat) (p : Option Nat) (count : Int) :
    Res (efgGame × Option Nat) :=
  match n, p with
  | some n, some p =>
    if count = 0 then .error .efgException
    else do
      let g1 : efgGame := { g with m_revision := g.m_revision + 1, m_dirty := true }
      let x ← deref g1.nodes n
      let g2 ←
        if x.children.length = 0 then
          if count < 0 then .error .undefined
          else do
            let player ← g1.playerRep p
            let (ga, s) ← CreateInfoset g1 (player.m_infosets.length + 1) p count.toNat
            let si ← deref ga.infosets s
            let gb : efgGame := { ga with
              nodes := store ga.nodes n { x with infoset := some s },
              infosets := store ga.infosets s { si with m_members := si.m_members ++ [n] } }
            let nodes ← appendChildren gb.nodes n count.toNat
            pure { gb with nodes := nodes }
        else pure g1
      let g3 ← SortInfosets (DeleteLexicon g2)
      let y ← deref g3.nodes n
      pure (g3, y.infoset)
  | _, _ => .error .efgException

/-- `efgGame::AppendNode(Node *n, gbtEfgInfoset s)` -/
def AppendNodeInfoset (g : efgGame) (n : Option Nat) (s : Option Nat) :
    Res (efgGame × Option Nat) :=
  match n, s with
  | some n, some s => do
    let x ← deref g.nodes n
    let si ← deref g.infosets s
    let bridge ←
      if si.m_members.length > 0 then do
        let m1 ← gAt si.m_members 1
        let y ← deref g.nodes m1
        pure (decide (x.gameroot ≠ y.gameroot))
      else pure false
    if bridge then pure (g, none)
    else do
      let g2 ←
        if x.children.length = 0 then do
          let g1 : efgGame := { g with m_revision := g.m_revision + 1, m_dirty := true }
          let gb : efgGame := { g1 with
            nodes := store g1.nodes n { x with infoset := some s },
            infosets := store g1.infosets s { si with m_members := si.m_members ++ [n] } }
          let nodes ← appendChildren gb.nodes n si.m_actions.length
          pure { gb with nodes := nodes }
        else pure g
      let g3 ← SortInfosets (DeleteLexicon g2)
      pure (g3, some s)
  | _, _ => .error .efgException

/-- `efgGame::CreateInfoset(gbtEfgPlayer p, int br)` -/
def CreateInfosetPublic (g : efgGame) (p : Option Nat) (br : Nat) : Res (efgGame × Nat) :=
  match p with
  | none => .error .efgException
  | some p => do
    let g1 : efgGame := { g with m_revision := g.m_revision + 1, m_dirty := true }
    let player ← g1.playerRep p
    CreateInfoset g1 (player.m_infosets.length + 1) p br

/-- `efgGame::JoinInfoset(gbtEfgInfoset s, Node *n)` -/
def JoinInfoset (g : efgGame) (s : Option Nat) (n : Option Nat) : Res (efgGame × Option Nat) :=
  match n, s with
  | some n, some s => do
    let x ← deref g.nodes n
    let si ← deref g.infosets s
    let bridge ←
      if si.m_members.length > 0 then do
        let m1 ← gAt si.m_members 1
        let y ← deref g.nodes m1
        pure (decide (x.gameroot ≠ y.gameroot))
      else pure false
    if bridge then pure (g, none)
    else
      match x.infoset with
      | none => pure (g, none)
      | some t =>
        if t = s then pure (g, some s)
        else if si.m_actions.length ≠ x.children.length then pure (g, some t)
        else do
          let g1 : efgGame := { g with m_revision := g.m_revision + 1, m_dirty := true }
          let ti ← deref g1.infosets t
          let (_, tm) ← gRemove ti.m_members (gFind ti.m_members n)
          let infosets1 := store g1.infosets t { ti with m_members := tm }
          let si1 ← deref infosets1 s
          let infosets2 := store infosets1 s { si1 with m_members := si1.m_members ++ [n] }
          let g2 : efgGame :=
            { g1 with infosets := infosets2,
                      nodes := store g1.nodes n { x with infoset := some s } }
          let g3 ← SortInfosets (DeleteLexicon g2)
          pure (g3, some s)
  | _, _ => .error .efgException

/-- The loop of `LeaveInfoset` and `SplitInfoset` that copies the action labels:
`to->m_actions[i]->m_label = from->m_actions[i]->m_label` for `i = 1 .. from.Length()`. -/
def copyLabels : List Action → Nat → List Action → Res (List Action)
  | [], _, dst => .ok dst
  | a :: rest, i, dst => do
    let b ← gAt dst i
    let dst1 ← gSet dst i { b with m_label := a.m_label }
    copyLabels rest (i + 1) dst1

/-- `efgGame::LeaveInfoset(Node *n)` -/
def LeaveInfoset (g : efgGame) (n : Option Nat) : Res (efgGame × Option Nat) :=
  match n with
  | none => .error .efgException
  | some n => do
    let x ← deref g.nodes n
    match x.infoset with
    | none => pure (g, none)
    | some s => do
      let si ← deref g.infosets s
      if si.m_members.length = 1 then pure (g, some s)
      else do
        let g1 : efgGame := { g with m_revision := g.m_revision + 1, m_dirty := true }
        let p := si.m_player
        let (_, sm) ← gRemove si.m_members (gFind si.m_members n)
        let g2 : efgGame := { g1 with infosets := store g1.infosets s { si with m_members := sm } }
        let player ← g2.playerRep p
        let (g3, t) ← CreateInfoset g2 (player.m_infosets.length + 1) p x.children.length
        let ti ← deref g3.infosets t
        let acts ← copyLabels si.m_actions 1 ti.m_actions
        let g4 : efgGame :=
          { g3 with
            nodes := store g3.nodes n { x with infoset := some t },
            infosets := store g3.infosets t
              { ti with m_label := si.m_label, m_members := ti.m_members ++ [n],
                        m_actions := acts } }
        let g5 ← SortInfosets (DeleteLexicon g4)
        let y ← deref g5.nodes n
        pure (g5, y.infoset)

/-- `efgGame::DeleteEmptyInfoset(gbtEfgInfoset s)` -/
def DeleteEmptyInfoset (g : efgGame) (s : Option Nat) : Res (efgGame × Bool) :=
  match s with
  | none => .error .efgException
  | some s => do
    let si ← deref g.infosets s
    if si.m_members.length > 0 then pure (g, false)
    else do
      let g1 : efgGame := { g with m_revision := g.m_revision + 1, m_dirty := true }
      let player ← g1.playerRep si.m_player
      let (_, l) ← gRemove player.m_infosets (gFind player.m_infosets s)
      let g2 := g1.setPlayerRep si.m_player { player with m_infosets := l }
      pure ({ g2 with infosets := g2.infosets.set s none }, true)

/-- `efgGame::MarkSubtree(Node *p_node)`, on the node heap. -/
def MarkSubtree : Nat → Nat → List (Option Node) → Res (List (Option Node))
  | 0, _, _ => .error .noFuel
  | fuel + 1, n, nodes => do
    let x ← deref nodes n
    x.children.foldlM (fun st c => MarkSubtree fuel c st) (store nodes n { x with mark := true })

/-- `efgGame::UnmarkSubtree(Node *p_node)`, on the node heap. -/
def UnmarkSubtree : Nat → Nat → List (Option Node) → Res (List (Option Node))
  | 0, _, _ => .error .noFuel
  | fuel + 1, n, nodes => do
    let x ← deref nodes n
    x.children.foldlM (fun st c => UnmarkSubtree fuel c st) (store nodes n { x with mark := false })

/-- Innermost loop of `Reveal`, over the copied member list of one infoset of
`who`; the state is the game and `newiset`. -/
def Reveal.members : List Nat → efgGame × Option Nat → Res (efgGame × Option Nat)
  | [], st => .ok st
  | n :: rest, (g, newiset) => do
    let x ← deref g.nodes n
    if x.mark then
      let g1 : efgGame := { g with nodes := store g.nodes n { x with mark := false } }
      match newiset with
      | none => do
        let (g2, r) ← LeaveInfoset g1 (some n)
        Reveal.members rest (g2, r)
      | some t => do
        let (g2, _) ← JoinInfoset g1 (some t) (some n)
        Reveal.members rest (g2, some t)
    else Reveal.members rest (g, newiset)

/-- The loop `for (k = 1; k <= who.rep->m_infosets.Length(); k++)` of `Reveal`;
the length is read again in every round.  The first argument bounds the number
of rounds. -/
def Reveal.infosets (who : Nat) : Nat → Nat → efgGame → Res efgGame
  | 0, _, _ => .error .noFuel
  | fuel + 1, k, g => do
    let player ← g.playerRep who
    if k ≤ player.m_infosets.length then
      let s ← gAt player.m_infosets k
      let si ← deref g.infosets s
      let (g1, _) ← Reveal.members si.m_members (g, none)
      Reveal.infosets who fuel (k + 1) g1
    else pure g

/-- The loop `for (j = 1; j <= where.rep->m_members.Length(); j++)` of `Reveal`:
`MarkSubtree(where.rep->m_members[j]->children[i])`. -/
def Reveal.mark (i : Nat) : List Nat → List (Option Node) → Res (List (Option Node))
  | [], nodes => .ok nodes
  | m :: rest, nodes => do
    let x ← deref nodes m
    let c ← gAt x.children i
    let nodes1 ← MarkSubtree nodes.length c nodes
    Reveal.mark i rest nodes1

/-- The loop `for (i = 1; i <= where.rep->m_actions.Length(); i++)` of `Reveal`;
the first argument counts the rounds still to go. -/
def Reveal.actions (wh who : Nat) : Nat → Nat → efgGame → Res efgGame
  | 0, _, g => .ok g
  | r + 1, i, g => do
    let wi ← deref g.infosets wh
    let nodes ← Reveal.mark i wi.m_members g.nodes
    let g1 : efgGame := { g with nodes := nodes }
    let g2 ← Reveal.infosets who (g1.nodes.length + g1.infosets.length + 1) 1 g1
    Reveal.actions wh who r (i + 1) g2

/-- `efgGame::Reveal(gbtEfgInfoset where, gbtEfgPlayer who)` -/
def Reveal (g : efgGame) (wh who : Nat) : Res efgGame := do
  let wi ← deref g.infosets wh
  if wi.m_actions.length ≤ 1 then pure g
  else do
    let nodes ← UnmarkSubtree g.nodes.length g.root g.nodes
    let g1 : efgGame :=
      { g with nodes := nodes, m_revision := g.m_revision + 1, m_dirty := true }
    let g2 ← Reveal.actions wh who wi.m_actions.length 1 g1
    Reindex g2

/-- `efgGame::IsPredecessor(const Node *n, const Node *of)`: the loop
`while (of && n != of) of = of->parent`. -/
def IsPredecessor (nodes : List (Option Node)) : Nat → Option Nat → Option Nat → Res Bool
  | 0, _, _ => .error .noFuel
  | fuel + 1, n, o =>
    match o with
    | none => .ok (decide (n = none))
    | some h =>
      if n = some h then .ok true
      else do
        let x ← deref nodes h
        IsPredecessor nodes fuel n x.parent

/-- `efgGame::MoveTree(Node *src, Node *dest)` -/
def MoveTree (g : efgGame) (src dest : Option Nat) : Res (efgGame × Option Nat) :=
  match src, dest with
  | some src, some dest => do
    let xs ← deref g.nodes src
    let xd ← deref g.nodes dest
    let pred ← if src = dest ∨ xd.children.length ≠ 0 then pure true
               else IsPredecessor g.nodes (g.nodes.length + 1) (some src) (some dest)
    if src = dest ∨ xd.children.length ≠ 0 ∨ pred then pure (g, some src)
    else if xs.gameroot ≠ xd.gameroot then pure (g, some src)
    else do
      let g1 : efgGame := { g with m_revision := g.m_revision + 1, m_dirty := true }
      let nodes1 ←
        if xs.parent = xd.parent then do
          match xs.parent with
          | none => .error .badHandle
          | some par => do
            let xp ← deref g1.nodes par
            let srcChild := gFind xp.children src
            let destChild := gFind xp.children dest
            let c1 ← gSet xp.children srcChild dest
            let c2 ← gSet c1 destChild src
            pure (store g1.nodes par { xp with children := c2 })
        else do
          match xs.parent, xd.parent with
          | some par, some dpar => do
            let xp ← deref g1.nodes par
            let c1 ← gSet xp.children (gFind xp.children src) dest
            let n1 := store g1.nodes par { xp with children := c1 }
            let xq ← deref n1 dpar
            let c2 ← gSet xq.children (gFind xq.children dest) src
            let n2 := store n1 dpar { xq with children := c2 }
            let ys ← deref n2 src
            let n3 := store n2 src { ys with parent := xd.parent }
            let yd ← deref n3 dest
            pure (store n3 dest { yd with parent := some par })
          | _, _ => .error .badHandle
      let yd ← deref nodes1 dest
      let nodes2 := store nodes1 dest { yd with name := "", outcome := none }
      let g2 ← SortInfosets (DeleteLexicon { g1 with nodes := nodes2 })
      pure (g2, some dest)
  | _, _ => .error .efgException

/-- `efgGame::DeleteTree(Node *n)`.  Every round of the `while` loop removes
exactly one child of `n`, so the loop runs once per child present at entry. -/
def DeleteTree.go : Nat → efgGame → Option Nat → Res (efgGame × Nat)
  | 0, _, _ => .error .noFuel
  | _ + 1, _, none => .error .efgException
  | fuel + 1, g, some n => do
    let g1 : efgGame := { g with m_revision := g.m_revision + 1, m_dirty := true }
    let x ← deref g1.nodes n
    let g2 ← x.children.foldlM (fun (ga : efgGame) _ => do
      let xa ← deref ga.nodes n
      let c ← gAt xa.children 1
      let (gb, _) ← DeleteTree.go fuel ga (some c)
      let xb ← deref gb.nodes n
      let (d, rest) ← gRemove xb.children 1
      pure { gb with nodes := (store gb.nodes n { xb with children := rest }).set d none }) g1
    let y ← deref g2.nodes n
    let infosets ←
      match y.infoset with
      | none => pure g2.infosets
      | some s => do
        let si ← deref g2.infosets s
        let (_, sm) ← gRemove si.m_members (gFind si.m_members n)
        pure (store g2.infosets s { si with m_members := sm })
    let g3 : efgGame :=
      { g2 with infosets := infosets,
                nodes := store g2.nodes n { y with infoset := none, outcome := none, name := "" } }
    let g4 ← SortInfosets (DeleteLexicon g3)
    pure (g4, n)

/-- `efgGame::DeleteTree(Node *n)` with the recursion budget of the node heap. -/
def DeleteTree (g : efgGame) (n : Option Nat) : Res (efgGame × Nat) :=
  DeleteTree.go (g.nodes.length + 1) g n

/-- The search loop of `InsertAction` and `DeleteAction`:
`for (where = 1; where <= Length() && m_actions[where] != a.rep; where++)`. -/
def findAction (acts : List Action) (a : Nat) : Nat :=
  (acts.takeWhile (fun b => b.uid ≠ a)).length + 1

/-- Renumber the actions by position: `m_actions[i]->m_id = i`. -/
def renumberActions : List Action → Nat → List Action
  | [], _ => []
  | a :: rest, i => { a with m_id := i } :: renumberActions rest (i + 1)

/-- Modelled from the spec: `gbtEfgInfoset::InsertAction(int where)` of the
infoset module (not under src/): a fresh action is put at position `where`, the
actions keep the index `1 .. K` of their position, and a chance infoset gets a
probability for it.  Returns the new infoset object and the new action. -/
def Infoset.InsertAction (si : Infoset) (uid wh : Nat) : Infoset × Nat :=
  ({ si with
      m_actions := renumberActions (gInsert si.m_actions ⟨uid, wh, ""⟩ wh) 1,
      m_chanceProbs :=
        if si.m_player = 0 then gInsert si.m_chanceProbs defaultChanceProb wh
        else si.m_chanceProbs }, uid)

/-- Modelled from the spec: `gbtEfgInfoset::RemoveAction(int which)` of the
infoset module (not under src/): the action at position `which` is removed
together with its chance probability and the rest keep index `1 .. K`. -/
def Infoset.RemoveAction (si : Infoset) (which : Nat) : Res Infoset := do
  let (_, acts) ← gRemove si.m_actions which
  let probs ←
    if si.m_player = 0 then do
      let (_, ps) ← gRemove si.m_chanceProbs which
      pure ps
    else pure si.m_chanceProbs
  pure { si with m_actions := renumberActions acts 1, m_chanceProbs := probs }

/-- The loop of `InsertAction(s)` over the members:
`m_members[i]->children.Append(new Node(this, m_members[i]))`. -/
def InsertAction.append : List Nat → List (Option Node) → Res (List (Option Node))
  | [], nodes => .ok nodes
  | m :: rest, nodes => do
    let nodes1 ← appendChildren nodes m 1
    InsertAction.append rest nodes1

/-- `efgGame::InsertAction(gbtEfgInfoset s)`; returns the new action. -/
def InsertAction (g : efgGame) (s : Option Nat) : Res (efgGame × Option Nat) :=
  match s with
  | none => .error .efgException
  | some s => do
    let g1 : efgGame := { g with m_revision := g.m_revision + 1, m_dirty := true }
    let si ← deref g1.infosets s
    let (si1, action) := si.InsertAction g1.actionCount (si.m_actions.length + 1)
    let nodes ← InsertAction.append si1.m_members g1.nodes
    let g2 : efgGame :=
      { g1 with infosets := store g1.infosets s si1, actionCount := g1.actionCount + 1,
                nodes := nodes }
    let g3 ← SortInfosets (DeleteLexicon g2)
    pure (g3, some action)

/-- The loop of `InsertAction(s, a)`,
`for (int i = 1; i <= s.NumActions(); i++)
   s.rep->m_members[i]->children.Insert(new Node(this, s.rep->m_members[i]), where)`;
the first argument counts the rounds still to go. -/
def InsertActionAt.insert (members : List Nat) (wh : Nat) :
    Nat → Nat → List (Option Node) → Res (List (Option Node))
  | 0, _, nodes => .ok nodes
  | r + 1, i, nodes => do
    let m ← gAt members i
    let (nodes1, c) ← newNode nodes (some m)
    let x ← deref nodes1 m
    InsertActionAt.insert members wh r (i + 1)
      (store nodes1 m { x with children := gInsert x.children c wh })

/-- `efgGame::InsertAction(gbtEfgInfoset s, const gbtEfgAction &a)` -/
def InsertActionAt (g : efgGame) (s : Option Nat) (a : Option Nat) :
    Res (efgGame × Option Nat) :=
  match a, s with
  | some a, some s => do
    let g1 : efgGame := { g with m_revision := g.m_revision + 1, m_dirty := true }
    let si ← deref g1.infosets s
    let wh := findAction si.m_actions a
    if wh > si.m_actions.length then pure (g1, none)
    else do
      let (si1, action) := si.InsertAction g1.actionCount wh
      let nodes ← InsertActionAt.insert si1.m_members wh si1.m_actions.length 1 g1.nodes
      let g2 : efgGame :=
        { g1 with infosets := store g1.infosets s si1, actionCount := g1.actionCount + 1,
                  nodes := nodes }
      let g3 ← SortInfosets (DeleteLexicon g2)
      pure (g3, some action)
  | _, _ => .error .efgException

/-- The loop of `DeleteAction` over the members,
`for (int i = 1; i <= s.rep->m_members.Length(); i++)`; the member list is read
again in every round.  The first argument bounds the number of rounds. -/
def DeleteAction.loop (s wh : Nat) : Nat → Nat → efgGame → Res efgGame
  | 0, _, _ => .error .noFuel
  | fuel + 1, i, g => do
    let si ← deref g.infosets s
    if i ≤ si.m_members.length then
      let m ← gAt si.m_members i
      let x ← deref g.nodes m
      let c ← gAt x.children wh
      let (g1, _) ← DeleteTree g (some c)
      let si1 ← deref g1.infosets s
      let m1 ← gAt si1.m_members i
      let x1 ← deref g1.nodes m1
      let (d, rest) ← gRemove x1.children wh
      let g2 : efgGame :=
        { g1 with nodes := (store g1.nodes m1 { x1 with children := rest }).set d none }
      DeleteAction.loop s wh fuel (i + 1) g2
    else pure g

/-- `efgGame::DeleteAction(gbtEfgInfoset s, const gbtEfgAction &a)` -/
def DeleteAction (g : efgGame) (s : Option Nat) (a : Option Nat) :
    Res (efgGame × Option Nat) :=
  match a, s with
  | some a, some s => do
    let g1 : efgGame := { g with m_revision := g.m_revision + 1, m_dirty := true }
    let si ← deref g1.infosets s
    let wh := findAction si.m_actions a
    if wh > si.m_actions.length ∨ si.m_actions.length = 1 then pure (g1, some s)
    else do
      let si1 ← si.RemoveAction wh
      let g2 : efgGame := { g1 with infosets := store g1.infosets s si1 }
      let g3 ← DeleteAction.loop s wh (si1.m_members.length + 1) 1 g2
      let g4 ← SortInfosets (DeleteLexicon g3)
      pure (g4, some s)
  | _, _ => .error .efgException

/-- `efgGame::GetChanceProb(gbtEfgInfoset infoset, int act)` -/
def GetChanceProb (si : Infoset) (act : Nat) : Res ℚ :=
  if si.m_player = 0 then gAt si.m_chanceProbs act else .ok 0

/-- `efgGame::SetChanceProb(gbtEfgInfoset infoset, int act, const gNumber &value)` -/
def SetChanceProb (g : efgGame) (s : Nat) (act : Nat) (value : ℚ) : Res efgGame := do
  let si ← deref g.infosets s
  if si.m_player = 0 then
    let probs ← gSet si.m_chanceProbs act value
    pure { g with m_revision := g.m_revision + 1, m_dirty := true,
                  infosets := store g.infosets s { si with m_chanceProbs := probs } }
  else pure g

/-! ## Subgames -/

/-- `efgGame::MarkTree(Node *n, Node *base)`, on the node heap. -/
def MarkTree (base : Nat) : Nat → Nat → List (Option Node) → Res (List (Option Node))
  | 0, _, _ => .error .noFuel
  | fuel + 1, n, nodes => do
    let x ← deref nodes n
    x.children.foldlM (fun st c => MarkTree base fuel c st)
      (store nodes n { x with ptr := some base })

/-- A loop that leaves with `false` at the first element failing the test. -/
def allM {α : Type} (f : α → Res Bool) : List α → Res Bool
  | [] => .ok true
  | a :: rest => do
    if !(← f a) then pure false else allM f rest

/-- `efgGame::CheckTree(Node *n, Node *base)` -/
def CheckTree (g : efgGame) (base : Nat) : Nat → Nat → Res Bool
  | 0, _ => .error .noFuel
  | fuel + 1, n => do
    let x ← deref g.nodes n
    if x.children.length = 0 then pure true
    else do
      if !(← allM (fun c => CheckTree g base fuel c) x.children) then pure false
      else
        match x.infoset with
        | none => .error .badHandle
        | some s => do
          let si ← deref g.infosets s
          if si.m_player = 0 then pure true
          else
            allM (fun m => do
              let y ← deref g.nodes m
              pure (decide (y.ptr = some base))) si.m_members

/-- `efgGame::IsLegalSubgame(Node *n)`; the marks it leaves are part of the result. -/
def IsLegalSubgame (g : efgGame) (n : Nat) : Res (efgGame × Bool) := do
  let x ← deref g.nodes n
  if x.children.length = 0 then pure (g, false)
  else do
    let nodes ← MarkTree n g.nodes.length n g.nodes
    let g1 : efgGame := { g with nodes := nodes }
    let r ← CheckTree g1 n g1.nodes.length n
    pure (g1, r)

/-- `efgGame::MarkSubgame(Node *n, Node *base)`, on the node heap. -/
def MarkSubgameBase (base : Option Nat) : Nat → Nat → List (Option Node) → Res (List (Option Node))
  | 0, _, _ => .error .noFuel
  | fuel + 1, n, nodes => do
    let x ← deref nodes n
    if x.gameroot = some n then pure nodes
    else
      x.children.foldlM (fun st c => MarkSubgameBase base fuel c st)
        (store nodes n { x with gameroot := base })

/-- `efgGame::MarkSubgame(Node *n)` -/
def MarkSubgame (g : efgGame) (n : Nat) : Res (efgGame × Bool) := do
  let x ← deref g.nodes n
  if x.gameroot = some n then pure (g, true)
  else do
    let (g1, legal) ← IsLegalSubgame g n
    if legal then
      let y ← deref g1.nodes n
      let nodes1 := store g1.nodes n { y with gameroot := none }
      let nodes2 ← MarkSubgameBase (some n) nodes1.length n nodes1
      pure ({ g1 with nodes := nodes2 }, true)
    else pure (g1, false)

/-! ## Editing operations on the tree -/

/-- The statement
`if (n->parent) n->parent->children[n->parent->children.Find(n)] = m; else root = m;`
of `InsertNode` and `DeleteNode`, with `parent` the value of `n->parent`. -/
def replaceInParent (g : efgGame) (parent : Option Nat) (n m : Nat) : Res efgGame :=
  match parent with
  | some par => do
    let xp ← deref g.nodes par
    let cs ← gSet xp.children (gFind xp.children n) m
    pure { g with nodes := store g.nodes par { xp with children := cs } }
  | none => pure { g with root := m }

/-- `efgGame::InsertNode(Node *n, gbtEfgPlayer p, int count)` -/
def InsertNode (g : efgGame) (n : Option Nat) (p : Option Nat) (count : Int) :
    Res (efgGame × Option Nat) :=
  match n, p with
  | some n, some p =>
    if count ≤ 0 then .error .efgException
    else do
      let g1 : efgGame := { g with m_revision := g.m_revision + 1, m_dirty := true }
      let x ← deref g1.nodes n
      let (nodes1, m) ← newNode g1.nodes x.parent
      let g2 : efgGame := { g1 with nodes := nodes1 }
      let player ← g2.playerRep p
      let (ga, s) ← CreateInfoset g2 (player.m_infosets.length + 1) p count.toNat
      let xm ← deref ga.nodes m
      let si ← deref ga.infosets s
      let gb : efgGame := { ga with
        nodes := store ga.nodes m { xm with infoset := some s },
        infosets := store ga.infosets s { si with m_members := si.m_members ++ [m] } }
      let gc ← replaceInParent gb x.parent n m
      let ym ← deref gc.nodes m
      let nodes2 := store gc.nodes m { ym with children := ym.children ++ [n] }
      let yn ← deref nodes2 n
      let nodes3 := store nodes2 n { yn with parent := some m }
      let nodes4 ← appendChildren nodes3 m (count.toNat - 1)
      let g3 ← SortInfosets (DeleteLexicon { gc with nodes := nodes4 })
      let y ← deref g3.nodes m
      pure (g3, y.infoset)
  | _, _ => .error .efgException

/-- `efgGame::InsertNode(Node *n, gbtEfgInfoset s)`.  With an infoset without
actions the loop `while (--count)` starts from `-1`; that run is not modelled. -/
def InsertNodeInfoset (g : efgGame) (n : Option Nat) (s : Option Nat) :
    Res (efgGame × Option Nat) :=
  match n, s with
  | some n, some s => do
    let x ← deref g.nodes n
    let si ← deref g.infosets s
    let bridge ←
      if si.m_members.length > 0 then do
        let m1 ← gAt si.m_members 1
        let y ← deref g.nodes m1
        pure (decide (x.gameroot ≠ y.gameroot))
      else pure false
    if bridge then pure (g, none)
    else do
      let g1 : efgGame := { g with m_revision := g.m_revision + 1, m_dirty := true }
      let (nodes1, m) ← newNode g1.nodes x.parent
      let xm ← deref nodes1 m
      let gb : efgGame := { g1 with
        nodes := store nodes1 m { xm with infoset := some s },
        infosets := store g1.infosets s { si with m_members := si.m_members ++ [m] } }
      let gc ← replaceInParent gb x.parent n m
      let ym ← deref gc.nodes m
      let nodes2 := store gc.nodes m { ym with children := ym.children ++ [n] }
      let yn ← deref nodes2 n
      let nodes3 := store nodes2 n { yn with parent := some m }
      let sj ← deref gc.infosets s
      if sj.m_actions.length = 0 then .error .undefined
      else do
        let nodes4 ← appendChildren nodes3 m (sj.m_actions.length - 1)
        let g3 ← SortInfosets (DeleteLexicon { gc with nodes := nodes4 })
        let y ← deref g3.nodes m
        pure (g3, y.infoset)
  | _, _ => .error .efgException

/-- `efgGame::DeleteNode(Node *n, Node *keep)`; `delete n` empties the heap slot. -/
def DeleteNode (g : efgGame) (n keep : Option Nat) : Res (efgGame × Option Nat) :=
  match n, keep with
  | some n, some keep => do
    let xk ← deref g.nodes keep
    if xk.parent ≠ some n then pure (g, some n)
    else do
      let xn ← deref g.nodes n
      let nodes0 ←
        if xn.gameroot = some n then MarkSubgameBase (some keep) g.nodes.length keep g.nodes
        else pure g.nodes
      let g1 : efgGame :=
        { g with nodes := nodes0, m_revision := g.m_revision + 1, m_dirty := true,
                 sortisets := false }
      let x1 ← deref g1.nodes n
      let (_, rest) ← gRemove x1.children (gFind x1.children keep)
      let g2 : efgGame := { g1 with nodes := store g1.nodes n { x1 with children := rest } }
      let (g3, _) ← DeleteTree g2 (some n)
      let y ← deref g3.nodes n
      let yk ← deref g3.nodes keep
      let g4 : efgGame := { g3 with nodes := store g3.nodes keep { yk with parent := y.parent } }
      let g5 ← replaceInParent g4 y.parent n keep
      let g6 : efgGame := { g5 with nodes := g5.nodes.set n none }
      let g7 ← SortInfosets { DeleteLexicon g6 with sortisets := true }
      pure (g7, some keep)
  | _, _ => .error .efgException

/-- The loop `for (i = 1; i <= from.rep->m_members.Length(); i++)
from.rep->m_members[i]->infoset = to.rep` of `MergeInfoset`. -/
def MergeInfoset.retarget (dst : Nat) : List Nat → List (Option Node) → Res (List (Option Node))
  | [], nodes => .ok nodes
  | m :: rest, nodes => do
    let x ← deref nodes m
    MergeInfoset.retarget dst rest (store nodes m { x with infoset := some dst })

/-- `efgGame::MergeInfoset(gbtEfgInfoset to, gbtEfgInfoset from)` -/
def MergeInfoset (g : efgGame) (dst src : Option Nat) : Res (efgGame × Option Nat) :=
  match dst, src with
  | some dst, some src => do
    let ti ← deref g.infosets dst
    let fi ← deref g.infosets src
    if dst = src ∨ ti.m_actions.length ≠ fi.m_actions.length then pure (g, some src)
    else do
      let a ← gAt ti.m_members 1
      let b ← gAt fi.m_members 1
      let xa ← deref g.nodes a
      let xb ← deref g.nodes b
      if xa.gameroot ≠ xb.gameroot then pure (g, some src)
      else do
        let g1 : efgGame := { g with m_revision := g.m_revision + 1, m_dirty := true }
        let infosets1 :=
          store g1.infosets dst { ti with m_members := ti.m_members ++ fi.m_members }
        let fj ← deref infosets1 src
        let nodes1 ← MergeInfoset.retarget dst fj.m_members g1.nodes
        let infosets2 := store infosets1 src { fj with m_members := [] }
        let g2 ← SortInfosets (DeleteLexicon { g1 with nodes := nodes1, infosets := infosets2 })
        pure (g2, some dst)
  | _, _ => .error .efgException

/-- The loop `for (int i = 1; i <= src->children.Length(); i++)
CopySubtree(src->children[i], dest->children[i], stop)` of `CopySubtree` and
`CopyTree`; `call` is the recursive call, and the first argument bounds the
number of rounds. -/
def CopySubtree.loop (call : efgGame → Nat → Nat → Res efgGame) (src dest : Nat) :
    Nat → Nat → efgGame → Res efgGame
  | 0, _, _ => .error .noFuel
  | r + 1, i, g => do
    let xs ← deref g.nodes src
    if i ≤ xs.children.length then
      let xd ← deref g.nodes dest
      let cs ← gAt xs.children i
      let cd ← gAt xd.children i
      let g1 ← call g cs cd
      CopySubtree.loop call src dest r (i + 1) g1
    else pure g

/-- `efgGame::CopySubtree(Node *src, Node *dest, Node *stop)` -/
def CopySubtree (stop : Nat) : Nat → efgGame → Nat → Nat → Res efgGame
  | 0, _, _, _ => .error .noFuel
  | fuel + 1, g, src, dest => do
    let xs ← deref g.nodes src
    if src = stop then
      let xd ← deref g.nodes dest
      pure { g with nodes := store g.nodes dest { xd with outcome := xs.outcome } }
    else do
      let g1 ←
        if xs.children.length ≠ 0 then do
          let (ga, _) ← AppendNodeInfoset g (some dest) xs.infoset
          CopySubtree.loop (CopySubtree stop fuel) src dest (xs.children.length + 1) 1 ga
        else pure g
      let ys ← deref g1.nodes src
      let yd ← deref g1.nodes dest
      pure { g1 with nodes := store g1.nodes dest { yd with name := ys.name, outcome := ys.outcome } }

/-- `efgGame::CopyTree(Node *src, Node *dest)`.  The recursion budget is the size
of the node heap, which bounds the depth of the subtree of `src`. -/
def CopyTree (g : efgGame) (src dest : Option Nat) : Res (efgGame × Option Nat) :=
  match src, dest with
  | some src, some dest => do
    let xs ← deref g.nodes src
    let xd ← deref g.nodes dest
    if src = dest ∨ xd.children.length ≠ 0 then pure (g, some src)
    else if xs.gameroot ≠ xd.gameroot then pure (g, some src)
    else if xs.children.length ≠ 0 then do
      let g1 : efgGame := { g with m_revision := g.m_revision + 1, m_dirty := true }
      let (g2, _) ← AppendNodeInfoset g1 (some dest) xs.infoset
      let g3 ← CopySubtree.loop (CopySubtree dest g2.nodes.length) src dest
        (xs.children.length + 1) 1 g2
      let g4 ← SortInfosets (DeleteLexicon g3)
      pure (g4, some dest)
    else pure (g, some dest)
  | _, _ => .error .efgException

/-- The loop `for (int i = s->m_members.Length(); i > s->m_members.Find(n); i--)`
of `SplitInfoset`: member `i` of `s` is removed from `s`, appended to `ns` and
made to refer to `ns`.  The first argument counts the rounds still to go. -/
def SplitInfoset.move (s ns : Nat) : Nat → Nat → efgGame → Res efgGame
  | 0, _, g => .ok g
  | r + 1, i, g => do
    let si ← deref g.infosets s
    let (nn, sm) ← gRemove si.m_members i
    let infosets1 := store g.infosets s { si with m_members := sm }
    let ti ← deref infosets1 ns
    let infosets2 := store infosets1 ns { ti with m_members := ti.m_members ++ [nn] }
    let y ← deref g.nodes nn
    SplitInfoset.move s ns r (i - 1)
      { g with infosets := infosets2, nodes := store g.nodes nn { y with infoset := some ns } }

/-- The chance part of the second loop of `SplitInfoset`:
`ns->m_chanceProbs[i] = s->m_chanceProbs[i]` for `i = 1 .. s->m_actions.Length()`;
the first argument counts the rounds still to go. -/
def SplitInfoset.copyProbs (src : List ℚ) : Nat → Nat → List ℚ → Res (List ℚ)
  | 0, _, dst => .ok dst
  | r + 1, i, dst => do
    let v ← gAt src i
    let dst1 ← gSet dst i v
    SplitInfoset.copyProbs src r (i + 1) dst1

/-- `efgGame::SplitInfoset(Node *n)`.  The second loop of the source copies the
label and, for chance, the probability of action `i` in one round; the two
arrays are independent, and the model copies the labels first. -/
def SplitInfoset (g : efgGame) (n : Option Nat) : Res (efgGame × Option Nat) :=
  match n with
  | none => .error .efgException
  | some n => do
    let x ← deref g.nodes n
    match x.infoset with
    | none => pure (g, none)
    | some s => do
      let si ← deref g.infosets s
      if si.m_members.length = 1 then pure (g, some s)
      else do
        let g1 : efgGame := { g with m_revision := g.m_revision + 1, m_dirty := true }
        let p := si.m_player
        let player ← g1.playerRep p
        let (g2, ns) ← CreateInfoset g1 (player.m_infosets.length + 1) p x.children.length
        let ti ← deref g2.infosets ns
        let g3 : efgGame :=
          { g2 with infosets := store g2.infosets ns { ti with m_label := si.m_label } }
        let g4 ← SplitInfoset.move s ns (si.m_members.length - gFind si.m_members n)
          si.m_members.length g3
        let si4 ← deref g4.infosets s
        let ti4 ← deref g4.infosets ns
        let acts ← copyLabels si4.m_actions 1 ti4.m_actions
        let probs ←
          if p = 0 then
            SplitInfoset.copyProbs si4.m_chanceProbs si4.m_actions.length 1 ti4.m_chanceProbs
          else pure ti4.m_chanceProbs
        let infosets5 :=
          store g4.infosets ns { ti4 with m_actions := acts, m_chanceProbs := probs }
        let g5 : efgGame := { g4 with infosets := infosets5 }
        let g6 ← SortInfosets (DeleteLexicon g5)
        let y ← deref g6.nodes n
        pure (g6, y.infoset)

/-- Modelled from the spec: `Node::DeleteOutcome(outc)` of the node module (not
under src/): the node and every node below it that refers to the outcome loses
the reference. -/
def Node.DeleteOutcome (o : Nat) : Nat → Nat → List (Option Node) → Res (List (Option Node))
  | 0, _, _ => .error .noFuel
  | fuel + 1, n, nodes => do
    let x ← deref nodes n
    let nodes1 :=
      if x.outcome = some o then store nodes n { x with outcome := none } else nodes
    x.children.foldlM (fun st c => Node.DeleteOutcome o fuel c st) nodes1

/-- `efgGame::DeleteOutcome(gbtEfgOutcome &p_outcome)` -/
def DeleteOutcome (g : efgGame) (p_outcome : Nat) : Res efgGame := do
  let g1 : efgGame := { g with m_revision := g.m_revision + 1, m_dirty := true }
  let nodes ← Node.DeleteOutcome p_outcome g1.nodes.length g1.root g1.nodes
  let (d, rest) ← gRemove g1.outcomes (gFind g1.outcomes p_outcome)
  pure (DeleteLexicon
    { g1 with nodes := nodes, outcomes := rest, outcomeReps := g1.outcomeReps.set d none })

/-! ## Writing data files -/

/-- One insertion `f << v` into the output stream of `WriteEfgFile`, tagged by the
kind of value written.  The functions that turn the values into text
(`EscapeQuotes`, the stream insertion of `int` and of the number class, and
`PrintActions` of the information set) are not under src/; `Piece.render` takes
them as parameters. -/
inductive Piece where
  /-- a string or character literal -/
  | lit (s : String)
  /-- `EscapeQuotes(s)` -/
  | escaped (s : String)
  /-- a text written as it is -/
  | raw (s : String)
  /-- an `int` -/
  | int (n : Nat)
  /-- a payoff, written at the precision of the stream -/
  | number (q : ℚ)
  /-- `n->infoset->PrintActions(f)` -/
  | actions (s : Infoset)
  deriving DecidableEq

/-- The text of one piece, given the quote-escaping function, the printer of
payoffs at the chosen precision and the printer of an infoset's actions. -/
def Piece.render (esc : String → String) (num : ℚ → String) (acts : Infoset → String) :
    Piece → String
  | .lit s => s
  | .escaped s => esc s
  | .raw s => s
  | .int n => toString n
  | .number q => num q
  | .actions s => acts s

/-- The text of a sequence of pieces. -/
def renderAll (esc : String → String) (num : ℚ → String) (acts : Infoset → String) :
    List Piece → String
  | [] => ""
  | p :: rest => p.render esc num acts ++ renderAll esc num acts rest

/-- The loop `for (int pl = 1; pl <= NumPlayers(); pl++)` that writes the payoffs
of an outcome in `WriteEfgFile(f, n)`; the first argument counts the players
still to do. -/
def WriteEfgFile.payoffs (g : efgGame) (oc : Outcome) : Nat → Nat → List Piece → Res (List Piece)
  | 0, _, f => .ok f
  | k + 1, pl, f => do
    let v ← gAt oc.m_payoffs pl
    let f1 := f ++ [.number v]
    let f2 := if pl < NumPlayers g then f1 ++ [.lit ", "] else f1 ++ [.lit " \x7d\n"]
    WriteEfgFile.payoffs g oc k (pl + 1) f2

/-- The outcome clause `if (n->outcome) { ... } else f << "0\n";` of
`WriteEfgFile(f, n)`, which the three kinds of node record share word for word. -/
def WriteEfgFile.outcome (g : efgGame) (x : Node) (f : List Piece) : Res (List Piece) :=
  match x.outcome with
  | some o => do
    let oc ← deref g.outcomeReps o
    let f1 := f ++ [.int oc.m_id, .lit " \"", .escaped oc.m_label, .lit "\" "]
    let f2 := f1 ++ [.lit "\x7b "]
    WriteEfgFile.payoffs g oc (NumPlayers g) 1 f2
  | none => pure (f ++ [.lit "0\n"])

/-- `efgGame::WriteEfgFile(gOutput &f, Node *n)`; the stream is the list of the
pieces written so far. -/
def WriteEfgFile.node (g : efgGame) : Nat → Nat → List Piece → Res (List Piece)
  | 0, _, _ => .error .noFuel
  | fuel + 1, n, f => do
    let x ← deref g.nodes n
    let f1 ←
      if x.children.length = 0 then
        WriteEfgFile.outcome g x (f ++ [.lit "t \"", .escaped x.name, .lit "\" "])
      else
        match x.infoset with
        | none => .error .badHandle
        | some s => do
          let si ← deref g.infosets s
          if si.m_player ≠ 0 then
            WriteEfgFile.outcome g x
              (f ++ [.lit "p \"", .escaped x.name, .lit "\" ", .int si.m_player, .lit " "] ++
                [.int si.m_id, .lit " \"", .escaped si.m_label, .lit "\" "] ++
                [.actions si] ++ [.lit " "])
          else
            WriteEfgFile.outcome g x
              (f ++ [.lit "c \"", .raw x.name, .lit "\" "] ++
                [.int si.m_id, .lit " \"", .escaped si.m_label, .lit "\" "] ++
                [.actions si] ++ [.lit " "])
    x.children.foldlM (fun acc c => WriteEfgFile.node g fuel c acc) f1

/-- `efgGame::WriteEfgFile(gOutput &p_file, int p_nDecimals)`: the pieces written
and the game afterwards.  The precision of the stream, set on entry and
restored on exit, is a parameter of `Piece.render`.  The recursion budget is the
size of the node heap. -/
def WriteEfgFile (g : efgGame) : Res (List Piece × efgGame) := do
  let f0 : List Piece := [.lit "EFG 2 R"]
  let f1 := f0 ++ [.lit " \"", .escaped g.title, .lit "\" \x7b "]
  let f2 := g.players.foldl (fun f p => f ++ [.lit "\"", .escaped p.m_label, .lit "\" "]) f1
  let f3 := f2 ++ [.lit "\x7d\n"]
  let f4 := f3 ++ [.lit "\"", .escaped g.comment, .lit "\"\n\n"]
  let f5 ← WriteEfgFile.node g g.nodes.length g.root f4
  pure (f5, { g with m_revision := g.m_revision + 1, m_dirty := false })

/-! ## Counting and payoffs -/

/-- Inner loop of `ProfileLength` over one player's infosets. -/
def ProfileLength.player (infosets : List (Option Infoset)) : List Nat → Nat → Res Nat
  | [], sum => .ok sum
  | h :: t, sum => do
    let s ← deref infosets h
    ProfileLength.player infosets t (sum + s.m_actions.length)

/-- `efgGame::ProfileLength` -/
def ProfileLength (g : efgGame) : Res Nat :=
  g.players.foldlM (fun sum p => ProfileLength.player g.infosets p.m_infosets sum) 0

/-- Modelled from the spec: `gPVector<int>::operator()(pl, iset)` of the math
library (not under src/): the entry of a profile for a player and an infoset. -/
def profileAt (profile : List (List Nat)) (pl iset : Nat) : Res Nat := do
  let row ← gAt profile pl
  gAt row iset

/-- The loop `for (i = 1; i <= players.Length(); i++)
payoff[i] += prob * n->outcome->m_payoffs[i]`; the first argument counts the
players still to do. -/
def Payoff.add (prob : ℚ) (pays : List ℚ) : Nat → Nat → List ℚ → Res (List ℚ)
  | 0, _, payoff => .ok payoff
  | k + 1, i, payoff => do
    let v ← gAt payoff i
    let w ← gAt pays i
    let payoff1 ← gSet payoff i (v + prob * w)
    Payoff.add prob pays k (i + 1) payoff1

/-- The loop over the children of a chance node in `Payoff`, given the
recursive call: child `i` is entered with `prob * GetChanceProb(n->infoset, i)`. -/
def Payoff.chance (call : Nat → ℚ → List ℚ → Res (List ℚ)) (si : Infoset) (prob : ℚ) :
    List Nat → Nat → List ℚ → Res (List ℚ)
  | [], _, payoff => .ok payoff
  | c :: rest, i, payoff => do
    let q ← GetChanceProb si i
    let payoff1 ← call c (prob * q) payoff
    Payoff.chance call si prob rest (i + 1) payoff1

/-- `efgGame::Payoff(Node *n, gNumber prob, const gPVector<int> &profile,
gVector<gNumber> &payoff)` -/
def Payoff (g : efgGame) (profile : List (List Nat)) :
    Nat → Nat → ℚ → List ℚ → Res (List ℚ)
  | 0, _, _, _ => .error .noFuel
  | fuel + 1, n, prob, payoff => do
    let x ← deref g.nodes n
    let payoff1 ←
      match x.outcome with
      | none => pure payoff
      | some o => do
        let oc ← deref g.outcomeReps o
        Payoff.add prob oc.m_payoffs g.players.length 1 payoff
    match x.infoset with
    | none => pure payoff1
    | some s => do
      let si ← deref g.infosets s
      if si.m_player = 0 then
        Payoff.chance (Payoff g profile fuel) si prob x.children 1 payoff1
      else do
        let a ← profileAt profile si.m_player si.m_id
        let c ← gAt x.children a
        Payoff g profile fuel c prob payoff1

/-- `efgGame::Payoff(const gPVector<int> &profile, gVector<gNumber> &payoff)`:
the vector handed in is set to zero and then filled from the root with
probability `1`. -/
def PayoffProfile (g : efgGame) (profile : List (List Nat)) (payoff : List ℚ) : Res (List ℚ) :=
  Payoff g profile g.nodes.length g.root 1 (payoff.map (fun _ => 0))

/-- Modelled from the spec: `Node::SetOutcome` of the node module (not under
src/): the node refers to the given outcome; as a payoff-affecting edit it
advances the revision counter and sets the dirty flag. -/
def SetOutcome (g : efgGame) (n : Nat) (o : Option Nat) : Res efgGame := do
  let x ← deref g.nodes n
  pure { g with m_revision := g.m_revision + 1, m_dirty := true,
                nodes := store g.nodes n { x with outcome := o } }

/-- `Node::GetChild(i)` through the heap. -/
def GetChild (g : efgGame) (n i : Nat) : Res Nat := do
  let x ← deref g.nodes n
  gAt x.children i

/-- The loop `for (pl = 1; pl <= players.Length(); pl++)
value += outcomes[index]->m_payoffs[pl]` of `IsConstSum`; the first argument
counts the players still to do. -/
def IsConstSum.sum (pays : List ℚ) : Nat → Nat → ℚ → Res ℚ
  | 0, _, v => .ok v
  | k + 1, pl, v => do
    let w ← gAt pays pl
    IsConstSum.sum pays k (pl + 1) (v + w)

/-- The loop `for (index = 2; index <= outcomes.Last(); index++)` of
`IsConstSum`, over the outcomes still to do; it leaves with `false` at the first
outcome whose sum is above or below `cvalue`. -/
def IsConstSum.loop (g : efgGame) (cvalue : ℚ) : List Nat → Res Bool
  | [] => .ok true
  | o :: rest => do
    let oc ← deref g.outcomeReps o
    let thisvalue ← IsConstSum.sum oc.m_payoffs g.players.length 1 0
    if thisvalue > cvalue ∨ thisvalue < cvalue then pure false
    else IsConstSum.loop g cvalue rest

/-- `efgGame::IsConstSum` -/
def IsConstSum (g : efgGame) : Res Bool :=
  match g.outcomes with
  | [] => .ok true
  | o1 :: rest => do
    let oc ← deref g.outcomeReps o1
    let cvalue ← IsConstSum.sum oc.m_payoffs g.players.length 1 0
    IsConstSum.loop g cvalue rest

/-- Modelled from the spec: `probs(pl, iset) += prob` on a `gPVector<gNumber>` of
the math library (not under src/), with its range checks. -/
def probsAdd (probs : List (List ℚ)) (pl iset : Nat) (prob : ℚ) : Res (List (List ℚ)) := do
  let row ← gAt probs pl
  let v ← gAt row iset
  let row1 ← gSet row iset (v + prob)
  gSet probs pl row1

/-- The loop over the children of a chance node in `InfosetProbs`, given the
recursive call: child `i` is entered with `prob * GetChanceProb(n->infoset, i)`. -/
def InfosetProbs.chance (call : Nat → ℚ → List (List ℚ) → Res (List (List ℚ)))
    (si : Infoset) (prob : ℚ) : List Nat → Nat → List (List ℚ) → Res (List (List ℚ))
  | [], _, probs => .ok probs
  | c :: rest, i, probs => do
    let q ← GetChanceProb si i
    let probs1 ← call c (prob * q) probs
    InfosetProbs.chance call si prob rest (i + 1) probs1

/-- `efgGame::InfosetProbs(Node *n, gNumber prob, const gPVector<int> &profile,
gPVector<gNumber> &probs)` -/
def InfosetProbs (g : efgGame) (profile : List (List Nat)) :
    Nat → Nat → ℚ → List (List ℚ) → Res (List (List ℚ))
  | 0, _, _, _ => .error .noFuel
  | fuel + 1, n, prob, probs => do
    let x ← deref g.nodes n
    match x.infoset with
    | none => pure probs
    | some s => do
      let si ← deref g.infosets s
      if si.m_player = 0 then
        InfosetProbs.chance (InfosetProbs g profile fuel) si prob x.children 1 probs
      else do
        let probs1 ← probsAdd probs si.m_player si.m_id prob
        let a ← profileAt profile si.m_player si.m_id
        let c ← gAt x.children a
        InfosetProbs g profile fuel c prob probs1

/-- `efgGame::InfosetProbs(const gPVector<int> &profile, gPVector<gNumber> &probs)`:
the vector handed in is set to zero and then filled from the root with
probability `1`. -/
def InfosetProbsProfile (g : efgGame) (profile : List (List Nat)) (probs : List (List ℚ)) :
    Res (List (List ℚ)) :=
  InfosetProbs g profile g.nodes.length g.root 1 (probs.map (fun row => row.map (fun _ => 0)))

/-! ## Further public operations -/

/-- `efgGame::SetTitle(const gText &s)` -/
def SetTitle (g : efgGame) (s : String) : efgGame :=
  { g with title := s, m_revision := g.m_revision + 1, m_dirty := true }

/-- `efgGame::SetComment(const gText &s)` -/
def SetComment (g : efgGame) (s : String) : efgGame :=
  { g with comment := s, m_revision := g.m_revision + 1, m_dirty := true }

/-- `efgGame::SetIsDirty(bool p_dirty)` -/
def SetIsDirty (g : efgGame) (p_dirty : Bool) : efgGame := { g with m_dirty := p_dirty }

/-- `efgGame::SwitchPlayer(gbtEfgInfoset s, gbtEfgPlayer p)` -/
def SwitchPlayer (g : efgGame) (s p : Option Nat) : Res (efgGame × Option Nat) :=
  match s, p with
  | some s, some p => do
    let si ← deref g.infosets s
    if si.m_player = 0 ∨ p = 0 then .error .efgException
    else if si.m_player = p then pure (g, some s)
    else do
      let g1 : efgGame := { g with m_revision := g.m_revision + 1, m_dirty := true }
      let old ← g1.playerRep si.m_player
      let (_, l) ← gRemove old.m_infosets (gFind old.m_infosets s)
      let g2 := g1.setPlayerRep si.m_player { old with m_infosets := l }
      let g3 : efgGame := { g2 with infosets := store g2.infosets s { si with m_player := p } }
      let np ← g3.playerRep p
      let g4 := g3.setPlayerRep p { np with m_infosets := np.m_infosets ++ [s] }
      let g5 ← SortInfosets (DeleteLexicon g4)
      pure (g5, some s)
  | _, _ => .error .efgException

/-- The inner loop `for (iset = 1; iset <= NumInfosets()[pl]; iset++)` of
`DeleteEmptyInfosets`; the length is read again in every round, and a round that
deletes stays at the same index.  The first argument bounds the number of
rounds. -/
def DeleteEmptyInfosets.inner (pl : Nat) : Nat → Nat → efgGame → Res efgGame
  | 0, _, _ => .error .noFuel
  | fuel + 1, iset, g => do
    let player ← g.playerRep pl
    if iset ≤ player.m_infosets.length then
      let s ← gAt player.m_infosets iset
      let (g1, gone) ← DeleteEmptyInfoset g (some s)
      DeleteEmptyInfosets.inner pl fuel (if gone then iset else iset + 1) g1
    else pure g

/-- The outer loop `for (pl = 1; pl <= NumPlayers(); pl++)` of
`DeleteEmptyInfosets`; the first argument counts the players still to do. -/
def DeleteEmptyInfosets.outer : Nat → Nat → efgGame → Res efgGame
  | 0, _, g => .ok g
  | k + 1, pl, g => do
    let player ← g.playerRep pl
    let g1 ← DeleteEmptyInfosets.inner pl (player.m_infosets.length + 1) 1 g
    DeleteEmptyInfosets.outer k (pl + 1) g1

/-- `efgGame::DeleteEmptyInfosets(void)` -/
def DeleteEmptyInfosets (g : efgGame) : Res efgGame :=
  DeleteEmptyInfosets.outer (NumPlayers g) 1 g

/-- `efgGame::UnmarkSubgame(Node *n)` -/
def UnmarkSubgame (g : efgGame) (n : Nat) : Res efgGame := do
  let x ← deref g.nodes n
  match x.parent with
  | some par =>
    if x.gameroot = some n then do
      let nodes1 := store g.nodes n { x with gameroot := none }
      let xp ← deref nodes1 par
      let nodes2 ← MarkSubgameBase xp.gameroot nodes1.length n nodes1
      pure { g with nodes := nodes2 }
    else pure g
  | none => pure g

/-- `efgGame::UnmarkSubgames(Node *n)`; its last statement is the body of
`UnmarkSubgame`. -/
def UnmarkSubgames : Nat → efgGame → Nat → Res efgGame
  | 0, _, _ => .error .noFuel
  | fuel + 1, g, n => do
    let x ← deref g.nodes n
    if x.children.length = 0 then pure g
    else do
      let g1 ← x.children.foldlM (fun ga c => UnmarkSubgames fuel ga c) g
      UnmarkSubgame g1 n

/-- `efgGame::MarkSubgames(void)`; the list of the legal subgame roots comes from
`LegalSubgameRoots` of efgutils (not under src/) and is a parameter. -/
def MarkSubgames (g : efgGame) (subgames : List Nat) : Res efgGame :=
  subgames.foldlM (fun ga n => do
    let x ← deref ga.nodes n
    let nodes1 := store ga.nodes n { x with gameroot := none }
    let nodes2 ← MarkSubgameBase (some n) nodes1.length n nodes1
    pure { ga with nodes := nodes2 }) g

/-- `efgGame::CreateOutcomeByIndex(int index)` -/
def CreateOutcomeByIndex (g : efgGame) (index : Nat) : efgGame × Nat := NewOutcomeIndex g index

/-- The value that a `long` of 64 bits holds after `n` increments from zero. -/
def longOf (n : Nat) : Int := ((n : Int) + 2 ^ 63) % 2 ^ 64 - 2 ^ 63

/-- `efgGame::RevisionNumber`: the counter `m_revision` is a `long`.  The field
of the model counts the increments, and this is the value the `long` holds. -/
def RevisionNumber (g : efgGame) : Int := longOf g.m_revision

/-- A call, with its arguments, of a public member function of `efgGame` that is
not `const`, or of `WriteEfgFile`, which writes to the counter: every function
of this kind that efg.h declares. -/
inductive Op where
  | setTitle (s : String)
  | setComment (s : String)
  | setIsDirty (d : Bool)
  | writeEfgFile
  | newPlayer
  | newOutcome
  | deleteOutcome (o : Nat)
  | setPayoff (o : Option Nat) (pl : Nat) (v : ℚ)
  | appendNode (n p : Option Nat) (count : Int)
  | appendNodeInfoset (n s : Option Nat)
  | deleteNode (n keep : Option Nat)
  | insertNode (n p : Option Nat) (count : Int)
  | insertNodeInfoset (n s : Option Nat)
  | createInfoset (p : Option Nat) (br : Nat)
  | deleteEmptyInfoset (s : Option Nat)
  | deleteEmptyInfosets
  | joinInfoset (s n : Option Nat)
  | leaveInfoset (n : Option Nat)
  | splitInfoset (n : Option Nat)
  | mergeInfoset (dst src : Option Nat)
  | switchPlayer (s p : Option Nat)
  | copyTree (src dest : Option Nat)
  | moveTree (src dest : Option Nat)
  | deleteTree (n : Option Nat)
  | insertAction (s : Option Nat)
  | insertActionAt (s a : Option Nat)
  | deleteAction (s a : Option Nat)
  | reveal (wh who : Nat)
  | setChanceProb (s act : Nat) (v : ℚ)
  | isLegalSubgame (n : Nat)
  | markSubgames (roots : List Nat)
  | markSubgame (n : Nat)
  | unmarkSubgame (n : Nat)
  | unmarkSubgames (n : Nat)
  | reindex
  | createOutcomeByIndex (index : Nat)
  | createInfosetByIndex (p : Option Nat) (index br : Int)

/-- The game after a call of a public operation, when the call returns.
`CreateInfosetByIndex` is declared in efg.h, but the sources hold no definition
of it; it is the parameter `byIndex`. -/
def Op.run (byIndex : efgGame → Option Nat → Int → Int → Res efgGame) (g : efgGame) :
    Op → Res efgGame
  | .setTitle s => pure (SetTitle g s)
  | .setComment s => pure (SetComment g s)
  | .setIsDirty d => pure (SetIsDirty g d)
  | .writeEfgFile => (WriteEfgFile g).map Prod.snd
  | .newPlayer => (NewPlayer g).map Prod.fst
  | .newOutcome => pure (NewOutcome g).1
  | .deleteOutcome o => DeleteOutcome g o
  | .setPayoff o pl v => SetPayoff g o pl v
  | .appendNode n p count => (AppendNode g n p count).map Prod.fst
  | .appendNodeInfoset n s => (AppendNodeInfoset g n s).map Prod.fst
  | .deleteNode n keep => (DeleteNode g n keep).map Prod.fst
  | .insertNode n p count => (InsertNode g n p count).map Prod.fst
  | .insertNodeInfoset n s => (InsertNodeInfoset g n s).map Prod.fst
  | .createInfoset p br => (CreateInfosetPublic g p br).map Prod.fst
  | .deleteEmptyInfoset s => (DeleteEmptyInfoset g s).map Prod.fst
  | .deleteEmptyInfosets => DeleteEmptyInfosets g
  | .joinInfoset s n => (JoinInfoset g s n).map Prod.fst
  | .leaveInfoset n => (LeaveInfoset g n).map Prod.fst
  | .splitInfoset n => (SplitInfoset g n).map Prod.fst
  | .mergeInfoset dst src => (MergeInfoset g dst src).map Prod.fst
  | .switchPlayer s p => (SwitchPlayer g s p).map Prod.fst
  | .copyTree src dest => (CopyTree g src dest).map Prod.fst
  | .moveTree src dest => (MoveTree g src dest).map Prod.fst
  | .deleteTree n => (DeleteTree g n).map Prod.fst
  | .insertAction s => (InsertAction g s).map Prod.fst
  | .insertActionAt s a => (InsertActionAt g s a).map Prod.fst
  | .deleteAction s a => (DeleteAction g s a).map Prod.fst
  | .reveal wh who => Reveal g wh who
  | .setChanceProb s act v => SetChanceProb g s act v
  | .isLegalSubgame n => (IsLegalSubgame g n).map Prod.fst
  | .markSubgames roots => MarkSubgames g roots
  | .markSubgame n => (MarkSubgame g n).map Prod.fst
  | .unmarkSubgame n => UnmarkSubgame g n
  | .unmarkSubgames n => UnmarkSubgames (g.nodes.length + 1) g n
  | .reindex => Reindex g
  | .createOutcomeByIndex index => pure (CreateOutcomeByIndex g index).1
  | .createInfosetByIndex p index br => byIndex g p index br

/-! ## Scenarios -/

/-- A new outcome with the payoffs `(u, v)` for players 1 and 2, attached to node `n`. -/
def attachOutcome (g : efgGame) (n : Nat) (u v : ℚ) : Res efgGame := do
  let (g1, o) := NewOutcome g
  let g2 ← SetPayoff g1 (some o) 1 u
  let g3 ← SetPayoff g2 (some o) 2 v
  SetOutcome g3 n (some o)

/-- Scenario A: two players; the root is player 1's infoset with two actions,
both children belong to one infoset of player 2 with two actions, and the four
terminals carry the payoffs (2,0), (0,2), (1,1), (3,1) in preorder. -/
def scenarioA : Res efgGame := do
  let g ← efgGame.new
  let (g, p1) ← NewPlayer g
  let (g, p2) ← NewPlayer g
  let (g, _) ← AppendNode g (some g.root) (some p1) 2
  let c1 ← GetChild g g.root 1
  let c2 ← GetChild g g.root 2
  let (g, s) ← AppendNode g (some c1) (some p2) 2
  let (g, _) ← AppendNodeInfoset g (some c2) s
  let t1 ← GetChild g c1 1
  let t2 ← GetChild g c1 2
  let t3 ← GetChild g c2 1
  let t4 ← GetChild g c2 2
  let g ← attachOutcome g t1 2 0
  let g ← attachOutcome g t2 0 2
  let g ← attachOutcome g t3 1 1
  attachOutcome g t4 3 1

/-- The numbers of the nodes of the tree, in preorder. -/
def nodeNumbers (g : efgGame) : Res (List Nat) := do
  let l ← Nodes g
  l.mapM (fun n => do
    let x ← deref g.nodes n
    pure x.number)

/-- One player; the root has three children, all in one infoset `s` with a single
action. -/
def threeMembers : Res (efgGame × Option Nat) := do
  let g ← efgGame.new
  let (g, p1) ← NewPlayer g
  let (g, _) ← AppendNode g (some g.root) (some p1) 3
  let c1 ← GetChild g g.root 1
  let c2 ← GetChild g g.root 2
  let c3 ← GetChild g g.root 3
  let (g, s) ← AppendNode g (some c1) (some p1) 1
  let (g, _) ← AppendNodeInfoset g (some c2) s
  let (g, _) ← AppendNodeInfoset g (some c3) s
  pure (g, s)

/-- `InsertAction(s, a)` on the infoset of `threeMembers`, with `a` its only action. -/
def threeMembersInsert : Res efgGame := do
  let (g, s) ← threeMembers
  match s with
  | none => .error .badHandle
  | some h => do
    let si ← deref g.infosets h
    let a ← gAt si.m_actions 1
    let (g1, _) ← InsertActionAt g s (some a.uid)
    pure g1

/-- One player that owns two empty infosets, made by `CreateInfoset(p, 1)` twice. -/
def twoEmpty : Res (efgGame × Nat × Nat) := do
  let g ← efgGame.new
  let (g, p1) ← NewPlayer g
  let (g, e1) ← CreateInfosetPublic g (some p1) 1
  let (g, e2) ← CreateInfosetPublic g (some p1) 1
  pure (g, e1, e2)

/-- The ids of the infosets in a player's list, in list order. -/
def infosetIds (g : efgGame) (pl : Nat) : Res (List Nat) := do
  let player ← g.playerRep pl
  player.m_infosets.mapM (fun h => do
    let s ← deref g.infosets h
    pure s.m_id)

/-- A chance infoset with one member under each child of the root, the second of
which has been marked as a subgame root. -/
def chanceAcross : Res (efgGame × Nat × Nat) := do
  let g ← efgGame.new
  let (g, p1) ← NewPlayer g
  let (g, _) ← AppendNode g (some g.root) (some p1) 2
  let a ← GetChild g g.root 1
  let b ← GetChild g g.root 2
  let (g, s) ← AppendNode g (some a) (some 0) 1
  let (g, _) ← AppendNodeInfoset g (some b) s
  let (g, _) ← MarkSubgame g b
  match s with
  | none => .error .badHandle
  | some h => pure (g, h, b)

/-- A node `n` whose infoset has a second member `x` that was below `n` when
`IsLegalSubgame(n)` was asked and has been moved out of the subtree since. -/
def movedOut : Res (efgGame × Nat × Nat) := do
  let g ← efgGame.new
  let (g, p1) ← NewPlayer g
  let (g, _) ← AppendNode g (some g.root) (some p1) 2
  let n ← GetChild g g.root 1
  let d ← GetChild g g.root 2
  let (g, s) ← AppendNode g (some n) (some p1) 1
  let x ← GetChild g n 1
  let (g, _) ← AppendNodeInfoset g (some x) s
  let (g, _) ← IsLegalSubgame g n
  let (g, _) ← MoveTree g (some x) (some d)
  pure (g, n, x)

/-- One player; the first child `a` of the root has one child `a1`, which has one
child and has been marked as a subgame root; the second child `b` of the root is
terminal.  The result is `(g, a, b)`. -/
def nestedSubgame : Res (efgGame × Nat × Nat) := do
  let g ← efgGame.new
  let (g, p1) ← NewPlayer g
  let (g, _) ← AppendNode g (some g.root) (some p1) 2
  let a ← GetChild g g.root 1
  let b ← GetChild g g.root 2
  let (g, _) ← AppendNode g (some a) (some p1) 1
  let a1 ← GetChild g a 1
  let (g, _) ← AppendNode g (some a1) (some p1) 1
  let (g, _) ← MarkSubgame g a1
  pure (g, a, b)

/-- The ids of the outcomes of the game, in the order of `efgGame::outcomes`. -/
def outcomeIds (g : efgGame) : Res (List Nat) :=
  g.outcomes.mapM (fun o => do
    let oc ← deref g.outcomeReps o
    pure oc.m_id)

/-- A new game after `NewOutcome()`, `NewOutcome()`, `DeleteOutcome` of the first
outcome and `NewOutcome()`. -/
def outcomesNewNewDeleteNew : Res efgGame := do
  let g ← efgGame.new
  let (g, o1) := NewOutcome g
  let (g, _) := NewOutcome g
  let g ← DeleteOutcome g o1
  let (g, _) := NewOutcome g
  pure g

/-- One player; the root is the only member of an infoset `s` with two actions.
The result is the game, `s` and the first action of `s`. -/
def oneMemberTwoActions : Res (efgGame × Nat × Nat) := do
  let g ← efgGame.new
  let (g, p1) ← NewPlayer g
  let (g, s) ← AppendNode g (some g.root) (some p1) 2
  match s with
  | none => .error .badHandle
  | some h => do
    let si ← deref g.infosets h
    let a ← gAt si.m_actions 1
    pure (g, h, a.uid)

/-- Two players; the root is player 1's infoset with two actions, and each of its
two children is the only member of an infoset of player 2 with two actions.  The
result is the game and the two infosets of player 2. -/
def twoInfosets : Res (efgGame × Nat × Nat) := do
  let g ← efgGame.new
  let (g, p1) ← NewPlayer g
  let (g, p2) ← NewPlayer g
  let (g, _) ← AppendNode g (some g.root) (some p1) 2
  let c1 ← GetChild g g.root 1
  let c2 ← GetChild g g.root 2
  let (g, s) ← AppendNode g (some c1) (some p2) 2
  let (g, t) ← AppendNode g (some c2) (some p2) 2
  match s, t with
  | some s, some t => pure (g, s, t)
  | _, _ => .error .badHandle

/-- A game with two players in which an interior node carries an outcome: the
root gets the payoffs (5,7) while it is terminal and then becomes player 1's
node with two actions; its first child gets the payoffs (1,2). -/
def interiorOutcome : Res efgGame := do
  let g ← efgGame.new
  let (g, p1) ← NewPlayer g
  let (g, _) ← NewPlayer g
  let g ← attachOutcome g g.root 5 7
  let (g, _) ← AppendNode g (some g.root) (some p1) 2
  let a ← GetChild g g.root 1
  attachOutcome g a 1 2

/-- One player that owns three empty infosets, made by `CreateInfoset(p, 1)` three
times. -/
def threeEmpty : Res (efgGame × Nat × Nat × Nat) := do
  let g ← efgGame.new
  let (g, p1) ← NewPlayer g
  let (g, e1) ← CreateInfosetPublic g (some p1) 1
  let (g, e2) ← CreateInfosetPublic g (some p1) 1
  let (g, e3) ← CreateInfosetPublic g (some p1) 1
  pure (g, e1, e2, e3)

/-- One player; the root has one child `a` with the children `a1` and `a2`, each
of which has one child; `a1` has been marked as a subgame root.  The result is
`(g, a, a1, a2)`. -/
def subgameMix : Res (efgGame × Nat × Nat × Nat) := do
  let g ← efgGame.new
  let (g, p1) ← NewPlayer g
  let (g, _) ← AppendNode g (some g.root) (some p1) 1
  let a ← GetChild g g.root 1
  let (g, _) ← AppendNode g (some a) (some p1) 2
  let a1 ← GetChild g a 1
  let a2 ← GetChild g a 2
  let (g, _) ← AppendNode g (some a1) (some p1) 1
  let (g, _) ← AppendNode g (some a2) (some p1) 1
  let (g, _) ← MarkSubgame g a1
  pure (g, a, a1, a2)

/-- A game without players whose root, the only node, carries an outcome. -/
def noPlayersOutcome : Res efgGame := do
  let g ← efgGame.new
  let (g, o) := NewOutcome g
  SetOutcome g g.root (some o)

/-- A game whose root is a chance node with one action and the name `a"b`
(names are set through the node handle, which is not under src/). -/
def chanceQuoted : Res efgGame := do
  let g ← efgGame.new
  let (g, _) ← AppendNode g (some g.root) (some 0) 1
  let x ← deref g.nodes g.root
  pure { g with nodes := store g.nodes g.root { x with name := "a\"b" } }

/-- One player; the root has the children `a` and `dest`; `a` has one child and
has been marked as a subgame root; the terminal node `dest` carries the outcome
`o`.  The result is `(g, a, dest, o)`. -/
def copyAcrossRoot : Res (efgGame × Nat × Nat × Nat) := do
  let g ← efgGame.new
  let (g, p1) ← NewPlayer g
  let (g, _) ← AppendNode g (some g.root) (some p1) 2
  let a ← GetChild g g.root 1
  let dest ← GetChild g g.root 2
  let (g, _) ← AppendNode g (some a) (some p1) 1
  let (g, _) ← MarkSubgame g a
  let (g, o) := NewOutcome g
  let g ← SetOutcome g dest (some o)
  pure (g, a, dest, o)

/-- The game of `copyAcrossRoot` without the call of `MarkSubgame`. -/
def copyPlain : Res (efgGame × Nat × Nat × Nat) := do
  let g ← efgGame.new
  let (g, p1) ← NewPlayer g
  let (g, _) ← AppendNode g (some g.root) (some p1) 2
  let a ← GetChild g g.root 1
  let dest ← GetChild g g.root 2
  let (g, _) ← AppendNode g (some a) (some p1) 1
  let (g, o) := NewOutcome g
  let g ← SetOutcome g dest (some o)
  pure (g, a, dest, o)

/-! ## Definitions used in the proofs -/

/-- A step `F prob payoff` of the payoff evaluation acts on vectors of length `len`
as `payoff + prob * d` for a fixed direction `d`. -/
def LinearIn (F : ℚ → List ℚ → Res (List ℚ)) (len : Nat) : Prop :=
  ∃ d : Nat → ℚ, ∀ (r : ℚ) (acc : List ℚ), acc.length = len →
    ∃ res, F r acc = .ok res ∧ res.length = len ∧
      ∀ j, res.getD j 0 = acc.getD j 0 + r * d j


/-- A game with two players whose root is a chance node with two actions of
probability 1/3 and 2/3; the children carry the payoffs (3,0) and (0,6). -/
def chanceRoot : Res efgGame := do
  let g ← efgGame.new
  let (g, _) ← NewPlayer g
  let (g, _) ← NewPlayer g
  let (g, s) ← AppendNode g (some g.root) (some 0) 2
  match s with
  | none => .error .badHandle
  | some h => do
    let g ← SetChanceProb g h 1 (1 / 3)
    let g ← SetChanceProb g h 2 (1 - 1 / 3)
    let a ← GetChild g g.root 1
    let b ← GetChild g g.root 2
    let g ← attachOutcome g a 3 0
    attachOutcome g b 0 6

/-- The child list of a node, through the heap. -/
def childrenOf (nodes : List (Option Node)) (n : Nat) : Res (List Nat) :=
  (deref nodes n).map Node.children

/-- The common shape of the tree walks `MarkTree`, `MarkSubtree` and
`UnmarkSubtree`: change the node, then walk its children in order. -/
def visit (upd : Node → Node) : Nat → Nat → List (Option Node) → Res (List (Option Node))
  | 0, _, _ => .error .noFuel
  | fuel + 1, n, nodes => do
    let x ← deref nodes n
    x.children.foldlM (fun st c => visit upd fuel c st) (store nodes n (upd x))

/-- Apply `upd` to the nodes of a list, one after the other. -/
def updAll (upd : Node → Node) (l : List Nat) (nodes : List (Option Node)) :
    List (Option Node) :=
  l.foldl (fun h m =>
    match deref h m with
    | .ok x => store h m (upd x)
    | .error _ => h) nodes

/-- Every live object of a heap passes the test. -/
def heapAll {α : Type} (heap : List (Option α)) (p : Nat → α → Bool) : Bool :=
  (List.range heap.length).all (fun h =>
    match heap[h]? with
    | some (some a) => p h a
    | _ => true)

/-- Member lists and infoset references agree, one way: every member of every
infoset is a live node with children whose infoset reference is that infoset. -/
def membersReferBack (g : efgGame) : Bool :=
  heapAll g.infosets (fun s si => si.m_members.all (fun m =>
    match deref g.nodes m with
    | .ok y => y.infoset == some s && !y.children.isEmpty
    | .error _ => false))

/-- Member lists and infoset references agree, the other way: every node of the
list that has children refers to a live infoset that has it as a member. -/
def nodesListed (g : efgGame) (l : List Nat) : Bool :=
  l.all (fun m =>
    match deref g.nodes m with
    | .ok y =>
      y.children.isEmpty ||
        (match y.infoset with
         | some s =>
           (match deref g.infosets s with
            | .ok si => si.m_members.contains m
            | .error _ => false)
         | none => false)
    | .error _ => false)

/-- No live node outside the list `l` carries the mark `base` in `Node::ptr`. -/
def marksFresh (g : efgGame) (base : Nat) (l : List Nat) : Bool :=
  heapAll g.nodes (fun m y => l.contains m || y.ptr != some base)

/-- An infoset of a personal player has one member in the list `l` and another
member outside it. -/
def Straddles (g : efgGame) (l : List Nat) : Prop :=
  ∃ s si, deref g.infosets s = .ok si ∧ si.m_player ≠ 0 ∧
    ∃ a ∈ si.m_members, ∃ b ∈ si.m_members, a ∈ l ∧ b ∉ l

/-- `CheckTree` meets no dangling pointer at node `m`: when `m` has children it
has a live infoset whose members are live nodes. -/
def CheckReady (g : efgGame) (m : Nat) : Prop :=
  ∀ x, deref g.nodes m = .ok x → x.children ≠ [] →
    ∃ s si, x.infoset = some s ∧ deref g.infosets s = .ok si ∧
      ∀ mem ∈ si.m_members, ∃ y, deref g.nodes mem = .ok y

/-- The test `CheckTree` makes at node `m`: when `m` has children and belongs to a
personal player, every member of its infoset carries the mark `base`. -/
def CheckGood (g : efgGame) (base m : Nat) : Prop :=
  ∀ x s si, deref g.nodes m = .ok x → x.children ≠ [] → x.infoset = some s →
    deref g.infosets s = .ok si → si.m_player ≠ 0 →
      ∀ mem ∈ si.m_members, ∀ y, deref g.nodes mem = .ok y → y.ptr = some base

/-- The assignment `n->ptr = base` of `MarkTree`. -/
def setPtr (base : Nat) (x : Node) : Node := { x with ptr := some base }

/-- The infoset a node refers to, through the heap. -/
def infosetOf (nodes : List (Option Node)) (n : Nat) : Option Nat :=
  match deref nodes n with
  | .ok x => x.infoset
  | .error _ => none

/-- The nodes of a list that refer to the infoset `s`, in list order. -/
def nodesOf (nodes : List (Option Node)) (s : Nat) (l : List Nat) : List Nat :=
  l.filter (fun n => infosetOf nodes n == some s)

/-- The test `m_members.Length() == 0` on an infoset handle. -/
def emptyIn (H : List (Option Infoset)) (s : Nat) : Bool :=
  match deref H s with
  | .ok si => si.m_members.length == 0
  | .error _ => false

/-- The owner of an infoset, through the heap. -/
def ownerOf (H : List (Option Infoset)) (s : Nat) : Option Nat :=
  match deref H s with
  | .ok si => some si.m_player
  | .error _ => none

/-- The infosets of player `pl` that the nodes of a list refer to, in list order
and with repetition. -/
def refs (nodes : List (Option Node)) (H : List (Option Infoset)) (pl : Nat)
    (l : List Nat) : List Nat :=
  l.filterMap (fun n =>
    match infosetOf nodes n with
    | some s => if ownerOf H s = some pl then some s else none
    | none => none)

/-- Extend `acc` by the elements of `l` not seen before, in order of first occurrence. -/
def addNew (acc : List Nat) (l : List Nat) : List Nat :=
  l.foldl (fun acc h => if h ∈ acc then acc else acc ++ [h]) acc

/-- The assignment `m_id = i`. -/
def setId (i : Nat) (si : Infoset) : Infoset := { si with m_id := i }

/-- The state of the third loop of `SortInfosets` after the infosets `seen` have
been given their ids and slots, starting from heap `H0` and list `l0`. -/
def PlaceInv (H0 : List (Option Infoset)) (l0 C : List Nat)
    (H : List (Option Infoset)) (l seen : List Nat) : Prop :=
  H.length = H0.length ∧
  (∀ t, deref H t =
    if t ∈ seen then (deref H0 t).map (setId (seen.indexOf t + 1)) else deref H0 t) ∧
  l = seen ++ l0.drop seen.length ∧ seen.Nodup ∧ seen ⊆ C

/-- The assignment `n->number = i`. -/
def setNumber (i : Nat) (x : Node) : Node := { x with number := i }

/-- Give node `n` the number `i`, when it is live. -/
def numberStep (i : Nat) (nodes : List (Option Node)) (n : Nat) : List (Option Node) :=
  match deref nodes n with
  | .ok x => store nodes n (setNumber i x)
  | .error _ => nodes

/-- Number the nodes of a list consecutively from `i`. -/
def numberAll : List Nat → Nat → List (Option Node) → List (Option Node)
  | [], _, nodes => nodes
  | n :: l, i, nodes => numberAll l (i + 1) (numberStep i nodes n)

/-- The data-model invariants that `SortInfosets` relies on, for a game whose
preorder node list is `L`: the list names no node twice and only live nodes;
every node of the tree that refers to an infoset is a member of it, and the
infoset is in the list of its owner; every player's list names no infoset twice,
and every infoset in it is owned by that player and has as members, without
repetition, nodes of the tree that refer to it. -/
structure WellFormed (g : efgGame) (L : List Nat) : Prop where
  nodes_ok : Nodes g = .ok L
  nodup : L.Nodup
  live : ∀ n ∈ L, ∃ x, deref g.nodes n = .ok x
  fwd : ∀ n ∈ L, ∀ s, infosetOf g.nodes n = some s →
    ∃ si p, deref g.infosets s = .ok si ∧ n ∈ si.m_members ∧
      g.playerRep si.m_player = .ok p ∧ s ∈ p.m_infosets
  lists : ∀ pl p, g.playerRep pl = .ok p →
    p.m_infosets.Nodup ∧ ∀ s ∈ p.m_infosets,
      ∃ si, deref g.infosets s = .ok si ∧ si.m_player = pl ∧ si.m_members.Nodup ∧
        ∀ m ∈ si.m_members, m ∈ L ∧ infosetOf g.nodes m = some s

/-- The infosets of player `pl` in the order in which the preorder list `L` first
meets them. -/
def firstMet (g : efgGame) (L : List Nat) (pl : Nat) : List Nat :=
  addNew [] (refs g.nodes g.infosets pl L)

/-- Two infoset heaps that differ at most in the ids. -/
def SameUpToId (H H1 : List (Option Infoset)) : Prop :=
  H1.length = H.length ∧ ∀ t, (deref H1 t).map (setId 0) = (deref H t).map (setId 0)

/-- The parts of the game that are neither nodes, infosets nor players. -/
def scalars (g : efgGame) :
    Bool × Bool × Nat × String × String × List Nat × Option Nat × List (Option Outcome) × Nat :=
  (g.sortisets, g.m_dirty, g.m_revision, g.title, g.comment, g.outcomes, g.lexicon,
    g.outcomeReps, g.actionCount)

/-- The state of the first loop of `SortInfosets` when the players `0 .. k-1` are
done, started from the game `g0` with preorder list `L`. -/
structure SortedUpTo (g0 g : efgGame) (L : List Nat) (k : Nat) : Prop where
  nodes : g.nodes = g0.nodes
  root : g.root = g0.root
  nplayers : g.players.length = g0.players.length
  scalars : scalars g = scalars g0
  wf : WellFormed g L
  same : SameUpToId g0.infosets g.infosets
  lists : ∀ pl p0, g0.playerRep pl = .ok p0 →
    ∃ p, g.playerRep pl = .ok p ∧ p.m_label = p0.m_label ∧ p.m_infosets.Perm p0.m_infosets
  unlisted : ∀ t, (∀ pl p, g0.playerRep pl = .ok p → t ∉ p.m_infosets) →
    deref g.infosets t = deref g0.infosets t
  done : ∀ pl, pl < k → ∀ p, g.playerRep pl = .ok p →
    ∃ B, p.m_infosets = firstMet g0 L pl ++ B ∧ (∀ s ∈ B, emptyIn g0.infosets s = true) ∧
      ∀ s ∈ p.m_infosets, ∃ si, deref g.infosets s = .ok si ∧
        si.m_id = p.m_infosets.indexOf s + 1

/-- The assignment of a member list. -/
def setMembers (ms : List Nat) (si : Infoset) : Infoset := { si with m_members := ms }

/-- What `SortInfosets` does to a well-formed game `g` with preorder list `L`,
giving `g1`: the nodes of `L` are numbered by position; every player's list is
the infosets first met in preorder followed by empty ones; every infoset in a
list gets its position as id and, as members, the nodes that refer to it in
preorder; nothing else changes. -/
structure SortResult (g g1 : efgGame) (L : List Nat) : Prop where
  wf : WellFormed g1 L
  root : g1.root = g.root
  nplayers : g1.players.length = g.players.length
  scalars : scalars g1 = scalars g
  nodes_len : g1.nodes.length = g.nodes.length
  nodes : ∀ n, deref g1.nodes n =
    if n ∈ L then (deref g.nodes n).map (setNumber (L.indexOf n + 1)) else deref g.nodes n
  infosets_len : g1.infosets.length = g.infosets.length
  unlisted : ∀ t, (∀ pl p, g.playerRep pl = .ok p → t ∉ p.m_infosets) →
    deref g1.infosets t = deref g.infosets t
  lists : ∀ pl p, g.playerRep pl = .ok p →
    ∃ p1 B, g1.playerRep pl = .ok p1 ∧ p1.m_label = p.m_label ∧
      p1.m_infosets = firstMet g L pl ++ B ∧ p1.m_infosets.Perm p.m_infosets ∧
      (∀ s ∈ B, emptyIn g.infosets s = true) ∧
      ∀ s ∈ p1.m_infosets, ∃ si, deref g.infosets s = .ok si ∧
        deref g1.infosets s =
          .ok (setMembers (nodesOf g.nodes s L) (setId (p1.m_infosets.indexOf s + 1) si))

/-- The executable form of `WellFormed`: the preorder list exists and names no
node twice; every node of it that refers to an infoset is a member of that
infoset, which is in the list of its owner; every player's list names no infoset
twice, and every infoset in it is owned by that player and has as members,
without repetition, nodes of the tree that refer to it. -/
def wellFormed (g : efgGame) : Bool :=
  match Nodes g with
  | .error _ => false
  | .ok L =>
    decide L.Nodup &&
    L.all (fun n =>
      match deref g.nodes n with
      | .error _ => false
      | .ok x =>
        match x.infoset with
        | none => true
        | some s =>
          match deref g.infosets s with
          | .error _ => false
          | .ok si =>
            si.m_members.contains n &&
              (match g.playerRep si.m_player with
               | .ok p => p.m_infosets.contains s
               | .error _ => false)) &&
    (List.range (g.players.length + 1)).all (fun pl =>
      match g.playerRep pl with
      | .error _ => false
      | .ok p =>
        decide p.m_infosets.Nodup &&
          p.m_infosets.all (fun s =>
            match deref g.infosets s with
            | .error _ => false
            | .ok si =>
              si.m_player == pl && decide si.m_members.Nodup &&
                si.m_members.all (fun m => L.contains m && infosetOf g.nodes m == some s)))

/-- The state in which `LeaveInfoset(n)` calls `SortInfosets`, in terms of the
state `g` it was called in: `n` (node `x`, in infoset `s` with record `si` owned
by the player with record `p`) refers to the fresh infoset, whose handle is the
old length of the infoset heap; the fresh infoset is at the end of the owner's
list, has `n` as only member, one action per child of `n`, and the label and
action labels of `s`; `s` has lost the member `n`. -/
structure LeaveState (g : efgGame) (n s : Nat) (x : Node) (si : Infoset) (p : Player)
    (g4 : efgGame) : Prop where
  root : g4.root = g.root
  sortisets : g4.sortisets = g.sortisets
  outcomes : g4.outcomes = g.outcomes
  outcomeReps : g4.outcomeReps = g.outcomeReps
  nodes : g4.nodes = store g.nodes n { x with infoset := some g.infosets.length }
  players_len : g4.players.length = g.players.length
  players : ∀ q, g4.playerRep q =
    if q = si.m_player then .ok { p with m_infosets := p.m_infosets ++ [g.infosets.length] }
    else g.playerRep q
  infosets_len : g4.infosets.length = g.infosets.length + 1
  fresh : ∃ ti, deref g4.infosets g.infosets.length = .ok ti ∧ ti.m_player = si.m_player ∧
    ti.m_members = [n] ∧ ti.m_label = si.m_label ∧
    ti.m_actions.map Action.m_label = si.m_actions.map Action.m_label
  old : deref g4.infosets s = .ok { si with m_members := si.m_members.erase n }
  other : ∀ k, k ≠ s → k ≠ g.infosets.length → deref g4.infosets k = deref g.infosets k

/-- Every outcome of the game's outcome list is a live object. -/
def outcomesLive (g : efgGame) : Bool :=
  g.outcomes.all (fun o =>
    match deref g.outcomeReps o with
    | .ok _ => true
    | .error _ => false)

/-- Parent pointers agree with the child lists on the nodes of `l`: the root has
no parent, and every child of a node of `l` is a live node whose parent is that
node. -/
def parentsOk (g : efgGame) (l : List Nat) : Bool :=
  (match deref g.nodes g.root with
   | .ok r => r.parent == none
   | .error _ => false) &&
  l.all (fun v =>
    match deref g.nodes v with
    | .ok x => x.children.all (fun c =>
        match deref g.nodes c with
        | .ok y => y.parent == some v
        | .error _ => false)
    | .error _ => false)

/-- The Prop form of the second part of `parentsOk`. -/
def ParentsOk (nodes : List (Option Node)) (l : List Nat) : Prop :=
  ∀ v ∈ l, ∀ x, deref nodes v = .ok x →
    ∀ c ∈ x.children, ∃ y, deref nodes c = .ok y ∧ y.parent = some v

/-- The list `l` is the preorder list of the subtree of `v`: `NDoChild` returns
it for some recursion budget. -/
def Subtree (nodes : List (Option Node)) (v : Nat) (l : List Nat) : Prop :=
  ∃ fuel, NDoChild nodes fuel v [] = .ok l

/-- The infoset part of the state in which `AppendNode(n, p, count)` and
`InsertNode(n, p, count)` call `SortInfosets`, in terms of the state `g` they
were called in: a fresh infoset, whose handle is the old length of the infoset
heap, is at the end of the list of player `p` (record `player`), has `count`
actions and the node `m` as only member; nothing else has changed in the
infosets, the players and the outcomes. -/
structure FreshInfoset (g g4 : efgGame) (p : Nat) (player : Player) (m count : Nat) :
    Prop where
  sortisets : g4.sortisets = g.sortisets
  outcomes : g4.outcomes = g.outcomes
  outcomeReps : g4.outcomeReps = g.outcomeReps
  players_len : g4.players.length = g.players.length
  players : ∀ q, g4.playerRep q =
    if q = p then .ok { player with m_infosets := player.m_infosets ++ [g.infosets.length] }
    else g.playerRep q
  infosets_len : g4.infosets.length = g.infosets.length + 1
  fresh : ∃ ti, deref g4.infosets g.infosets.length = .ok ti ∧ ti.m_player = p ∧
    ti.m_members = [m] ∧ ti.m_actions.length = count
  other : ∀ k, k ≠ g.infosets.length → deref g4.infosets k = deref g.infosets k

/-- The node created by `new Node(this, parent)` below a node with subgame root
`gameroot`. -/
def freshNode (parent : Nat) (gameroot : Option Nat) : Node :=
  ⟨false, 0, "", none, some parent, none, [], none, gameroot⟩

/-- The infoset `s` after `DeleteTree` has removed from its member list the
nodes of `P` that refer to it. -/
def prune (nodes : List (Option Node)) (P : List Nat) (s : Nat) (si : Infoset) : Infoset :=
  { si with m_members :=
      si.m_members.filter (fun m => !(decide (m ∈ P) && (infosetOf nodes m == some s))) }

/-- The assignments `n->infoset = 0; n->outcome = 0; n->name = ""` of `DeleteTree` on
a node that has lost its children. -/
def clearedNode (x : Node) : Node :=
  { x with children := [], infoset := none, outcome := none, name := "" }

/-- The state `g1` reached from `g` inside `DeleteTree(n)`: the nodes of `D` are
deleted, the node `n` has become `xn`, every other node is as it was; the nodes
of `P` are removed from the member lists of the infosets they refer to; root,
players and the sorting switch are as they were. -/
structure Pruned (g g1 : efgGame) (D P : List Nat) (n : Nat) (xn : Node) : Prop where
  len : g1.nodes.length = g.nodes.length
  dead : ∀ u ∈ D, deref g1.nodes u = .error .badHandle
  top : deref g1.nodes n = .ok xn
  keep : ∀ u, u ∉ D → u ≠ n → deref g1.nodes u = deref g.nodes u
  ilen : g1.infosets.length = g.infosets.length
  inf : ∀ s, deref g1.infosets s = (deref g.infosets s).map (prune g.nodes P s)
  root : g1.root = g.root
  players : g1.players = g.players
  chance : g1.chance = g.chance
  sortisets : g1.sortisets = g.sortisets

/-- A node without its subgame root, to compare nodes up to that field. -/
def clearGameroot (x : Node) : Node := { x with gameroot := none }

/-- Every outcome of the game is a live object with one payoff per player. -/
def payoffsSized (g : efgGame) : Bool :=
  g.outcomes.all (fun o =>
    match deref g.outcomeReps o with
    | .ok oc => oc.m_payoffs.length == g.players.length
    | .error _ => false)

/-- The sum of the payoffs of the outcome `o` over all players. -/
def payoffSum (g : efgGame) (o : Nat) : ℚ :=
  match deref g.outcomeReps o with
  | .ok oc => oc.m_payoffs.sum
  | .error _ => 0

/-- The children of a chance node in the walk `reached`, given the walk below a
child: child `i` is reached with `prob` times the chance probability of action `i`. -/
def reached.chance (call : Nat → ℚ → Res (List (Nat × ℚ))) (si : Infoset) (prob : ℚ) :
    List Nat → Nat → Res (List (Nat × ℚ))
  | [], _ => .ok []
  | c :: rest, i => do
    let q ← GetChanceProb si i
    let r1 ← call c (prob * q)
    let r2 ← reached.chance call si prob rest (i + 1)
    pure (r1 ++ r2)

/-- The nodes reached from `n` under a profile, each with its reach probability:
`n` itself with `prob`; below a chance node every child, with the probability
multiplied by the chance probability of its action; below a personal node only
the child selected by the profile for the player and infoset, with the same
probability. -/
def reached (g : efgGame) (profile : List (List Nat)) : Nat → Nat → ℚ → Res (List (Nat × ℚ))
  | 0, _, _ => .error .noFuel
  | fuel + 1, n, prob => do
    let x ← deref g.nodes n
    match x.infoset with
    | none => pure [(n, prob)]
    | some s => do
      let si ← deref g.infosets s
      if si.m_player = 0 then do
        let rest ← reached.chance (reached g profile fuel) si prob x.children 1
        pure ((n, prob) :: rest)
      else do
        let a ← profileAt profile si.m_player si.m_id
        let c ← gAt x.children a
        let rest ← reached g profile fuel c prob
        pure ((n, prob) :: rest)

/-- The payoff of player `pl` in the outcome of node `n`; zero without outcome. -/
def payoffOf (g : efgGame) (n pl : Nat) : ℚ :=
  match deref g.nodes n with
  | .error _ => 0
  | .ok x =>
    match x.outcome with
    | none => 0
    | some o =>
      match deref g.outcomeReps o with
      | .error _ => 0
      | .ok oc => oc.m_payoffs.getD (pl - 1) 0

/-- The payoff vector of a list of reached nodes: for every player the sum over
the list of reach probability times the payoff of the node's outcome. -/
def expectedPayoff (g : efgGame) (R : List (Nat × ℚ)) : List ℚ :=
  (List.range g.players.length).map
    (fun i => (R.map (fun np => np.2 * payoffOf g np.1 (i + 1))).sum)

/-- Whether a node has no children. -/
def isTerminal (g : efgGame) (n : Nat) : Bool :=
  match deref g.nodes n with
  | .error _ => false
  | .ok x => x.children.isEmpty

/-- The payoff vector in which only the terminal nodes of the list count. -/
def terminalPayoff (g : efgGame) (R : List (Nat × ℚ)) : List ℚ :=
  expectedPayoff g (R.filter (fun np => isTerminal g np.1))

/-- At node `n` the walk under the profile can go on: a chance node has a
probability for every child, and at a personal node the profile has an entry
for the player and infoset that selects one of the children. -/
def playableAt (g : efgGame) (profile : List (List Nat)) (n : Nat) : Bool :=
  match deref g.nodes n with
  | .error _ => false
  | .ok x =>
    match x.infoset with
    | none => true
    | some s =>
      match deref g.infosets s with
      | .error _ => false
      | .ok si =>
        if si.m_player = 0 then decide (x.children.length ≤ si.m_chanceProbs.length)
        else
          match profileAt profile si.m_player si.m_id with
          | .error _ => false
          | .ok a => decide (1 ≤ a ∧ a ≤ x.children.length)

/-- The outcome of node `n`, if it has one, is a live outcome with one payoff
per player. -/
def outcomeReady (g : efgGame) (n : Nat) : Bool :=
  match deref g.nodes n with
  | .error _ => false
  | .ok x =>
    match x.outcome with
    | none => true
    | some o =>
      match deref g.outcomeReps o with
      | .error _ => false
      | .ok oc => oc.m_payoffs.length == g.players.length

/-- The first half of `Payoff` at a node: the payoffs of its outcome, if any, are
added with the reach probability. -/
def Payoff.outcomePart (g : efgGame) (x : Node) (prob : ℚ) (acc : List ℚ) : Res (List ℚ) :=
  match x.outcome with
  | none => .ok acc
  | some o => deref g.outcomeReps o >>= fun oc =>
      Payoff.add prob oc.m_payoffs g.players.length 1 acc

/-- Modelled from the spec: reading `probs(pl, iset)` on a `gPVector<gNumber>` of
the math library (not under src/), with its range checks. -/
def probsAt (probs : List (List ℚ)) (pl iset : Nat) : Res ℚ := do
  let row ← gAt probs pl
  gAt row iset

/-- Every infoset in the list of a personal player has its position in the list
as id. -/
def idsDense (g : efgGame) : Bool :=
  g.players.all (fun p =>
    (List.range p.m_infosets.length).all (fun k =>
      match p.m_infosets[k]? with
      | none => false
      | some s =>
        match deref g.infosets s with
        | .error _ => false
        | .ok si => si.m_id == k + 1))

/-- The vector of probabilities has one row per personal player, with one entry
per infoset in the player's list. -/
def probsShaped (g : efgGame) (probs : List (List ℚ)) : Bool :=
  probs.map List.length == g.players.map (fun p => p.m_infosets.length)

/-- The player and infoset id under which a personal node is counted. -/
def personalKey (g : efgGame) (n : Nat) : Option (Nat × Nat) :=
  match deref g.nodes n with
  | .error _ => none
  | .ok x =>
    match x.infoset with
    | none => none
    | some s =>
      match deref g.infosets s with
      | .error _ => none
      | .ok si => if si.m_player = 0 then none else some (si.m_player, si.m_id)

/-- The key of node `n`, if it has one, is a position of a vector whose rows
have the lengths `sh`. -/
def slotOk (g : efgGame) (sh : List Nat) (n : Nat) : Bool :=
  match personalKey g n with
  | none => true
  | some (pl, i) => decide (1 ≤ pl ∧ 1 ≤ i ∧ i ≤ sh.getD (pl - 1) 0)

/-- The entry of a vector of rows at a position counted from zero; zero outside. -/
def cell (probs : List (List ℚ)) (a b : Nat) : ℚ := (probs.getD a []).getD b 0

/-- An infoset without its id and member list, to compare infosets up to the
fields that `SortInfosets` assigns. -/
def coreOf (si : Infoset) : Infoset := { si with m_id := 0, m_members := [] }

/-- The state `g1` reached from `g`, with preorder list `L`, in the loop of
`DeleteAction` for the action at position `j + 1`, up to the node numbers: the
nodes of `D` are deleted and gone from the preorder list, whose order is
otherwise the same; the nodes of `E` have lost the child at position `j + 1`;
every other node is as it was; the infosets are as they were up to ids and
member lists, the players' lists up to their order; the game is well-formed and
parent pointers agree with child lists. -/
structure Trimmed (j : Nat) (g g1 : efgGame) (L D E : List Nat) : Prop where
  wf : WellFormed g1 (L.filter (fun z => decide (z ∉ D)))
  sortisets : g1.sortisets = true
  parents : ParentsOk g1.nodes (L.filter (fun z => decide (z ∉ D)))
  root : g1.root = g.root
  dead : ∀ u ∈ D, deref g1.nodes u = .error .badHandle
  nodes : ∀ u, u ∉ D → (deref g1.nodes u).map (setNumber 0) =
    (deref g.nodes u).map (fun y =>
      setNumber 0 (if u ∈ E then { y with children := y.children.eraseIdx j } else y))
  inf : ∀ t, (deref g1.infosets t).map coreOf = (deref g.infosets t).map coreOf
  players : ∀ pl p, g.playerRep pl = .ok p →
    ∃ p1, g1.playerRep pl = .ok p1 ∧ p1.m_infosets.Perm p.m_infosets
  sub : ∀ v l, Subtree g.nodes v l → l ⊆ L → v ∉ D →
    Subtree g1.nodes v (l.filter (fun z => decide (z ∉ D)))

/-- The assignment `n->gameroot = base`. -/
def setRoot (base : Option Nat) (x : Node) : Node := { x with gameroot := base }

/-- The spec's words for the nodes that `MarkSubgame(n, base)` reaches from `v`:
`FreeFrom nodes v u` says that `u` is `v` or a descendant of `v` and that no node
on the path from `v` to `u`, both ends included, is its own subgame root. -/
inductive FreeFrom (nodes : List (Option Node)) : Nat → Nat → Prop
  | here (v : Nat) (y : Node) : deref nodes v = .ok y → y.gameroot ≠ some v →
      FreeFrom nodes v v
  | down (v c u : Nat) (y : Node) : deref nodes v = .ok y → y.gameroot ≠ some v →
      c ∈ y.children → FreeFrom nodes c u → FreeFrom nodes v u

/-- The spec's words for the descendants that take over the subgame root `n`:
`d` is a descendant of `n`, and no node on the path from `n` (exclusive) to `d`
(inclusive) is its own subgame root. -/
def FreeBelow (nodes : List (Option Node)) (n d : Nat) : Prop :=
  ∃ x c, deref nodes n = .ok x ∧ c ∈ x.children ∧ FreeFrom nodes c d

/-- What a walk of `MarkSubgame(n, base)` does to the node heap `st`, giving
`st1`: the nodes with the property `P` get the subgame root `base`, the others
are as before. -/
def Marked (base : Option Nat) (P : Nat → Prop) (st st1 : List (Option Node)) : Prop :=
  st1.length = st.length ∧
  ∀ u, (P u → deref st1 u = (deref st u).map (setRoot base)) ∧
    (¬ P u → deref st1 u = deref st u)

/-- The test `n->gameroot == n` through the heap. -/
def isOwnRoot (nodes : List (Option Node)) (u : Nat) : Res Bool :=
  (deref nodes u).map (fun y => decide (y.gameroot = some u))

/-- The revision counter has advanced and the dirty flag is set. -/
def Stamped (g g1 : efgGame) : Prop := g.m_revision < g1.m_revision ∧ g1.m_dirty = true

/-- The revision counter and the dirty flag are as they were. -/
def Held (g g1 : efgGame) : Prop := g1.m_revision = g.m_revision ∧ g1.m_dirty = g.m_dirty

/-- The revision counter has not gone back, and a set dirty flag is still set. -/
def Kept (g g1 : efgGame) : Prop :=
  g.m_revision ≤ g1.m_revision ∧ (g.m_dirty = true → g1.m_dirty = true)

/-- The part of a node that makes up the tree and what hangs on it: name,
infoset, parent, outcome and children; the number and the marks are blanked. -/
def Node.structure (x : Node) : Node :=
  { x with mark := false, number := 0, ptr := none, gameroot := none }

/-- An outcome without its id. -/
def Outcome.content (o : Outcome) : Outcome := { o with m_id := 0 }

/-- The game `g1` has the content of `g`: the same root, title, comment, the same
outcomes with the same labels and payoffs up to their ids, the same nodes up to
numbers and marks, the same infosets up to their ids and the order of their
members, and the same players with the same infosets up to the order of each
list. -/
structure SameContent (g g1 : efgGame) : Prop where
  root : g1.root = g.root
  title : g1.title = g.title
  comment : g1.comment = g.comment
  outcomes : g1.outcomes = g.outcomes
  outcomeReps_len : g1.outcomeReps.length = g.outcomeReps.length
  outcomeReps : ∀ o,
    (deref g1.outcomeReps o).map Outcome.content = (deref g.outcomeReps o).map Outcome.content
  nodes_len : g1.nodes.length = g.nodes.length
  nodes : ∀ n, (deref g1.nodes n).map Node.structure = (deref g.nodes n).map Node.structure
  infosets_len : g1.infosets.length = g.infosets.length
  infosets : ∀ s, (deref g1.infosets s).map coreOf = (deref g.infosets s).map coreOf
  members : ∀ s si si1, deref g.infosets s = .ok si → deref g1.infosets s = .ok si1 →
    si1.m_members.Perm si.m_members
  nplayers : g1.players.length = g.players.length
  lists : ∀ pl p, g.playerRep pl = .ok p →
    ∃ p1, g1.playerRep pl = .ok p1 ∧ p1.m_label = p.m_label ∧
      p1.m_infosets.Perm p.m_infosets

/-- The node heap `st1` holds the tree of `st`: the same live nodes with the same
name, infoset, parent, outcome and children. -/
def SameTree (st st1 : List (Option Node)) : Prop :=
  st1.length = st.length ∧
  ∀ u, (deref st1 u).map Node.structure = (deref st u).map Node.structure

/-- The game `g1` is `g` with a node heap that holds the same tree. -/
def NodesOnly (g g1 : efgGame) : Prop :=
  ∃ N, g1 = { g with nodes := N } ∧ SameTree g.nodes N

/-! ## Theorems -/

deriving instance DecidableEq for Except

set_option maxRecDepth 1000000 in
/-- C6 (Scenario A): the game built by the scenario has two players, profile
length 4, its seven nodes are numbered 1..7 in preorder (root, first child, its
two terminals, second child, its two terminals), and the profile that takes
action 1 at player 1's infoset and action 2 at player 2's infoset pays (0,2). -/
theorem scenarioA_values :
    ∃ g, scenarioA = .ok g ∧ NumPlayers g = 2 ∧ ProfileLength g = .ok 4 ∧
      (∃ c1 c2, GetChild g g.root 1 = .ok c1 ∧ GetChild g g.root 2 = .ok c2 ∧
        (do let t1 ← GetChild g c1 1
            let t2 ← GetChild g c1 2
            let t3 ← GetChild g c2 1
            let t4 ← GetChild g c2 2
            pure [g.root, c1, t1, t2, c2, t3, t4]) = Nodes g) ∧
      nodeNumbers g = .ok [1, 2, 3, 4, 5, 6, 7] ∧
      PayoffProfile g [[1], [2]] [0, 0] = .ok [0, 2] := by
  refine ⟨_, rfl, by decide, by decide, ⟨_, _, rfl, rfl, by decide⟩, by decide,
    by with_unfolding_all decide⟩

set_option maxRecDepth 1000000 in
/-- C1 (failing input): `InsertAction(s, a)` on an infoset with one action and
three members returns normally, and afterwards the third member, a node of the
tree, has one child while its infoset has two actions. -/
theorem InsertActionAt_misses_members :
    ∃ g l n x s si, threeMembersInsert = .ok g ∧ Nodes g = .ok l ∧ n ∈ l ∧
      deref g.nodes n = .ok x ∧ x.infoset = some s ∧ deref g.infosets s = .ok si ∧
      x.children.length = 1 ∧ si.m_actions.length = 2 := by
  refine ⟨_, _, 3, _, 1, _, rfl, rfl, by decide, rfl, rfl, rfl, by decide, by decide⟩

set_option maxRecDepth 1000000 in
/-- C2 (failing input): a player owns two empty infosets with ids 1 and 2;
`DeleteEmptyInfoset` on the first returns `true` and leaves the player with one
infoset whose id is 2. -/
theorem DeleteEmptyInfoset_leaves_gap :
    ∃ g e1 e2 g1, twoEmpty = .ok (g, e1, e2) ∧ infosetIds g 1 = .ok [1, 2] ∧
      DeleteEmptyInfoset g (some e1) = .ok (g1, true) ∧ infosetIds g1 1 = .ok [2] := by
  refine ⟨_, _, _, _, rfl, by decide, rfl, by decide⟩

set_option maxRecDepth 1000000 in
/-- C3 (counterexample): in the game with two empty infosets `e1`, `e2` of
player 1 and sorting enabled, the first run of `SortInfosets` leaves the list
`[e2, e1]` and the second run leaves `[e1, e2]`. -/
theorem SortInfosets_twice_differs :
    ∃ g e1 e2 g1 g2 p1 p2, twoEmpty = .ok (g, e1, e2) ∧ g.sortisets = true ∧
      SortInfosets g = .ok g1 ∧ SortInfosets g1 = .ok g2 ∧
      g1.playerRep 1 = .ok p1 ∧ g2.playerRep 1 = .ok p2 ∧
      p1.m_infosets = [e2, e1] ∧ p2.m_infosets = [e1, e2] ∧
      p1.m_infosets ≠ p2.m_infosets ∧ infosetIds g1 1 = .ok [1, 2] ∧
      (deref g1.infosets e1).map Infoset.m_id = .ok 2 ∧
      (deref g2.infosets e1).map Infoset.m_id = .ok 1 := by
  refine ⟨_, _, _, _, _, _, _, rfl, by decide, rfl, rfl, rfl, rfl, by decide, by decide,
    by decide, by decide, by decide, by decide⟩

set_option maxRecDepth 1000000 in
/-- C4 (counterexample): in a new game there is no infoset at all, so none has
members on both sides of the root, and yet `IsLegalSubgame(root)` is `false`. -/
theorem IsLegalSubgame_terminal_false :
    ∃ g, efgGame.new = .ok g ∧ g.infosets = [] ∧
      IsLegalSubgame g g.root = .ok (g, false) := by
  refine ⟨_, rfl, by decide, by decide⟩

set_option maxRecDepth 1000000 in
/-- C8 (counterexample): `b` is a member of the chance infoset `s`, whose first
member lies in another subgame; `JoinInfoset(s, b)` returns the null handle. -/
theorem JoinInfoset_member_null :
    ∃ g s b x si, chanceAcross = .ok (g, s, b) ∧ deref g.nodes b = .ok x ∧
      x.infoset = some s ∧ deref g.infosets s = .ok si ∧ b ∈ si.m_members ∧
      JoinInfoset g (some s) (some b) = .ok (g, none) := by
  refine ⟨_, _, _, _, _, rfl, rfl, by decide, rfl, by decide, by decide⟩

set_option maxRecDepth 1000000 in
/-- C9 (failing input): `n` is an interior node of player 1, not its own subgame
root, and its infoset has the member `x` outside the subtree of `n`; `x` still
carries the mark of an earlier `IsLegalSubgame(n)`.  `MarkSubgame(n)` returns
`true` and makes `n` its own subgame root. -/
theorem MarkSubgame_stale_mark :
    ∃ g n x xn s si sub g1 yn, movedOut = .ok (g, n, x) ∧ deref g.nodes n = .ok xn ∧
      xn.children ≠ [] ∧ xn.gameroot ≠ some n ∧ xn.infoset = some s ∧
      deref g.infosets s = .ok si ∧ si.m_player = 1 ∧ x ∈ si.m_members ∧
      NDoChild g.nodes g.nodes.length n [] = .ok sub ∧ x ∉ sub ∧
      MarkSubgame g n = .ok (g1, true) ∧ deref g1.nodes n = .ok yn ∧
      yn.gameroot = some n := by
  refine ⟨_, _, _, _, _, _, _, _, _, rfl, rfl, by decide, by decide, rfl, rfl, by decide,
    by decide, rfl, by decide, rfl, rfl, by decide⟩

/-- C7 (Scenario B): on an infoset `s` with exactly one action `a`,
`DeleteAction(s, a)` returns `s`; the infoset heap (so `s` and its one action)
and the node heap (so every member and its child subtree) are as before. -/
theorem DeleteAction_single (g : efgGame) (s : Nat) (si : Infoset) (a : Action)
    (hs : deref g.infosets s = .ok si) (ha : si.m_actions = [a]) :
    ∃ g1, DeleteAction g (some s) (some a.uid) = .ok (g1, some s) ∧
      g1.infosets = g.infosets ∧ g1.nodes = g.nodes ∧
      deref g1.infosets s = .ok si ∧ si.m_actions = [a] := by
  refine ⟨{ g with m_revision := g.m_revision + 1, m_dirty := true }, ?_, rfl, rfl, hs, ha⟩
  simp [DeleteAction, hs, ha, bind, Except.bind, pure, Except.pure]

set_option maxRecDepth 1000000 in
/-- Witness for C7: the infoset of `threeMembers` has one action. -/
theorem DeleteAction_single_witness :
    ∃ g s si a, threeMembers = .ok (g, some s) ∧ deref g.infosets s = .ok si ∧
      si.m_actions = [a] ∧
      ∃ g1, DeleteAction g (some s) (some a.uid) = .ok (g1, some s) ∧
        g1.infosets = g.infosets ∧ g1.nodes = g.nodes ∧
        deref g1.infosets s = .ok si ∧ si.m_actions = [a] :=
  ⟨_, _, _, _, rfl, rfl, rfl, DeleteAction_single _ _ _ _ rfl rfl⟩

/-- C8 (Scenario C, amended): when `n` belongs to `s` (its infoset reference is
`s`) and has the same subgame root as the first member of `s`, in particular when
`n` is the only member, `JoinInfoset(s, n)` returns `s` and the whole game state,
with membership, infoset lists, numbering, dirty flag and revision counter, is the
same as before. -/
theorem JoinInfoset_member (g : efgGame) (s n m1 : Nat) (x y : Node) (si : Infoset)
    (rest : List Nat)
    (hn : deref g.nodes n = .ok x) (hs : deref g.infosets s = .ok si)
    (hback : x.infoset = some s)
    (hfirst : si.m_members = m1 :: rest) (hm1 : deref g.nodes m1 = .ok y)
    (hroot : y.gameroot = x.gameroot) :
    JoinInfoset g (some s) (some n) = .ok (g, some s) := by
  simp [JoinInfoset, hn, hs, hfirst, gAt, hm1, hroot, hback, bind, Except.bind, pure,
    Except.pure]

set_option maxRecDepth 1000000 in
/-- Witness for C8: the root of Scenario A is the only member of its infoset. -/
theorem JoinInfoset_member_witness :
    ∃ g x si, scenarioA = .ok g ∧ deref g.nodes 0 = .ok x ∧ deref g.infosets 0 = .ok si ∧
      x.infoset = some 0 ∧ si.m_members = [0] ∧
      JoinInfoset g (some 0) (some 0) = .ok (g, some 0) :=
  ⟨_, _, _, rfl, rfl, rfl, rfl, rfl,
    JoinInfoset_member _ 0 0 0 _ _ _ [] rfl rfl rfl rfl rfl rfl⟩

/-! ### The result monad and the containers -/


theorem bind_eq_ok {α β : Type} (x : Res α) (f : α → Res β) (b : β) :
    (x >>= f) = .ok b ↔ ∃ a, x = .ok a ∧ f a = .ok b := by
  cases x <;> simp [bind, Except.bind]

@[simp] theorem ok_bind {α β : Type} (a : α) (f : α → Res β) :
    ((Except.ok a : Res α) >>= f) = f a := rfl

@[simp] theorem error_bind {α β : Type} (e : Err) (f : α → Res β) :
    ((Except.error e : Res α) >>= f) = .error e := rfl

theorem pure_eq_ok {α : Type} (a : α) : (pure a : Res α) = .ok a := rfl

@[simp] theorem bind_ok {α : Type} (x : Res α) : (x >>= fun a => (Except.ok a : Res α)) = x := by
  cases x <;> rfl

theorem gAt_eq_ok {α : Type} (l : List α) (i : Nat) (v : α) :
    gAt l i = .ok v ↔ ∃ k, i = k + 1 ∧ l[k]? = some v := by
  cases i with
  | zero => simp [gAt]
  | succ k =>
    simp only [gAt]
    cases h : l[k]? <;> simp [h]

theorem gSet_eq_ok {α : Type} (l : List α) (i : Nat) (a : α) (l1 : List α) :
    gSet l i a = .ok l1 ↔ ∃ k, i = k + 1 ∧ k < l.length ∧ l1 = l.set k a := by
  cases i with
  | zero => simp [gSet]
  | succ k =>
    simp only [gSet]
    split <;> simp_all [eq_comm]


theorem LinearIn.length {F : ℚ → List ℚ → Res (List ℚ)} {len : Nat} (h : LinearIn F len)
    {r : ℚ} {acc res : List ℚ} (hacc : acc.length = len) (hres : F r acc = .ok res) :
    res.length = len := by
  obtain ⟨d, hd⟩ := h
  obtain ⟨res1, h1, h2, _⟩ := hd r acc hacc
  rw [hres] at h1
  cases h1
  exact h2

theorem LinearIn.id (len : Nat) : LinearIn (fun _ acc => .ok acc) len :=
  ⟨fun _ => 0, fun _ acc h => ⟨acc, rfl, h, by simp⟩⟩

theorem LinearIn.comp {F G : ℚ → List ℚ → Res (List ℚ)} {len : Nat}
    (hF : LinearIn F len) (hG : LinearIn G len) :
    LinearIn (fun r acc => F r acc >>= G r) len := by
  obtain ⟨d1, h1⟩ := hF
  obtain ⟨d2, h2⟩ := hG
  refine ⟨fun j => d1 j + d2 j, fun r acc hacc => ?_⟩
  obtain ⟨res1, e1, l1, p1⟩ := h1 r acc hacc
  obtain ⟨res2, e2, l2, p2⟩ := h2 r res1 l1
  refine ⟨res2, ?_, l2, fun j => ?_⟩
  · simp [e1, e2, bind, Except.bind]
  · rw [p2, p1]; ring

theorem LinearIn.scale {F : ℚ → List ℚ → Res (List ℚ)} {len : Nat} (q : ℚ)
    (hF : LinearIn F len) : LinearIn (fun r acc => F (r * q) acc) len := by
  obtain ⟨d, h⟩ := hF
  refine ⟨fun j => q * d j, fun r acc hacc => ?_⟩
  obtain ⟨res, e, l, p⟩ := h (r * q) acc hacc
  exact ⟨res, e, l, fun j => by rw [p]; ring⟩

theorem Payoff_add_linear (pays : List ℚ) :
    ∀ (k i : Nat) (acc0 : List ℚ) (r0 : ℚ) (v0 : List ℚ),
      Payoff.add r0 pays k i acc0 = .ok v0 →
      LinearIn (fun r acc => Payoff.add r pays k i acc) acc0.length := by
  intro k
  induction k with
  | zero =>
    intro i acc0 r0 v0 _
    exact LinearIn.id _
  | succ k ih =>
    intro i acc0 r0 v0 h
    simp only [Payoff.add, bind_eq_ok, gAt_eq_ok, gSet_eq_ok] at h
    obtain ⟨v, ⟨a, rfl, hv⟩, w, ⟨b, hb, hw⟩, p1, ⟨c, hc, hlt, rfl⟩, h⟩ := h
    obtain rfl : a = b := by omega
    obtain rfl : a = c := by omega
    obtain ⟨d, hd⟩ := ih _ _ _ _ h
    refine ⟨fun j => d j + if j = a then w else 0, fun r acc hlen => ?_⟩
    have hlt2 : a < acc.length := by omega
    obtain ⟨res, hres, hl, hj⟩ := hd r (acc.set a (acc[a] + r * w)) (by simp [hlen])
    refine ⟨res, ?_, by simpa using hl, fun j => ?_⟩
    · simp only [Payoff.add, bind_eq_ok, gAt_eq_ok, gSet_eq_ok]
      exact ⟨acc[a], ⟨a, rfl, by simp [hlt2]⟩, w, ⟨a, rfl, hw⟩, _, ⟨a, rfl, hlt2, rfl⟩, hres⟩
    · rw [hj j]
      by_cases hja : j = a
      · subst hja
        simp [List.getD, hlt2]
        ring
      · simp [List.getD, hja, List.getElem?_set_ne (Ne.symm hja)]

theorem Payoff_chance_linear (call : Nat → ℚ → List ℚ → Res (List ℚ)) (si : Infoset) :
    ∀ (cs : List Nat) (i : Nat) (acc0 : List ℚ) (r0 : ℚ) (v0 : List ℚ),
      (∀ c ∈ cs, ∀ (r0 : ℚ) (acc0 v0 : List ℚ), call c r0 acc0 = .ok v0 →
        LinearIn (fun r acc => call c r acc) acc0.length) →
      Payoff.chance call si r0 cs i acc0 = .ok v0 →
      LinearIn (fun r acc => Payoff.chance call si r cs i acc) acc0.length := by
  intro cs
  induction cs with
  | nil =>
    intro i acc0 r0 v0 _ _
    exact LinearIn.id _
  | cons c rest ih =>
    intro i acc0 r0 v0 hcall h
    simp only [Payoff.chance, bind_eq_ok] at h
    obtain ⟨q, hq, p1, hp1, h⟩ := h
    have hc := hcall c (List.mem_cons_self _ _) _ _ _ hp1
    have hlen : p1.length = acc0.length := hc.length rfl hp1
    have hrest := ih (i + 1) p1 r0 v0
      (fun c1 hc1 => hcall c1 (List.mem_cons_of_mem _ hc1)) h
    rw [hlen] at hrest
    have := (hc.scale q).comp hrest
    simpa [Payoff.chance, hq, bind, Except.bind] using this

theorem Payoff_linear (g : efgGame) (profile : List (List Nat)) :
    ∀ (fuel n : Nat) (r0 : ℚ) (acc0 v0 : List ℚ),
      Payoff g profile fuel n r0 acc0 = .ok v0 →
      LinearIn (fun r acc => Payoff g profile fuel n r acc) acc0.length := by
  intro fuel
  induction fuel with
  | zero =>
    intro n r0 acc0 v0 h
    simp [Payoff] at h
  | succ fuel ih =>
    intro n r0 acc0 v0 h
    cases hx : deref g.nodes n with
    | error e => simp [Payoff, hx, bind, Except.bind] at h
    | ok x =>
      let F1 : ℚ → List ℚ → Res (List ℚ) := fun r acc =>
        match x.outcome with
        | none => .ok acc
        | some o => deref g.outcomeReps o >>= fun oc =>
            Payoff.add r oc.m_payoffs g.players.length 1 acc
      let F2 : ℚ → List ℚ → Res (List ℚ) := fun r acc =>
        match x.infoset with
        | none => .ok acc
        | some s => deref g.infosets s >>= fun si =>
            if si.m_player = 0 then
              Payoff.chance (Payoff g profile fuel) si r x.children 1 acc
            else profileAt profile si.m_player si.m_id >>= fun a =>
              gAt x.children a >>= fun c => Payoff g profile fuel c r acc
      have hunf : ∀ r acc, Payoff g profile (fuel + 1) n r acc = F1 r acc >>= F2 r := by
        intro r acc
        simp only [Payoff, hx, F1, F2]
        rcases ho : x.outcome with _ | o <;> rcases hi : x.infoset with _ | s <;>
          simp only [ho, hi, ok_bind, pure_eq_ok, bind_assoc, bind_ok]
      rw [hunf, bind_eq_ok] at h
      obtain ⟨p1, h1, h2⟩ := h
      have hF1 : LinearIn F1 acc0.length := by
        simp only [F1] at h1 ⊢
        cases ho : x.outcome with
        | none => exact LinearIn.id _
        | some o =>
          simp only [ho] at h1
          cases hoc : deref g.outcomeReps o with
          | error e => simp [hoc, bind, Except.bind] at h1
          | ok oc =>
            simp only [hoc, bind, Except.bind] at h1 ⊢
            exact Payoff_add_linear _ _ _ _ _ _ h1
      have hlen : p1.length = acc0.length := hF1.length rfl h1
      have hF2 : LinearIn F2 acc0.length := by
        rw [← hlen]
        simp only [F2] at h2 ⊢
        cases hi : x.infoset with
        | none => exact LinearIn.id _
        | some s =>
          simp only [hi] at h2
          cases hsi : deref g.infosets s with
          | error e => simp [hsi, bind, Except.bind] at h2
          | ok si =>
            simp only [hsi, bind, Except.bind] at h2 ⊢
            by_cases hp : si.m_player = 0
            · simp only [hp, if_true] at h2 ⊢
              exact Payoff_chance_linear _ _ _ _ _ _ _
                (fun c _ r0 acc0 v0 hc => ih c r0 acc0 v0 hc) h2
            · simp only [hp, if_false] at h2 ⊢
              cases ha : profileAt profile si.m_player si.m_id with
              | error e => simp [ha] at h2
              | ok a =>
                simp only [ha] at h2 ⊢
                cases hc : gAt x.children a with
                | error e => simp [hc] at h2
                | ok c =>
                  simp only [hc] at h2 ⊢
                  exact ih c _ _ _ h2
      have := hF1.comp hF2
      simpa only [hunf] using this

theorem eq_of_getD_eq {l1 l2 : List ℚ} (hlen : l1.length = l2.length)
    (h : ∀ j, l1.getD j 0 = l2.getD j 0) : l1 = l2 := by
  apply List.ext_getElem hlen
  intro j h1 h2
  have := h j
  simpa [List.getD, h1, h2] using this

/-- C5 (payoff linearity): a chance node `c` without outcome whose two actions
have probabilities `p` and `1 - p` and lead to the children `a` and `b`.  For
every reach probability `r` and profile, if evaluating `a` and `b` with reach
`r` from the zero vector gives `va` and `vb`, then evaluating `c` with reach `r`
from the zero vector gives exactly `p * va + (1 - p) * vb`. -/
theorem Payoff_chance_two (g : efgGame) (profile : List (List Nat)) (fuel c a b s k : Nat)
    (x : Node) (si : Infoset) (p r : ℚ) (va vb : List ℚ)
    (hc : deref g.nodes c = .ok x) (hout : x.outcome = none) (hinf : x.infoset = some s)
    (hs : deref g.infosets s = .ok si) (hpl : si.m_player = 0) (hch : x.children = [a, b])
    (hpr : si.m_chanceProbs = [p, 1 - p])
    (ha : Payoff g profile fuel a r (List.replicate k 0) = .ok va)
    (hb : Payoff g profile fuel b r (List.replicate k 0) = .ok vb) :
    Payoff g profile (fuel + 1) c r (List.replicate k 0) =
      .ok (List.zipWith (· + ·) (va.map (p * ·)) (vb.map ((1 - p) * ·))) := by
  obtain ⟨da, hda⟩ := Payoff_linear g profile fuel a r _ _ ha
  obtain ⟨db, hdb⟩ := Payoff_linear g profile fuel b r _ _ hb
  simp only [List.length_replicate] at hda hdb
  obtain ⟨va1, e1, l1, p1⟩ := hda r (List.replicate k 0) (by simp)
  obtain ⟨vb1, e2, l2, p2⟩ := hdb r (List.replicate k 0) (by simp)
  rw [ha] at e1
  rw [hb] at e2
  cases e1
  cases e2
  obtain ⟨w1, e3, l3, p3⟩ := hda (r * p) (List.replicate k 0) (by simp)
  obtain ⟨w2, e4, l4, p4⟩ := hdb (r * (1 - p)) w1 l3
  have hval : Payoff g profile (fuel + 1) c r (List.replicate k 0) = .ok w2 := by
    simp [Payoff, hc, hout, hinf, hs, hpl, hch, Payoff.chance, GetChanceProb, hpr, gAt, e3, e4,
      pure_eq_ok]
  rw [hval]
  congr 1
  apply List.ext_getElem
  · simp [l4, l1, l2]
  · intro j h1 h2
    have hj : j < k := by omega
    have q1 := p1 j
    have q2 := p2 j
    have q3 := p3 j
    have q4 := p4 j
    rw [List.getD_eq_getElem _ _ (by omega : j < _), List.getD_eq_getElem _ _ (by simpa using hj)]
      at q1 q2 q3
    rw [List.getD_eq_getElem _ _ (by omega : j < _), List.getD_eq_getElem _ _ (by omega : j < _)]
      at q4
    simp only [List.getElem_replicate] at q1 q2 q3
    simp only [List.getElem_zipWith, List.getElem_map]
    rw [q4, q3, q1, q2]
    ring

set_option maxRecDepth 1000000 in
/-- Witness for C5: the chance root of `chanceRoot` with `p = 1/3`. -/
theorem Payoff_chance_two_witness :
    ∃ g, chanceRoot = .ok g ∧
      Payoff g [] 2 0 1 (List.replicate 2 0) =
        .ok (List.zipWith (· + ·) ([3, 0].map ((1 / 3 : ℚ) * ·))
          ([0, 6].map ((1 - 1 / 3 : ℚ) * ·))) :=
  ⟨_, rfl, Payoff_chance_two _ [] 1 0 1 2 0 2 _ _ (1 / 3) 1 _ _ rfl rfl rfl rfl rfl rfl rfl
    (by with_unfolding_all decide) (by with_unfolding_all decide)⟩

/-! ### Heaps -/

theorem deref_eq_ok {α : Type} (heap : List (Option α)) (h : Nat) (a : α) :
    deref heap h = .ok a ↔ heap[h]? = some (some a) := by
  unfold deref
  split
  · next b hb => simp [hb]
  · next hb =>
    constructor
    · intro h1; cases h1
    · intro h1; exact absurd h1 (hb a)

theorem deref_lt {α : Type} {heap : List (Option α)} {h : Nat} {a : α}
    (hd : deref heap h = .ok a) : h < heap.length := by
  rw [deref_eq_ok] at hd
  by_contra hlt
  rw [List.getElem?_eq_none (by omega)] at hd
  cases hd

theorem deref_store_self {α : Type} {heap : List (Option α)} {h : Nat} (a : α)
    (hlt : h < heap.length) : deref (store heap h a) h = .ok a := by
  rw [deref_eq_ok]
  simp [store, hlt]

theorem deref_store_ne {α : Type} (heap : List (Option α)) {h k : Nat} (a : α)
    (hne : h ≠ k) : deref (store heap h a) k = deref heap k := by
  unfold deref store
  rw [List.getElem?_set_ne hne]

theorem deref_store {α : Type} {heap : List (Option α)} {h : Nat} (a : α) (k : Nat)
    (hlt : h < heap.length) :
    deref (store heap h a) k = if k = h then .ok a else deref heap k := by
  by_cases hk : k = h
  · subst hk; simp [deref_store_self a hlt]
  · simp [hk, deref_store_ne heap a (Ne.symm hk)]

@[simp] theorem store_length {α : Type} (heap : List (Option α)) (h : Nat) (a : α) :
    (store heap h a).length = heap.length := by
  simp [store]

/-! ### The preorder list -/

theorem childrenOf_store {nodes : List (Option Node)} {n : Nat} {x y : Node}
    (hx : deref nodes n = .ok x) (hy : y.children = x.children) (m : Nat) :
    childrenOf (store nodes n y) m = childrenOf nodes m := by
  unfold childrenOf
  rw [deref_store y m (deref_lt hx)]
  by_cases hm : m = n
  · subst hm; simp [hx, hy, Except.map]
  · simp [hm]

theorem NDoChild_succ (nodes : List (Option Node)) (fuel n : Nat) (list : List Nat) :
    NDoChild nodes (fuel + 1) n list =
      childrenOf nodes n >>= fun cs =>
        cs.foldlM (fun acc c => NDoChild nodes fuel c acc) (list ++ [n]) := by
  simp only [NDoChild, childrenOf]
  cases deref nodes n <;> rfl

/-- The preorder list depends on the child lists only. -/
theorem NDoChild_congr {nodes1 nodes2 : List (Option Node)}
    (h : ∀ m, childrenOf nodes1 m = childrenOf nodes2 m) :
    ∀ (fuel n : Nat) (list : List Nat),
      NDoChild nodes1 fuel n list = NDoChild nodes2 fuel n list := by
  intro fuel
  induction fuel with
  | zero => intro n list; rfl
  | succ fuel ih =>
    intro n list
    rw [NDoChild_succ, NDoChild_succ, h n]
    congr 1
    funext cs
    congr 1
    funext acc c
    exact ih c acc

theorem foldlM_NDoChild_append (nodes : List (Option Node)) (fuel : Nat)
    (ih : ∀ (n : Nat) (list : List Nat),
      NDoChild nodes fuel n list = (NDoChild nodes fuel n []).map (list ++ ·)) :
    ∀ (cs : List Nat) (list : List Nat),
      cs.foldlM (fun acc c => NDoChild nodes fuel c acc) list =
        (cs.foldlM (fun acc c => NDoChild nodes fuel c acc) []).map (list ++ ·) := by
  intro cs
  induction cs using List.reverseRecOn with
  | nil => intro list; simp [Except.map, pure, Except.pure]
  | append_singleton cs c ihc =>
    intro list
    simp only [List.foldlM_append, List.foldlM_cons, List.foldlM_nil, bind_pure]
    rw [ihc list]
    cases h1 : cs.foldlM (fun acc c => NDoChild nodes fuel c acc) [] with
    | error e => rfl
    | ok l1 =>
      simp only [Except.map, ok_bind]
      rw [ih c (list ++ l1), ih c l1]
      cases NDoChild nodes fuel c [] <;> simp [Except.map]

/-- The list handed to `NDoChild` is only extended. -/
theorem NDoChild_append (nodes : List (Option Node)) :
    ∀ (fuel n : Nat) (list : List Nat),
      NDoChild nodes fuel n list = (NDoChild nodes fuel n []).map (list ++ ·) := by
  intro fuel
  induction fuel with
  | zero => intro n list; rfl
  | succ fuel ih =>
    intro n list
    rw [NDoChild_succ, NDoChild_succ]
    cases childrenOf nodes n with
    | error e => rfl
    | ok cs =>
      simp only [ok_bind]
      rw [foldlM_NDoChild_append nodes fuel ih cs (list ++ [n]),
        foldlM_NDoChild_append nodes fuel ih cs ([] ++ [n])]
      cases cs.foldlM (fun acc c => NDoChild nodes fuel c acc) [] <;> simp [Except.map]

theorem MarkTree_eq_visit (base : Nat) :
    ∀ (fuel n : Nat) (nodes : List (Option Node)),
      MarkTree base fuel n nodes = visit (fun x => { x with ptr := some base }) fuel n nodes := by
  intro fuel
  induction fuel with
  | zero => intro n nodes; rfl
  | succ fuel ih =>
    intro n nodes
    simp only [MarkTree, visit]
    congr 1
    funext x
    congr 1
    funext st c
    exact ih c st

theorem MarkSubtree_eq_visit :
    ∀ (fuel n : Nat) (nodes : List (Option Node)),
      MarkSubtree fuel n nodes = visit (fun x => { x with mark := true }) fuel n nodes := by
  intro fuel
  induction fuel with
  | zero => intro n nodes; rfl
  | succ fuel ih =>
    intro n nodes
    simp only [MarkSubtree, visit]
    congr 1
    funext x
    congr 1
    funext st c
    exact ih c st

theorem UnmarkSubtree_eq_visit :
    ∀ (fuel n : Nat) (nodes : List (Option Node)),
      UnmarkSubtree fuel n nodes = visit (fun x => { x with mark := false }) fuel n nodes := by
  intro fuel
  induction fuel with
  | zero => intro n nodes; rfl
  | succ fuel ih =>
    intro n nodes
    simp only [UnmarkSubtree, visit]
    congr 1
    funext x
    congr 1
    funext st c
    exact ih c st

theorem childrenOf_eq_ok (nodes : List (Option Node)) (n : Nat) (cs : List Nat) :
    childrenOf nodes n = .ok cs ↔ ∃ x, deref nodes n = .ok x ∧ x.children = cs := by
  unfold childrenOf
  cases deref nodes n <;> simp [Except.map]

/-- The preorder list of a node is the node followed by the lists of its children. -/
theorem foldlM_NDoChild_ok (nodes : List (Option Node)) (fuel : Nat) :
    ∀ (cs : List Nat) (l : List Nat),
      cs.foldlM (fun acc c => NDoChild nodes fuel c acc) [] = .ok l →
      ∃ ls : List (List Nat),
        List.Forall₂ (fun c lc => NDoChild nodes fuel c [] = .ok lc) cs ls ∧ l = ls.flatten := by
  intro cs
  induction cs with
  | nil =>
    intro l h
    simp only [List.foldlM_nil, pure_eq_ok, Except.ok.injEq] at h
    exact ⟨[], List.Forall₂.nil, by simp [← h]⟩
  | cons c cs ih =>
    intro l h
    simp only [List.foldlM_cons, bind_eq_ok] at h
    obtain ⟨lc, hc, h⟩ := h
    rw [foldlM_NDoChild_append nodes fuel (NDoChild_append nodes fuel)] at h
    cases h2 : cs.foldlM (fun acc c => NDoChild nodes fuel c acc) [] with
    | error e => simp [h2, Except.map] at h
    | ok l2 =>
      simp only [h2, Except.map, Except.ok.injEq] at h
      obtain ⟨ls, hls, rfl⟩ := ih l2 h2
      exact ⟨lc :: ls, List.Forall₂.cons hc hls, by simp [← h]⟩

theorem NDoChild_ok (nodes : List (Option Node)) (fuel n : Nat) (l : List Nat)
    (h : NDoChild nodes (fuel + 1) n [] = .ok l) :
    ∃ x ls, deref nodes n = .ok x ∧
      List.Forall₂ (fun c lc => NDoChild nodes fuel c [] = .ok lc) x.children ls ∧
      l = n :: ls.flatten := by
  rw [NDoChild_succ, bind_eq_ok] at h
  obtain ⟨cs, hcs, h⟩ := h
  rw [childrenOf_eq_ok] at hcs
  obtain ⟨x, hx, rfl⟩ := hcs
  rw [foldlM_NDoChild_append nodes fuel (NDoChild_append nodes fuel)] at h
  cases h2 : x.children.foldlM (fun acc c => NDoChild nodes fuel c acc) [] with
  | error e => simp [h2, Except.map] at h
  | ok l2 =>
    simp only [h2, Except.map, Except.ok.injEq] at h
    obtain ⟨ls, hls, rfl⟩ := foldlM_NDoChild_ok nodes fuel _ _ h2
    exact ⟨x, ls, hx, hls, by simp [← h]⟩

theorem updAll_append (upd : Node → Node) (l1 l2 : List Nat) (nodes : List (Option Node)) :
    updAll upd (l1 ++ l2) nodes = updAll upd l2 (updAll upd l1 nodes) := by
  simp [updAll, List.foldl_append]

theorem childrenOf_updAll (upd : Node → Node) (hupd : ∀ x, (upd x).children = x.children) :
    ∀ (l : List Nat) (nodes : List (Option Node)) (m : Nat),
      childrenOf (updAll upd l nodes) m = childrenOf nodes m := by
  intro l
  induction l with
  | nil => intro nodes m; rfl
  | cons a l ih =>
    intro nodes m
    simp only [updAll, List.foldl_cons]
    cases ha : deref nodes a with
    | error e => exact ih nodes m
    | ok x =>
      have := ih (store nodes a (upd x)) m
      simp only [updAll] at this
      rw [this, childrenOf_store ha (hupd x)]

/-- A walk that keeps the child lists changes exactly the nodes of the preorder list. -/
theorem visit_eq (upd : Node → Node) (hupd : ∀ x, (upd x).children = x.children) :
    ∀ (fuel n : Nat) (nodes : List (Option Node)) (l : List Nat),
      NDoChild nodes fuel n [] = .ok l → visit upd fuel n nodes = .ok (updAll upd l nodes) := by
  intro fuel
  induction fuel with
  | zero => intro n nodes l h; cases h
  | succ fuel ih =>
    intro n nodes l h
    obtain ⟨x, ls, hx, hls, rfl⟩ := NDoChild_ok nodes fuel n l h
    simp only [visit, hx, ok_bind]
    have key : ∀ (cs : List Nat) (ls : List (List Nat)),
        List.Forall₂ (fun c lc => NDoChild nodes fuel c [] = .ok lc) cs ls →
        ∀ h1 : List (Option Node), (∀ m, childrenOf h1 m = childrenOf nodes m) →
          cs.foldlM (fun st c => visit upd fuel c st) h1 = .ok (updAll upd ls.flatten h1) := by
      intro cs ls hf
      induction hf with
      | nil => intro h1 _; rfl
      | @cons c lc cs ls hc _ ihf =>
        intro h1 hsame
        simp only [List.foldlM_cons, List.flatten_cons]
        rw [ih c h1 lc (by rw [NDoChild_congr hsame]; exact hc), ok_bind, updAll_append]
        apply ihf
        intro m
        rw [childrenOf_updAll upd hupd, hsame]
    have h0 : store nodes n (upd x) = updAll upd [n] nodes := by
      simp [updAll, hx]
    rw [key x.children ls hls _ (fun m => childrenOf_store hx (hupd x) m), h0,
      ← updAll_append]
    rfl

theorem updAll_length (upd : Node → Node) :
    ∀ (l : List Nat) (nodes : List (Option Node)), (updAll upd l nodes).length = nodes.length := by
  intro l
  induction l with
  | nil => intro nodes; rfl
  | cons a l ih =>
    intro nodes
    simp only [updAll, List.foldl_cons]
    cases ha : deref nodes a with
    | error e => exact ih nodes
    | ok x =>
      have := ih (store nodes a (upd x))
      simp only [updAll] at this
      rw [this, store_length]

/-- After an idempotent change was applied along a list, a node carries the change
exactly when it is in the list. -/
theorem deref_updAll (upd : Node → Node) (hupd : ∀ x, upd (upd x) = upd x) :
    ∀ (l : List Nat) (nodes : List (Option Node)) (m : Nat),
      deref (updAll upd l nodes) m =
        if m ∈ l then (deref nodes m).map upd else deref nodes m := by
  intro l
  induction l with
  | nil => intro nodes m; simp [updAll]
  | cons a l ih =>
    intro nodes m
    simp only [updAll, List.foldl_cons]
    cases ha : deref nodes a with
    | error e =>
      have := ih nodes m
      simp only [updAll] at this
      rw [this]
      by_cases hm : m ∈ l
      · simp [hm]
      · by_cases hma : m = a
        · subst hma; simp [hm, ha, Except.map]
        · simp [hm, hma]
    | ok x =>
      have := ih (store nodes a (upd x)) m
      simp only [updAll] at this
      rw [this, deref_store (upd x) m (deref_lt ha)]
      by_cases hma : m = a
      · subst hma
        simp [ha, Except.map, hupd]
      · simp [hma]

theorem heapAll_iff {α : Type} (heap : List (Option α)) (p : Nat → α → Bool) :
    heapAll heap p = true ↔ ∀ h a, deref heap h = .ok a → p h a = true := by
  unfold heapAll
  rw [List.all_eq_true]
  constructor
  · intro hall h a hd
    have := hall h (List.mem_range.2 (deref_lt hd))
    rw [(deref_eq_ok heap h a).1 hd] at this
    exact this
  · intro hall h _
    split
    · next a ha => exact hall h a ((deref_eq_ok heap h a).2 ha)
    · rfl

theorem allM_members (g : efgGame) (base : Nat) :
    ∀ (ms : List Nat), (∀ mem ∈ ms, ∃ y, deref g.nodes mem = .ok y) →
      ∃ b, allM (fun m => do
          let y ← deref g.nodes m
          pure (decide (y.ptr = some base))) ms = .ok b ∧
        (b = true ↔ ∀ mem ∈ ms, ∀ y, deref g.nodes mem = .ok y → y.ptr = some base) := by
  intro ms
  induction ms with
  | nil => intro _; exact ⟨true, rfl, by simp⟩
  | cons m ms ih =>
    intro h
    obtain ⟨y, hy⟩ := h m (List.mem_cons_self _ _)
    obtain ⟨b, hb, hiff⟩ := ih (fun mem hm => h mem (List.mem_cons_of_mem _ hm))
    simp only [pure_eq_ok] at hb ⊢
    by_cases hp : y.ptr = some base
    · refine ⟨b, ?_, ?_⟩
      · simp [allM, hy, hp, pure_eq_ok, hb]
      · rw [hiff]
        constructor
        · intro h1 mem hmem y1 hy1
          rcases List.mem_cons.1 hmem with rfl | hmem
          · rw [hy] at hy1; cases hy1; exact hp
          · exact h1 mem hmem y1 hy1
        · intro h1 mem hmem
          exact h1 mem (List.mem_cons_of_mem _ hmem)
    · refine ⟨false, ?_, ?_⟩
      · simp [allM, hy, hp, pure_eq_ok]
      · simp only [Bool.false_eq_true, false_iff]
        intro h1
        exact hp (h1 m (List.mem_cons_self _ _) y hy)

/-- `CheckTree` returns, and returns `true` exactly when every node of the subtree
passes its test. -/
theorem CheckTree_spec (g : efgGame) (base : Nat) :
    ∀ (fuel n : Nat) (l : List Nat), NDoChild g.nodes fuel n [] = .ok l →
      (∀ m ∈ l, CheckReady g m) →
      ∃ b, CheckTree g base fuel n = .ok b ∧ (b = true ↔ ∀ m ∈ l, CheckGood g base m) := by
  intro fuel
  induction fuel with
  | zero => intro n l h; cases h
  | succ fuel ih =>
    intro n l h hready
    obtain ⟨x, ls, hx, hls, rfl⟩ := NDoChild_ok g.nodes fuel n l h
    have key : ∀ (cs : List Nat) (ls : List (List Nat)),
        List.Forall₂ (fun c lc => NDoChild g.nodes fuel c [] = .ok lc) cs ls →
        (∀ m ∈ ls.flatten, CheckReady g m) →
        ∃ b, allM (fun c => CheckTree g base fuel c) cs = .ok b ∧
          (b = true ↔ ∀ m ∈ ls.flatten, CheckGood g base m) := by
      intro cs ls hf
      induction hf with
      | nil => intro _; exact ⟨true, rfl, by simp⟩
      | @cons c lc cs ls hc _ ihf =>
        intro hr
        obtain ⟨bc, hbc, hiffc⟩ := ih c lc hc
          (fun m hm => hr m (by simp [List.flatten_cons, hm]))
        obtain ⟨br, hbr, hiffr⟩ := ihf
          (fun m hm => hr m (by simp only [List.flatten_cons, List.mem_append]; exact Or.inr hm))
        cases bc with
        | false =>
          refine ⟨false, by simp [allM, hbc, pure_eq_ok], ?_⟩
          simp only [Bool.false_eq_true, false_iff, List.flatten_cons, List.mem_append]
          intro h1
          exact absurd (hiffc.2 (fun m hm => h1 m (Or.inl hm))) (by simp)
        | true =>
          refine ⟨br, by simp [allM, hbc, hbr], ?_⟩
          rw [hiffr]
          simp only [List.flatten_cons, List.mem_append]
          constructor
          · intro h1 m hm
            rcases hm with hm | hm
            · exact hiffc.1 rfl m hm
            · exact h1 m hm
          · intro h1 m hm
            exact h1 m (Or.inr hm)
    by_cases hch : x.children = []
    · refine ⟨true, by simp [CheckTree, hx, hch, pure_eq_ok], ?_⟩
      simp only [true_iff]
      rw [hch] at hls
      cases hls
      intro m hm
      simp only [List.flatten_nil, List.mem_singleton] at hm
      subst hm
      intro x1 s si hx1 hne
      rw [hx] at hx1
      cases hx1
      exact absurd hch hne
    · obtain ⟨bch, hbch, hiffch⟩ := key x.children ls hls
        (fun m hm => hready m (List.mem_cons_of_mem _ hm))
      have hlen : x.children.length ≠ 0 := by
        intro h0; exact hch (List.length_eq_zero.1 h0)
      cases bch with
      | false =>
        refine ⟨false, by simp [CheckTree, hx, hlen, hch, hbch, pure_eq_ok], ?_⟩
        simp only [Bool.false_eq_true, false_iff]
        intro h1
        exact absurd (hiffch.2 (fun m hm => h1 m (List.mem_cons_of_mem _ hm))) (by simp)
      | true =>
        obtain ⟨s, si, hs, hsi, hmem⟩ := hready n (List.mem_cons_self _ _) x hx hch
        by_cases hp : si.m_player = 0
        · refine ⟨true, by simp [CheckTree, hx, hlen, hch, hbch, hs, hsi, hp, pure_eq_ok], ?_⟩
          simp only [true_iff]
          intro m hm
          rcases List.mem_cons.1 hm with rfl | hm
          · intro x1 s1 si1 hx1 _ hs1 hsi1 hp1
            rw [hx] at hx1; cases hx1
            rw [hs] at hs1; cases hs1
            rw [hsi] at hsi1; cases hsi1
            exact absurd hp hp1
          · exact hiffch.1 rfl m hm
        · obtain ⟨b, hb, hiff⟩ := allM_members g base si.m_members hmem
          refine ⟨b, ?_, ?_⟩
          · simp only [CheckTree, hx, ok_bind, hlen, hbch, hs, hsi, hp, Bool.not_true,
              Bool.false_eq_true, ↓reduceIte]
            exact hb
          rw [hiff]
          constructor
          · intro h1 m hm
            rcases List.mem_cons.1 hm with rfl | hm
            · intro x1 s1 si1 hx1 _ hs1 hsi1 _
              rw [hx] at hx1; cases hx1
              rw [hs] at hs1; cases hs1
              rw [hsi] at hsi1; cases hsi1
              exact h1
            · exact hiffch.1 rfl m hm
          · intro h1
            exact h1 n (List.mem_cons_self _ _) x s si hx hch hs hsi hp

theorem MarkTree_eq_visit_setPtr (base : Nat) (fuel n : Nat) (nodes : List (Option Node)) :
    MarkTree base fuel n nodes = visit (setPtr base) fuel n nodes :=
  MarkTree_eq_visit base fuel n nodes

theorem membersReferBack_spec {g : efgGame} (h : membersReferBack g = true) :
    ∀ s si, deref g.infosets s = .ok si → ∀ m ∈ si.m_members,
      ∃ y, deref g.nodes m = .ok y ∧ y.infoset = some s ∧ y.children ≠ [] := by
  intro s si hs m hm
  have h1 := (heapAll_iff _ _).1 h s si hs
  rw [List.all_eq_true] at h1
  have h2 := h1 m hm
  cases hy : deref g.nodes m with
  | error e => simp [hy] at h2
  | ok y =>
    simp only [hy, Bool.and_eq_true, beq_iff_eq, Bool.not_eq_true', List.isEmpty_eq_false] at h2
    exact ⟨y, rfl, h2.1, h2.2⟩

theorem nodesListed_spec {g : efgGame} {l : List Nat} (h : nodesListed g l = true) :
    ∀ m ∈ l, ∃ y, deref g.nodes m = .ok y ∧
      (y.children ≠ [] → ∃ s si, y.infoset = some s ∧ deref g.infosets s = .ok si ∧
        m ∈ si.m_members) := by
  intro m hm
  unfold nodesListed at h
  rw [List.all_eq_true] at h
  have h2 := h m hm
  cases hy : deref g.nodes m with
  | error e => simp [hy] at h2
  | ok y =>
    refine ⟨y, rfl, fun hne => ?_⟩
    simp only [hy, Bool.or_eq_true, List.isEmpty_iff] at h2
    rcases h2 with h2 | h2
    · exact absurd h2 hne
    · cases hs : y.infoset with
      | none => simp [hs] at h2
      | some s =>
        simp only [hs] at h2
        cases hsi : deref g.infosets s with
        | error e => simp [hsi] at h2
        | ok si =>
          exact ⟨s, si, rfl, hsi, by simpa [hsi] using h2⟩

theorem marksFresh_spec {g : efgGame} {base : Nat} {l : List Nat}
    (h : marksFresh g base l = true) :
    ∀ m y, deref g.nodes m = .ok y → m ∉ l → y.ptr ≠ some base := by
  intro m y hy hm
  have h1 := (heapAll_iff _ _).1 h m y hy
  simp only [Bool.or_eq_true, bne_iff_ne, ne_eq] at h1
  rcases h1 with h1 | h1
  · exact absurd (by simpa using h1) hm
  · exact h1

/-- For a node without children `IsLegalSubgame` returns `false` and leaves the
game as it is. -/
theorem IsLegalSubgame_leaf (g : efgGame) (n : Nat) (x : Node)
    (hn : deref g.nodes n = .ok x) (ht : x.children = []) :
    IsLegalSubgame g n = .ok (g, false) := by
  simp [IsLegalSubgame, hn, ht, pure_eq_ok]

/-- C4 (amended): for a node `n` with children, in a game where member lists and
infoset references agree and no node outside the subtree of `n` carries the mark
`n`, `IsLegalSubgame(n)` returns, and returns `true` exactly when no infoset of a
personal player has one member inside the subtree of `n` (the preorder list `l`)
and another member outside it. -/
theorem IsLegalSubgame_iff (g : efgGame) (n : Nat) (x : Node) (l : List Nat)
    (hn : deref g.nodes n = .ok x) (hint : x.children ≠ [])
    (hl : NDoChild g.nodes g.nodes.length n [] = .ok l)
    (hback : membersReferBack g = true) (hfwd : nodesListed g l = true)
    (hfresh : marksFresh g n l = true) :
    ∃ g1 b, IsLegalSubgame g n = .ok (g1, b) ∧ (b = true ↔ ¬ Straddles g l) := by
  have hupd1 : ∀ y : Node, (setPtr n y).children = y.children := fun _ => rfl
  have hupd2 : ∀ y : Node, setPtr n (setPtr n y) = setPtr n y := fun _ => rfl
  have hmark := visit_eq (setPtr n) hupd1 g.nodes.length n g.nodes l hl
  rw [← MarkTree_eq_visit_setPtr] at hmark
  have hd := deref_updAll (setPtr n) hupd2 l g.nodes
  have hlen := updAll_length (setPtr n) l g.nodes
  have hB := membersReferBack_spec hback
  have hF := nodesListed_spec hfwd
  have hM := marksFresh_spec hfresh
  generalize hnodes1 : updAll (setPtr n) l g.nodes = nodes1
    at hmark hd hlen
  have hl1 : NDoChild nodes1 nodes1.length n [] = .ok l := by
    have hc : ∀ m, childrenOf nodes1 m = childrenOf g.nodes m := by
      intro m
      rw [← hnodes1]
      exact childrenOf_updAll _ hupd1 l g.nodes m
    rw [hlen, NDoChild_congr hc]
    exact hl
  have hready : ∀ m ∈ l, CheckReady { g with nodes := nodes1 } m := by
    intro m hm x1 hx1 hne
    obtain ⟨y, hy, hyl⟩ := hF m hm
    simp only [hd m, hm, if_true, hy, Except.map, Except.ok.injEq] at hx1
    subst hx1
    obtain ⟨s, si, hs, hsi, _⟩ := hyl hne
    refine ⟨s, si, hs, hsi, fun mem hmem => ?_⟩
    obtain ⟨z, hz, _⟩ := hB s si hsi mem hmem
    show ∃ y, deref nodes1 mem = .ok y
    rw [hd mem, hz]
    by_cases hml : mem ∈ l <;> simp [hml, Except.map]
  obtain ⟨b, hb, hiff⟩ := CheckTree_spec { g with nodes := nodes1 } n nodes1.length n l hl1 hready
  have hlen0 : x.children.length ≠ 0 := fun h0 => hint (List.length_eq_zero.1 h0)
  refine ⟨{ g with nodes := nodes1 }, b, ?_, ?_⟩
  · simp only [IsLegalSubgame, hn, ok_bind, hlen0, ↓reduceIte, hmark, hb, pure_eq_ok]
  · rw [hiff]
    constructor
    · rintro hgood ⟨s, si, hsi, hp, a, ha, c, hc, hal, hcl⟩
      obtain ⟨ya, hya, hyas, hyac⟩ := hB s si hsi a ha
      obtain ⟨yc, hyc, _⟩ := hB s si hsi c hc
      have h1 : deref nodes1 a = .ok (setPtr n ya) := by
        rw [hd a, hya]; simp [hal, Except.map]
      have h2 : deref nodes1 c = .ok yc := by
        rw [hd c, hyc]; simp [hcl]
      exact hM c yc hyc hcl (hgood a hal _ s si h1 hyac hyas hsi hp c hc yc h2)
    · intro hno m hm x1 s si hx1 hne hs hsi hp mem hmem y hy
      obtain ⟨y0, hy0, hyl⟩ := hF m hm
      have hx1' : deref nodes1 m = .ok x1 := hx1
      simp only [hd m, hm, if_true, hy0, Except.map, Except.ok.injEq] at hx1'
      subst hx1'
      obtain ⟨s1, si1, hs1, hsi1, hmem1⟩ := hyl hne
      have hs' : y0.infoset = some s := hs
      rw [hs1] at hs'
      have e1 : s1 = s := Option.some.inj hs'
      rw [e1] at hsi1
      have hsi' : deref g.infosets s = .ok si := hsi
      rw [hsi1] at hsi'
      have e2 : si1 = si := Except.ok.inj hsi'
      rw [e2] at hmem1 hsi1
      have hy' : deref nodes1 mem = .ok y := hy
      by_cases hml : mem ∈ l
      · obtain ⟨z, hz, _⟩ := hB s si hsi1 mem hmem
        simp only [hd mem, hml, if_true, hz, Except.map, Except.ok.injEq] at hy'
        subst hy'
        rfl
      · exact absurd ⟨s, si, hsi1, hp, m, hmem1, mem, hmem, hm, hml⟩ hno

set_option maxRecDepth 1000000 in
/-- Witness for C4: the first child of the root in Scenario A, whose infoset has
its other member under the second child. -/
theorem IsLegalSubgame_iff_witness :
    ∃ g x l, scenarioA = .ok g ∧ deref g.nodes 1 = .ok x ∧ x.children ≠ [] ∧
      NDoChild g.nodes g.nodes.length 1 [] = .ok l ∧
      ∃ g1 b, IsLegalSubgame g 1 = .ok (g1, b) ∧ (b = true ↔ ¬ Straddles g l) :=
  ⟨_, _, _, rfl, rfl, by decide, rfl,
    IsLegalSubgame_iff _ 1 _ _ rfl (by decide) rfl (by decide) (by decide) (by decide)⟩

theorem heap_ext {α : Type} {H1 H2 : List (Option α)} (hlen : H1.length = H2.length)
    (h : ∀ t, deref H1 t = deref H2 t) : H1 = H2 := by
  apply List.ext_getElem hlen
  intro t h1 h2
  have := h t
  unfold deref at this
  rw [List.getElem?_eq_getElem h1, List.getElem?_eq_getElem h2] at this
  cases e1 : H1[t] <;> cases e2 : H2[t] <;> simp_all

theorem numberEmpty_spec :
    ∀ (l : List Nat) (H : List (Option Infoset)) (i : Nat), l.Nodup →
      (∀ h ∈ l, ∃ si, deref H h = .ok si) →
      ∃ H1, SortInfosets.numberEmpty H l i = .ok H1 ∧ H1.length = H.length ∧
        ∀ t, deref H1 t =
          if t ∈ l then
            (deref H t).map (fun si =>
              { si with m_id := if si.m_members.length = 0 then i + l.indexOf t else 0 })
          else deref H t := by
  intro l
  induction l with
  | nil =>
    intro H i _ _
    exact ⟨H, rfl, rfl, fun t => by simp⟩
  | cons h l ih =>
    intro H i hnd hlive
    obtain ⟨si, hsi⟩ := hlive h (List.mem_cons_self _ _)
    have hnd' := List.nodup_cons.1 hnd
    have hlt := deref_lt hsi
    obtain ⟨H1, hH1, hlen, hd⟩ := ih
      (store H h { si with m_id := if si.m_members.length = 0 then i else 0 }) (i + 1) hnd'.2
      (fun k hk => by
        rw [deref_store _ _ hlt]
        by_cases hkh : k = h
        · simp [hkh]
        · simpa [hkh] using hlive k (List.mem_cons_of_mem _ hk))
    refine ⟨H1, ?_, by simpa using hlen, fun t => ?_⟩
    · simp only [SortInfosets.numberEmpty, hsi, ok_bind]
      exact hH1
    · rw [hd t, deref_store _ _ hlt]
      by_cases hth : t = h
      · subst hth
        simp [hnd'.1, hsi, Except.map]
      · by_cases htl : t ∈ l
        · simp only [htl, if_true, hth, if_false, List.mem_cons, or_true]
          rw [List.indexOf_cons_ne _ (Ne.symm hth)]
          cases deref H t with
          | error e => rfl
          | ok st => simp only [Except.map]; congr 2; simp only [Nat.succ_eq_add_one]; congr 1; omega
        · simp [htl, hth]

theorem take_succ_set {α : Type} (a : α) :
    ∀ (l : List α) (k : Nat), k < l.length → (l.set k a).take (k + 1) = l.take k ++ [a]
  | [], k, h => by simp at h
  | x :: l, 0, _ => by simp
  | x :: l, k + 1, h => by
    simp only [List.set_cons_succ, List.take_succ_cons, List.cons_append, List.cons.injEq,
      true_and]
    exact take_succ_set a l k (by simpa using h)

theorem fillMembers_spec (nodes : List (Option Node)) (h : Nat) :
    ∀ (l : List Nat) (members : List Nat) (k : Nat),
      (∀ n ∈ l, ∃ x, deref nodes n = .ok x) →
      k + (nodesOf nodes h l).length ≤ members.length →
      SortInfosets.fillMembers nodes h l (members, k + 1) =
        .ok (members.take k ++ nodesOf nodes h l ++
          members.drop (k + (nodesOf nodes h l).length), k + (nodesOf nodes h l).length + 1) := by
  intro l
  induction l with
  | nil =>
    intro members k _ _
    simp [SortInfosets.fillMembers, nodesOf]
  | cons n l ih =>
    intro members k hlive hlen
    obtain ⟨x, hx⟩ := hlive n (List.mem_cons_self _ _)
    have hl := fun m hm => hlive m (List.mem_cons_of_mem _ hm)
    by_cases hr : x.infoset = some h
    · have hn : nodesOf nodes h (n :: l) = n :: nodesOf nodes h l := by
        simp [nodesOf, infosetOf, hx, hr]
      rw [hn] at hlen ⊢
      simp only [List.length_cons] at hlen ⊢
      have hk : k < members.length := by omega
      simp only [SortInfosets.fillMembers, hx, ok_bind, hr, if_true, gSet, hk]
      rw [ih (members.set k n) (k + 1) hl (by simp; omega)]
      congr 1
      congr 1
      · rw [take_succ_set n members k hk,
          List.drop_set_of_lt _ _ (by omega : k < k + 1 + (nodesOf nodes h l).length)]
        simp only [List.append_assoc, List.singleton_append]
        congr 3
        omega
      · omega
    · have hn : nodesOf nodes h (n :: l) = nodesOf nodes h l := by
        simp [nodesOf, infosetOf, hx, hr]
      rw [hn] at hlen ⊢
      simp only [SortInfosets.fillMembers, hx, ok_bind, hr, if_false]
      exact ih members k hl hlen

theorem swap_perm (l : List Nat) (a b : Nat) (hab : a < b) (ha : a < l.length)
    (hb : b < l.length) : ((l.set a l[b]).set b l[a]).Perm l := by
  have hb1 : b < (l.set a l[b]).length := by simpa using hb
  rw [List.perm_iff_count]
  intro c
  rw [List.count_set _ _ _ _ hb1, List.count_set _ _ _ _ ha]
  have h1 : (l.set a l[b])[b] = l[b] := by
    rw [List.getElem_set_ne (by omega)]
  rw [h1]
  have h2 : (l[a] == c) = true → 1 ≤ l.count c := by
    intro h
    have : l[a] = c := by simpa using h
    rw [← this]
    exact List.one_le_count_iff.2 (List.getElem_mem ha)
  have h3 : (if (l[a] == c) = true then 1 else 0) ≤ l.count c := by
    split
    · next h => exact h2 h
    · omega
  cases e1 : (l[a] == c) <;> cases e2 : (l[b] == c) <;>
    simp only [e1, Bool.false_eq_true, if_true, if_false] at h3 ⊢ <;> omega

theorem moveEmpty_spec (H : List (Option Infoset)) :
    ∀ (k a : Nat) (l : List Nat), a + k < l.length →
      (∀ s ∈ l, ∃ si, deref H s = .ok si) →
      (∀ j, j < a → ∀ s, l[j]? = some s → emptyIn H s = false) →
      (∀ j, a + k < j → ∀ s, l[j]? = some s → emptyIn H s = true) →
      ∃ l1, SortInfosets.moveEmpty H k (a + 1) l = .ok l1 ∧ l1.Perm l ∧
        ∃ A B, l1 = A ++ B ∧ (∀ s ∈ A, emptyIn H s = false) ∧ (∀ s ∈ B, emptyIn H s = true) := by
  intro k
  induction k with
  | zero =>
    intro a l hlen _ hlo hhi
    refine ⟨l, rfl, List.Perm.refl _, ?_⟩
    have ha : a < l.length := by omega
    by_cases he : emptyIn H l[a] = true
    · refine ⟨l.take a, l.drop a, (List.take_append_drop a l).symm, ?_, ?_⟩
      · intro s hs
        obtain ⟨j, hj, rfl⟩ := List.getElem_of_mem hs
        have hj' : j < a := by simp at hj; omega
        rw [List.getElem_take]
        exact hlo j hj' _ (List.getElem?_eq_getElem _)
      · intro s hs
        obtain ⟨j, hj, rfl⟩ := List.getElem_of_mem hs
        rw [List.getElem_drop]
        by_cases hj0 : j = 0
        · subst hj0; simpa using he
        · exact hhi (a + j) (by omega) _ (List.getElem?_eq_getElem _)
    · refine ⟨l.take (a + 1), l.drop (a + 1), (List.take_append_drop _ l).symm, ?_, ?_⟩
      · intro s hs
        obtain ⟨j, hj, rfl⟩ := List.getElem_of_mem hs
        have hj' : j < a + 1 := by simp at hj; omega
        rw [List.getElem_take]
        by_cases hja : j = a
        · subst hja; simpa using he
        · exact hlo j (by omega) _ (List.getElem?_eq_getElem _)
      · intro s hs
        obtain ⟨j, hj, rfl⟩ := List.getElem_of_mem hs
        rw [List.getElem_drop]
        exact hhi (a + 1 + j) (by omega) _ (List.getElem?_eq_getElem _)
  | succ k ih =>
    intro a l hlen hlive hlo hhi
    have ha : a < l.length := by omega
    have hb : a + k + 1 < l.length := by omega
    obtain ⟨si, hsi⟩ := hlive l[a] (List.getElem_mem ha)
    have hbar : gAt l (a + 1) = .ok l[a] := by simp [gAt, ha]
    by_cases he : si.m_members.length = 0
    · have hlast : gAt l (a + 1 + (k + 1)) = .ok l[a + k + 1] := by
        have : a + 1 + (k + 1) = (a + k + 1) + 1 := by omega
        rw [this]; simp [gAt, hb]
      have hs1 : gSet l (a + 1) l[a + k + 1] = .ok (l.set a l[a + k + 1]) := by
        simp [gSet, ha]
      have hs2 : gSet (l.set a l[a + k + 1]) (a + 1 + (k + 1)) l[a] =
          .ok ((l.set a l[a + k + 1]).set (a + k + 1) l[a]) := by
        have : a + 1 + (k + 1) = (a + k + 1) + 1 := by omega
        rw [this]; simp [gSet, hb]
      have hperm := swap_perm l a (a + k + 1) (by omega) (by omega) hb
      obtain ⟨l1, hl1, hp1, A, B, hAB, hA, hB⟩ := ih a
        ((l.set a l[a + k + 1]).set (a + k + 1) l[a]) (by simp; omega)
        (fun s hs => hlive s (hperm.subset hs))
        (fun j hj s hs => by
          rw [List.getElem?_set_ne (by omega), List.getElem?_set_ne (by omega)] at hs
          exact hlo j hj s hs)
        (fun j hj s hs => by
          by_cases hjb : j = a + k + 1
          · subst hjb
            rw [List.getElem?_set_self (by simpa using hb)] at hs
            cases hs
            simp [emptyIn, hsi, he]
          · rw [List.getElem?_set_ne (by omega), List.getElem?_set_ne (by omega)] at hs
            exact hhi j (by omega) s hs)
      refine ⟨l1, ?_, hp1.trans hperm, A, B, hAB, hA, hB⟩
      simp only [SortInfosets.moveEmpty, hbar, ok_bind, hsi, he, if_true, hlast, hs1, hs2]
      exact hl1
    · obtain ⟨l1, hl1, hp1, A, B, hAB, hA, hB⟩ := ih (a + 1) l (by omega) hlive
        (fun j hj s hs => by
          by_cases hja : j = a
          · subst hja
            rw [List.getElem?_eq_getElem ha] at hs
            cases hs
            simp [emptyIn, hsi, he]
          · exact hlo j (by omega) s hs)
        (fun j hj s hs => hhi j (by omega) s hs)
      refine ⟨l1, ?_, hp1, A, B, hAB, hA, hB⟩
      simp only [SortInfosets.moveEmpty, hbar, ok_bind, hsi, he, if_false]
      exact hl1

theorem addNew_cons (acc : List Nat) (h : Nat) (l : List Nat) :
    addNew acc (h :: l) = addNew (if h ∈ acc then acc else acc ++ [h]) l := rfl

theorem ownerOf_of_inv {H0 H : List (Option Infoset)} {seen : List Nat}
    (hd : ∀ t, deref H t =
      if t ∈ seen then (deref H0 t).map (setId (seen.indexOf t + 1)) else deref H0 t)
    (t : Nat) : ownerOf H t = ownerOf H0 t := by
  unfold ownerOf
  rw [hd t]
  by_cases ht : t ∈ seen
  · simp only [ht, if_true]
    cases deref H0 t <;> rfl
  · simp [ht]

theorem place_spec (nodes : List (Option Node)) (pl : Nat) (H0 : List (Option Infoset))
    (l0 C : List Nat) (hCl : C.length ≤ l0.length)
    (hzero : ∀ h ∈ C, ∀ si, deref H0 h = .ok si → si.m_id = 0) :
    ∀ (nl : List Nat) (H : List (Option Infoset)) (l seen : List Nat),
      PlaceInv H0 l0 C H l seen →
      (∀ n ∈ nl, ∃ x, deref nodes n = .ok x ∧ ∀ h, x.infoset = some h →
        ∃ si, deref H0 h = .ok si ∧ (si.m_player = pl → h ∈ C)) →
      ∃ H1 l1, SortInfosets.place nodes pl nl (H, l, seen.length) =
          .ok (H1, l1, (addNew seen (refs nodes H0 pl nl)).length) ∧
        PlaceInv H0 l0 C H1 l1 (addNew seen (refs nodes H0 pl nl)) := by
  intro nl
  induction nl with
  | nil =>
    intro H l seen hinv _
    exact ⟨H, l, rfl, hinv⟩
  | cons n nl ih =>
    intro H l seen hinv hlive
    obtain ⟨x, hx, hxi⟩ := hlive n (List.mem_cons_self _ _)
    have hrest := fun m hm => hlive m (List.mem_cons_of_mem _ hm)
    obtain ⟨hlen, hd, hl, hnd, hsub⟩ := hinv
    cases hi : x.infoset with
    | none =>
      have hr : refs nodes H0 pl (n :: nl) = refs nodes H0 pl nl := by
        simp [refs, infosetOf, hx, hi]
      rw [hr]
      obtain ⟨H1, l1, h1, h2⟩ := ih H l seen ⟨hlen, hd, hl, hnd, hsub⟩ hrest
      refine ⟨H1, l1, ?_, h2⟩
      simp only [SortInfosets.place, hx, ok_bind, hi]
      exact h1
    | some h =>
      obtain ⟨si0, hsi0, hcand⟩ := hxi h hi
      have hown : ownerOf H0 h = some si0.m_player := by simp [ownerOf, hsi0]
      by_cases hp : si0.m_player = pl
      · have hhC := hcand hp
        have hid0 := hzero h hhC si0 hsi0
        by_cases hseen : h ∈ seen
        · -- already numbered: the id is not zero
          have hr : refs nodes H0 pl (n :: nl) = h :: refs nodes H0 pl nl := by
            simp [refs, infosetOf, hx, hi, hown, hp]
          rw [hr, addNew_cons]
          simp only [hseen, if_true]
          obtain ⟨H1, l1, h1, h2⟩ := ih H l seen ⟨hlen, hd, hl, hnd, hsub⟩ hrest
          refine ⟨H1, l1, ?_, h2⟩
          have hsi : deref H h = .ok (setId (seen.indexOf h + 1) si0) := by
            rw [hd h]; simp [hseen, hsi0, Except.map]
          simp only [SortInfosets.place, hx, ok_bind, hi, hsi, setId, Nat.add_one_ne_zero,
            and_false, if_false]
          exact h1
        · have hr : refs nodes H0 pl (n :: nl) = h :: refs nodes H0 pl nl := by
            simp [refs, infosetOf, hx, hi, hown, hp]
          rw [hr, addNew_cons]
          simp only [hseen, if_false]
          have hsi : deref H h = .ok si0 := by
            rw [hd h]; simp [hseen, hsi0]
          have hnd' : (seen ++ [h]).Nodup := by
            rw [List.nodup_append]
            exact ⟨hnd, List.nodup_singleton _, by
              intro a ha hb
              simp only [List.mem_singleton] at hb
              subst hb
              exact hseen ha⟩
          have hsub' : seen ++ [h] ⊆ C := by
            intro a ha
            rcases List.mem_append.1 ha with ha | ha
            · exact hsub ha
            · simp only [List.mem_singleton] at ha; subst ha; exact hhC
          have hbound : seen.length + 1 ≤ l0.length := by
            have := (List.subperm_of_subset hnd' hsub').length_le
            simp only [List.length_append, List.length_singleton] at this
            omega
          have hlt : seen.length < l.length := by
            rw [hl]; simp; omega
          have hset : gSet l (seen.length + 1) h = .ok (l.set seen.length h) := by
            simp [gSet, hlt]
          have hinv' : PlaceInv H0 l0 C
              (store H h { si0 with m_id := seen.length + 1 })
              (l.set seen.length h) (seen ++ [h]) := by
            refine ⟨by simpa using hlen, fun t => ?_, ?_, hnd', hsub'⟩
            · rw [deref_store _ _ (deref_lt hsi)]
              by_cases hth : t = h
              · subst hth
                simp [hsi0, Except.map, setId, List.indexOf_append_of_not_mem hseen]
              · simp only [hth, if_false, List.mem_append, List.mem_singleton, or_false]
                rw [hd t]
                by_cases hts : t ∈ seen
                · simp [hts, List.indexOf_append_of_mem hts]
                · simp [hts]
            · rw [hl, List.set_append_right _ _ (Nat.le_refl _)]
              simp only [Nat.sub_self, List.length_append, List.length_singleton,
                List.append_assoc, List.singleton_append]
              congr 1
              have : seen.length < l0.length := by omega
              rw [List.drop_eq_getElem_cons this, List.set_cons_zero]
          obtain ⟨H1, l1, h1, h2⟩ := ih _ _ _ hinv' hrest
          refine ⟨H1, l1, ?_, h2⟩
          have hl' : (seen ++ [h]).length = seen.length + 1 := by simp
          rw [hl'] at h1
          simp only [SortInfosets.place, hx, ok_bind, hi, hsi]
          rw [if_pos ⟨hp, hid0⟩]
          simp only [hset, ok_bind]
          exact h1
      · have hr : refs nodes H0 pl (n :: nl) = refs nodes H0 pl nl := by
          simp [refs, infosetOf, hx, hi, hown, hp]
        rw [hr]
        obtain ⟨H1, l1, h1, h2⟩ := ih H l seen ⟨hlen, hd, hl, hnd, hsub⟩ hrest
        refine ⟨H1, l1, ?_, h2⟩
        have hsi : ∃ si, deref H h = .ok si ∧ si.m_player = si0.m_player := by
          rw [hd h]
          by_cases hs : h ∈ seen
          · exact ⟨setId (seen.indexOf h + 1) si0, by simp [hs, hsi0, Except.map], rfl⟩
          · exact ⟨si0, by simp [hs, hsi0], rfl⟩
        obtain ⟨si, hsi, hpe⟩ := hsi
        simp only [SortInfosets.place, hx, ok_bind, hi, hsi, hpe, hp, false_and, if_false]
        exact h1

theorem numberAll_append :
    ∀ (l1 l2 : List Nat) (i : Nat) (nodes : List (Option Node)),
      numberAll (l1 ++ l2) i nodes = numberAll l2 (i + l1.length) (numberAll l1 i nodes) := by
  intro l1
  induction l1 with
  | nil => intro l2 i nodes; rfl
  | cons a l1 ih =>
    intro l2 i nodes
    show numberAll (l1 ++ l2) (i + 1) (numberStep i nodes a) = _
    rw [ih]
    simp only [numberAll, List.length_cons]
    congr 1
    omega

theorem childrenOf_numberStep (i : Nat) (nodes : List (Option Node)) (a m : Nat) :
    childrenOf (numberStep i nodes a) m = childrenOf nodes m := by
  unfold numberStep
  cases ha : deref nodes a with
  | error e => rfl
  | ok x => exact @childrenOf_store nodes a x (setNumber i x) ha rfl m

theorem numberStep_length (i : Nat) (nodes : List (Option Node)) (a : Nat) :
    (numberStep i nodes a).length = nodes.length := by
  unfold numberStep
  cases deref nodes a <;> simp

theorem deref_numberStep (i : Nat) (nodes : List (Option Node)) (a m : Nat) :
    deref (numberStep i nodes a) m =
      if m = a then (deref nodes m).map (setNumber i) else deref nodes m := by
  unfold numberStep
  cases ha : deref nodes a with
  | error e =>
    by_cases hma : m = a
    · subst hma; simp [ha, Except.map]
    · simp [hma]
  | ok x =>
    simp only []
    rw [deref_store _ _ (deref_lt ha)]
    by_cases hma : m = a
    · subst hma; simp [ha, Except.map]
    · simp [hma]

theorem childrenOf_numberAll :
    ∀ (l : List Nat) (i : Nat) (nodes : List (Option Node)) (m : Nat),
      childrenOf (numberAll l i nodes) m = childrenOf nodes m := by
  intro l
  induction l with
  | nil => intro i nodes m; rfl
  | cons a l ih =>
    intro i nodes m
    simp only [numberAll]
    rw [ih, childrenOf_numberStep]

theorem numberAll_length :
    ∀ (l : List Nat) (i : Nat) (nodes : List (Option Node)),
      (numberAll l i nodes).length = nodes.length := by
  intro l
  induction l with
  | nil => intro i nodes; rfl
  | cons a l ih =>
    intro i nodes
    simp only [numberAll]
    rw [ih, numberStep_length]

theorem deref_numberAll :
    ∀ (l : List Nat) (i : Nat) (nodes : List (Option Node)) (m : Nat), l.Nodup →
      deref (numberAll l i nodes) m =
        if m ∈ l then (deref nodes m).map (setNumber (i + l.indexOf m)) else deref nodes m := by
  intro l
  induction l with
  | nil => intro i nodes m _; simp [numberAll]
  | cons a l ih =>
    intro i nodes m hnd
    have hnd' := List.nodup_cons.1 hnd
    simp only [numberAll]
    rw [ih _ _ m hnd'.2, deref_numberStep]
    by_cases hma : m = a
    · subst hma; simp [hnd'.1]
    · by_cases hml : m ∈ l
      · have e : i + 1 + l.indexOf m = i + (a :: l).indexOf m := by
          rw [List.indexOf_cons_ne _ (Ne.symm hma)]
          omega
        simp only [hml, if_true, hma, if_false, List.mem_cons, or_true, e]
      · simp [hml, hma]

/-- `NumberNodes` numbers the nodes of the preorder list consecutively. -/
theorem NumberNodes_eq :
    ∀ (fuel n : Nat) (nodes : List (Option Node)) (i : Nat) (l : List Nat),
      NDoChild nodes fuel n [] = .ok l →
      NumberNodes fuel n (nodes, i) = .ok (numberAll l i nodes, i + l.length) := by
  intro fuel
  induction fuel with
  | zero => intro n nodes i l h; cases h
  | succ fuel ih =>
    intro n nodes i l h
    obtain ⟨x, ls, hx, hls, rfl⟩ := NDoChild_ok nodes fuel n l h
    have key : ∀ (cs : List Nat) (ls : List (List Nat)),
        List.Forall₂ (fun c lc => NDoChild nodes fuel c [] = .ok lc) cs ls →
        ∀ (h1 : List (Option Node)) (j : Nat), (∀ m, childrenOf h1 m = childrenOf nodes m) →
          cs.foldlM (fun st c => NumberNodes fuel c st) (h1, j) =
            .ok (numberAll ls.flatten j h1, j + ls.flatten.length) := by
      intro cs ls hf
      induction hf with
      | nil => intro h1 j _; rfl
      | @cons c lc cs ls hc _ ihf =>
        intro h1 j hsame
        simp only [List.foldlM_cons, List.flatten_cons]
        rw [ih c h1 j lc (by rw [NDoChild_congr hsame]; exact hc), ok_bind, numberAll_append,
          ihf _ _ (fun m => by rw [childrenOf_numberAll, hsame])]
        simp only [List.length_append]
        congr 2
        omega
    have h0 : store nodes n { x with number := i } = numberStep i nodes n := by
      simp [numberStep, hx, setNumber]
    simp only [NumberNodes, hx, ok_bind]
    rw [h0, key x.children ls hls _ _ (fun m => childrenOf_numberStep i nodes n m)]
    simp only [numberAll, List.length_cons]
    congr 2
    omega

theorem mem_addNew (x : Nat) : ∀ (l acc : List Nat), x ∈ addNew acc l ↔ x ∈ acc ∨ x ∈ l := by
  intro l
  induction l with
  | nil => intro acc; simp [addNew]
  | cons h l ih =>
    intro acc
    rw [addNew_cons, ih]
    by_cases hh : h ∈ acc
    · simp only [hh, if_true, List.mem_cons]
      constructor
      · rintro (h1 | h1)
        · exact Or.inl h1
        · exact Or.inr (Or.inr h1)
      · rintro (h1 | h1 | h1)
        · exact Or.inl h1
        · subst h1; exact Or.inl hh
        · exact Or.inr h1
    · simp only [hh, if_false, List.mem_append, List.mem_singleton, List.mem_cons]
      tauto

theorem playerRep_setPlayerRep (g : efgGame) (pl : Nat) (p x : Player)
    (hp : g.playerRep pl = .ok p) (q : Nat) :
    (g.setPlayerRep pl x).playerRep q = if q = pl then .ok x else g.playerRep q := by
  unfold efgGame.playerRep efgGame.setPlayerRep at *
  by_cases hpl : pl = 0
  · subst hpl
    by_cases hq : q = 0
    · simp [hq]
    · simp [hq]
  · simp only [hpl, if_false] at hp ⊢
    have hlt : pl - 1 < g.players.length := by
      by_contra hn
      rw [List.getElem?_eq_none (by omega)] at hp
      cases hp
    by_cases hq : q = 0
    · subst hq
      have : (0 : Nat) ≠ pl := fun h => hpl h.symm
      simp [this]
    · by_cases hqp : q = pl
      · subst hqp
        simp [hq, hlt]
      · have : pl - 1 ≠ q - 1 := by omega
        simp [hq, hqp, List.getElem?_set_ne this]

theorem setPlayerRep_nodes (g : efgGame) (pl : Nat) (x : Player) :
    (g.setPlayerRep pl x).nodes = g.nodes := by
  unfold efgGame.setPlayerRep; split <;> rfl

theorem setPlayerRep_infosets (g : efgGame) (pl : Nat) (x : Player) :
    (g.setPlayerRep pl x).infosets = g.infosets := by
  unfold efgGame.setPlayerRep; split <;> rfl

theorem setPlayerRep_root (g : efgGame) (pl : Nat) (x : Player) :
    (g.setPlayerRep pl x).root = g.root := by
  unfold efgGame.setPlayerRep; split <;> rfl

theorem setPlayerRep_sortisets (g : efgGame) (pl : Nat) (x : Player) :
    (g.setPlayerRep pl x).sortisets = g.sortisets := by
  unfold efgGame.setPlayerRep; split <;> rfl

theorem setPlayerRep_scalars (g : efgGame) (pl : Nat) (x : Player) :
    scalars (g.setPlayerRep pl x) = scalars g := by
  unfold efgGame.setPlayerRep; split <;> rfl

theorem setPlayerRep_players_length (g : efgGame) (pl : Nat) (x : Player) :
    (g.setPlayerRep pl x).players.length = g.players.length := by
  unfold efgGame.setPlayerRep; split <;> simp

theorem emptyIn_of_sameUpToId {H H1 : List (Option Infoset)} (h : SameUpToId H H1) (s : Nat) :
    emptyIn H1 s = emptyIn H s := by
  have := h.2 s
  unfold emptyIn
  cases h1 : deref H1 s <;> cases h2 : deref H s <;> simp [h1, h2, Except.map, setId] at this ⊢
  rw [this.2.2.2.2]

theorem ownerOf_of_sameUpToId {H H1 : List (Option Infoset)} (h : SameUpToId H H1) (s : Nat) :
    ownerOf H1 s = ownerOf H s := by
  have := h.2 s
  unfold ownerOf
  cases h1 : deref H1 s <;> cases h2 : deref H s <;> simp [h1, h2, Except.map, setId] at this ⊢
  exact this.1

theorem refs_of_sameUpToId {H H1 : List (Option Infoset)} (h : SameUpToId H H1)
    (nodes : List (Option Node)) (pl : Nat) (l : List Nat) :
    refs nodes H1 pl l = refs nodes H pl l := by
  unfold refs
  congr 1
  funext n
  cases infosetOf nodes n with
  | none => rfl
  | some s => simp only [ownerOf_of_sameUpToId h]

theorem emptyIn_eq_true {H : List (Option Infoset)} {s : Nat} {si : Infoset}
    (hs : deref H s = .ok si) : emptyIn H s = true ↔ si.m_members.length = 0 := by
  simp [emptyIn, hs]

theorem emptyIn_eq_false {H : List (Option Infoset)} {s : Nat} {si : Infoset}
    (hs : deref H s = .ok si) : emptyIn H s = false ↔ si.m_members.length ≠ 0 := by
  simp [emptyIn, hs]

theorem moveEmpty_whole (H : List (Option Infoset)) (l0 : List Nat)
    (hlive : ∀ s ∈ l0, ∃ si, deref H s = .ok si) :
    ∃ l1 A B, SortInfosets.moveEmpty H (l0.length - 1) 1 l0 = .ok l1 ∧ l1.Perm l0 ∧
      l1 = A ++ B ∧ (∀ s ∈ A, emptyIn H s = false) ∧ (∀ s ∈ B, emptyIn H s = true) := by
  by_cases h0 : l0 = []
  · subst h0
    exact ⟨[], [], [], rfl, List.Perm.refl _, rfl, by simp, by simp⟩
  · have hpos : 0 < l0.length := List.length_pos.2 h0
    obtain ⟨l1, h1, hp, A, B, hAB, hA, hB⟩ := moveEmpty_spec H (l0.length - 1) 0 l0 (by omega)
      hlive (fun j hj => by omega)
      (fun j hj s hs => by
        rw [List.getElem?_eq_none (by omega)] at hs
        cases hs)
    exact ⟨l1, A, B, h1, hp, hAB, hA, hB⟩

theorem indexOf_append_left {l1 l2 : List Nat} {t : Nat} (h : t ∈ l1) :
    (l1 ++ l2).indexOf t = l1.indexOf t := List.indexOf_append_of_mem h

theorem indexOf_append_right {l1 l2 : List Nat} {t : Nat} (h : t ∉ l1) :
    (l1 ++ l2).indexOf t = l1.length + l2.indexOf t := List.indexOf_append_of_not_mem h

/-- The body of the first loop of `SortInfosets` for one player of a well-formed
game: the player's list becomes the infosets first met in preorder followed by
the empty ones, every infoset in the list gets its position as id, and nothing
else changes. -/
theorem sortPlayer_spec (g : efgGame) (L : List Nat) (pl : Nat) (p : Player)
    (hwf : WellFormed g L) (hp : g.playerRep pl = .ok p) :
    ∃ H1 B, SortInfosets.sortPlayer g pl =
        .ok (({ g with infosets := H1 } : efgGame).setPlayerRep pl
          { p with m_infosets := firstMet g L pl ++ B }) ∧
      H1.length = g.infosets.length ∧
      (firstMet g L pl ++ B).Perm p.m_infosets ∧
      (∀ s ∈ B, emptyIn g.infosets s = true) ∧
      (∀ s ∈ firstMet g L pl, emptyIn g.infosets s = false) ∧
      (∀ t, deref H1 t =
        if t ∈ p.m_infosets then
          (deref g.infosets t).map (setId ((firstMet g L pl ++ B).indexOf t + 1))
        else deref g.infosets t) := by
  obtain ⟨hnd0, hlist⟩ := hwf.lists pl p hp
  have hlive0 : ∀ s ∈ p.m_infosets, ∃ si, deref g.infosets s = .ok si := fun s hs => by
    obtain ⟨si, h, _⟩ := hlist s hs; exact ⟨si, h⟩
  obtain ⟨l1, A, B, hme, hperm, hAB, hA, hB⟩ := moveEmpty_whole g.infosets p.m_infosets hlive0
  have hnd1 : l1.Nodup := hperm.nodup_iff.2 hnd0
  have hmem1 : ∀ s, s ∈ l1 ↔ s ∈ p.m_infosets := fun s => hperm.mem_iff
  obtain ⟨Ha, hne, hlena, hda⟩ := numberEmpty_spec l1 g.infosets 1 hnd1
    (fun s hs => hlive0 s ((hmem1 s).1 hs))
  have hndAB : (A ++ B).Nodup := hAB ▸ hnd1
  have hdisj : ∀ s, s ∈ A → s ∉ B := fun s ha hb =>
    (List.nodup_append.1 hndAB).2.2 ha hb
  -- the ids after the second loop
  have hzero : ∀ h ∈ A, ∀ si, deref Ha h = .ok si → si.m_id = 0 := by
    intro h hh si hsi
    have hl1 : h ∈ l1 := by rw [hAB]; exact List.mem_append_left _ hh
    obtain ⟨s0, hs0⟩ := hlive0 h ((hmem1 h).1 hl1)
    rw [hda h] at hsi
    simp only [hl1, if_true, hs0, Except.map, Except.ok.injEq] at hsi
    have := (emptyIn_eq_false hs0).1 (hA h hh)
    rw [← hsi]
    simp [this]
  have hsame : SameUpToId g.infosets Ha := by
    refine ⟨hlena, fun t => ?_⟩
    rw [hda t]
    by_cases ht : t ∈ l1
    · simp only [ht, if_true]
      cases deref g.infosets t <;> rfl
    · simp [ht]
  have hinv0 : PlaceInv Ha l1 A Ha l1 [] :=
    ⟨rfl, fun t => by simp, by simp, List.nodup_nil, by simp⟩
  have hcand : ∀ n ∈ L, ∃ x, deref g.nodes n = .ok x ∧ ∀ h, x.infoset = some h →
      ∃ si, deref Ha h = .ok si ∧ (si.m_player = pl → h ∈ A) := by
    intro n hn
    obtain ⟨x, hx⟩ := hwf.live n hn
    refine ⟨x, hx, fun h hxh => ?_⟩
    obtain ⟨si, q, hsi, hnm, hq, hsq⟩ := hwf.fwd n hn h (by simp [infosetOf, hx, hxh])
    have hown := ownerOf_of_sameUpToId hsame h
    simp only [ownerOf, hsi] at hown
    cases hsa : deref Ha h with
    | error e => simp [hsa] at hown
    | ok sa =>
      simp only [hsa, Option.some.injEq] at hown
      refine ⟨sa, rfl, fun hpl => ?_⟩
      rw [hown] at hpl
      rw [hpl, hp] at hq
      cases hq
      have hl1 : h ∈ A ++ B := by rw [← hAB]; exact (hmem1 h).2 hsq
      rcases List.mem_append.1 hl1 with ha | hb
      · exact ha
      · have := (emptyIn_eq_true hsi).1 (hB h hb)
        rw [List.length_eq_zero] at this
        rw [this] at hnm
        cases hnm
  have hCl : A.length ≤ l1.length := by rw [hAB]; simp
  obtain ⟨H2, l2, hplace, hinv⟩ := place_spec g.nodes pl Ha l1 A hCl hzero L Ha l1 [] hinv0 hcand
  have hF : addNew [] (refs g.nodes Ha pl L) = firstMet g L pl := by
    unfold firstMet
    rw [refs_of_sameUpToId hsame]
  rw [hF] at hplace hinv
  obtain ⟨hlen2, hd2, hl2, hndF, hsubF⟩ := hinv
  -- every non-empty infoset of the list is met
  have hAF : A ⊆ firstMet g L pl := by
    intro s hs
    have hl0 : s ∈ p.m_infosets := (hmem1 s).1 (by rw [hAB]; exact List.mem_append_left _ hs)
    obtain ⟨si, hsi, hpl, _, hmem⟩ := hlist s hl0
    have hne := (emptyIn_eq_false hsi).1 (hA s hs)
    obtain ⟨m, hm⟩ := List.exists_mem_of_length_pos (Nat.pos_of_ne_zero hne)
    obtain ⟨hmL, hms⟩ := hmem m hm
    unfold firstMet
    rw [mem_addNew]
    right
    unfold refs
    rw [List.mem_filterMap]
    exact ⟨m, hmL, by simp [hms, ownerOf, hsi, hpl]⟩
  have hndA : A.Nodup := (List.nodup_append.1 hndAB).1
  have hlenF : (firstMet g L pl).length = A.length :=
    Nat.le_antisymm (List.subperm_of_subset hndF hsubF).length_le
      (List.subperm_of_subset hndA hAF).length_le
  have hpermF : (firstMet g L pl).Perm A :=
    (List.perm_ext_iff_of_nodup hndF hndA).2 (fun s => ⟨fun h => hsubF h, fun h => hAF h⟩)
  have hl2' : l2 = firstMet g L pl ++ B := by
    rw [hl2, hAB, hlenF, List.drop_left]
  subst hl2'
  refine ⟨H2, B, ?_, by rw [hlen2, hlena], ?_, hB, fun s hs => hA s (hsubF hs), fun t => ?_⟩
  · simp only [SortInfosets.sortPlayer, hwf.nodes_ok, ok_bind, hp, hme, hne, pure_eq_ok]
    have hplace' := hplace
    simp only [List.length_nil] at hplace'
    rw [hplace']
    rfl
  · exact ((hpermF.append_right B).trans (hAB ▸ List.Perm.refl _)).trans hperm
  · rw [hd2 t]
    by_cases htF : t ∈ firstMet g L pl
    · have htA : t ∈ A := hsubF htF
      have htl1 : t ∈ l1 := by rw [hAB]; exact List.mem_append_left _ htA
      have htl0 : t ∈ p.m_infosets := (hmem1 t).1 htl1
      simp only [htF, if_true, htl0, hda t, htl1, indexOf_append_left htF]
      cases deref g.infosets t <;> rfl
    · simp only [htF, if_false, hda t]
      by_cases htl1 : t ∈ l1
      · have htl0 : t ∈ p.m_infosets := (hmem1 t).1 htl1
        have htB : t ∈ B := by
          rw [hAB] at htl1
          rcases List.mem_append.1 htl1 with h | h
          · exact absurd (hAF h) htF
          · exact h
        have htA : t ∉ A := fun h => htF (hAF h)
        obtain ⟨si, hsi⟩ := hlive0 t htl0
        have hemp := (emptyIn_eq_true hsi).1 (hB t htB)
        have e : l1.indexOf t = A.length + B.indexOf t := by
          rw [hAB]; exact indexOf_append_right htA
        simp only [htl1, if_true, htl0, hsi, Except.map, hemp, indexOf_append_right htF, hlenF, e]
        rw [show 1 + (A.length + B.indexOf t) = A.length + B.indexOf t + 1 from by omega]
        rfl
      · have htl0 : t ∉ p.m_infosets := fun h => htl1 ((hmem1 t).2 h)
        simp [htl1, htl0]

theorem Nodes_congr (g g1 : efgGame) (hn : g1.nodes = g.nodes) (hr : g1.root = g.root) :
    Nodes g1 = Nodes g := by
  unfold Nodes
  rw [hn, hr]

theorem firstMet_congr (g g1 : efgGame) (L : List Nat) (pl : Nat) (hn : g1.nodes = g.nodes)
    (hs : SameUpToId g.infosets g1.infosets) : firstMet g1 L pl = firstMet g L pl := by
  unfold firstMet
  rw [hn, refs_of_sameUpToId hs]

theorem SameUpToId.refl (H : List (Option Infoset)) : SameUpToId H H := ⟨rfl, fun _ => rfl⟩

theorem SameUpToId.trans {H1 H2 H3 : List (Option Infoset)} (h12 : SameUpToId H1 H2)
    (h23 : SameUpToId H2 H3) : SameUpToId H1 H3 :=
  ⟨h23.1.trans h12.1, fun t => (h23.2 t).trans (h12.2 t)⟩

theorem playerRep_eq_ok_infosets (g : efgGame) (H : List (Option Infoset)) (pl : Nat) :
    ({ g with infosets := H } : efgGame).playerRep pl = g.playerRep pl := rfl

theorem playerRep_isOk (g : efgGame) (k : Nat) :
    (∃ p, g.playerRep k = .ok p) ↔ k ≤ g.players.length := by
  unfold efgGame.playerRep
  by_cases hk : k = 0
  · simp [hk]
  · simp only [hk, if_false]
    constructor
    · rintro ⟨p, hp⟩
      by_contra hn
      rw [List.getElem?_eq_none (by omega)] at hp
      cases hp
    · intro hle
      have hlt : k - 1 < g.players.length := by omega
      exact ⟨g.players[k - 1], by rw [List.getElem?_eq_getElem hlt]⟩

/-- One round of the first loop of `SortInfosets` keeps the invariants and sorts
player `k`. -/
theorem sortPlayer_step (g0 g : efgGame) (L : List Nat) (k : Nat) (p : Player)
    (hinv : SortedUpTo g0 g L k) (hp : g.playerRep k = .ok p) :
    ∃ g1, SortInfosets.sortPlayer g k = .ok g1 ∧ SortedUpTo g0 g1 L (k + 1) := by
  obtain ⟨H1, B, hsp, hlen, hperm, hB, hF, hd⟩ := sortPlayer_spec g L k p hinv.wf hp
  obtain ⟨hnd0, hlist⟩ := hinv.wf.lists k p hp
  have hsame1 : SameUpToId g.infosets H1 := by
    refine ⟨hlen, fun t => ?_⟩
    rw [hd t]
    by_cases ht : t ∈ p.m_infosets
    · simp only [ht, if_true]
      cases deref g.infosets t <;> rfl
    · simp [ht]
  have hFeq : firstMet g L k = firstMet g0 L k := firstMet_congr g0 g L k hinv.nodes hinv.same
  refine ⟨_, hsp, ?_⟩
  generalize hg1 : (({ g with infosets := H1 } : efgGame).setPlayerRep k
    { p with m_infosets := firstMet g L k ++ B }) = g1
  have hn1 : g1.nodes = g.nodes := by rw [← hg1, setPlayerRep_nodes]
  have hr1 : g1.root = g.root := by rw [← hg1, setPlayerRep_root]
  have hi1 : g1.infosets = H1 := by rw [← hg1, setPlayerRep_infosets]
  have hpr1 : ∀ q, g1.playerRep q =
      if q = k then .ok { p with m_infosets := firstMet g L k ++ B } else g.playerRep q := by
    intro q
    rw [← hg1]
    exact playerRep_setPlayerRep ({ g with infosets := H1 } : efgGame) k p _ hp q
  -- an infoset in the list of another player is not touched
  have hother : ∀ q pq, q ≠ k → g.playerRep q = .ok pq → ∀ s ∈ pq.m_infosets,
      deref H1 s = deref g.infosets s := by
    intro q pq hqk hpq s hs
    rw [hd s]
    have : s ∉ p.m_infosets := by
      intro hsp
      obtain ⟨si, hsi, hown, _⟩ := hlist s hsp
      obtain ⟨si', hsi', hown', _⟩ := (hinv.wf.lists q pq hpq).2 s hs
      rw [hsi] at hsi'
      cases hsi'
      exact hqk (hown'.symm.trans hown)
    simp [this]
  have hwf1 : WellFormed g1 L := by
    refine ⟨?_, hinv.wf.nodup, ?_, ?_, ?_⟩
    · rw [Nodes_congr g g1 hn1 hr1]; exact hinv.wf.nodes_ok
    · rw [hn1]; exact hinv.wf.live
    · intro n hn s hs
      rw [hn1] at hs
      obtain ⟨si, q, hsi, hnm, hq, hsq⟩ := hinv.wf.fwd n hn s hs
      rw [hi1]
      by_cases hsp' : s ∈ p.m_infosets
      · obtain ⟨si', hsi', hown, _⟩ := hlist s hsp'
        rw [hsi] at hsi'
        cases hsi'
        refine ⟨setId ((firstMet g L k ++ B).indexOf s + 1) si,
          { p with m_infosets := firstMet g L k ++ B }, ?_, hnm, ?_, ?_⟩
        · rw [hd s]; simp [hsp', hsi, Except.map]
        · show g1.playerRep si.m_player = _
          rw [hpr1, hown]; simp
        · exact hperm.mem_iff.2 hsp'
      · have hqk : si.m_player ≠ k := by
          intro h
          rw [h, hp] at hq
          cases hq
          exact hsp' hsq
        refine ⟨si, q, ?_, hnm, ?_, hsq⟩
        · rw [hd s]; simp [hsp', hsi]
        · rw [hpr1]; simp [hqk, hq]
    · intro pl q hq
      rw [hpr1] at hq
      by_cases hpk : pl = k
      · subst hpk
        simp only [if_true, Except.ok.injEq] at hq
        subst hq
        refine ⟨hperm.nodup_iff.2 hnd0, fun s hs => ?_⟩
        have hsp' : s ∈ p.m_infosets := hperm.mem_iff.1 hs
        obtain ⟨si, hsi, hown, hmnd, hmem⟩ := hlist s hsp'
        refine ⟨setId ((firstMet g L pl ++ B).indexOf s + 1) si, ?_, hown, hmnd, ?_⟩
        · rw [hi1, hd s]; simp [hsp', hsi, Except.map]
        · rw [hn1]; exact hmem
      · simp only [hpk, if_false] at hq
        obtain ⟨hndq, hlq⟩ := hinv.wf.lists pl q hq
        refine ⟨hndq, fun s hs => ?_⟩
        obtain ⟨si, hsi, hown, hmnd, hmem⟩ := hlq s hs
        refine ⟨si, ?_, hown, hmnd, ?_⟩
        · rw [hi1, hother pl q hpk hq s hs]; exact hsi
        · rw [hn1]; exact hmem
  have hp0k : ∃ p0, g0.playerRep k = .ok p0 := by
    rw [playerRep_isOk, ← hinv.nplayers, ← playerRep_isOk]
    exact ⟨p, hp⟩
  refine ⟨hn1.trans hinv.nodes, hr1.trans hinv.root, ?_, ?_, hwf1, ?_, ?_, ?_, ?_⟩
  · rw [← hg1, setPlayerRep_players_length]; exact hinv.nplayers
  · rw [← hg1, setPlayerRep_scalars]; exact hinv.scalars
  · rw [hi1]; exact hinv.same.trans hsame1
  · intro pl p0 hp0
    obtain ⟨q, hq, hlab, hpq⟩ := hinv.lists pl p0 hp0
    by_cases hpk : pl = k
    · subst hpk
      rw [hp] at hq
      cases hq
      exact ⟨{ p with m_infosets := firstMet g L pl ++ B }, by rw [hpr1]; simp, hlab,
        hperm.trans hpq⟩
    · exact ⟨q, by rw [hpr1]; simp [hpk, hq], hlab, hpq⟩
  · intro t ht
    rw [hi1, hd t]
    have : t ∉ p.m_infosets := by
      intro hsp'
      obtain ⟨p0, hp0⟩ := hp0k
      obtain ⟨q, hq, _, hpq⟩ := hinv.lists k p0 hp0
      rw [hp] at hq
      cases hq
      exact ht k p0 hp0 (hpq.mem_iff.1 hsp')
    simp only [this, if_false]
    exact hinv.unlisted t ht
  · intro pl hpl q hq
    rw [hpr1] at hq
    by_cases hpk : pl = k
    · subst hpk
      simp only [if_true, Except.ok.injEq] at hq
      subst hq
      refine ⟨B, by rw [hFeq], fun s hs => ?_, fun s hs => ?_⟩
      · rw [← emptyIn_of_sameUpToId hinv.same]; exact hB s hs
      · have hsp' : s ∈ p.m_infosets := hperm.mem_iff.1 hs
        obtain ⟨si, hsi, _⟩ := hlist s hsp'
        refine ⟨setId ((firstMet g L pl ++ B).indexOf s + 1) si, ?_, rfl⟩
        rw [hi1, hd s]; simp [hsp', hsi, Except.map]
    · simp only [hpk, if_false] at hq
      obtain ⟨B', h1, h2, h3⟩ := hinv.done pl (by omega) q hq
      refine ⟨B', h1, h2, fun s hs => ?_⟩
      obtain ⟨si, hsi, hid⟩ := h3 s hs
      exact ⟨si, by rw [hi1, hother pl q hpk hq s hs]; exact hsi, hid⟩

theorem sortPlayers_spec (g0 : efgGame) (L : List Nat) :
    ∀ (k pl : Nat) (g : efgGame), SortedUpTo g0 g L pl → pl + k ≤ g0.players.length + 1 →
      ∃ g1, SortInfosets.sortPlayers k pl g = .ok g1 ∧ SortedUpTo g0 g1 L (pl + k) := by
  intro k
  induction k with
  | zero => intro pl g hinv _; exact ⟨g, rfl, hinv⟩
  | succ k ih =>
    intro pl g hinv hle
    obtain ⟨p, hp⟩ := (playerRep_isOk g pl).2 (by rw [hinv.nplayers]; omega)
    obtain ⟨g1, h1, hinv1⟩ := sortPlayer_step g0 g L pl p hinv hp
    obtain ⟨g2, h2, hinv2⟩ := ih (pl + 1) g1 hinv1 (by omega)
    refine ⟨g2, ?_, by rw [show pl + (k + 1) = pl + 1 + k from by omega]; exact hinv2⟩
    simp only [SortInfosets.sortPlayers, h1, ok_bind]
    exact h2

theorem sortMembers_spec (nodes : List (Option Node)) (L : List Nat)
    (hlive : ∀ n ∈ L, ∃ x, deref nodes n = .ok x) :
    ∀ (ls : List Nat) (H : List (Option Infoset)),
      (∀ s ∈ ls, ∃ si, deref H s = .ok si ∧
        si.m_members.length = (nodesOf nodes s L).length) →
      ∃ H1, SortInfosets.sortMembers nodes L ls H = .ok H1 ∧ H1.length = H.length ∧
        ∀ t, deref H1 t =
          if t ∈ ls then (deref H t).map (setMembers (nodesOf nodes t L)) else deref H t := by
  intro ls
  induction ls with
  | nil => intro H _; exact ⟨H, rfl, rfl, fun t => by simp⟩
  | cons h ls ih =>
    intro H hall
    obtain ⟨si, hsi, hlen⟩ := hall h (List.mem_cons_self _ _)
    have hfill := fillMembers_spec nodes h L si.m_members 0 hlive (by omega)
    simp only [Nat.zero_add, List.take_zero, List.nil_append] at hfill
    rw [← hlen, List.drop_length, List.append_nil] at hfill
    have hlt := deref_lt hsi
    obtain ⟨H1, hH1, hl1, hd1⟩ := ih (store H h (setMembers (nodesOf nodes h L) si))
      (fun s hs => by
        rw [deref_store _ _ hlt]
        by_cases hsh : s = h
        · subst hsh
          exact ⟨setMembers (nodesOf nodes s L) si, by simp, rfl⟩
        · simpa [hsh] using hall s (List.mem_cons_of_mem _ hs))
    refine ⟨H1, ?_, by simpa using hl1, fun t => ?_⟩
    · simp only [SortInfosets.sortMembers, hsi, ok_bind, hfill]
      exact hH1
    · rw [hd1 t, deref_store _ _ hlt]
      by_cases hth : t = h
      · subst hth
        by_cases htl : t ∈ ls <;> simp [htl, hsi, Except.map, setMembers]
      · simp [hth]

theorem sortAllMembers_spec (nodes : List (Option Node)) (L : List Nat)
    (hlive : ∀ n ∈ L, ∃ x, deref nodes n = .ok x) :
    ∀ (ps : List Player) (H : List (Option Infoset)),
      (∀ p ∈ ps, ∀ s ∈ p.m_infosets, ∃ si, deref H s = .ok si ∧
        si.m_members.length = (nodesOf nodes s L).length) →
      ∃ H1, SortInfosets.sortAllMembers nodes L ps H = .ok H1 ∧ H1.length = H.length ∧
        ∀ t, deref H1 t =
          if ∃ p ∈ ps, t ∈ p.m_infosets then
            (deref H t).map (setMembers (nodesOf nodes t L))
          else deref H t := by
  intro ps
  induction ps with
  | nil => intro H _; exact ⟨H, rfl, rfl, fun t => by simp⟩
  | cons p ps ih =>
    intro H hall
    obtain ⟨Ha, hHa, hla, hda⟩ := sortMembers_spec nodes L hlive p.m_infosets H
      (hall p (List.mem_cons_self _ _))
    obtain ⟨H1, hH1, hl1, hd1⟩ := ih Ha (fun q hq s hs => by
      obtain ⟨si, hsi, hlen⟩ := hall q (List.mem_cons_of_mem _ hq) s hs
      rw [hda s, hsi]
      by_cases hsp : s ∈ p.m_infosets
      · exact ⟨setMembers (nodesOf nodes s L) si, by simp [hsp, Except.map],
          by simp [setMembers]⟩
      · exact ⟨si, by simp [hsp], hlen⟩)
    refine ⟨H1, ?_, hl1.trans hla, fun t => ?_⟩
    · simp only [SortInfosets.sortAllMembers, hHa, ok_bind]
      exact hH1
    · rw [hd1 t, hda t]
      by_cases h1 : ∃ q ∈ ps, t ∈ q.m_infosets
      · have h2 : ∃ q ∈ p :: ps, t ∈ q.m_infosets := by
          obtain ⟨q, hq, ht⟩ := h1
          exact ⟨q, List.mem_cons_of_mem _ hq, ht⟩
        simp only [h1, h2, if_true]
        by_cases h3 : t ∈ p.m_infosets
        · simp only [h3, if_true]
          cases deref H t <;> rfl
        · simp [h3]
      · by_cases h3 : t ∈ p.m_infosets
        · have h2 : ∃ q ∈ p :: ps, t ∈ q.m_infosets := ⟨p, List.mem_cons_self _ _, h3⟩
          simp [h1, h2, h3]
        · have h2 : ¬ ∃ q ∈ p :: ps, t ∈ q.m_infosets := by
            rintro ⟨q, hq, ht⟩
            rcases List.mem_cons.1 hq with rfl | hq
            · exact h3 ht
            · exact h1 ⟨q, hq, ht⟩
          simp [h1, h2, h3]

theorem mem_allPlayers (g : efgGame) (p : Player) :
    p ∈ g.chance :: g.players ↔ ∃ pl, g.playerRep pl = .ok p := by
  constructor
  · intro h
    rcases List.mem_cons.1 h with rfl | h
    · exact ⟨0, by simp [efgGame.playerRep]⟩
    · obtain ⟨i, hi, rfl⟩ := List.getElem_of_mem h
      exact ⟨i + 1, by simp [efgGame.playerRep, hi]⟩
  · rintro ⟨pl, hpl⟩
    unfold efgGame.playerRep at hpl
    by_cases h0 : pl = 0
    · simp only [h0, if_true, Except.ok.injEq] at hpl
      rw [← hpl]; exact List.mem_cons_self _ _
    · simp only [h0, if_false] at hpl
      cases hq : g.players[pl - 1]? with
      | none => simp [hq] at hpl
      | some q =>
        simp only [hq, Except.ok.injEq] at hpl
        subst hpl
        exact List.mem_cons_of_mem _ (List.getElem?_mem hq)

theorem mem_nodesOf (nodes : List (Option Node)) (s : Nat) (L : List Nat) (n : Nat) :
    n ∈ nodesOf nodes s L ↔ n ∈ L ∧ infosetOf nodes n = some s := by
  simp [nodesOf]

/-- In a well-formed game the member list of a listed infoset is a rearrangement
of the nodes that refer to it. -/
theorem WellFormed.members_perm {g : efgGame} {L : List Nat} (hwf : WellFormed g L)
    {pl : Nat} {p : Player} (hp : g.playerRep pl = .ok p) {s : Nat} (hs : s ∈ p.m_infosets)
    {si : Infoset} (hsi : deref g.infosets s = .ok si) :
    si.m_members.Perm (nodesOf g.nodes s L) := by
  obtain ⟨_, hl⟩ := hwf.lists pl p hp
  obtain ⟨si', hsi', _, hnd, hmem⟩ := hl s hs
  rw [hsi] at hsi'
  cases hsi'
  refine (List.perm_ext_iff_of_nodup hnd (hwf.nodup.filter _)).2 (fun n => ?_)
  show n ∈ si.m_members ↔ n ∈ nodesOf g.nodes s L
  rw [mem_nodesOf]
  constructor
  · exact fun h => hmem n h
  · rintro ⟨hn, hi⟩
    obtain ⟨si2, _, hsi2, hnm, _⟩ := hwf.fwd n hn s hi
    rw [hsi] at hsi2
    cases hsi2
    exact hnm

theorem infosetOf_congr {nodes1 nodes2 : List (Option Node)}
    (h : ∀ n, (deref nodes1 n).map Node.infoset = (deref nodes2 n).map Node.infoset) (n : Nat) :
    infosetOf nodes1 n = infosetOf nodes2 n := by
  have := h n
  unfold infosetOf
  cases h1 : deref nodes1 n <;> cases h2 : deref nodes2 n <;>
    simp [h1, h2, Except.map] at this ⊢
  exact this

theorem nodesOf_congr {nodes1 nodes2 : List (Option Node)}
    (h : ∀ n, infosetOf nodes1 n = infosetOf nodes2 n) (s : Nat) (L : List Nat) :
    nodesOf nodes1 s L = nodesOf nodes2 s L := by
  unfold nodesOf
  congr 1
  funext n
  rw [h n]

theorem eq_setId_of_map {si si1 : Infoset} (h : setId 0 si1 = setId 0 si) :
    si1 = setId si1.m_id si := by
  cases si
  cases si1
  simp only [setId, Infoset.mk.injEq] at h ⊢
  exact ⟨trivial, h.2⟩

theorem SortedUpTo.init (g : efgGame) (L : List Nat) (hwf : WellFormed g L) :
    SortedUpTo g g L 0 :=
  ⟨rfl, rfl, rfl, rfl, hwf, SameUpToId.refl _,
    fun _ p0 hp0 => ⟨p0, hp0, rfl, List.Perm.refl _⟩, fun _ _ => rfl,
    fun pl hpl => absurd hpl (Nat.not_lt_zero pl)⟩

/-- `SortInfosets` on a well-formed game with sorting enabled returns, and its
result is described by `SortResult`. -/
theorem SortInfosets_spec (g : efgGame) (L : List Nat) (hwf : WellFormed g L)
    (hs : g.sortisets = true) : ∃ g2, SortInfosets g = .ok g2 ∧ SortResult g g2 L := by
  obtain ⟨g1, hg1, hinv⟩ := sortPlayers_spec g L (g.players.length + 1) 0 g
    (SortedUpTo.init g L hwf) (by omega)
  have hwf1 := hinv.wf
  have hN1 : NDoChild g1.nodes g1.nodes.length g1.root [] = .ok L := hwf1.nodes_ok
  -- the member sort
  have hpre : ∀ p ∈ g1.chance :: g1.players, ∀ s ∈ p.m_infosets,
      ∃ si, deref g1.infosets s = .ok si ∧
        si.m_members.length = (nodesOf g1.nodes s L).length := by
    intro p hp s hsp
    obtain ⟨pl, hpl⟩ := (mem_allPlayers g1 p).1 hp
    obtain ⟨si, hsi, _⟩ := (hwf1.lists pl p hpl).2 s hsp
    exact ⟨si, hsi, (hwf1.members_perm hpl hsp hsi).length_eq⟩
  obtain ⟨H2, hH2, hlen2, hd2⟩ := sortAllMembers_spec g1.nodes L hwf1.live
    (g1.chance :: g1.players) g1.infosets hpre
  have hnum := NumberNodes_eq g1.nodes.length g1.root g1.nodes 1 L hN1
  have hdn := fun n => deref_numberAll L 1 g1.nodes n hwf1.nodup
  have hln := numberAll_length L 1 g1.nodes
  generalize hN2 : numberAll L 1 g1.nodes = N2 at hnum hdn hln
  refine ⟨{ g1 with infosets := H2, nodes := N2 }, ?_, ?_⟩
  · have e : (Nodes g1) = .ok L := hwf1.nodes_ok
    have hsp : SortInfosets.sortPlayers (g.players.length + 1) 0 g = .ok g1 := hg1
    simp only [SortInfosets, hs, Bool.not_true, Bool.false_eq_true, if_false, hsp, ok_bind, e,
      hH2, hnum, pure_eq_ok]
  · have hio : ∀ n, infosetOf N2 n = infosetOf g1.nodes n := by
      intro n
      apply infosetOf_congr
      intro m
      rw [hdn m]
      by_cases hm : m ∈ L
      · simp only [hm, if_true]
        cases deref g1.nodes m <;> rfl
      · simp [hm]
    have hco : ∀ m, childrenOf N2 m = childrenOf g1.nodes m := by
      intro m
      rw [← hN2]
      exact childrenOf_numberAll L 1 g1.nodes m
    have hlisted : ∀ pl p, g1.playerRep pl = .ok p → ∀ s ∈ p.m_infosets,
        deref H2 s = (deref g1.infosets s).map (setMembers (nodesOf g1.nodes s L)) := by
      intro pl p hp s hsp
      rw [hd2 s]
      have : ∃ q ∈ g1.chance :: g1.players, s ∈ q.m_infosets :=
        ⟨p, (mem_allPlayers g1 p).2 ⟨pl, hp⟩, hsp⟩
      rw [if_pos this]
    have hwf2 : WellFormed ({ g1 with infosets := H2, nodes := N2 } : efgGame) L := by
      refine ⟨?_, hwf1.nodup, ?_, ?_, ?_⟩
      · show NDoChild N2 N2.length g1.root [] = .ok L
        rw [hln, NDoChild_congr hco]
        exact hN1
      · intro n hn
        obtain ⟨x, hx⟩ := hwf1.live n hn
        show ∃ x, deref N2 n = .ok x
        rw [hdn n, hx]
        simp [hn, Except.map]
      · intro n hn s hsn
        have hsn' : infosetOf g1.nodes n = some s := by rw [← hio n]; exact hsn
        obtain ⟨si, p, hsi, hnm, hp, hsp⟩ := hwf1.fwd n hn s hsn'
        refine ⟨setMembers (nodesOf g1.nodes s L) si, p, ?_, ?_, hp, hsp⟩
        · show deref H2 s = _
          rw [hlisted _ p hp s hsp, hsi]; rfl
        · show n ∈ nodesOf g1.nodes s L
          rw [mem_nodesOf]
          exact ⟨hn, hsn'⟩
      · intro pl p hp
        have hp1 : g1.playerRep pl = .ok p := hp
        obtain ⟨hnd, hl⟩ := hwf1.lists pl p hp1
        refine ⟨hnd, fun s hsp => ?_⟩
        obtain ⟨si, hsi, hown, _, _⟩ := hl s hsp
        refine ⟨setMembers (nodesOf g1.nodes s L) si, ?_, hown, hwf1.nodup.filter _, ?_⟩
        · show deref H2 s = _
          rw [hlisted pl p hp1 s hsp, hsi]; rfl
        · intro m hm
          have hm' : m ∈ nodesOf g1.nodes s L := hm
          rw [mem_nodesOf] at hm'
          exact ⟨hm'.1, by show infosetOf N2 m = some s; rw [hio m]; exact hm'.2⟩
    refine ⟨hwf2, hinv.root, hinv.nplayers, hinv.scalars, ?_, ?_, ?_, ?_, ?_⟩
    · show N2.length = g.nodes.length
      rw [hln, hinv.nodes]
    · intro n
      show deref N2 n = _
      rw [hdn n, hinv.nodes, Nat.add_comm]
    · show H2.length = g.infosets.length
      rw [hlen2, hinv.same.1]
    · intro t ht
      show deref H2 t = _
      rw [hd2 t]
      have : ¬ ∃ q ∈ g1.chance :: g1.players, t ∈ q.m_infosets := by
        rintro ⟨q, hq, htq⟩
        obtain ⟨pl, hpl⟩ := (mem_allPlayers g1 q).1 hq
        obtain ⟨p0, hp0⟩ := (playerRep_isOk g pl).2
          (by rw [← hinv.nplayers]; exact (playerRep_isOk g1 pl).1 ⟨q, hpl⟩)
        obtain ⟨q', hq', _, hperm⟩ := hinv.lists pl p0 hp0
        rw [hpl] at hq'
        cases hq'
        exact ht pl p0 hp0 (hperm.mem_iff.1 htq)
      rw [if_neg this]
      exact hinv.unlisted t ht
    · intro pl p0 hp0
      obtain ⟨p1, hp1, hlab, hperm⟩ := hinv.lists pl p0 hp0
      have hpl : pl < 0 + (g.players.length + 1) := by
        have := (playerRep_isOk g pl).1 ⟨p0, hp0⟩
        omega
      obtain ⟨B, hB1, hB2, hids⟩ := hinv.done pl hpl p1 hp1
      refine ⟨p1, B, hp1, hlab, hB1, hperm, hB2, fun s hsp => ?_⟩
      obtain ⟨si1, hsi1, hid⟩ := hids s hsp
      have hsame := hinv.same.2 s
      rw [hsi1] at hsame
      cases hsi : deref g.infosets s with
      | error e => simp [hsi, Except.map] at hsame
      | ok si =>
        simp only [hsi, Except.map, Except.ok.injEq] at hsame
        refine ⟨si, rfl, ?_⟩
        show deref H2 s = _
        rw [hlisted pl p1 hp1 s hsp, hsi1, eq_setId_of_map hsame, hid, hinv.nodes]
        rfl

theorem wellFormed_spec (g : efgGame) (h : wellFormed g = true) : ∃ L, WellFormed g L := by
  unfold wellFormed at h
  cases hL : Nodes g with
  | error e => simp [hL] at h
  | ok L =>
    simp only [hL, Bool.and_eq_true, decide_eq_true_eq, List.all_eq_true, List.mem_range] at h
    obtain ⟨⟨hnd, hfwd⟩, hlists⟩ := h
    refine ⟨L, hL, hnd, ?_, ?_, ?_⟩
    · intro n hn
      have := hfwd n hn
      cases hx : deref g.nodes n with
      | error e => simp [hx] at this
      | ok x => exact ⟨x, rfl⟩
    · intro n hn s hs
      have := hfwd n hn
      cases hx : deref g.nodes n with
      | error e => simp [hx] at this
      | ok x =>
        simp only [infosetOf, hx] at hs
        simp only [hx, hs] at this
        cases hsi : deref g.infosets s with
        | error e => simp [hsi] at this
        | ok si =>
          simp only [hsi, Bool.and_eq_true] at this
          cases hp : g.playerRep si.m_player with
          | error e => simp [hp] at this
          | ok p =>
            simp only [hp] at this
            exact ⟨si, p, rfl, by simpa using this.1, hp, by simpa using this.2⟩
    · intro pl p hp
      have hpl := (playerRep_isOk g pl).1 ⟨p, hp⟩
      have := hlists pl (by omega)
      simp only [hp, Bool.and_eq_true, decide_eq_true_eq, List.all_eq_true] at this
      refine ⟨this.1, fun s hs => ?_⟩
      have h2 := this.2 s hs
      cases hsi : deref g.infosets s with
      | error e => simp [hsi] at h2
      | ok si =>
        simp only [hsi, Bool.and_eq_true, decide_eq_true_eq, List.all_eq_true, beq_iff_eq] at h2
        refine ⟨si, rfl, h2.1.1, h2.1.2, fun m hm => ?_⟩
        have h3 := h2.2 m hm
        exact ⟨by simpa using h3.1, h3.2⟩

theorem SortResult.infosetOf_eq {g g1 : efgGame} {L : List Nat} (R : SortResult g g1 L)
    (n : Nat) : infosetOf g1.nodes n = infosetOf g.nodes n := by
  apply infosetOf_congr
  intro m
  rw [R.nodes m]
  by_cases hm : m ∈ L
  · simp only [hm, if_true]
    cases deref g.nodes m <;> rfl
  · simp [hm]

theorem SortResult.playerRep_ok {g g1 : efgGame} {L : List Nat} (R : SortResult g g1 L)
    {pl : Nat} {p1 : Player} (hp1 : g1.playerRep pl = .ok p1) :
    ∃ p0, g.playerRep pl = .ok p0 :=
  (playerRep_isOk g pl).2 (by rw [← R.nplayers]; exact (playerRep_isOk g1 pl).1 ⟨p1, hp1⟩)

/-- What `SortResult` says about an infoset in the list of a player. -/
theorem SortResult.listed {g g1 : efgGame} {L : List Nat} (R : SortResult g g1 L)
    {pl : Nat} {p1 : Player} (hp1 : g1.playerRep pl = .ok p1) {s : Nat}
    (hs : s ∈ p1.m_infosets) :
    ∃ B si, p1.m_infosets = firstMet g L pl ++ B ∧
      (∀ t ∈ B, emptyIn g.infosets t = true) ∧ deref g.infosets s = .ok si ∧
      deref g1.infosets s =
        .ok (setMembers (nodesOf g.nodes s L) (setId (p1.m_infosets.indexOf s + 1) si)) := by
  obtain ⟨p0, hp0⟩ := R.playerRep_ok hp1
  obtain ⟨p1', B, hp1', _, hl, _, hB, hd⟩ := R.lists pl p0 hp0
  rw [hp1] at hp1'
  cases hp1'
  obtain ⟨si, hsi, hsi1⟩ := hd s hs
  exact ⟨B, si, hl, hB, hsi, hsi1⟩

theorem SortResult.ownerOf_eq {g g1 : efgGame} {L : List Nat} (R : SortResult g g1 L)
    (s : Nat) : ownerOf g1.infosets s = ownerOf g.infosets s := by
  by_cases h : ∃ pl p, g.playerRep pl = .ok p ∧ s ∈ p.m_infosets
  · obtain ⟨pl, p0, hp0, hs⟩ := h
    obtain ⟨p1, B, hp1, _, _, hperm, _, hd⟩ := R.lists pl p0 hp0
    obtain ⟨si, hsi, hsi1⟩ := hd s (hperm.mem_iff.2 hs)
    simp [ownerOf, hsi, hsi1, setMembers, setId]
  · have := R.unlisted s (fun pl p hp hs => h ⟨pl, p, hp, hs⟩)
    simp [ownerOf, this]

theorem SortResult.firstMet_eq {g g1 : efgGame} {L : List Nat} (R : SortResult g g1 L)
    (pl : Nat) : firstMet g1 L pl = firstMet g L pl := by
  unfold firstMet refs
  congr 2
  funext n
  rw [R.infosetOf_eq n]
  cases infosetOf g.nodes n with
  | none => rfl
  | some s => simp only [R.ownerOf_eq s]

theorem mem_firstMet {g : efgGame} {L : List Nat} {pl s : Nat} (h : s ∈ firstMet g L pl) :
    ∃ n ∈ L, infosetOf g.nodes n = some s := by
  unfold firstMet at h
  rw [mem_addNew] at h
  rcases h with h | h
  · cases h
  · unfold refs at h
    rw [List.mem_filterMap] at h
    obtain ⟨n, hn, hf⟩ := h
    refine ⟨n, hn, ?_⟩
    cases hi : infosetOf g.nodes n with
    | none => simp [hi] at hf
    | some t =>
      simp only [hi] at hf
      split at hf
      · cases hf; rfl
      · cases hf

/-- A second sort leaves the node heap of a sorted game as it is. -/
theorem SortResult.nodes_again {g g1 g2 : efgGame} {L : List Nat} (R1 : SortResult g g1 L)
    (R2 : SortResult g1 g2 L) : g2.nodes = g1.nodes := by
  apply heap_ext R2.nodes_len
  intro n
  rw [R2.nodes n]
  by_cases hn : n ∈ L
  · rw [if_pos hn, R1.nodes n, if_pos hn]
    cases deref g.nodes n <;> rfl
  · rw [if_neg hn]

/-- In a sorted game the infosets after the first-met ones are empty, and the
first-met ones are not. -/
theorem SortResult.tail_empty {g g1 : efgGame} {L : List Nat} (hwf : WellFormed g L)
    (R : SortResult g g1 L) {pl : Nat} {p1 : Player} (hp1 : g1.playerRep pl = .ok p1) :
    ∃ B, p1.m_infosets = firstMet g L pl ++ B ∧
      (∀ s ∈ B, emptyIn g1.infosets s = true) ∧
      (∀ s ∈ firstMet g L pl, emptyIn g1.infosets s = false) := by
  obtain ⟨p0, hp0⟩ := R.playerRep_ok hp1
  obtain ⟨p1', B, hp1', _, hl, hperm, hB, hd⟩ := R.lists pl p0 hp0
  rw [hp1] at hp1'
  cases hp1'
  refine ⟨B, hl, ?_, ?_⟩
  · intro s hs
    have hs1 : s ∈ p1.m_infosets := by rw [hl]; exact List.mem_append_right _ hs
    obtain ⟨si, hsi, hsi1⟩ := hd s hs1
    have hm := hwf.members_perm hp0 (hperm.mem_iff.1 hs1) hsi
    have he := hB s hs
    simp only [emptyIn, hsi] at he
    have hnil : si.m_members = [] := by
      cases h : si.m_members with
      | nil => rfl
      | cons a l => simp [h] at he
    rw [hnil] at hm
    have := hm.symm.eq_nil
    simp [emptyIn, hsi1, setMembers, this]
  · intro s hs
    have hs1 : s ∈ p1.m_infosets := by rw [hl]; exact List.mem_append_left _ hs
    obtain ⟨si, hsi, hsi1⟩ := hd s hs1
    obtain ⟨n, hn, hni⟩ := mem_firstMet hs
    have hmem : n ∈ nodesOf g.nodes s L := (mem_nodesOf _ _ _ _).2 ⟨hn, hni⟩
    cases hM : nodesOf g.nodes s L with
    | nil => rw [hM] at hmem; cases hmem
    | cons a l => simp [emptyIn, hsi1, setMembers, hM]

/-- Sorting a sorted game: the node heap is unchanged, every infoset keeps its
members and every non-empty or unlisted one is unchanged altogether, and
every player's list keeps its non-empty front while its empty tail is
rearranged. -/
theorem SortInfosets_again {g g1 g2 : efgGame} {L : List Nat} (hwf : WellFormed g L)
    (R1 : SortResult g g1 L) (R2 : SortResult g1 g2 L) :
    g2.nodes = g1.nodes ∧
    (∀ s si1, deref g1.infosets s = .ok si1 →
      ∃ si2, deref g2.infosets s = .ok si2 ∧ si2.m_members = si1.m_members ∧
        (si1.m_members ≠ [] → si2 = si1)) ∧
    (∀ pl p1, g1.playerRep pl = .ok p1 →
      ∃ p2 F B1 B2, g2.playerRep pl = .ok p2 ∧ p2.m_label = p1.m_label ∧
        p1.m_infosets = F ++ B1 ∧ p2.m_infosets = F ++ B2 ∧ B2.Perm B1 ∧
        (∀ s ∈ F, emptyIn g1.infosets s = false) ∧
        (∀ s ∈ B1, emptyIn g1.infosets s = true) ∧
        (∀ s ∈ p2.m_infosets, ∃ si2, deref g2.infosets s = .ok si2 ∧
          si2.m_id = p2.m_infosets.indexOf s + 1)) := by
  have hfm : ∀ pl, firstMet g1 L pl = firstMet g L pl := R1.firstMet_eq
  have hno : ∀ s, nodesOf g1.nodes s L = nodesOf g.nodes s L :=
    fun s => nodesOf_congr R1.infosetOf_eq s L
  refine ⟨R1.nodes_again R2, ?_, ?_⟩
  · intro s si1 hsi1
    by_cases h : ∃ pl p, g1.playerRep pl = .ok p ∧ s ∈ p.m_infosets
    · obtain ⟨pl, p1, hp1, hs1⟩ := h
      obtain ⟨B1, hl1, hB1, hF1⟩ := R1.tail_empty hwf hp1
      obtain ⟨_, si0, _, _, hsi0, hd1⟩ := R1.listed hp1 hs1
      obtain ⟨p2, B2, hp2, _, hl2, hperm2, _, hd2⟩ := R2.lists pl p1 hp1
      obtain ⟨si1', hsi1', hsi2⟩ := hd2 s (hperm2.mem_iff.2 hs1)
      rw [hsi1] at hsi1'
      cases hsi1'
      rw [hsi1] at hd1
      have e1 : si1 = setMembers (nodesOf g.nodes s L)
          (setId (p1.m_infosets.indexOf s + 1) si0) := by
        injection hd1
      refine ⟨_, hsi2, ?_, ?_⟩
      · rw [hno s, e1]
        rfl
      · intro hne
        have hsF : s ∈ firstMet g L pl := by
          rw [hl1] at hs1
          rcases List.mem_append.1 hs1 with h | h
          · exact h
          · exfalso
            have := hB1 s h
            simp only [emptyIn, hsi1] at this
            apply hne
            cases hm : si1.m_members with
            | nil => rfl
            | cons a l => simp [hm] at this
        have e2 : p2.m_infosets.indexOf s = p1.m_infosets.indexOf s := by
          rw [hl2, hl1, hfm pl, List.indexOf_append_of_mem hsF, List.indexOf_append_of_mem hsF]
        rw [e2, hno s]
        rw [e1]
        rfl
    · have := R2.unlisted s (fun pl p hp hs => h ⟨pl, p, hp, hs⟩)
      exact ⟨si1, by rw [this, hsi1], rfl, fun _ => rfl⟩
  · intro pl p1 hp1
    obtain ⟨B1, hl1, hB1, hF1⟩ := R1.tail_empty hwf hp1
    obtain ⟨p2, B2, hp2, hlab, hl2, hperm2, _, hd2⟩ := R2.lists pl p1 hp1
    rw [hfm pl] at hl2
    refine ⟨p2, firstMet g L pl, B1, B2, hp2, hlab, hl1, hl2, ?_, hF1, hB1, ?_⟩
    · rw [hl1, hl2] at hperm2
      exact (List.perm_append_left_iff _).1 hperm2
    · intro s hs
      obtain ⟨si1, _, hsi2⟩ := hd2 s hs
      exact ⟨_, hsi2, rfl⟩

/-- C3 (amended): on a well-formed game with sorting switched on, SortInfosets
run twice succeeds both times, and the second run leaves the node heap (hence
all node numbers) as the first left it, leaves every infoset its member list,
leaves every infoset that has members wholly unchanged (id included), and
leaves each player's list its front of non-empty infosets in the same order,
followed by a rearrangement of the same empty infosets, each infoset of the
list carrying its position as id. -/
theorem SortInfosets_twice (g : efgGame) (hwf : wellFormed g = true)
    (hs : g.sortisets = true) :
    ∃ g1 g2, SortInfosets g = .ok g1 ∧ SortInfosets g1 = .ok g2 ∧
      g2.nodes = g1.nodes ∧
      (∀ s si1, deref g1.infosets s = .ok si1 →
        ∃ si2, deref g2.infosets s = .ok si2 ∧ si2.m_members = si1.m_members ∧
          (si1.m_members ≠ [] → si2 = si1)) ∧
      (∀ pl p1, g1.playerRep pl = .ok p1 →
        ∃ p2 F B1 B2, g2.playerRep pl = .ok p2 ∧ p2.m_label = p1.m_label ∧
          p1.m_infosets = F ++ B1 ∧ p2.m_infosets = F ++ B2 ∧ B2.Perm B1 ∧
          (∀ s ∈ F, emptyIn g1.infosets s = false) ∧
          (∀ s ∈ B1, emptyIn g1.infosets s = true) ∧
          (∀ s ∈ p2.m_infosets, ∃ si2, deref g2.infosets s = .ok si2 ∧
            si2.m_id = p2.m_infosets.indexOf s + 1)) := by
  obtain ⟨L, hL⟩ := wellFormed_spec g hwf
  obtain ⟨g1, hg1, R1⟩ := SortInfosets_spec g L hL hs
  have hs1 : g1.sortisets = true := by
    have := congrArg Prod.fst R1.scalars
    simp only [scalars] at this
    rw [this, hs]
  obtain ⟨g2, hg2, R2⟩ := SortInfosets_spec g1 L R1.wf hs1
  exact ⟨g1, g2, hg1, hg2, SortInfosets_again hL R1 R2⟩

set_option maxRecDepth 1000000 in
/-- Witness for C3: Scenario A, whose two infosets both have members. -/
theorem SortInfosets_twice_witness :
    ∃ g, scenarioA = .ok g ∧ wellFormed g = true ∧ g.sortisets = true ∧
      ∃ g1 g2, SortInfosets g = .ok g1 ∧ SortInfosets g1 = .ok g2 ∧
        g2.nodes = g1.nodes ∧
        (∀ s si1, deref g1.infosets s = .ok si1 →
          ∃ si2, deref g2.infosets s = .ok si2 ∧ si2.m_members = si1.m_members ∧
            (si1.m_members ≠ [] → si2 = si1)) ∧
        (∀ pl p1, g1.playerRep pl = .ok p1 →
          ∃ p2 F B1 B2, g2.playerRep pl = .ok p2 ∧ p2.m_label = p1.m_label ∧
            p1.m_infosets = F ++ B1 ∧ p2.m_infosets = F ++ B2 ∧ B2.Perm B1 ∧
            (∀ s ∈ F, emptyIn g1.infosets s = false) ∧
            (∀ s ∈ B1, emptyIn g1.infosets s = true) ∧
            (∀ s ∈ p2.m_infosets, ∃ si2, deref g2.infosets s = .ok si2 ∧
              si2.m_id = p2.m_infosets.indexOf s + 1)) :=
  ⟨_, rfl, by decide, by decide, SortInfosets_twice _ (by decide) (by decide)⟩

theorem foldlM_NDoChild_mono (nodes : List (Option Node)) (fuel : Nat)
    (ih : ∀ (n : Nat) (list l : List Nat),
      NDoChild nodes fuel n list = .ok l → NDoChild nodes (fuel + 1) n list = .ok l) :
    ∀ (cs : List Nat) (list l : List Nat),
      cs.foldlM (fun acc c => NDoChild nodes fuel c acc) list = .ok l →
      cs.foldlM (fun acc c => NDoChild nodes (fuel + 1) c acc) list = .ok l := by
  intro cs
  induction cs with
  | nil => intro list l h; exact h
  | cons c cs ihc =>
    intro list l h
    rw [List.foldlM_cons] at h ⊢
    obtain ⟨l1, h1, h2⟩ := (bind_eq_ok _ _ _).1 h
    rw [ih c list l1 h1, ok_bind]
    exact ihc l1 l h2

/-- More recursion budget does not change a preorder list. -/
theorem NDoChild_mono (nodes : List (Option Node)) :
    ∀ (fuel n : Nat) (list l : List Nat),
      NDoChild nodes fuel n list = .ok l → NDoChild nodes (fuel + 1) n list = .ok l := by
  intro fuel
  induction fuel with
  | zero => intro n list l h; cases h
  | succ fuel ih =>
    intro n list l h
    rw [NDoChild_succ] at h ⊢
    obtain ⟨cs, h1, h2⟩ := (bind_eq_ok _ _ _).1 h
    rw [h1, ok_bind]
    exact foldlM_NDoChild_mono nodes fuel ih cs _ l h2

theorem gRemove_gFind (l : List Nat) (n : Nat) (h : n ∈ l) :
    gRemove l (gFind l n) = .ok (n, l.erase n) := by
  have hlt : l.indexOf n < l.length := List.indexOf_lt_length.2 h
  simp only [gFind, h, if_true, gRemove, List.getElem?_eq_getElem hlt, List.getElem_indexOf]
  rw [List.eraseIdx_indexOf_eq_erase]

theorem copyLabels_spec :
    ∀ (src : List Action) (k : Nat) (dst : List Action), k + src.length ≤ dst.length →
      ∃ acts, copyLabels src (k + 1) dst = .ok acts ∧ acts.length = dst.length ∧
        acts.map Action.m_label =
          (dst.take k).map Action.m_label ++ src.map Action.m_label ++
            (dst.drop (k + src.length)).map Action.m_label := by
  intro src
  induction src with
  | nil =>
    intro k dst _
    refine ⟨dst, rfl, rfl, ?_⟩
    simp [← List.map_append]
  | cons a rest ih =>
    intro k dst h
    simp only [List.length_cons] at h
    have hk : k < dst.length := by omega
    obtain ⟨acts, h1, h2, h3⟩ := ih (k + 1) (dst.set k { dst[k] with m_label := a.m_label })
      (by simp; omega)
    refine ⟨acts, ?_, by simpa using h2, ?_⟩
    · simp only [copyLabels, gAt, List.getElem?_eq_getElem hk, ok_bind, gSet, hk, if_true]
      exact h1
    · rw [h3, take_succ_set _ _ _ hk, List.drop_set_of_lt _ _ (by omega)]
      simp [Nat.add_assoc, Nat.add_comm 1]

/-- Well-formedness looks at the tree only through the child lists and the
infoset references of the nodes. -/
theorem WellFormed.of_shape {g g1 : efgGame} {L : List Nat} (hwf : WellFormed g L)
    (hroot : g1.root = g.root) (hlen : g1.nodes.length = g.nodes.length)
    (hch : ∀ n, childrenOf g1.nodes n = childrenOf g.nodes n)
    (hinf : ∀ n, (deref g1.nodes n).map Node.infoset = (deref g.nodes n).map Node.infoset)
    (hI : g1.infosets = g.infosets) (hP : ∀ pl, g1.playerRep pl = g.playerRep pl) :
    WellFormed g1 L := by
  have hio : ∀ n, infosetOf g1.nodes n = infosetOf g.nodes n := infosetOf_congr hinf
  refine ⟨?_, hwf.nodup, ?_, ?_, ?_⟩
  · unfold Nodes
    rw [hlen, hroot, NDoChild_congr hch]
    exact hwf.nodes_ok
  · intro n hn
    obtain ⟨x, hx⟩ := hwf.live n hn
    have := hinf n
    rw [hx] at this
    cases h1 : deref g1.nodes n with
    | ok y => exact ⟨y, rfl⟩
    | error e => rw [h1] at this; cases this
  · intro n hn s hs
    rw [hio n] at hs
    rw [hI]
    obtain ⟨si, p, h1, h2, h3, h4⟩ := hwf.fwd n hn s hs
    exact ⟨si, p, h1, h2, by rw [hP]; exact h3, h4⟩
  · intro pl p hp
    rw [hP] at hp
    obtain ⟨h1, h2⟩ := hwf.lists pl p hp
    refine ⟨h1, ?_⟩
    intro s hs
    obtain ⟨si, h3, h4, h5, h6⟩ := h2 s hs
    refine ⟨si, by rw [hI]; exact h3, h4, h5, ?_⟩
    intro m hm
    rw [hio m]
    exact h6 m hm

theorem deref_append_new {α : Type} (heap : List (Option α)) (a : α) (k : Nat) :
    deref (heap ++ [some a]) k = if k = heap.length then .ok a else deref heap k := by
  unfold deref
  by_cases h : k = heap.length
  · subst h; simp
  · rw [if_neg h]
    by_cases h2 : k < heap.length
    · rw [List.getElem?_append_left h2]
    · have : heap.length < k := by omega
      rw [List.getElem?_eq_none (by simp; omega), List.getElem?_eq_none (by omega)]

theorem length_newActions : ∀ (n uid start : Nat), (newActions uid start n).length = n
  | 0, _, _ => rfl
  | n + 1, uid, start => by simp [newActions, length_newActions n]

theorem setPlayerRep_outcomes (g : efgGame) (pl : Nat) (x : Player) :
    (g.setPlayerRep pl x).outcomes = g.outcomes := by
  unfold efgGame.setPlayerRep; split <;> rfl

theorem setPlayerRep_outcomeReps (g : efgGame) (pl : Nat) (x : Player) :
    (g.setPlayerRep pl x).outcomeReps = g.outcomeReps := by
  unfold efgGame.setPlayerRep; split <;> rfl

theorem playerRep_congr (g1 g : efgGame) (pl : Nat) (h1 : g1.players = g.players)
    (h2 : g1.chance = g.chance) : g1.playerRep pl = g.playerRep pl := by
  simp only [efgGame.playerRep, h1, h2]

theorem CreateInfoset_spec (g : efgGame) (id pl br : Nat) (p : Player)
    (hp : g.playerRep pl = .ok p) :
    ∃ g3, CreateInfoset g id pl br = .ok (g3, g.infosets.length) ∧ g3.root = g.root ∧
      g3.sortisets = g.sortisets ∧ g3.outcomes = g.outcomes ∧
      g3.outcomeReps = g.outcomeReps ∧ g3.nodes = g.nodes ∧
      g3.players.length = g.players.length ∧
      (∀ q, g3.playerRep q =
        if q = pl then .ok { p with m_infosets := p.m_infosets ++ [g.infosets.length] }
        else g.playerRep q) ∧
      g3.infosets = g.infosets ++ [some (newInfoset g.actionCount pl id br)] := by
  simp only [CreateInfoset, hp, ok_bind, pure_eq_ok]
  refine ⟨_, rfl, ?_, ?_, ?_, ?_, ?_, ?_, ?_, ?_⟩
  · rw [setPlayerRep_root]
  · rw [setPlayerRep_sortisets]
  · rw [setPlayerRep_outcomes]
  · rw [setPlayerRep_outcomeReps]
  · rw [setPlayerRep_nodes]
  · rw [setPlayerRep_players_length]
  · intro q
    refine (playerRep_setPlayerRep _ pl p _ ?_ q).trans ?_
    · exact hp
    · rfl
  · rw [setPlayerRep_infosets]

theorem LeaveInfoset_eval (g : efgGame) (n s : Nat) (x : Node) (si : Infoset) (p : Player)
    (hx : deref g.nodes n = .ok x) (hxs : x.infoset = some s)
    (hsi : deref g.infosets s = .ok si) (hne : si.m_members.length ≠ 1)
    (hmem : n ∈ si.m_members) (hp : g.playerRep si.m_player = .ok p)
    (hc : x.children.length = si.m_actions.length) :
    ∃ g4, LeaveState g n s x si p g4 ∧
      LeaveInfoset g (some n) =
        SortInfosets g4 >>= fun g5 => deref g5.nodes n >>= fun y => pure (g5, y.infoset) := by
  have hslt := deref_lt hsi
  have hnlt := deref_lt hx
  obtain ⟨acts, ha1, ha2, ha3⟩ := copyLabels_spec si.m_actions 0
    (newActions g.actionCount 1 x.children.length) (by simp [length_newActions, hc])
  rw [Nat.zero_add] at ha1
  have hpX : efgGame.playerRep
      { g with
        m_revision := g.m_revision + 1
        m_dirty := true
        infosets := store g.infosets s { si with m_members := si.m_members.erase n } }
      si.m_player = .ok p := hp
  obtain ⟨g3, h3, hroot, hsort, hout, hreps, hnodes, hplen, hpl, hinf⟩ :=
    CreateInfoset_spec _ (p.m_infosets.length + 1) si.m_player x.children.length p hpX
  simp only [store_length] at h3 hinf hpl
  simp only [LeaveInfoset, hx, ok_bind, hxs, hsi, if_neg hne, gRemove_gFind _ _ hmem, hpX, h3,
    hinf, deref_append_new, store_length, if_true, newInfoset, ha1]
  refine ⟨_, ?_, rfl⟩
  constructor
  · exact hroot
  · exact hsort
  · exact hout
  · exact hreps
  · simp only [DeleteLexicon, hnodes]
  · exact hplen
  · intro q
    exact hpl q
  · simp [DeleteLexicon, store]
  · refine ⟨Infoset.mk (p.m_infosets.length + 1) si.m_player si.m_label acts
      (if si.m_player = 0 then List.replicate x.children.length defaultChanceProb else [])
      [n], ?_, rfl, rfl, rfl, ?_⟩
    · simp only [DeleteLexicon]
      rw [deref_store_self _ (by simp [store])]
      simp
    · rw [List.drop_eq_nil_of_le (by simp [length_newActions, hc])] at ha3
      simpa using ha3
  · simp only [DeleteLexicon]
    rw [deref_store_ne _ _ (by omega), deref_append_new, if_neg (by simp [store]; omega),
      deref_store_self _ hslt]
  · intro k hk1 hk2
    simp only [DeleteLexicon]
    rw [deref_store_ne _ _ (Ne.symm hk2), deref_append_new, if_neg (by simpa [store] using hk2),
      deref_store_ne _ _ (Ne.symm hk1)]

theorem LeaveState.deref_nodes {g g4 : efgGame} {n s : Nat} {x : Node} {si : Infoset}
    {p : Player} (S : LeaveState g n s x si p g4) (hx : deref g.nodes n = .ok x) (m : Nat) :
    deref g4.nodes m =
      if m = n then .ok { x with infoset := some g.infosets.length } else deref g.nodes m := by
  rw [S.nodes, deref_store _ _ (deref_lt hx)]

theorem LeaveState.infosetOf {g g4 : efgGame} {n s : Nat} {x : Node} {si : Infoset}
    {p : Player} (S : LeaveState g n s x si p g4) (hx : deref g.nodes n = .ok x) (m : Nat) :
    infosetOf g4.nodes m = if m = n then some g.infosets.length else infosetOf g.nodes m := by
  unfold Gambit.infosetOf
  rw [S.deref_nodes hx m]
  by_cases h : m = n
  · simp [h]
  · simp [h]

/-- The state in which `LeaveInfoset` calls `SortInfosets` is well-formed when
the state it was called in is. -/
theorem LeaveState.wf {g g4 : efgGame} {n s : Nat} {x : Node} {si : Infoset} {p : Player}
    {L : List Nat} (S : LeaveState g n s x si p g4) (hwf : WellFormed g L) (hn : n ∈ L)
    (hx : deref g.nodes n = .ok x) (hxs : x.infoset = some s)
    (hsi : deref g.infosets s = .ok si) (hp : g.playerRep si.m_player = .ok p) :
    WellFormed g4 L := by
  have hio := S.infosetOf hx
  have hion : Gambit.infosetOf g.nodes n = some s := by simp [Gambit.infosetOf, hx, hxs]
  have hslt := deref_lt hsi
  have hps : s ∈ p.m_infosets := by
    obtain ⟨si', p', h1, _, h3, h4⟩ := hwf.fwd n hn s hion
    rw [hsi] at h1
    cases h1
    rw [hp] at h3
    cases h3
    exact h4
  obtain ⟨ti, hti, htp, htm, _, _⟩ := S.fresh
  have hold : ∀ k ki, deref g.infosets k = .ok ki → k ≠ s → deref g4.infosets k = .ok ki := by
    intro k ki hk hks
    rw [S.other k hks (by have := deref_lt hk; omega), hk]
  refine ⟨?_, hwf.nodup, ?_, ?_, ?_⟩
  · unfold Nodes
    rw [S.nodes, store_length, S.root, NDoChild_congr
      (@childrenOf_store g.nodes n x { x with infoset := some g.infosets.length } hx rfl)]
    exact hwf.nodes_ok
  · intro m hm
    rw [S.deref_nodes hx m]
    by_cases h : m = n
    · exact ⟨_, if_pos h⟩
    · rw [if_neg h]
      exact hwf.live m hm
  · intro m hm s' hs'
    rw [hio m] at hs'
    by_cases h : m = n
    · rw [if_pos h] at hs'
      cases hs'
      refine ⟨ti, (Player.mk p.m_label (p.m_infosets ++ [g.infosets.length])), hti, by rw [htm, h]; simp, ?_, ?_⟩
      · rw [S.players, htp, if_pos rfl]
      · simp
    · rw [if_neg h] at hs'
      obtain ⟨si', p', h1, h2, h3, h4⟩ := hwf.fwd m hm s' hs'
      by_cases hss : s' = s
      · subst hss
        rw [hsi] at h1
        cases h1
        refine ⟨_, (Player.mk p.m_label (p.m_infosets ++ [g.infosets.length])), S.old, ?_, ?_, ?_⟩
        · exact (List.mem_erase_of_ne h).2 h2
        · rw [S.players, if_pos rfl]
        · simp [hps]
      · by_cases hpl : si'.m_player = si.m_player
        · rw [hpl, hp] at h3
          cases h3
          refine ⟨si', (Player.mk p.m_label (p.m_infosets ++ [g.infosets.length])), hold s' si' h1 hss, h2, ?_, ?_⟩
          · rw [S.players, if_pos hpl]
          · simp [h4]
        · refine ⟨si', p', hold s' si' h1 hss, h2, ?_, h4⟩
          rw [S.players, if_neg hpl, h3]
  · intro pl p4 hp4
    rw [S.players] at hp4
    by_cases hpl : pl = si.m_player
    · rw [if_pos hpl] at hp4
      cases hp4
      subst hpl
      obtain ⟨hnd, hl⟩ := hwf.lists _ p hp
      have hfresh : g.infosets.length ∉ p.m_infosets := by
        intro hmem
        obtain ⟨si', h1, _⟩ := hl _ hmem
        have := deref_lt h1
        omega
      refine ⟨?_, ?_⟩
      · exact List.Nodup.append hnd (List.nodup_singleton _) (by simpa using hfresh)
      · intro s' hs'
        rcases List.mem_append.1 hs' with hs' | hs'
        · obtain ⟨si', h1, h2, h3, h4⟩ := hl s' hs'
          by_cases hss : s' = s
          · subst hss
            rw [hsi] at h1
            cases h1
            refine ⟨_, S.old, rfl, h3.erase n, ?_⟩
            intro m hm
            have hm' := (h3.mem_erase_iff).1 hm
            refine ⟨(h4 m hm'.2).1, ?_⟩
            rw [hio m, if_neg hm'.1]
            exact (h4 m hm'.2).2
          · refine ⟨si', hold s' si' h1 hss, h2, h3, ?_⟩
            intro m hm
            refine ⟨(h4 m hm).1, ?_⟩
            have hmn : m ≠ n := by
              intro e
              have := (h4 m hm).2
              rw [e, hion] at this
              cases this
              exact hss rfl
            rw [hio m, if_neg hmn]
            exact (h4 m hm).2
        · have : s' = g.infosets.length := by simpa using hs'
          subst this
          refine ⟨ti, hti, htp, by rw [htm]; simp, ?_⟩
          intro m hm
          rw [htm] at hm
          have : m = n := by simpa using hm
          subst this
          exact ⟨hn, by rw [hio m, if_pos rfl]⟩
    · rw [if_neg hpl] at hp4
      obtain ⟨hnd, hl⟩ := hwf.lists pl p4 hp4
      refine ⟨hnd, ?_⟩
      intro s' hs'
      obtain ⟨si', h1, h2, h3, h4⟩ := hl s' hs'
      have hss : s' ≠ s := by
        intro e
        subst e
        rw [hsi] at h1
        cases h1
        exact hpl h2.symm
      refine ⟨si', hold s' si' h1 hss, h2, h3, ?_⟩
      intro m hm
      refine ⟨(h4 m hm).1, ?_⟩
      have hmn : m ≠ n := by
        intro e
        have := (h4 m hm).2
        rw [e, hion] at this
        cases this
        exact hss rfl
      rw [hio m, if_neg hmn]
      exact (h4 m hm).2

/-- `LeaveInfoset(n)` on a well-formed game in which the infoset of `n` does not
have exactly one member and `n` has one child per action: the call returns the
fresh infoset, and the game it leaves is the sorted form of the state described
by `LeaveState`. -/
theorem LeaveInfoset_spec (g : efgGame) (L : List Nat) (hwf : WellFormed g L)
    (hs : g.sortisets = true) (n s : Nat) (x : Node) (si : Infoset) (hn : n ∈ L)
    (hx : deref g.nodes n = .ok x) (hxs : x.infoset = some s)
    (hsi : deref g.infosets s = .ok si) (hne : si.m_members.length ≠ 1)
    (hc : x.children.length = si.m_actions.length) :
    ∃ g4 g5 p, g.playerRep si.m_player = .ok p ∧ LeaveState g n s x si p g4 ∧
      WellFormed g4 L ∧ SortResult g4 g5 L ∧
      LeaveInfoset g (some n) = .ok (g5, some g.infosets.length) := by
  have hion : infosetOf g.nodes n = some s := by simp [infosetOf, hx, hxs]
  obtain ⟨si', p, h1, hmem, hp, _⟩ := hwf.fwd n hn s hion
  rw [hsi] at h1
  cases h1
  obtain ⟨g4, S, he⟩ := LeaveInfoset_eval g n s x si p hx hxs hsi hne hmem hp hc
  have hwf4 := S.wf hwf hn hx hxs hsi hp
  obtain ⟨g5, hg5, R⟩ := SortInfosets_spec g4 L hwf4 (by rw [S.sortisets, hs])
  refine ⟨g4, g5, p, hp, S, hwf4, R, ?_⟩
  rw [he, hg5, ok_bind, R.nodes n, if_pos hn, S.deref_nodes hx n, if_pos rfl]
  rfl

/-- The member loop of `Reveal` changes nothing when no member is marked. -/
theorem Reveal.members_unmarked :
    ∀ (l : List Nat) (g : efgGame) (r : Option Nat),
      (∀ n ∈ l, ∃ x, deref g.nodes n = .ok x ∧ x.mark = false) →
      Reveal.members l (g, r) = .ok (g, r) := by
  intro l
  induction l with
  | nil => intro g r _; rfl
  | cons n rest ih =>
    intro g r h
    obtain ⟨x, hx, hm⟩ := h n (List.mem_cons_self _ _)
    simp only [Reveal.members, hx, ok_bind, hm, Bool.false_eq_true, if_false]
    exact ih g r (fun m hm => h m (List.mem_cons_of_mem _ hm))

/-- The member loop of `Reveal` on a marked node that is alone in its infoset:
the mark is cleared and `LeaveInfoset` returns the infoset as it is. -/
theorem Reveal.members_marked_single (g : efgGame) (n s : Nat) (x : Node) (si : Infoset)
    (hx : deref g.nodes n = .ok x) (hm : x.mark = true) (hxs : x.infoset = some s)
    (hsi : deref g.infosets s = .ok si) (hlen : si.m_members.length = 1) :
    Reveal.members [n] (g, none) =
      .ok ({ g with nodes := store g.nodes n { x with mark := false } }, some s) := by
  simp only [Reveal.members, hx, ok_bind, hm, if_true, LeaveInfoset,
    deref_store_self _ (deref_lt hx), hxs, hsi, hlen, pure_eq_ok]

theorem Reveal.infosets_step (who fuel k s : Nat) (g g1 : efgGame) (p : Player) (si : Infoset)
    (r : Option Nat) (hp : g.playerRep who = .ok p) (hk : gAt p.m_infosets k = .ok s)
    (hsi : deref g.infosets s = .ok si)
    (hm : Reveal.members si.m_members (g, none) = .ok (g1, r)) :
    Reveal.infosets who (fuel + 1) k g = Reveal.infosets who fuel (k + 1) g1 := by
  have hle : k ≤ p.m_infosets.length := by
    cases k with
    | zero => cases hk
    | succ j =>
      simp only [gAt] at hk
      cases h : p.m_infosets[j]? with
      | none => rw [h] at hk; cases hk
      | some a =>
        have := (List.getElem?_eq_some_iff.1 h).1
        omega
  simp only [Reveal.infosets, hp, ok_bind, hle, if_true, hk, hsi, hm]

theorem Reveal.infosets_done (who fuel k : Nat) (g : efgGame) (p : Player)
    (hp : g.playerRep who = .ok p) (hk : p.m_infosets.length < k) :
    Reveal.infosets who (fuel + 1) k g = .ok g := by
  simp only [Reveal.infosets, hp, ok_bind, Nat.not_le.2 hk, if_false, pure_eq_ok]

/-- The infoset loop of `Reveal` in a round in which the player has two infosets
with one member each, the first unmarked and the second marked: only the mark
is cleared. -/
theorem Reveal.infosets_second (who fuel a b m1 m2 : Nat) (g : efgGame) (p : Player)
    (sa sb : Infoset) (y1 y2 : Node) (hp : g.playerRep who = .ok p)
    (hl : p.m_infosets = [a, b]) (hsa : deref g.infosets a = .ok sa)
    (hsb : deref g.infosets b = .ok sb) (hma : sa.m_members = [m1])
    (hmb : sb.m_members = [m2]) (hy1 : deref g.nodes m1 = .ok y1) (hk1 : y1.mark = false)
    (hy2 : deref g.nodes m2 = .ok y2) (hk2 : y2.mark = true) (hi2 : y2.infoset = some b) :
    Reveal.infosets who (fuel + 3) 1 g =
      .ok { g with nodes := store g.nodes m2 { y2 with mark := false } } := by
  rw [Reveal.infosets_step who (fuel + 2) 1 a g g p sa none hp (by rw [hl]; rfl) hsa
    (by rw [hma]; exact Reveal.members_unmarked _ g none
          (fun n hn => ⟨y1, by rw [List.mem_singleton.1 hn]; exact hy1, hk1⟩))]
  rw [Reveal.infosets_step who (fuel + 1) 2 b g _ p sb (some b) hp (by rw [hl]; rfl) hsb
    (by rw [hmb]; exact Reveal.members_marked_single g m2 b y2 sb hy2 hk2 hi2 hsb
          (by rw [hmb]; rfl))]
  exact Reveal.infosets_done who fuel 3 _ p hp (by rw [hl]; simp)

theorem perm_pair {l : List Nat} {a b : Nat} (h : l.Perm [a, b]) : l = [a, b] ∨ l = [b, a] := by
  have hlen : l.length = 2 := h.length_eq
  match l, hlen with
  | [c, d], _ =>
    have hc : c ∈ [a, b] := h.mem_iff.1 (List.mem_cons_self _ _)
    simp only [List.mem_cons, List.mem_singleton, List.not_mem_nil, or_false] at hc
    rcases hc with hc | hc
    · subst hc
      have := (List.perm_cons c).1 h
      rw [List.perm_singleton] at this
      left; rw [this]
    · subst hc
      have h2 : [c, d].Perm [c, a] := h.trans (List.Perm.swap _ _ _)
      have := (List.perm_cons c).1 h2
      rw [List.perm_singleton] at this
      right; rw [this]

theorem filterMap_one {f : Nat → Option Nat} {a u : Nat} :
    ∀ (l : List Nat), l.Nodup → a ∈ l → (∀ n ∈ l, n ≠ a → f n = none) → f a = some u →
      l.filterMap f = [u] := by
  intro l
  induction l with
  | nil => intro _ h; cases h
  | cons h t ih =>
    intro hnd ha hf hfa
    rw [List.nodup_cons] at hnd
    by_cases e : h = a
    · subst e
      rw [List.filterMap_cons_some hfa]
      congr 1
      rw [List.filterMap_eq_nil_iff]
      intro n hn
      exact hf n (List.mem_cons_of_mem _ hn) (fun e => hnd.1 (e ▸ hn))
    · rw [List.filterMap_cons_none (hf h (List.mem_cons_self _ _) e)]
      have hat : a ∈ t := by
        rcases List.mem_cons.1 ha with h1 | h1
        · exact absurd h1.symm e
        · exact h1
      exact ih hnd.2 hat (fun n hn => hf n (List.mem_cons_of_mem _ hn)) hfa

theorem filterMap_two {f : Nat → Option Nat} {a b u v : Nat} (A B : List Nat)
    (hnd : (A ++ B).Nodup) (ha : a ∈ A) (hb : b ∈ B)
    (hf : ∀ n ∈ A ++ B, n ≠ a → n ≠ b → f n = none) (hfa : f a = some u)
    (hfb : f b = some v) : (A ++ B).filterMap f = [u, v] := by
  rw [List.nodup_append] at hnd
  obtain ⟨hA, hB, hdis⟩ := hnd
  rw [List.filterMap_append,
    filterMap_one A hA ha (fun n hn hna => hf n (List.mem_append_left _ hn) hna
      (fun e => hdis hn (e ▸ hb))) hfa,
    filterMap_one B hB hb (fun n hn hnb => hf n (List.mem_append_right _ hn)
      (fun e => hdis (e ▸ ha) hn) hnb) hfb]
  rfl

/-- The infoset loop of `Reveal` in a round in which the player has one infoset
with two members, of which `m1` is marked and comes first in preorder and `m2`
is not marked: `m1` leaves into a fresh infoset, which the sort puts first. -/
theorem Reveal.infosets_first (who fuel t m1 m2 : Nat) (g : efgGame) (A B : List Nat)
    (p : Player) (ti : Infoset) (y1 y2 : Node) (hwf : WellFormed g (A ++ B))
    (hs : g.sortisets = true) (hp : g.playerRep who = .ok p) (hl : p.m_infosets = [t])
    (hti : deref g.infosets t = .ok ti) (htm : ti.m_members.Perm [m1, m2])
    (hA : m1 ∈ A) (hB : m2 ∈ B)
    (hy1 : deref g.nodes m1 = .ok y1) (hk1 : y1.mark = true)
    (hc : y1.children.length = ti.m_actions.length)
    (hy2 : deref g.nodes m2 = .ok y2) (hk2 : y2.mark = false) :
    ∃ g4 g5 p5 s1 s2,
      Reveal.infosets who (fuel + 3) 1 g = .ok g5 ∧
      LeaveState { g with nodes := store g.nodes m1 { y1 with mark := false } } m1 t
        { y1 with mark := false } ti p g4 ∧
      WellFormed g4 (A ++ B) ∧ SortResult g4 g5 (A ++ B) ∧
      g5.playerRep who = .ok p5 ∧ p5.m_infosets = [g.infosets.length, t] ∧
      deref g5.infosets g.infosets.length = .ok s1 ∧ s1.m_members = [m1] ∧
      s1.m_actions.map Action.m_label = ti.m_actions.map Action.m_label ∧
      deref g5.infosets t = .ok s2 ∧ s2.m_members = [m2] ∧ s2.m_actions = ti.m_actions := by
  have hne : m1 ≠ m2 := by
    intro e
    rw [e, hy2] at hy1
    cases hy1
    rw [hk1] at hk2
    cases hk2
  have hm1 : m1 ∈ ti.m_members := htm.mem_iff.2 (by simp)
  have hm2 : m2 ∈ ti.m_members := htm.mem_iff.2 (by simp)
  obtain ⟨_, hlist⟩ := hwf.lists who p hp
  obtain ⟨ti', hti', htp, htnd, htr⟩ := hlist t (by rw [hl]; simp)
  rw [hti] at hti'
  cases hti'
  have hi1 : y1.infoset = some t := by
    have := (htr m1 hm1).2
    simpa [infosetOf, hy1] using this
  have hi2 : y2.infoset = some t := by
    have := (htr m2 hm2).2
    simpa [infosetOf, hy2] using this
  have hlt1 := deref_lt hy1
  have htlt := deref_lt hti
  -- the state with the mark of `m1` cleared
  have hwb : WellFormed
      { g with nodes := store g.nodes m1 { y1 with mark := false } } (A ++ B) := by
    refine hwf.of_shape rfl (store_length _ _ _) ?_ ?_ rfl (fun _ => rfl)
    · exact @childrenOf_store g.nodes m1 y1 { y1 with mark := false } hy1 rfl
    · intro n
      show (deref (store g.nodes m1 _) n).map Node.infoset = _
      rw [deref_store _ _ hlt1]
      by_cases e : n = m1
      · rw [if_pos e, e, hy1]; rfl
      · rw [if_neg e]
  obtain ⟨g4, g5, p', hp', S, hw4, R, hleave⟩ :=
    LeaveInfoset_spec { g with nodes := store g.nodes m1 { y1 with mark := false } } (A ++ B)
      hwb hs m1 t { y1 with mark := false } ti (List.mem_append_left _ hA)
      (deref_store_self _ hlt1) hi1 hti
      (by rw [htm.length_eq]; simp) hc
  have hp'' : g.playerRep who = .ok p' := by rw [← htp]; exact hp'
  rw [hp] at hp''
  cases hp''
  dsimp only at hleave S
  -- the member loop on the old infoset
  have hy2' : deref g5.nodes m2 = .ok (setNumber ((A ++ B).indexOf m2 + 1) y2) := by
    rw [R.nodes m2, if_pos (List.mem_append_right _ hB), S.deref_nodes (deref_store_self _ hlt1) m2,
      if_neg (Ne.symm hne)]
    show (deref (store g.nodes m1 _) m2).map _ = _
    rw [deref_store_ne _ _ hne, hy2]
    rfl
  have hmem : Reveal.members ti.m_members (g, none) = .ok (g5, some g.infosets.length) := by
    have hun : Reveal.members [m2] (g5, some g.infosets.length) =
        .ok (g5, some g.infosets.length) :=
      Reveal.members_unmarked _ g5 _
        (fun n hn => ⟨setNumber ((A ++ B).indexOf m2 + 1) y2,
          by rw [List.mem_singleton.1 hn]; exact hy2', hk2⟩)
    rcases perm_pair htm with e | e
    · rw [e]
      simp only [Reveal.members, hy1, ok_bind, hk1, if_true, hleave]
      exact hun
    · rw [e]
      simp only [Reveal.members, hy2, ok_bind, hk2, Bool.false_eq_true, if_false, hy1, hk1,
        if_true, hleave]
  -- the state before the sort
  have hgb1 : deref (store g.nodes m1 { y1 with mark := false }) m1 =
      .ok { y1 with mark := false } := deref_store_self _ hlt1
  have hio4 := S.infosetOf hgb1
  dsimp only at hio4
  obtain ⟨tf, htf, htfp, htfm, _, htfa⟩ := S.fresh
  have hold := S.old
  dsimp only at htf hold
  have hp4 : g4.playerRep who = .ok (Player.mk p.m_label (p.m_infosets ++ [g.infosets.length])) := by
    rw [S.players who, if_pos htp.symm]
  have hio42 : infosetOf g4.nodes m2 = some t := by
    rw [hio4 m2, if_neg (Ne.symm hne)]
    simp [infosetOf, deref_store_ne _ _ hne, hy2, hi2]
  have hfm : firstMet g4 (A ++ B) who = [g.infosets.length, t] := by
    unfold firstMet refs
    rw [filterMap_two A B hwf.nodup hA hB ?_
      (show _ = some g.infosets.length by
        simp only [hio4 m1, if_true, ownerOf, htf, htfp, htp])
      (show _ = some t by simp only [hio42, ownerOf, hold, htp, if_true])]
    · simp [addNew, Nat.ne_of_lt htlt]
    · intro n hn hn1 hn2
      cases hi : infosetOf g4.nodes n with
      | none => rfl
      | some s' =>
        simp only
        split
        · next ho =>
          exfalso
          obtain ⟨si', p', h1, h2, h3, h4⟩ := hw4.fwd n hn s' hi
          simp only [ownerOf, h1, Option.some.injEq] at ho
          rw [ho, hp4] at h3
          cases h3
          rw [hl] at h4
          simp only [List.cons_append, List.nil_append, List.mem_cons, List.mem_singleton,
            List.not_mem_nil, or_false] at h4
          rcases h4 with h4 | h4
          · subst h4
            rw [hold] at h1
            cases h1
            have := htm.mem_iff.1 (List.mem_of_mem_erase h2)
            simp only [List.mem_cons, List.mem_singleton, List.not_mem_nil, or_false] at this
            rcases this with e | e
            · exact hn1 e
            · exact hn2 e
          · subst h4
            rw [htf] at h1
            cases h1
            rw [htfm] at h2
            exact hn1 (List.mem_singleton.1 h2)
        · rfl
  -- the sorted state
  obtain ⟨p5, B', hp5, _, hl5, hperm5, _, hd5⟩ := R.lists who _ hp4
  rw [hfm] at hl5
  have hB' : B' = [] := by
    have := hperm5.length_eq
    rw [hl5, hl] at this
    simp only [List.length_append, List.length_cons, List.length_nil] at this
    exact List.eq_nil_of_length_eq_zero (by omega)
  rw [hB', List.append_nil] at hl5
  obtain ⟨sf, hsf, hsf5⟩ := hd5 g.infosets.length (by rw [hl5]; simp)
  rw [htf] at hsf
  cases hsf
  obtain ⟨so, hso, hso5⟩ := hd5 t (by rw [hl5]; simp)
  rw [hold] at hso
  cases hso
  have hmf := hw4.members_perm hp4 (by simp) htf
  rw [htfm] at hmf
  have hmo := hw4.members_perm hp4 (by rw [hl]; simp) hold
  have hmo2 : (ti.m_members.erase m1).Perm [m2] := by
    have := htm.erase m1
    simpa using this
  have hno : nodesOf g4.nodes t (A ++ B) = [m2] :=
    List.perm_singleton.1 (hmo.symm.trans hmo2)
  have hnf : nodesOf g4.nodes g.infosets.length (A ++ B) = [m1] :=
    List.perm_singleton.1 hmf.symm
  rw [hnf] at hsf5
  rw [hno] at hso5
  refine ⟨g4, g5, p5, _, _, ?_, S, hw4, R, hp5, hl5, hsf5, rfl, htfa, hso5, rfl, rfl⟩
  rw [Reveal.infosets_step who (fuel + 2) 1 t g g5 p ti _ hp (by rw [hl]; rfl) hti hmem]
  rw [Reveal.infosets_step who (fuel + 1) 2 t g5 g5 p5 _ none hp5 (by rw [hl5]; rfl) hso5
    (Reveal.members_unmarked _ g5 none
      (fun n hn => ⟨setNumber ((A ++ B).indexOf m2 + 1) y2,
          by rw [List.mem_singleton.1 hn]; exact hy2', hk2⟩))]
  exact Reveal.infosets_done who fuel 3 _ p5 hp5 (by rw [hl5]; simp)

theorem outcomesLive_spec {g : efgGame} (h : outcomesLive g = true) :
    ∀ o ∈ g.outcomes, ∃ oc, deref g.outcomeReps o = .ok oc := by
  intro o ho
  have := List.all_eq_true.1 h o ho
  cases hd : deref g.outcomeReps o with
  | ok oc => exact ⟨oc, rfl⟩
  | error e => simp [hd] at this

theorem SameUpToId.live {H H1 : List (Option Infoset)} (h : SameUpToId H H1) {s : Nat}
    {si : Infoset} (hs : deref H s = .ok si) :
    ∃ si1, deref H1 s = .ok si1 ∧ setId 0 si1 = setId 0 si := by
  have := h.2 s
  rw [hs] at this
  cases h1 : deref H1 s with
  | ok si1 =>
    rw [h1] at this
    exact ⟨si1, rfl, by simpa [Except.map] using this⟩
  | error e => rw [h1] at this; cases this

theorem SameUpToId.store {H : List (Option Infoset)} {h : Nat} {s : Infoset} (j : Nat)
    (hs : deref H h = .ok s) : SameUpToId H (store H h { s with m_id := j }) := by
  refine ⟨store_length _ _ _, ?_⟩
  intro t
  rw [deref_store _ _ (deref_lt hs)]
  by_cases e : t = h
  · rw [if_pos e, e, hs]; rfl
  · rw [if_neg e]

theorem Reindex.infosetIds_spec :
    ∀ (l : List Nat) (H : List (Option Infoset)) (j : Nat),
      (∀ s ∈ l, ∃ si, deref H s = .ok si) →
      ∃ H1, Reindex.infosetIds H l j = .ok H1 ∧ SameUpToId H H1 := by
  intro l
  induction l with
  | nil => intro H j _; exact ⟨H, rfl, SameUpToId.refl H⟩
  | cons h t ih =>
    intro H j hl
    obtain ⟨s, hs⟩ := hl h (List.mem_cons_self _ _)
    have hst := SameUpToId.store j hs
    obtain ⟨H1, h1, h2⟩ := ih (store H h { s with m_id := j }) (j + 1) (fun k hk => by
      obtain ⟨ki, hki⟩ := hl k (List.mem_cons_of_mem _ hk)
      obtain ⟨ki1, hki1, _⟩ := hst.live hki
      exact ⟨ki1, hki1⟩)
    refine ⟨H1, ?_, hst.trans h2⟩
    simp only [Reindex.infosetIds, hs, ok_bind]
    exact h1

theorem Reindex.players_spec :
    ∀ (ps : List Player) (H : List (Option Infoset)),
      (∀ p ∈ ps, ∀ s ∈ p.m_infosets, ∃ si, deref H s = .ok si) →
      ∃ H1, Reindex.players H ps = .ok H1 ∧ SameUpToId H H1 := by
  intro ps
  induction ps with
  | nil => intro H _; exact ⟨H, rfl, SameUpToId.refl H⟩
  | cons p ps ih =>
    intro H hl
    obtain ⟨H1, h1, h2⟩ := Reindex.infosetIds_spec p.m_infosets H 1 (hl p (List.mem_cons_self _ _))
    obtain ⟨H2, h3, h4⟩ := ih H1 (fun q hq s hs => by
      obtain ⟨si, hsi⟩ := hl q (List.mem_cons_of_mem _ hq) s hs
      obtain ⟨si1, hsi1, _⟩ := h2.live hsi
      exact ⟨si1, hsi1⟩)
    refine ⟨H2, ?_, h2.trans h4⟩
    simp only [Reindex.players, h1, ok_bind]
    exact h3

theorem Reindex.outcomeIds_spec :
    ∀ (l : List Nat) (reps : List (Option Outcome)) (i : Nat),
      (∀ o ∈ l, ∃ oc, deref reps o = .ok oc) →
      ∃ reps1, Reindex.outcomeIds reps l i = .ok reps1 := by
  intro l
  induction l with
  | nil => intro reps i _; exact ⟨reps, rfl⟩
  | cons h t ih =>
    intro reps i hl
    obtain ⟨o, ho⟩ := hl h (List.mem_cons_self _ _)
    obtain ⟨reps1, h1⟩ := ih (store reps h { o with m_id := i }) (i + 1) (fun k hk => by
      obtain ⟨kc, hkc⟩ := hl k (List.mem_cons_of_mem _ hk)
      rw [deref_store _ _ (deref_lt ho)]
      by_cases e : k = h
      · exact ⟨_, if_pos e⟩
      · rw [if_neg e]; exact ⟨kc, hkc⟩)
    refine ⟨reps1, ?_⟩
    simp only [Reindex.outcomeIds, ho, ok_bind]
    exact h1

/-- `Reindex` succeeds when the infosets in the players' lists and the outcomes
are live, and changes nothing but ids. -/
theorem Reindex_spec (g : efgGame)
    (hI : ∀ p ∈ g.players, ∀ s ∈ p.m_infosets, ∃ si, deref g.infosets s = .ok si)
    (hO : ∀ o ∈ g.outcomes, ∃ oc, deref g.outcomeReps o = .ok oc) :
    ∃ g1, Reindex g = .ok g1 ∧ g1.nodes = g.nodes ∧ g1.players = g.players ∧
      g1.chance = g.chance ∧ g1.root = g.root ∧ SameUpToId g.infosets g1.infosets := by
  obtain ⟨H1, h1, h2⟩ := Reindex.players_spec g.players g.infosets hI
  obtain ⟨reps1, h3⟩ := Reindex.outcomeIds_spec g.outcomes g.outcomeReps 1 hO
  refine ⟨{ g with infosets := H1, outcomeReps := reps1 }, ?_, rfl, rfl, rfl, rfl, h2⟩
  simp only [Reindex, h1, h3, ok_bind, pure_eq_ok]

theorem Reveal.actions_step (wh who r i : Nat) (g g2 : efgGame) (wi : Infoset)
    (nodes : List (Option Node)) (hwi : deref g.infosets wh = .ok wi)
    (hmark : Reveal.mark i wi.m_members g.nodes = .ok nodes)
    (hinf : Reveal.infosets who (nodes.length + g.infosets.length + 1) 1
      { g with nodes := nodes } = .ok g2) :
    Reveal.actions wh who (r + 1) i g = Reveal.actions wh who r (i + 1) g2 := by
  simp only [Reveal.actions, hwi, ok_bind, hmark, hinf]

theorem Reveal.mark_single (i m c : Nat) (nodes : List (Option Node)) (x : Node)
    (l : List Nat) (hx : deref nodes m = .ok x) (hc : gAt x.children i = .ok c)
    (hl : NDoChild nodes nodes.length c [] = .ok l) :
    Reveal.mark i [m] nodes = .ok (updAll (fun y => { y with mark := true }) l nodes) := by
  have hv := visit_eq (fun y => { y with mark := true }) (fun _ => rfl) _ _ _ _ hl
  simp only [Reveal.mark, hx, ok_bind, hc, MarkSubtree_eq_visit]
  rw [hv]
  rfl

/-- The preorder list of a tree whose root has two children. -/
theorem Nodes_two (g : efgGame) (L L1 L2 : List Nat) (r : Node) (c1 c2 : Nat)
    (hL : Nodes g = .ok L) (hr : deref g.nodes g.root = .ok r) (hrc : r.children = [c1, c2])
    (hL1 : NDoChild g.nodes g.nodes.length c1 [] = .ok L1)
    (hL2 : NDoChild g.nodes g.nodes.length c2 [] = .ok L2) :
    L = (g.root :: L1) ++ L2 := by
  obtain ⟨k, hk⟩ : ∃ k, g.nodes.length = k + 1 := ⟨g.nodes.length - 1, by have := deref_lt hr; omega⟩
  unfold Nodes at hL
  rw [hk] at hL hL1 hL2
  obtain ⟨x, ls, hx, hF, hLe⟩ := NDoChild_ok _ _ _ _ hL
  rw [hr] at hx
  cases hx
  rw [hrc] at hF
  cases hF with
  | cons h1 hF2 =>
    cases hF2 with
    | cons h2 hF3 =>
      cases hF3
      have e1 := NDoChild_mono _ _ _ _ _ h1
      have e2 := NDoChild_mono _ _ _ _ _ h2
      rw [hL1] at e1
      rw [hL2] at e2
      cases e1
      cases e2
      rw [hLe]
      simp

/-- C10 (Scenario E): in a well-formed game with sorting switched on and live
outcomes, let the root be the single member of the infoset `wh`, which has two
actions, and have the two children `c1` and `c2`; let player `who` own exactly
one infoset `t`, whose two members are `m1` in the subtree of `c1` and `m2` in
the subtree of `c2`, and let `m1` have one child per action of `t`.  Then
`Reveal(wh, who)` returns, and afterwards `who` has exactly two infosets: a
fresh one whose only member is `m1` and whose actions carry the labels of the
actions of `t` (so there are as many), and `t` itself, whose only member is `m2`
and whose actions are as before. -/
theorem Reveal_splits (g : efgGame) (wh who t m1 m2 c1 c2 : Nat) (wi ti : Infoset)
    (r x1 : Node) (p : Player) (L1 L2 : List Nat)
    (hwf : wellFormed g = true) (hs : g.sortisets = true) (hout : outcomesLive g = true)
    (hr : deref g.nodes g.root = .ok r) (hri : r.infoset = some wh)
    (hrc : r.children = [c1, c2])
    (hwi : deref g.infosets wh = .ok wi) (hwm : wi.m_members = [g.root])
    (hwa : wi.m_actions.length = 2)
    (hp : g.playerRep who = .ok p) (hpl : p.m_infosets = [t])
    (hti : deref g.infosets t = .ok ti) (htm : ti.m_members.Perm [m1, m2])
    (hL1 : NDoChild g.nodes g.nodes.length c1 [] = .ok L1) (hm1 : m1 ∈ L1)
    (hL2 : NDoChild g.nodes g.nodes.length c2 [] = .ok L2) (hm2 : m2 ∈ L2)
    (hx1 : deref g.nodes m1 = .ok x1) (hc1 : x1.children.length = ti.m_actions.length) :
    ∃ g1 p1 sa sb, Reveal g wh who = .ok g1 ∧ g1.playerRep who = .ok p1 ∧
      p1.m_infosets = [g.infosets.length, t] ∧ g.infosets.length ≠ t ∧
      deref g1.infosets g.infosets.length = .ok sa ∧ deref g1.infosets t = .ok sb ∧
      sa.m_members = [m1] ∧ sb.m_members = [m2] ∧
      sa.m_actions.map Action.m_label = ti.m_actions.map Action.m_label ∧
      sb.m_actions = ti.m_actions := by
  obtain ⟨L, W⟩ := wellFormed_spec g hwf
  have hO := outcomesLive_spec hout
  have hL := Nodes_two g L L1 L2 r c1 c2 W.nodes_ok hr hrc hL1 hL2
  subst hL
  have hA : m1 ∈ g.root :: L1 := List.mem_cons_of_mem _ hm1
  have hnd := W.nodup
  have hdis : ∀ n, n ∈ g.root :: L1 → n ∉ L2 := fun n h1 h2 =>
    (List.nodup_append.1 hnd).2.2 h1 h2
  have hrL1 : g.root ∉ L1 := (List.nodup_cons.1 (List.nodup_append.1 hnd).1).1
  have hrL2 : g.root ∉ L2 := hdis _ (List.mem_cons_self _ _)
  have hm1L2 : m1 ∉ L2 := hdis _ hA
  have hm2L1 : m2 ∉ L1 := fun h => hdis _ (List.mem_cons_of_mem _ h) hm2
  have hm2L : m2 ∈ (g.root :: L1) ++ L2 := List.mem_append_right _ hm2
  have hm1L : m1 ∈ (g.root :: L1) ++ L2 := List.mem_append_left _ hA
  have hrL : g.root ∈ (g.root :: L1) ++ L2 := List.mem_append_left _ (List.mem_cons_self _ _)
  obtain ⟨x2, hx2⟩ := W.live m2 hm2L
  have htlt := deref_lt hti
  have hwlt := deref_lt hwi
  have hwt : wh ≠ t := by
    intro e
    rw [e, hti] at hwi
    cases hwi
    have := htm.length_eq
    rw [hwm] at this
    cases this
  -- the unmarked tree
  obtain ⟨N1, hN1⟩ : ∃ N1, N1 = updAll (fun y => { y with mark := false })
      ((g.root :: L1) ++ L2) g.nodes := ⟨_, rfl⟩
  have hU : UnmarkSubtree g.nodes.length g.root g.nodes = .ok N1 := by
    rw [UnmarkSubtree_eq_visit, hN1]
    exact visit_eq (fun y => { y with mark := false }) (fun _ => rfl) _ _ _ _ W.nodes_ok
  have hN1len : N1.length = g.nodes.length := by rw [hN1, updAll_length]
  have hN1ch : ∀ n, childrenOf N1 n = childrenOf g.nodes n := by
    intro n; rw [hN1, childrenOf_updAll (fun y => { y with mark := false }) (fun _ => rfl)]
  have hN1d : ∀ n, deref N1 n = if n ∈ (g.root :: L1) ++ L2
      then (deref g.nodes n).map (fun y => { y with mark := false }) else deref g.nodes n := by
    intro n; rw [hN1, deref_updAll (fun y => { y with mark := false }) (fun _ => rfl)]
  -- round 1: the subtree of the first child is marked
  obtain ⟨N2, hN2⟩ : ∃ N2, N2 = updAll (fun y => { y with mark := true }) L1 N1 := ⟨_, rfl⟩
  have hN2len : N2.length = g.nodes.length := by rw [hN2, updAll_length, hN1len]
  have hN2ch : ∀ n, childrenOf N2 n = childrenOf g.nodes n := by
    intro n; rw [hN2, childrenOf_updAll (fun y => { y with mark := true }) (fun _ => rfl), hN1ch]
  have hN2d : ∀ n, deref N2 n = if n ∈ L1
      then (deref N1 n).map (fun y => { y with mark := true }) else deref N1 n := by
    intro n; rw [hN2, deref_updAll (fun y => { y with mark := true }) (fun _ => rfl)]
  have hmark1 : Reveal.mark 1 [g.root] N1 = .ok N2 := by
    rw [hN2]
    refine Reveal.mark_single 1 g.root c1 N1 { r with mark := false } L1 ?_ ?_ ?_
    · rw [hN1d, if_pos hrL, hr]; rfl
    · simp [hrc, gAt]
    · rw [hN1len, NDoChild_congr hN1ch]; exact hL1
  obtain ⟨ga, hga⟩ : ∃ ga : efgGame, ga =
      { g with nodes := N2, m_revision := g.m_revision + 1, m_dirty := true } := ⟨_, rfl⟩
  have hgan : ga.nodes = N2 := by rw [hga]
  have hgai : ga.infosets = g.infosets := by rw [hga]
  have hgap : ∀ q, ga.playerRep q = g.playerRep q := by intro q; rw [hga]; rfl
  have Wa : WellFormed ga ((g.root :: L1) ++ L2) := by
    refine W.of_shape (by rw [hga]) (by rw [hgan, hN2len]) (by rw [hgan]; exact hN2ch) ?_ hgai hgap
    intro n
    rw [hgan, hN2d, hN1d]
    by_cases h1 : n ∈ L1 <;> by_cases h2 : n ∈ (g.root :: L1) ++ L2 <;>
      simp only [h1, h2, if_true, if_false] <;> cases deref g.nodes n <;> rfl
  have hy1 : deref ga.nodes m1 = .ok { x1 with mark := true } := by
    rw [hgan, hN2d, if_pos hm1, hN1d, if_pos hm1L, hx1]; rfl
  have hy2 : deref ga.nodes m2 = .ok { x2 with mark := false } := by
    rw [hgan, hN2d, if_neg hm2L1, hN1d, if_pos hm2L, hx2]; rfl
  obtain ⟨f, hf⟩ : ∃ f, N2.length + g.infosets.length + 1 = f + 3 :=
    ⟨N2.length + g.infosets.length - 2, by omega⟩
  obtain ⟨g4, g5, p5, s1, s2, hinf1, S, W4, R, hp5, hl5, hs1, hs1m, hs1a, hs2, hs2m, hs2a⟩ :=
    Reveal.infosets_first who f t m1 m2 ga (g.root :: L1) L2 p ti { x1 with mark := true }
      { x2 with mark := false } Wa (by rw [hga]; exact hs) (by rw [hgap]; exact hp) hpl
      (by rw [hgai]; exact hti) htm hA hm2 hy1 rfl hc1 hy2 rfl
  rw [hgai] at hl5 hs1
  -- the state after round 1
  have hgb1 : deref (store ga.nodes m1 { x1 with mark := false }) m1 =
      .ok { x1 with mark := false } := deref_store_self _ (deref_lt hy1)
  have hd4 := S.deref_nodes hgb1
  have hd41 : deref g4.nodes m1 =
      .ok { x1 with mark := false, infoset := some g.infosets.length } := by
    rw [hd4 m1, if_pos rfl, hgai]
  have hd4o : ∀ m, m ≠ m1 → deref g4.nodes m = deref ga.nodes m := by
    intro m hm
    rw [hd4 m, if_neg hm]
    exact deref_store_ne _ _ (Ne.symm hm)
  have h4len : g4.nodes.length = g.nodes.length := by
    rw [S.nodes, store_length]
    show (store ga.nodes _ _).length = _
    rw [store_length, hgan, hN2len]
  have h4out : g4.outcomes = g.outcomes := by rw [S.outcomes, hga]
  have h4reps : g4.outcomeReps = g.outcomeReps := by rw [S.outcomeReps, hga]
  have h4ilen : g4.infosets.length = g.infosets.length + 1 := by rw [S.infosets_len, hgai]
  have h4wh : deref g4.infosets wh = .ok wi := by
    rw [S.other wh hwt (by rw [hgai]; omega), hgai, hwi]
  have h4pl : ∀ q, q ≠ who → g4.playerRep q = g.playerRep q := by
    intro q hq
    have htp : ti.m_player = who := by
      obtain ⟨ti', h1, h2, _⟩ := (W.lists who p hp).2 t (by rw [hpl]; simp)
      rw [hti] at h1
      cases h1
      exact h2
    rw [S.players q, if_neg (by rw [htp]; exact hq)]
    exact hgap q
  clear S hd4 hgb1
  have hd5 := R.nodes
  have hm12 : m2 ≠ m1 := fun e => hm2L1 (e ▸ hm1)
  have hd51 : deref g5.nodes m1 = .ok (setNumber (((g.root :: L1) ++ L2).indexOf m1 + 1)
      { x1 with mark := false, infoset := some g.infosets.length }) := by
    rw [hd5 m1, if_pos hm1L, hd41]; rfl
  have hd52 : deref g5.nodes m2 = .ok (setNumber (((g.root :: L1) ++ L2).indexOf m2 + 1)
      { x2 with mark := false }) := by
    rw [hd5 m2, if_pos hm2L, hd4o m2 hm12, hy2]; rfl
  have hch5 : ∀ n, childrenOf g5.nodes n = childrenOf g.nodes n := by
    intro n
    have e1 : childrenOf g5.nodes n = childrenOf g4.nodes n := by
      unfold childrenOf
      rw [hd5 n]
      by_cases h : n ∈ (g.root :: L1) ++ L2
      · rw [if_pos h]; cases deref g4.nodes n <;> rfl
      · rw [if_neg h]
    rw [e1]
    by_cases h : n = m1
    · subst h
      unfold childrenOf
      rw [hd41, hx1]
      rfl
    · unfold childrenOf
      rw [hd4o n h, hgan]
      exact hN2ch n
  -- round 2: the infoset `wh` and the root after the sort
  have hwi5 : ∃ wi5, deref g5.infosets wh = .ok wi5 ∧ wi5.m_members = [g.root] := by
    have hior : infosetOf g.nodes g.root = some wh := by simp [infosetOf, hr, hri]
    obtain ⟨wi', pw, h1, _, h3, h4⟩ := W.fwd g.root hrL wh hior
    rw [hwi] at h1
    cases h1
    have hown : wi.m_player ≠ who := by
      intro e
      rw [e, hp] at h3
      cases h3
      rw [hpl] at h4
      exact hwt (List.mem_singleton.1 h4)
    have hpw4 : g4.playerRep wi.m_player = .ok pw := by rw [h4pl _ hown, h3]
    obtain ⟨p1, B, _, _, _, hperm, _, hd⟩ := R.lists wi.m_player pw hpw4
    obtain ⟨si, hsi, hsi5⟩ := hd wh (hperm.mem_iff.2 h4)
    rw [h4wh] at hsi
    cases hsi
    have hm := W4.members_perm hpw4 h4 h4wh
    rw [hwm] at hm
    rw [List.perm_singleton.1 hm.symm] at hsi5
    exact ⟨_, hsi5, rfl⟩
  obtain ⟨wi5, hwi5, hwm5⟩ := hwi5
  obtain ⟨r5, hr5, hrc5⟩ := (childrenOf_eq_ok g5.nodes g.root [c1, c2]).1
    (by rw [hch5]; exact (childrenOf_eq_ok _ _ _).2 ⟨r, hr, hrc⟩)
  have h5len : g5.nodes.length = g.nodes.length := by rw [R.nodes_len, h4len]
  obtain ⟨N6, hN6⟩ : ∃ N6, N6 = updAll (fun y => { y with mark := true }) L2 g5.nodes :=
    ⟨_, rfl⟩
  have hN6d : ∀ n, deref N6 n = if n ∈ L2
      then (deref g5.nodes n).map (fun y => { y with mark := true }) else deref g5.nodes n := by
    intro n; rw [hN6, deref_updAll (fun y => { y with mark := true }) (fun _ => rfl)]
  have hmark2 : Reveal.mark 2 wi5.m_members g5.nodes = .ok N6 := by
    rw [hN6, hwm5]
    refine Reveal.mark_single 2 g.root c2 g5.nodes r5 L2 hr5 ?_ ?_
    · simp [hrc5, gAt]
    · rw [h5len, NDoChild_congr hch5]; exact hL2
  have hi2 : x2.infoset = some t := by
    obtain ⟨ti', h1, _, _, h4⟩ := (W.lists who p hp).2 t (by rw [hpl]; simp)
    rw [hti] at h1
    cases h1
    have := (h4 m2 (htm.mem_iff.2 (by simp))).2
    simpa [infosetOf, hx2] using this
  obtain ⟨f2, hf2⟩ : ∃ f2, N6.length + g5.infosets.length + 1 = f2 + 3 :=
    ⟨N6.length + g5.infosets.length - 2, by rw [R.infosets_len, h4ilen]; omega⟩
  have hinf2 := Reveal.infosets_second who f2 g.infosets.length t m1 m2
    { g5 with nodes := N6 } p5 s1 s2
    (setNumber (((g.root :: L1) ++ L2).indexOf m1 + 1)
      { x1 with mark := false, infoset := some g.infosets.length })
    { x2 with mark := true, number := ((g.root :: L1) ++ L2).indexOf m2 + 1 }
    hp5 hl5 hs1 hs2 hs1m hs2m
    (by show deref N6 m1 = _; rw [hN6d, if_neg hm1L2, hd51]) rfl
    (by show deref N6 m2 = _; rw [hN6d, if_pos hm2, hd52]; rfl) rfl hi2
  -- the renumbering at the end
  obtain ⟨gf, hgf, _, hfp, hfc, _, hsame⟩ := Reindex_spec
    { g5 with
      nodes := store N6 m2
        { x2 with mark := false, number := ((g.root :: L1) ++ L2).indexOf m2 + 1 } }
    (by
      intro q hq s hsq
      obtain ⟨pl, hpl5⟩ := (mem_allPlayers g5 q).1 (List.mem_cons_of_mem _ hq)
      obtain ⟨si, hsi, _⟩ := (R.wf.lists pl q hpl5).2 s hsq
      exact ⟨si, hsi⟩)
    (by
      have := R.scalars
      simp only [scalars, Prod.mk.injEq] at this
      obtain ⟨_, _, _, _, _, h6, _, h8, _⟩ := this
      show ∀ o ∈ g5.outcomes, ∃ oc, deref g5.outcomeReps o = .ok oc
      rw [h6, h8, h4out, h4reps]
      exact hO)
  obtain ⟨sa, hsa, hsa0⟩ := hsame.live (show deref g5.infosets g.infosets.length = .ok s1 from hs1)
  obtain ⟨sb, hsb, hsb0⟩ := hsame.live (show deref g5.infosets t = .ok s2 from hs2)
  have hsam : sa.m_members = s1.m_members := by
    have := congrArg Infoset.m_members hsa0
    exact this
  have hsaa : sa.m_actions = s1.m_actions := by
    have := congrArg Infoset.m_actions hsa0
    exact this
  have hsbm : sb.m_members = s2.m_members := by
    have := congrArg Infoset.m_members hsb0
    exact this
  have hsba : sb.m_actions = s2.m_actions := by
    have := congrArg Infoset.m_actions hsb0
    exact this
  refine ⟨gf, p5, sa, sb, ?_, ?_, hl5, Nat.ne_of_gt htlt, hsa, hsb, by rw [hsam, hs1m],
    by rw [hsbm, hs2m], by rw [hsaa, hs1a], by rw [hsba, hs2a]⟩
  · subst hga
    have h1 := Reveal.actions_step wh who 1 1
      { g with nodes := N1, m_revision := g.m_revision + 1, m_dirty := true } g5 wi N2 hwi
      (by rw [hwm]; exact hmark1) (by rw [hf]; exact hinf1)
    have h2 := Reveal.actions_step wh who 0 2 g5 _ wi5 N6 hwi5 hmark2
      (by rw [hf2]; exact hinf2)
    simp only [Reveal, hwi, ok_bind, hwa, hU]
    rw [if_neg (by decide), h1, h2]
    simp only [Reveal.actions, ok_bind]
    exact hgf
  · rw [playerRep_congr gf g5 who hfp hfc, hp5]

set_option maxRecDepth 1000000 in
/-- Witness for C10: Scenario A, where the root is the single member of player
1's two-action infoset and both children of the root are the members of player
2's only infoset. -/
theorem Reveal_splits_witness :
    ∃ g wi ti r x1 p, scenarioA = .ok g ∧ wellFormed g = true ∧ g.sortisets = true ∧
      outcomesLive g = true ∧ deref g.nodes g.root = .ok r ∧ r.infoset = some 0 ∧
      r.children = [1, 2] ∧ deref g.infosets 0 = .ok wi ∧ wi.m_members = [g.root] ∧
      wi.m_actions.length = 2 ∧ g.playerRep 2 = .ok p ∧ p.m_infosets = [1] ∧
      deref g.infosets 1 = .ok ti ∧ ti.m_members.Perm [1, 2] ∧
      NDoChild g.nodes g.nodes.length 1 [] = .ok [1, 3, 4] ∧ 1 ∈ [1, 3, 4] ∧
      NDoChild g.nodes g.nodes.length 2 [] = .ok [2, 5, 6] ∧ 2 ∈ [2, 5, 6] ∧
      deref g.nodes 1 = .ok x1 ∧ x1.children.length = ti.m_actions.length ∧
      ∃ g1 p1 sa sb, Reveal g 0 2 = .ok g1 ∧ g1.playerRep 2 = .ok p1 ∧
        p1.m_infosets = [g.infosets.length, 1] ∧ g.infosets.length ≠ 1 ∧
        deref g1.infosets g.infosets.length = .ok sa ∧ deref g1.infosets 1 = .ok sb ∧
        sa.m_members = [1] ∧ sb.m_members = [2] ∧
        sa.m_actions.map Action.m_label = ti.m_actions.map Action.m_label ∧
        sb.m_actions = ti.m_actions :=
  ⟨_, _, _, _, _, _, rfl, by decide, by decide, by decide, rfl, by decide, by decide, rfl,
    by decide, by decide, rfl, by decide, rfl, List.Perm.refl _, rfl, by decide, rfl, by decide,
    rfl, by decide,
    Reveal_splits _ 0 2 1 1 2 1 2 _ _ _ _ _ [1, 3, 4] [2, 5, 6] (by decide) (by decide)
      (by decide) rfl (by decide) (by decide) rfl (by decide) (by decide) rfl (by decide) rfl
      (List.Perm.refl _) rfl (by decide) rfl (by decide) rfl (by decide)⟩

set_option maxRecDepth 1000000 in
/-- C11 (failing input): the infoset `s` of `threeMembers` has the single action
`a`; `DeleteAction(s, a)` returns `s` and leaves a game whose revision counter
is one more than before, so the state is not the state before the call. -/
theorem DeleteAction_single_revision :
    ∃ g s si a g1, threeMembers = .ok (g, some s) ∧ deref g.infosets s = .ok si ∧
      si.m_actions = [a] ∧ DeleteAction g (some s) (some a.uid) = .ok (g1, some s) ∧
      g1.m_revision = g.m_revision + 1 ∧ g1 ≠ g := by
  refine ⟨_, _, _, _, _, rfl, rfl, rfl, rfl, rfl, ?_⟩
  intro h
  have := congrArg efgGame.m_revision h
  revert this
  decide

set_option maxRecDepth 1000000 in
/-- C12 (counterexample): in `threeMembers` the action with identity `0` belongs
to the infoset of the root and not to `s`; `InsertAction(s, a)` returns the null
action and `DeleteAction(s, a)` returns `s`, neither raises, and both leave a
game whose revision counter is one more than before. -/
theorem InsertAction_foreign_returns :
    ∃ g s si g1, threeMembers = .ok (g, some s) ∧ deref g.infosets s = .ok si ∧
      (∀ b ∈ si.m_actions, b.uid ≠ 0) ∧
      InsertActionAt g (some s) (some 0) = .ok (g1, none) ∧
      DeleteAction g (some s) (some 0) = .ok (g1, some s) ∧
      g1.m_revision = g.m_revision + 1 := by
  refine ⟨_, _, _, _, rfl, rfl, by decide, rfl, rfl, rfl⟩

theorem findAction_foreign (acts : List Action) (a : Nat) (h : ∀ b ∈ acts, b.uid ≠ a) :
    findAction acts a = acts.length + 1 := by
  unfold findAction
  congr 1
  rw [List.takeWhile_eq_self_iff.2 (fun b hb => by simpa using h b hb)]

/-- C12 (amended): when `a` is not the identity of any action of `s`,
`InsertAction(s, a)` returns the null action and `DeleteAction(s, a)` returns
`s`, without raising; the game they leave has the tree, the infosets, the
players and the outcomes (every part other than the revision counter and the
dirty flag) of the game before the call. -/
theorem InsertAction_DeleteAction_foreign (g : efgGame) (s a : Nat) (si : Infoset)
    (hs : deref g.infosets s = .ok si) (ha : ∀ b ∈ si.m_actions, b.uid ≠ a) :
    ∃ g1, InsertActionAt g (some s) (some a) = .ok (g1, none) ∧
      DeleteAction g (some s) (some a) = .ok (g1, some s) ∧
      { g1 with m_revision := g.m_revision, m_dirty := g.m_dirty } = g := by
  have hf := findAction_foreign si.m_actions a ha
  refine ⟨{ g with m_revision := g.m_revision + 1, m_dirty := true }, ?_, ?_, rfl⟩
  · simp only [InsertActionAt, hs, ok_bind, hf]
    rw [if_pos (by omega)]
    rfl
  · simp only [DeleteAction, hs, ok_bind, hf]
    rw [if_pos (Or.inl (by omega))]
    rfl

set_option maxRecDepth 1000000 in
/-- Witness for C12: the infoset `s` of `threeMembers` and the first action of
the root's infoset. -/
theorem InsertAction_DeleteAction_foreign_witness :
    ∃ g s si, threeMembers = .ok (g, some s) ∧ deref g.infosets s = .ok si ∧
      (∀ b ∈ si.m_actions, b.uid ≠ 0) ∧
      ∃ g1, InsertActionAt g (some s) (some 0) = .ok (g1, none) ∧
        DeleteAction g (some s) (some 0) = .ok (g1, some s) ∧
        { g1 with m_revision := g.m_revision, m_dirty := g.m_dirty } = g :=
  ⟨_, _, _, rfl, rfl, by decide,
    InsertAction_DeleteAction_foreign _ _ 0 _ rfl (by decide)⟩

set_option maxRecDepth 1000000 in
/-- C13 (failing input): in `threeMembers`, `AppendNode(root, player 1, -1)`
does not raise: it returns the infoset of the root and leaves a game whose
revision counter is one more than before, while `InsertNode(root, player 1, -1)`
raises. -/
theorem AppendNode_negative_count :
    ∃ g s x g1, threeMembers = .ok (g, s) ∧ deref g.nodes g.root = .ok x ∧
      AppendNode g (some g.root) (some 1) (-1) = .ok (g1, x.infoset) ∧
      g1.m_revision = g.m_revision + 1 ∧
      InsertNode g (some g.root) (some 1) (-1) = .error .efgException := by
  refine ⟨_, _, _, _, rfl, rfl, rfl, rfl, rfl⟩

set_option maxRecDepth 1000000 in
/-- C20 (failing input): in `nestedSubgame` the interior node `a` and the terminal
node `b` have the same subgame root and `b` is outside the subtree of `a`, which
holds the marked subgame root `a1`.  `CopyTree(a, b)` does not return: the copy
of `a1` is refused by `AppendNode` as a bridge between subgames, and the loop of
`CopySubtree` then asks for the first child of a node without children. -/
theorem CopyTree_nested_subgame :
    ∃ g a b xa xb ls, nestedSubgame = .ok (g, a, b) ∧ wellFormed g = true ∧
      deref g.nodes a = .ok xa ∧ xa.children ≠ [] ∧ deref g.nodes b = .ok xb ∧
      xb.children = [] ∧ xa.gameroot = xb.gameroot ∧
      NDoChild g.nodes g.nodes.length a [] = .ok ls ∧ b ∉ ls ∧
      CopyTree g (some a) (some b) = .error .badIndex := by
  refine ⟨_, _, _, _, _, _, rfl, by decide, rfl, by decide, rfl, by decide, by decide, rfl,
    by decide, rfl⟩

theorem parentsOk_spec {g : efgGame} {l : List Nat} (h : parentsOk g l = true) :
    (∃ r, deref g.nodes g.root = .ok r ∧ r.parent = none) ∧ ParentsOk g.nodes l := by
  unfold parentsOk at h
  rw [Bool.and_eq_true] at h
  obtain ⟨h1, h2⟩ := h
  constructor
  · cases hr : deref g.nodes g.root with
    | ok r =>
      rw [hr] at h1
      exact ⟨r, rfl, by simpa using h1⟩
    | error e => rw [hr] at h1; cases h1
  · intro v hv x hx c hc
    have h3 := List.all_eq_true.1 h2 v hv
    rw [hx] at h3
    have h4 := List.all_eq_true.1 h3 c hc
    cases hy : deref g.nodes c with
    | ok y =>
      rw [hy] at h4
      exact ⟨y, rfl, by simpa using h4⟩
    | error e => simp [hy] at h4

theorem forall₂_mem_right {α β : Type} {R : α → β → Prop} {l1 : List α} {l2 : List β}
    (h : List.Forall₂ R l1 l2) {b : β} (hb : b ∈ l2) : ∃ a ∈ l1, R a b := by
  induction h with
  | nil => cases hb
  | cons hab _ ih =>
    rcases List.mem_cons.1 hb with e | e
    · subst e
      exact ⟨_, List.mem_cons_self _ _, hab⟩
    · obtain ⟨a, ha, hr⟩ := ih e
      exact ⟨a, List.mem_cons_of_mem _ ha, hr⟩

theorem NDoChild_mono_le (nodes : List (Option Node)) (n : Nat) (l : List Nat) :
    ∀ (k fuel : Nat), NDoChild nodes fuel n [] = .ok l → NDoChild nodes (fuel + k) n [] = .ok l := by
  intro k
  induction k with
  | zero => intro fuel h; exact h
  | succ k ih =>
    intro fuel h
    exact NDoChild_mono nodes _ n [] l (ih fuel h)

/-- The preorder list of a subtree does not depend on the recursion budget. -/
theorem NDoChild_det {nodes : List (Option Node)} {n f1 f2 : Nat} {l1 l2 : List Nat}
    (h1 : NDoChild nodes f1 n [] = .ok l1) (h2 : NDoChild nodes f2 n [] = .ok l2) : l1 = l2 := by
  have e1 := NDoChild_mono_le nodes n l1 f2 f1 h1
  have e2 := NDoChild_mono_le nodes n l2 f1 f2 h2
  rw [Nat.add_comm] at e2
  rw [e1] at e2
  injection e2

/-- The subtree of a node of a subtree lies in that subtree. -/
theorem NDoChild_subset (nodes : List (Option Node)) :
    ∀ (fuel v : Nat) (l : List Nat), NDoChild nodes fuel v [] = .ok l →
      ∀ u ∈ l, ∀ (fu : Nat) (lu : List Nat), NDoChild nodes fu u [] = .ok lu → lu ⊆ l := by
  intro fuel
  induction fuel with
  | zero => intro v l h; cases h
  | succ fuel ih =>
    intro v l h u hu fu lu hlu
    obtain ⟨x, ls, hx, hF, hl⟩ := NDoChild_ok nodes fuel v l h
    subst hl
    rcases List.mem_cons.1 hu with e | e
    · subst e
      rw [NDoChild_det hlu h]
      exact fun _ h => h
    · obtain ⟨lc, hlc, hulc⟩ := List.mem_flatten.1 e
      obtain ⟨c, _, hc⟩ := forall₂_mem_right hF hlc
      intro w hw
      exact List.mem_cons_of_mem _ (List.mem_flatten.2 ⟨lc, hlc, ih c lc hc u hulc fu lu hlu hw⟩)

/-- Following the parent pointers from a node `u` of the subtree of `v` leads to
`v` in fewer steps than the recursion budget of the subtree, and the ancestor
test can only succeed on the way at a node whose subtree holds `u`. -/
theorem IsPredecessor_chain (nodes : List (Option Node)) :
    ∀ (fuel v : Nat) (l : List Nat), NDoChild nodes fuel v [] = .ok l → ParentsOk nodes l →
      ∀ u ∈ l, ∃ d, d < fuel ∧ ∀ (f : Nat) (t : Option Nat),
        (IsPredecessor nodes (f + d) t (some u) = .ok true ∧
          ∃ w fw lw, t = some w ∧ NDoChild nodes fw w [] = .ok lw ∧ u ∈ lw) ∨
        IsPredecessor nodes (f + d) t (some u) = IsPredecessor nodes f t (some v) := by
  intro fuel
  induction fuel with
  | zero => intro v l h; cases h
  | succ fuel ih =>
    intro v l h hP u hu
    obtain ⟨x, ls, hx, hF, hl⟩ := NDoChild_ok nodes fuel v l h
    subst hl
    rcases List.mem_cons.1 hu with e | e
    · subst e
      exact ⟨0, Nat.succ_pos _, fun f t => Or.inr rfl⟩
    · obtain ⟨lc, hlc, hulc⟩ := List.mem_flatten.1 e
      obtain ⟨c, hcx, hc⟩ := forall₂_mem_right hF hlc
      have hPc : ParentsOk nodes lc := fun w hw =>
        hP w (List.mem_cons_of_mem _ (List.mem_flatten.2 ⟨lc, hlc, hw⟩))
      obtain ⟨d, hd, hch⟩ := ih c lc hc hPc u hulc
      refine ⟨d + 1, by omega, ?_⟩
      intro f t
      have e1 : f + (d + 1) = (f + 1) + d := by omega
      rw [e1]
      rcases hch (f + 1) t with h1 | h1
      · exact Or.inl h1
      · rw [h1]
        obtain ⟨y, hy, hyp⟩ := hP v (List.mem_cons_self _ _) x hx c hcx
        by_cases ht : t = some c
        · left
          refine ⟨by simp [IsPredecessor, ht], c, fuel, lc, ht, hc, hulc⟩
        · right
          simp only [IsPredecessor, ht, if_false, hy, ok_bind, hyp]

/-- In a tree with consistent parent pointers the ancestor test of `MoveTree`
returns, and it returns `true` only when `dest` is in the subtree of `src`. -/
theorem IsPredecessor_spec (g : efgGame) (L : List Nat) (src dest : Nat)
    (hL : Nodes g = .ok L) (hP : parentsOk g L = true) (hd : dest ∈ L) :
    ∃ b, IsPredecessor g.nodes (g.nodes.length + 1) (some src) (some dest) = .ok b ∧
      (b = true → ∃ fw lw, NDoChild g.nodes fw src [] = .ok lw ∧ dest ∈ lw) := by
  obtain ⟨⟨r, hr, hrp⟩, hPk⟩ := parentsOk_spec hP
  obtain ⟨d, hdlt, hch⟩ := IsPredecessor_chain g.nodes g.nodes.length g.root L hL hPk dest hd
  obtain ⟨f, hf⟩ : ∃ f, g.nodes.length + 1 = (f + 2) + d := ⟨g.nodes.length - 1 - d, by omega⟩
  rw [hf]
  rcases hch (f + 2) (some src) with ⟨h1, w, fw, lw, hw, hsub, hmem⟩ | h1
  · cases hw
    exact ⟨true, h1, fun _ => ⟨fw, lw, hsub, hmem⟩⟩
  · rw [h1]
    by_cases e : src = g.root
    · subst e
      exact ⟨true, by simp [IsPredecessor], fun _ => ⟨_, L, hL, hd⟩⟩
    · refine ⟨false, ?_, fun h => by cases h⟩
      have e2 : (some src : Option Nat) ≠ some g.root := fun h => e (Option.some.inj h)
      simp [IsPredecessor, e2, hr, hrp, bind, Except.bind]

/-- When `dest` is in the subtree of `src` and the parent pointers are
consistent there, the ancestor test returns `true`. -/
theorem IsPredecessor_of_subtree (nodes : List (Option Node)) (src dest fw : Nat)
    (lw : List Nat) (hsub : NDoChild nodes fw src [] = .ok lw) (hP : ParentsOk nodes lw)
    (hd : dest ∈ lw) (fuel : Nat) (hf : fw ≤ fuel) :
    IsPredecessor nodes (fuel + 1) (some src) (some dest) = .ok true := by
  obtain ⟨d, hdlt, hch⟩ := IsPredecessor_chain nodes fw src lw hsub hP dest hd
  obtain ⟨f, hf2⟩ : ∃ f, fuel + 1 = (f + 1) + d := ⟨fuel - d, by omega⟩
  rw [hf2]
  rcases hch (f + 1) (some src) with ⟨h1, _⟩ | h1
  · exact h1
  · rw [h1]
    simp [IsPredecessor]

/-- C18: in a tree with consistent parent pointers, for nodes `src` and `dest`
of the tree, `CopyTree(src, dest)` returns `src` and leaves the game as it is
when `src = dest`, or `dest` has children, or the subgame roots differ; and
`MoveTree(src, dest)` does so in these cases and when `dest` is in the subtree
of `src`.  Neither raises. -/
theorem CopyTree_MoveTree_rejected (g : efgGame) (L ls : List Nat) (src dest : Nat)
    (xs xd : Node) (hL : Nodes g = .ok L) (hP : parentsOk g L = true) (hsL : src ∈ L)
    (hdL : dest ∈ L) (hs : deref g.nodes src = .ok xs) (hd : deref g.nodes dest = .ok xd)
    (hsub : NDoChild g.nodes g.nodes.length src [] = .ok ls) :
    (src = dest ∨ xd.children ≠ [] ∨ xs.gameroot ≠ xd.gameroot →
      CopyTree g (some src) (some dest) = .ok (g, some src)) ∧
    (src = dest ∨ xd.children ≠ [] ∨ xs.gameroot ≠ xd.gameroot ∨ dest ∈ ls →
      MoveTree g (some src) (some dest) = .ok (g, some src)) := by
  have hlen : ∀ (x : Node), x.children ≠ [] ↔ x.children.length ≠ 0 := by
    intro x; simp
  constructor
  · intro h
    simp only [CopyTree, hs, hd, ok_bind]
    by_cases h1 : src = dest ∨ xd.children.length ≠ 0
    · rw [if_pos h1]; rfl
    · rw [if_neg h1]
      have h2 : xs.gameroot ≠ xd.gameroot := by
        rcases h with h | h | h
        · exact absurd (Or.inl h) h1
        · exact absurd (Or.inr ((hlen xd).1 h)) h1
        · exact h
      rw [if_pos h2]; rfl
  · intro h
    simp only [MoveTree, hs, hd, ok_bind]
    by_cases h1 : src = dest ∨ xd.children.length ≠ 0
    · rw [if_pos h1]
      simp only [pure_eq_ok, ok_bind]
      rw [if_pos (by rcases h1 with h1 | h1; exact Or.inl h1; exact Or.inr (Or.inl h1))]
    · rw [if_neg h1]
      obtain ⟨b, hb, _⟩ := IsPredecessor_spec g L src dest hL hP hdL
      rw [hb, ok_bind]
      by_cases h2 : src = dest ∨ xd.children.length ≠ 0 ∨ b = true
      · rw [if_pos h2]; rfl
      · rw [if_neg h2]
        have h3 : xs.gameroot ≠ xd.gameroot := by
          rcases h with h | h | h | h
          · exact absurd (Or.inl h) h1
          · exact absurd (Or.inr ((hlen xd).1 h)) h1
          · exact h
          · exfalso
            have hPk := (parentsOk_spec hP).2
            have hsubL : ls ⊆ L := NDoChild_subset g.nodes _ _ L hL src hsL _ ls hsub
            have := IsPredecessor_of_subtree g.nodes src dest _ ls hsub
              (fun v hv => hPk v (hsubL hv)) h g.nodes.length (Nat.le_refl _)
            rw [hb] at this
            injection this with e
            exact h2 (Or.inr (Or.inr e))
        rw [if_pos h3]; rfl

set_option maxRecDepth 1000000 in
/-- Witness for C18: in `threeMembers` the first child of the root and its own
child, which is in its subtree. -/
theorem CopyTree_MoveTree_rejected_witness :
    ∃ g s L xs xd, threeMembers = .ok (g, s) ∧ Nodes g = .ok L ∧ parentsOk g L = true ∧
      1 ∈ L ∧ 4 ∈ L ∧ deref g.nodes 1 = .ok xs ∧ deref g.nodes 4 = .ok xd ∧
      NDoChild g.nodes g.nodes.length 1 [] = .ok [1, 4] ∧ 4 ∈ [1, 4] ∧
      ((1 = 4 ∨ xd.children ≠ [] ∨ xs.gameroot ≠ xd.gameroot →
        CopyTree g (some 1) (some 4) = .ok (g, some 1)) ∧
      (1 = 4 ∨ xd.children ≠ [] ∨ xs.gameroot ≠ xd.gameroot ∨ 4 ∈ [1, 4] →
        MoveTree g (some 1) (some 4) = .ok (g, some 1))) :=
  ⟨_, _, _, _, _, rfl, rfl, by decide, by decide, by decide, rfl, rfl, rfl, by decide,
    CopyTree_MoveTree_rejected _ _ [1, 4] 1 4 _ _ rfl (by decide) (by decide) (by decide) rfl
      rfl rfl⟩

theorem forall₂_imp_mem {α β : Type} {R S : α → β → Prop} {l1 : List α} {l2 : List β}
    (h : List.Forall₂ R l1 l2) (hi : ∀ a b, a ∈ l1 → b ∈ l2 → R a b → S a b) :
    List.Forall₂ S l1 l2 := by
  induction h with
  | nil => exact List.Forall₂.nil
  | cons hab _ ih =>
    exact List.Forall₂.cons (hi _ _ (List.mem_cons_self _ _) (List.mem_cons_self _ _) hab)
      (ih (fun a b ha hb => hi a b (List.mem_cons_of_mem _ ha) (List.mem_cons_of_mem _ hb)))

theorem foldlM_NDoChild_of (nodes : List (Option Node)) (fuel : Nat) :
    ∀ (cs : List Nat) (ls : List (List Nat)),
      List.Forall₂ (fun c lc => NDoChild nodes fuel c [] = .ok lc) cs ls →
      cs.foldlM (fun acc c => NDoChild nodes fuel c acc) [] = .ok ls.flatten := by
  intro cs ls h
  induction h with
  | nil => rfl
  | cons hc _ ih =>
    rw [List.foldlM_cons, hc, ok_bind,
      foldlM_NDoChild_append nodes fuel (NDoChild_append nodes fuel), ih]
    simp [Except.map]

/-- The preorder list of a node from the preorder lists of its children. -/
theorem NDoChild_of (nodes : List (Option Node)) (fuel n : Nat) (x : Node)
    (ls : List (List Nat)) (hx : deref nodes n = .ok x)
    (h : List.Forall₂ (fun c lc => NDoChild nodes fuel c [] = .ok lc) x.children ls) :
    NDoChild nodes (fuel + 1) n [] = .ok (n :: ls.flatten) := by
  rw [NDoChild_succ, (childrenOf_eq_ok nodes n x.children).2 ⟨x, hx, rfl⟩, ok_bind,
    foldlM_NDoChild_append nodes fuel (NDoChild_append nodes fuel),
    foldlM_NDoChild_of nodes fuel _ _ h]
  simp [Except.map]

theorem forall₂_fuel (nodes : List (Option Node)) :
    ∀ (cs : List Nat) (ls : List (List Nat)),
      List.Forall₂ (fun c lc => Subtree nodes c lc) cs ls →
      ∃ F, List.Forall₂ (fun c lc => NDoChild nodes F c [] = .ok lc) cs ls := by
  intro cs ls h
  induction h with
  | nil => exact ⟨0, List.Forall₂.nil⟩
  | cons hc _ ih =>
    obtain ⟨F, hF⟩ := ih
    obtain ⟨f, hf⟩ := hc
    refine ⟨f + F, List.Forall₂.cons (NDoChild_mono_le nodes _ _ F f hf) ?_⟩
    refine hF.imp ?_
    intro c lc h
    have := NDoChild_mono_le nodes c lc f F h
    rwa [Nat.add_comm] at this

theorem Subtree.mk {nodes : List (Option Node)} {n : Nat} {x : Node} {ls : List (List Nat)}
    (hx : deref nodes n = .ok x)
    (h : List.Forall₂ (fun c lc => Subtree nodes c lc) x.children ls) :
    Subtree nodes n (n :: ls.flatten) := by
  obtain ⟨F, hF⟩ := forall₂_fuel nodes _ _ h
  exact ⟨F + 1, NDoChild_of nodes F n x ls hx hF⟩

theorem Subtree.cases {nodes : List (Option Node)} {n : Nat} {l : List Nat}
    (h : Subtree nodes n l) :
    ∃ x ls, deref nodes n = .ok x ∧
      List.Forall₂ (fun c lc => Subtree nodes c lc) x.children ls ∧ l = n :: ls.flatten := by
  obtain ⟨fuel, hf⟩ := h
  cases fuel with
  | zero => cases hf
  | succ fuel =>
    obtain ⟨x, ls, hx, hF, hl⟩ := NDoChild_ok nodes fuel n l hf
    exact ⟨x, ls, hx, hF.imp (fun c lc h => ⟨fuel, h⟩), hl⟩

theorem Subtree.det {nodes : List (Option Node)} {n : Nat} {l1 l2 : List Nat}
    (h1 : Subtree nodes n l1) (h2 : Subtree nodes n l2) : l1 = l2 := by
  obtain ⟨f1, h1⟩ := h1
  obtain ⟨f2, h2⟩ := h2
  exact NDoChild_det h1 h2

theorem Subtree.subset {nodes : List (Option Node)} {v u : Nat} {l lu : List Nat}
    (h : Subtree nodes v l) (hu : u ∈ l) (hlu : Subtree nodes u lu) : lu ⊆ l := by
  obtain ⟨f, h⟩ := h
  obtain ⟨fu, hlu⟩ := hlu
  exact NDoChild_subset nodes f v l h u hu fu lu hlu

theorem length_le_flatten {α : Type} {l : List α} {ls : List (List α)} (h : l ∈ ls) :
    l.length ≤ ls.flatten.length := by
  induction ls with
  | nil => cases h
  | cons a t ih =>
    rw [List.flatten_cons, List.length_append]
    rcases List.mem_cons.1 h with e | e
    · subst e; omega
    · have := ih e; omega

/-- Every node of a subtree has a subtree of its own, which is not longer. -/
theorem NDoChild_sub (nodes : List (Option Node)) :
    ∀ (fuel v : Nat) (l : List Nat), NDoChild nodes fuel v [] = .ok l →
      ∀ u ∈ l, ∃ lu, NDoChild nodes fuel u [] = .ok lu ∧ lu.length ≤ l.length ∧
        (u ≠ v → lu.length < l.length) := by
  intro fuel
  induction fuel with
  | zero => intro v l h; cases h
  | succ fuel ih =>
    intro v l h u hu
    obtain ⟨x, ls, hx, hF, hl⟩ := NDoChild_ok nodes fuel v l h
    subst hl
    by_cases e : u = v
    · subst e
      exact ⟨_, h, Nat.le_refl _, fun h => absurd rfl h⟩
    · rcases List.mem_cons.1 hu with e1 | e1
      · exact absurd e1 e
      · obtain ⟨lc, hlc, hulc⟩ := List.mem_flatten.1 e1
        obtain ⟨c, _, hc⟩ := forall₂_mem_right hF hlc
        obtain ⟨lu, h1, h2, _⟩ := ih c lc hc u hulc
        have h3 := length_le_flatten hlc
        refine ⟨lu, NDoChild_mono nodes fuel u [] lu h1, ?_, fun _ => ?_⟩
        · simp only [List.length_cons]; omega
        · simp only [List.length_cons]; omega

theorem Subtree.sub {nodes : List (Option Node)} {v u : Nat} {l : List Nat}
    (h : Subtree nodes v l) (hu : u ∈ l) :
    ∃ lu, Subtree nodes u lu ∧ (u ≠ v → lu.length < l.length) := by
  obtain ⟨f, h⟩ := h
  obtain ⟨lu, h1, _, h3⟩ := NDoChild_sub nodes f v l h u hu
  exact ⟨lu, ⟨f, h1⟩, h3⟩

/-- A node is not in the subtree of one of its children. -/
theorem Subtree.count_self {nodes : List (Option Node)} {a : Nat} {la : List Nat}
    (h : Subtree nodes a la) : la.count a = 1 := by
  obtain ⟨x, ls, hx, hF, hl⟩ := h.cases
  have hno : a ∉ ls.flatten := by
    intro hin
    obtain ⟨lc, hlc, halc⟩ := List.mem_flatten.1 hin
    obtain ⟨c, _, hc⟩ := forall₂_mem_right hF hlc
    obtain ⟨lu, h1, _⟩ := hc.sub halc
    have e := h1.det h
    have h3 := length_le_flatten hlc
    obtain ⟨fc, hfc⟩ := hc
    obtain ⟨lu2, h4, h5, _⟩ := NDoChild_sub nodes fc c lc hfc a halc
    have e2 : lu2 = la := Subtree.det ⟨fc, h4⟩ h
    rw [e2, hl] at h5
    simp only [List.length_cons] at h5
    omega
  rw [hl, List.count_cons_self, List.count_eq_zero_of_not_mem hno]

/-- The recursion budget the preorder list of a subtree needs is at most its
length. -/
theorem NDoChild_min_fuel (nodes : List (Option Node)) :
    ∀ (fuel v : Nat) (l : List Nat), NDoChild nodes fuel v [] = .ok l →
      NDoChild nodes l.length v [] = .ok l := by
  intro fuel
  induction fuel with
  | zero => intro v l h; cases h
  | succ fuel ih =>
    intro v l h
    obtain ⟨x, ls, hx, hF, hl⟩ := NDoChild_ok nodes fuel v l h
    subst hl
    have hF2 : List.Forall₂ (fun c lc => NDoChild nodes ls.flatten.length c [] = .ok lc)
        x.children ls := by
      refine forall₂_imp_mem hF ?_
      intro c lc _ hlc hc
      have h1 := ih _ _ hc
      have h2 := length_le_flatten hlc
      obtain ⟨k, hk⟩ : ∃ k, ls.flatten.length = lc.length + k :=
        ⟨_, (Nat.add_sub_cancel' h2).symm⟩
      rw [hk]
      exact NDoChild_mono_le nodes _ _ k _ h1
    have := NDoChild_of nodes _ v x ls hx hF2
    simpa using this

/-- A preorder list without repetition is found with the size of the heap as
recursion budget. -/
theorem Subtree.fuel {nodes : List (Option Node)} {v : Nat} {l : List Nat}
    (h : Subtree nodes v l) (hnd : l.Nodup) (hlt : ∀ u ∈ l, u < nodes.length) :
    NDoChild nodes nodes.length v [] = .ok l := by
  obtain ⟨f, hf⟩ := h
  have h1 := NDoChild_min_fuel nodes f v l hf
  have h2 : l.length ≤ nodes.length := by
    have hsub : l ⊆ List.range nodes.length := fun u hu => List.mem_range.2 (hlt u hu)
    have := (List.subperm_of_subset hnd hsub).length_le
    simpa using this
  obtain ⟨k, hk⟩ : ∃ k, nodes.length = l.length + k := ⟨_, (Nat.add_sub_cancel' h2).symm⟩
  rw [hk]
  exact NDoChild_mono_le nodes v l k _ h1

/-- The preorder list of a subtree is the same in a heap that has the same child
lists at the nodes of the subtree. -/
theorem NDoChild_same (nodes nodes1 : List (Option Node)) :
    ∀ (fuel v : Nat) (l : List Nat), NDoChild nodes fuel v [] = .ok l →
      (∀ u ∈ l, childrenOf nodes1 u = childrenOf nodes u) →
      NDoChild nodes1 fuel v [] = .ok l := by
  intro fuel
  induction fuel with
  | zero => intro v l h; cases h
  | succ fuel ih =>
    intro v l h hag
    obtain ⟨x, ls, hx, hF, hl⟩ := NDoChild_ok nodes fuel v l h
    subst hl
    have hv := hag v (List.mem_cons_self _ _)
    rw [(childrenOf_eq_ok nodes v x.children).2 ⟨x, hx, rfl⟩, childrenOf_eq_ok] at hv
    obtain ⟨x1, hx1, hc1⟩ := hv
    have hF1 : List.Forall₂ (fun c lc => NDoChild nodes1 fuel c [] = .ok lc) x1.children ls := by
      rw [hc1]
      refine forall₂_imp_mem hF ?_
      intro c lc _ hlc hc
      exact ih _ _ hc (fun u hu =>
        hag u (List.mem_cons_of_mem _ (List.mem_flatten.2 ⟨lc, hlc, hu⟩)))
    exact NDoChild_of nodes1 fuel v x1 ls hx1 hF1

theorem Subtree.same {nodes nodes1 : List (Option Node)} {v : Nat} {l : List Nat}
    (h : Subtree nodes v l) (hag : ∀ u ∈ l, childrenOf nodes1 u = childrenOf nodes u) :
    Subtree nodes1 v l := by
  obtain ⟨f, hf⟩ := h
  exact ⟨f, NDoChild_same nodes nodes1 f v l hf hag⟩

theorem forall₂_exists {α β γ : Type} {R : α → β → Prop} {S : α → γ → Prop}
    {T : β → γ → Prop} {l1 : List α} {l2 : List β} (h : List.Forall₂ R l1 l2)
    (hi : ∀ a b, a ∈ l1 → b ∈ l2 → R a b → ∃ c, S a c ∧ T b c) :
    ∃ l3, List.Forall₂ S l1 l3 ∧ List.Forall₂ T l2 l3 := by
  induction h with
  | nil => exact ⟨[], List.Forall₂.nil, List.Forall₂.nil⟩
  | cons hab _ ih =>
    obtain ⟨c, hs, ht⟩ := hi _ _ (List.mem_cons_self _ _) (List.mem_cons_self _ _) hab
    obtain ⟨l3, h1, h2⟩ := ih (fun a b ha hb =>
      hi a b (List.mem_cons_of_mem _ ha) (List.mem_cons_of_mem _ hb))
    exact ⟨c :: l3, List.Forall₂.cons hs h1, List.Forall₂.cons ht h2⟩

theorem count_flatten_rel (a : Nat) (A B : Nat → Nat) {ls ls1 : List (List Nat)}
    (h : List.Forall₂ (fun lc lc1 => ∀ z, lc1.count z + lc.count a * A z =
      lc.count z + lc.count a * B z) ls ls1) :
    ∀ z, ls1.flatten.count z + ls.flatten.count a * A z =
      ls.flatten.count z + ls.flatten.count a * B z := by
  induction h with
  | nil => intro z; simp
  | cons hab _ ih =>
    intro z
    have h1 := hab z
    have h2 := ih z
    simp only [List.flatten_cons, List.count_append, Nat.add_mul]
    omega

/-- The preorder lists of a heap `nodes1` that differs from `nodes` in the child
list of the node `a` only, in terms of those of `nodes`: every occurrence of the
subtree of `a` is replaced by the new subtree of `a`. -/
theorem NDoChild_rewrite (nodes nodes1 : List (Option Node)) (a : Nat) (la la1 : List Nat)
    (hla : Subtree nodes a la) (hla1 : Subtree nodes1 a la1)
    (hag : ∀ u x, u ≠ a → deref nodes u = .ok x → childrenOf nodes1 u = .ok x.children) :
    ∀ (fuel v : Nat) (l : List Nat), NDoChild nodes fuel v [] = .ok l →
      ∃ l1, Subtree nodes1 v l1 ∧ ∀ z, l1.count z + l.count a * la.count z =
        l.count z + l.count a * la1.count z := by
  intro fuel
  induction fuel with
  | zero => intro v l h; cases h
  | succ fuel ih =>
    intro v l h
    by_cases e : v = a
    · subst e
      have e1 : l = la := Subtree.det ⟨_, h⟩ hla
      subst e1
      refine ⟨la1, hla1, ?_⟩
      intro z
      rw [hla.count_self]
      omega
    · obtain ⟨x, ls, hx, hF, hl⟩ := NDoChild_ok nodes fuel v l h
      subst hl
      obtain ⟨x1, hx1, hc1⟩ := (childrenOf_eq_ok nodes1 v x.children).1 (hag v x e hx)
      obtain ⟨ls1, h1, h2⟩ := forall₂_exists hF (fun c lc _ _ hc => ih c lc hc)
      rw [← hc1] at h1
      refine ⟨v :: ls1.flatten, Subtree.mk hx1 h1, ?_⟩
      intro z
      have h3 := count_flatten_rel a (fun z => la.count z) (fun z => la1.count z) h2 z
      simp only [List.count_cons, beq_iff_eq] at h3 ⊢
      rw [if_neg e]
      simp only [Nat.add_zero]
      by_cases ez : v = z
      · simp only [ez, if_true]; omega
      · simp only [ez, if_false]; omega

theorem appendChildren_spec (n : Nat) :
    ∀ (k : Nat) (nodes : List (Option Node)) (x : Node), deref nodes n = .ok x →
      ∃ nodes1, appendChildren nodes n k = .ok nodes1 ∧ nodes1.length = nodes.length + k ∧
        deref nodes1 n = .ok { x with children := x.children ++ List.range' nodes.length k } ∧
        (∀ i, i < k → deref nodes1 (nodes.length + i) = .ok (freshNode n x.gameroot)) ∧
        (∀ m, m < nodes.length → m ≠ n → deref nodes1 m = deref nodes m) := by
  intro k
  induction k with
  | zero =>
    intro nodes x hx
    refine ⟨nodes, rfl, rfl, ?_, fun i hi => absurd hi (Nat.not_lt_zero _), fun _ _ _ => rfl⟩
    simp [hx]
  | succ k ih =>
    intro nodes x hx
    have hlt := deref_lt hx
    have hne : n ≠ nodes.length := Nat.ne_of_lt hlt
    have h1 : deref (nodes ++ [some (freshNode n x.gameroot)]) n = .ok x := by
      rw [deref_append_new, if_neg hne, hx]
    have hlt1 : n < (nodes ++ [some (freshNode n x.gameroot)]).length := by
      simp; omega
    obtain ⟨nodes1, h2, h3, h4, h5, h6⟩ := ih
      (store (nodes ++ [some (freshNode n x.gameroot)]) n
        { x with children := x.children ++ [nodes.length] })
      { x with children := x.children ++ [nodes.length] } (deref_store_self _ hlt1)
    simp only [store_length, List.length_append, List.length_singleton] at h3 h4 h5 h6
    refine ⟨nodes1, ?_, by omega, ?_, ?_, ?_⟩
    · simp only [appendChildren, newNode, hx, ok_bind, pure_eq_ok]
      have h1' := h1
      simp only [freshNode] at h1'
      rw [h1', ok_bind]
      exact h2
    · rw [h4]
      simp [List.range'_succ]
    · intro i hi
      cases i with
      | zero =>
        rw [Nat.add_zero, h6 _ (by omega) (Ne.symm hne), deref_store_ne _ _ hne,
          deref_append_new, if_pos rfl]
      | succ j =>
        have := h5 j (by omega)
        rw [show nodes.length + (j + 1) = nodes.length + 1 + j by omega]
        exact this
    · intro m hm hmn
      rw [h6 m (by omega) hmn, deref_store_ne _ _ (Ne.symm hmn), deref_append_new,
        if_neg (by omega)]

/-- The state in which `AppendNode(n, p, count)` and `InsertNode(n, p, count)`
call `SortInfosets` is well-formed when the state they were called in is:
`L1` is the new preorder list, which extends the old one, and `m` is the member
of the fresh infoset. -/
theorem FreshInfoset.wf_fresh {g g4 : efgGame} {p m count : Nat} {player : Player}
    {L L1 : List Nat} (F : FreshInfoset g g4 p player m count) (hwf : WellFormed g L)
    (hp : g.playerRep p = .ok player) (hN : Nodes g4 = .ok L1) (hnd : L1.Nodup)
    (hlive : ∀ u ∈ L1, ∃ x, deref g4.nodes u = .ok x) (hm : m ∈ L1) (hLL : L ⊆ L1)
    (hiom : infosetOf g4.nodes m = some g.infosets.length)
    (him : infosetOf g.nodes m = none)
    (hio : ∀ u, u ≠ m → u ∈ L → infosetOf g4.nodes u = infosetOf g.nodes u)
    (hin : ∀ u, u ≠ m → u ∈ L1 → u ∉ L → infosetOf g4.nodes u = none) :
    WellFormed g4 L1 := by
  obtain ⟨ti, hti, htp, htm, _⟩ := F.fresh
  have hold : ∀ k ki, deref g.infosets k = .ok ki → deref g4.infosets k = .ok ki := by
    intro k ki hk
    rw [F.other k (by have := deref_lt hk; omega), hk]
  have hmem : ∀ s' si', deref g.infosets s' = .ok si' →
      (∀ mm ∈ si'.m_members, mm ∈ L ∧ infosetOf g.nodes mm = some s') →
      ∀ mm ∈ si'.m_members, mm ∈ L1 ∧ infosetOf g4.nodes mm = some s' := by
    intro s' si' _ h4 mm hmm
    have hne : mm ≠ m := by
      intro e
      have := (h4 mm hmm).2
      rw [e, him] at this
      cases this
    exact ⟨hLL (h4 mm hmm).1, by rw [hio mm hne (h4 mm hmm).1]; exact (h4 mm hmm).2⟩
  refine ⟨hN, hnd, hlive, ?_, ?_⟩
  · intro u hu s' hs'
    by_cases h : u = m
    · subst h
      rw [hiom] at hs'
      cases hs'
      refine ⟨ti, Player.mk player.m_label (player.m_infosets ++ [g.infosets.length]), hti,
        by rw [htm]; simp, ?_, by simp⟩
      rw [F.players, htp, if_pos rfl]
    · by_cases hL : u ∈ L
      · rw [hio u h hL] at hs'
        obtain ⟨si', p', h1, h2, h3, h4⟩ := hwf.fwd u hL s' hs'
        by_cases hpl : si'.m_player = p
        · rw [hpl, hp] at h3
          cases h3
          refine ⟨si', Player.mk player.m_label (player.m_infosets ++ [g.infosets.length]),
            hold s' si' h1, h2, ?_, by simp [h4]⟩
          rw [F.players, if_pos hpl]
        · refine ⟨si', p', hold s' si' h1, h2, ?_, h4⟩
          rw [F.players, if_neg hpl, h3]
      · rw [hin u h hu hL] at hs'
        cases hs'
  · intro pl p4 hp4
    rw [F.players] at hp4
    by_cases hpl : pl = p
    · rw [if_pos hpl] at hp4
      cases hp4
      subst hpl
      obtain ⟨hnd0, hl⟩ := hwf.lists _ player hp
      have hfresh : g.infosets.length ∉ player.m_infosets := by
        intro hmem
        obtain ⟨si', h1, _⟩ := hl _ hmem
        have := deref_lt h1
        omega
      refine ⟨List.Nodup.append hnd0 (List.nodup_singleton _) (by simpa using hfresh), ?_⟩
      intro s' hs'
      rcases List.mem_append.1 hs' with hs' | hs'
      · obtain ⟨si', h1, h2, h3, h4⟩ := hl s' hs'
        exact ⟨si', hold s' si' h1, h2, h3, hmem s' si' h1 h4⟩
      · have : s' = g.infosets.length := by simpa using hs'
        subst this
        refine ⟨ti, hti, htp, by rw [htm]; simp, ?_⟩
        intro mm hmm
        rw [htm] at hmm
        have : mm = m := by simpa using hmm
        subst this
        exact ⟨hm, hiom⟩
    · rw [if_neg hpl] at hp4
      obtain ⟨hnd0, hl⟩ := hwf.lists pl p4 hp4
      refine ⟨hnd0, ?_⟩
      intro s' hs'
      obtain ⟨si', h1, h2, h3, h4⟩ := hl s' hs'
      exact ⟨si', hold s' si' h1, h2, h3, hmem s' si' h1 h4⟩

theorem AppendNode_eval (g : efgGame) (n p c : Nat) (x : Node) (player : Player)
    (hx : deref g.nodes n = .ok x) (hterm : x.children = [])
    (hp : g.playerRep p = .ok player) (hc : 0 < c) :
    ∃ g4, AppendNode g (some n) (some p) (c : Int) =
        (SortInfosets g4 >>= fun g5 => deref g5.nodes n >>= fun y => pure (g5, y.infoset)) ∧
      FreshInfoset g g4 p player n c ∧ g4.root = g.root ∧
      g4.nodes.length = g.nodes.length + c ∧
      deref g4.nodes n = .ok { x with infoset := some g.infosets.length,
                                      children := List.range' g.nodes.length c } ∧
      (∀ i, i < c → deref g4.nodes (g.nodes.length + i) = .ok (freshNode n x.gameroot)) ∧
      (∀ m, m < g.nodes.length → m ≠ n → deref g4.nodes m = deref g.nodes m) := by
  have hnlt := deref_lt hx
  have hpX : efgGame.playerRep { g with m_revision := g.m_revision + 1, m_dirty := true } p =
      .ok player := hp
  obtain ⟨g3, h3, hroot, hsort, hout, hreps, hnodes, hplen, hpl, hinf⟩ :=
    CreateInfoset_spec { g with m_revision := g.m_revision + 1, m_dirty := true }
      (player.m_infosets.length + 1) p c player hpX
  dsimp only at h3 hroot hsort hout hreps hnodes hplen hpl hinf
  have hx3 : deref (store g3.nodes n { x with infoset := some g.infosets.length }) n =
      .ok { x with infoset := some g.infosets.length } :=
    deref_store_self _ (by rw [hnodes]; exact hnlt)
  obtain ⟨nodes1, ha1, ha2, ha3, ha4, ha5⟩ := appendChildren_spec n c _ _ hx3
  simp only [store_length, hnodes] at ha2 ha3 ha4 ha5
  simp only [hterm] at ha1
  have hc0 : (c : Int) ≠ 0 := by omega
  have hcn : ¬ ((c : Int) < 0) := by omega
  simp only [AppendNode, hc0, if_false, hx, ok_bind, hterm, List.length_nil, if_true, hcn, hpX,
    Int.toNat_ofNat, h3, hinf, deref_append_new, newInfoset, ha1, pure_eq_ok]
  refine ⟨_, rfl, ?_, hroot, ?_, ?_, ?_, ?_⟩
  · constructor
    · exact hsort
    · exact hout
    · exact hreps
    · exact hplen
    · intro q
      exact hpl q
    · simp [DeleteLexicon, store]
    · refine ⟨Infoset.mk (player.m_infosets.length + 1) p "" (newActions g.actionCount 1 c)
        (if p = 0 then List.replicate c defaultChanceProb else []) [n], ?_, rfl, rfl, ?_⟩
      · simp only [DeleteLexicon]
        rw [deref_store_self _ (by simp)]
        simp
      · exact length_newActions c _ _
    · intro k hk
      simp only [DeleteLexicon]
      rw [deref_store_ne _ _ (Ne.symm hk), deref_append_new, if_neg hk]
  · simp only [DeleteLexicon]
    exact ha2
  · simp only [DeleteLexicon]
    rw [ha3, hterm]
    rfl
  · intro i hi
    simp only [DeleteLexicon]
    exact ha4 i hi
  · intro m hm hmn
    simp only [DeleteLexicon]
    rw [ha5 m hm hmn, deref_store_ne _ _ (Ne.symm hmn)]

/-- The preorder list after a change below one node `a` of the tree: when the
subtree of `a` changes from `la` to `la1` and every other node keeps its
children, the new preorder list exists and holds each node as often as the old
list holds it, less the old subtree, plus the new one. -/
theorem Nodes_rewrite {g g4 : efgGame} {L la la1 : List Nat} {a : Nat}
    (hN : Nodes g = .ok L) (hnd : L.Nodup) (ha : a ∈ L) (hroot : g4.root = g.root)
    (hla : Subtree g.nodes a la) (hla1 : Subtree g4.nodes a la1)
    (hag : ∀ u x, u ≠ a → deref g.nodes u = .ok x → childrenOf g4.nodes u = .ok x.children)
    (hlive : ∀ u ∈ L, u < g4.nodes.length) (hlt1 : ∀ u ∈ la1, u < g4.nodes.length)
    (hnd1 : la1.Nodup) (hdis : ∀ z ∈ la1, z ∈ L → z ∈ la) :
    ∃ L1, Nodes g4 = .ok L1 ∧ L1.Nodup ∧
      ∀ z, L1.count z + la.count z = L.count z + la1.count z := by
  obtain ⟨L1, hs, hcnt⟩ := NDoChild_rewrite g.nodes g4.nodes a la la1 hla hla1 hag _ _ _ hN
  have hca : L.count a = 1 := List.count_eq_one_of_mem hnd ha
  simp only [hca, Nat.one_mul] at hcnt
  have hnd' : L1.Nodup := by
    rw [List.nodup_iff_count_le_one]
    intro z
    have h1 := hcnt z
    have h2 := List.nodup_iff_count_le_one.1 hnd z
    have h3 := List.nodup_iff_count_le_one.1 hnd1 z
    by_cases hz1 : z ∈ la1
    · by_cases hzL : z ∈ L
      · have := List.count_pos_iff.2 (hdis z hz1 hzL)
        omega
      · have := List.count_eq_zero_of_not_mem hzL
        omega
    · have := List.count_eq_zero_of_not_mem hz1
      omega
  refine ⟨L1, ?_, hnd', hcnt⟩
  have hlt : ∀ u ∈ L1, u < g4.nodes.length := by
    intro u hu
    have h1 := hcnt u
    have h2 := List.count_pos_iff.2 hu
    by_cases hz1 : u ∈ la1
    · exact hlt1 u hz1
    · have := List.count_eq_zero_of_not_mem hz1
      have h3 : 0 < L.count u := by omega
      exact hlive u (List.count_pos_iff.1 h3)
  have := hs.fuel hnd' hlt
  rw [← hroot] at this
  exact this

theorem filter_unique {α : Type} [DecidableEq α] {l : List α} {f : α → Bool} {a : α}
    (hnd : l.Nodup) (ha : a ∈ l) (hf : ∀ u ∈ l, f u = true ↔ u = a) : l.filter f = [a] := by
  have h1 : l.filter f = l.filter (fun u => u == a) := by
    apply List.filter_congr
    intro u hu
    by_cases h : u = a
    · simp [h, (hf a ha).2 rfl]
    · have : f u = false := by
        cases hfu : f u
        · rfl
        · exact absurd ((hf u hu).1 hfu) h
      simp [h, this]
  rw [h1, List.filter_beq, List.count_eq_one_of_mem hnd ha]
  rfl

theorem SortResult.node {g g1 : efgGame} {L : List Nat} (R : SortResult g g1 L) {k : Nat}
    {y : Node} (hy : deref g.nodes k = .ok y) :
    ∃ num, deref g1.nodes k = .ok (setNumber num y) := by
  have h := R.nodes k
  rw [hy] at h
  by_cases hk : k ∈ L
  · rw [if_pos hk] at h
    exact ⟨_, h⟩
  · rw [if_neg hk] at h
    exact ⟨y.number, h⟩

/-- The sort at the end of `AppendNode(n, p, count)` and `InsertNode(n, p,
count)`: it succeeds, and afterwards the fresh infoset is in the list of player
`p`, is owned by `p`, has `count` actions and the node `m` as only member. -/
theorem FreshInfoset.sorted {g g4 : efgGame} {p m count : Nat} {player : Player}
    {L L1 : List Nat} (F : FreshInfoset g g4 p player m count) (hwf : WellFormed g L)
    (hs : g.sortisets = true)
    (hp : g.playerRep p = .ok player) (hN : Nodes g4 = .ok L1) (hnd : L1.Nodup)
    (hlive : ∀ u ∈ L1, ∃ x, deref g4.nodes u = .ok x) (hm : m ∈ L1) (hLL : L ⊆ L1)
    (hiom : infosetOf g4.nodes m = some g.infosets.length)
    (him : infosetOf g.nodes m = none)
    (hio : ∀ u, u ≠ m → u ∈ L → infosetOf g4.nodes u = infosetOf g.nodes u)
    (hin : ∀ u, u ≠ m → u ∈ L1 → u ∉ L → infosetOf g4.nodes u = none) :
    ∃ g5, SortInfosets g4 = .ok g5 ∧ SortResult g4 g5 L1 ∧
      ∃ si p1, deref g5.infosets g.infosets.length = .ok si ∧ si.m_player = p ∧
        si.m_actions.length = count ∧ si.m_members = [m] ∧
        g5.playerRep p = .ok p1 ∧ g.infosets.length ∈ p1.m_infosets := by
  have hwf4 := F.wf_fresh hwf hp hN hnd hlive hm hLL hiom him hio hin
  obtain ⟨g5, h5, R⟩ := SortInfosets_spec g4 L1 hwf4 (by rw [F.sortisets, hs])
  refine ⟨g5, h5, R, ?_⟩
  have hp4 := F.players p
  rw [if_pos rfl] at hp4
  obtain ⟨p1, B, hp1, _, _, hperm, _, hsi⟩ := R.lists p _ hp4
  have hin1 : g.infosets.length ∈ p1.m_infosets := hperm.symm.subset (by simp)
  obtain ⟨si, hsi4, hsi5⟩ := hsi _ hin1
  obtain ⟨ti, hti, htp, htm, hta⟩ := F.fresh
  rw [hti] at hsi4
  cases hsi4
  refine ⟨_, p1, hsi5, htp, hta, ?_, hp1, hin1⟩
  show nodesOf g4.nodes g.infosets.length L1 = [m]
  refine filter_unique hnd hm ?_
  intro u hu
  constructor
  · intro h
    by_contra hne
    have h' : infosetOf g4.nodes u = some g.infosets.length := by simpa using h
    by_cases huL : u ∈ L
    · rw [hio u hne huL] at h'
      obtain ⟨si', _, hd, _⟩ := hwf.fwd u huL _ h'
      have := deref_lt hd
      omega
    · rw [hin u hne hu huL] at h'
      cases h'
  · intro h
    subst h
    simp [hiom]

theorem flatten_map_single {α : Type} (l : List α) : (l.map (fun k => [k])).flatten = l := by
  induction l with
  | nil => rfl
  | cons a t ih => simp [ih]

/-- C15: in a well-formed game with sorting switched on, let `n` be a node of the
tree without children and without infoset, `p` a player of the game and
`count ≥ 1`.  Then `AppendNode(n, p, count)` returns the handle of a newly
created infoset (the old length of the infoset heap), and afterwards: `n` refers
to that infoset and has exactly `count` children, all of them newly created
nodes that are terminal, have parent `n`, no outcome and no infoset; the new
infoset is owned by `p` and in the list of `p`, has exactly `count` actions and
`n` as its only member; `n` keeps its parent and outcome, and every other node
keeps its parent, children, infoset and outcome. -/
theorem AppendNode_spec (g : efgGame) (L : List Nat) (n p c : Nat) (x : Node)
    (player : Player) (hwf : wellFormed g = true) (hs : g.sortisets = true)
    (hN : Nodes g = .ok L) (hn : n ∈ L) (hx : deref g.nodes n = .ok x)
    (hterm : x.children = []) (hinf : x.infoset = none)
    (hp : g.playerRep p = .ok player) (hc : 0 < c) :
    ∃ g1 xn si p1, AppendNode g (some n) (some p) (c : Int) =
        .ok (g1, some g.infosets.length) ∧
      deref g1.nodes n = .ok xn ∧ xn.infoset = some g.infosets.length ∧
      xn.children.length = c ∧ xn.parent = x.parent ∧ xn.outcome = x.outcome ∧
      (∀ k ∈ xn.children, deref g.nodes k = .error .badHandle ∧
        ∃ y, deref g1.nodes k = .ok y ∧ y.children = [] ∧ y.parent = some n ∧
          y.outcome = none ∧ y.infoset = none) ∧
      deref g.infosets g.infosets.length = .error .badHandle ∧
      deref g1.infosets g.infosets.length = .ok si ∧ si.m_player = p ∧
      si.m_actions.length = c ∧ si.m_members = [n] ∧
      g1.playerRep p = .ok p1 ∧ g.infosets.length ∈ p1.m_infosets ∧
      ∀ m y, m ≠ n → deref g.nodes m = .ok y →
        ∃ y1, deref g1.nodes m = .ok y1 ∧ y1.parent = y.parent ∧
          y1.children = y.children ∧ y1.infoset = y.infoset ∧ y1.outcome = y.outcome := by
  obtain ⟨L0, W⟩ := wellFormed_spec g hwf
  have hLe : L0 = L := by
    have := W.nodes_ok
    rw [hN] at this
    cases this
    rfl
  subst hLe
  obtain ⟨g4, hA, F, hroot, hlen, hn4, hnew, hold⟩ :=
    AppendNode_eval g n p c x player hx hterm hp hc
  have hnlt := deref_lt hx
  -- the subtrees of `n` before and after
  have hla : Subtree g.nodes n [n] := by
    have := @Subtree.mk g.nodes n x [] hx (by rw [hterm]; exact List.Forall₂.nil)
    simpa using this
  have hkid : ∀ k ∈ List.range' g.nodes.length c,
      deref g4.nodes k = .ok (freshNode n x.gameroot) := by
    intro k hk
    obtain ⟨h1, h2⟩ := List.mem_range'_1.1 hk
    have := hnew (k - g.nodes.length) (by omega)
    rwa [Nat.add_sub_cancel' h1] at this
  have hla1 : Subtree g4.nodes n (n :: List.range' g.nodes.length c) := by
    have hF : List.Forall₂ (fun k lk => Subtree g4.nodes k lk)
        (List.range' g.nodes.length c) ((List.range' g.nodes.length c).map (fun k => [k])) := by
      rw [List.forall₂_map_right_iff, List.forall₂_same]
      intro k hk
      have := @Subtree.mk g4.nodes k _ [] (hkid k hk) List.Forall₂.nil
      simpa using this
    have := @Subtree.mk g4.nodes n _ _ hn4 hF
    rwa [flatten_map_single] at this
  have hag : ∀ u y, u ≠ n → deref g.nodes u = .ok y →
      childrenOf g4.nodes u = .ok y.children := by
    intro u y hu hy
    simp only [childrenOf]
    rw [hold u (deref_lt hy) hu, hy]
    rfl
  have hLlt : ∀ u ∈ L0, u < g.nodes.length := by
    intro u hu
    obtain ⟨y, hy⟩ := W.live u hu
    exact deref_lt hy
  obtain ⟨L1, hN1, hnd1, hcnt⟩ := Nodes_rewrite hN W.nodup hn hroot hla hla1 hag
    (fun u hu => by have := hLlt u hu; omega)
    (by
      intro u hu
      rcases List.mem_cons.1 hu with h | h
      · omega
      · have := (List.mem_range'_1.1 h).2
        omega)
    (by
      refine List.nodup_cons.2 ⟨?_, List.nodup_range' _ _⟩
      intro h
      have := (List.mem_range'_1.1 h).1
      omega)
    (by
      intro z hz hzL
      rcases List.mem_cons.1 hz with h | h
      · simp [h]
      · have := (List.mem_range'_1.1 h).1
        have := hLlt z hzL
        omega)
  have hmem : ∀ z, z ∈ L1 ↔ z ∈ L0 ∨ z ∈ List.range' g.nodes.length c := by
    intro z
    have h := hcnt z
    rw [List.count_cons, List.count_cons, List.count_nil] at h
    rw [← List.count_pos_iff, ← List.count_pos_iff, ← List.count_pos_iff]
    omega
  have hlive1 : ∀ u ∈ L1, ∃ y, deref g4.nodes u = .ok y := by
    intro u hu
    rcases (hmem u).1 hu with h | h
    · by_cases hun : u = n
      · subst hun
        exact ⟨_, hn4⟩
      · obtain ⟨y, hy⟩ := W.live u h
        exact ⟨y, by rw [hold u (deref_lt hy) hun, hy]⟩
    · exact ⟨_, hkid u h⟩
  obtain ⟨g5, h5, R, si, p1, hsi, hsp, hsa, hsm, hp1, hin1⟩ :=
    F.sorted W hs hp hN1 hnd1 hlive1 ((hmem n).2 (Or.inl hn))
      (fun u hu => (hmem u).2 (Or.inl hu))
      (by simp [infosetOf, hn4]) (by simp [infosetOf, hx, hinf])
      (by
        intro u hu huL
        simp only [infosetOf]
        rw [hold u (hLlt u huL) hu])
      (by
        intro u hu hu1 huL
        rcases (hmem u).1 hu1 with h | h
        · exact absurd h huL
        · simp [infosetOf, hkid u h, freshNode])
  obtain ⟨num, hn5⟩ := R.node hn4
  refine ⟨g5, _, si, p1, ?_, hn5, rfl, ?_, rfl, rfl, ?_, ?_, hsi, hsp, hsa, hsm, hp1, hin1, ?_⟩
  · rw [hA, h5, ok_bind, hn5, ok_bind]
    rfl
  · simp [setNumber]
  · intro k hk
    have hk' : k ∈ List.range' g.nodes.length c := hk
    have hge := (List.mem_range'_1.1 hk').1
    obtain ⟨num', hk5⟩ := R.node (hkid k hk')
    refine ⟨?_, _, hk5, rfl, rfl, rfl, rfl⟩
    simp only [deref]
    rw [List.getElem?_eq_none hge]
  · simp only [deref]
    rw [List.getElem?_eq_none (Nat.le_refl _)]
  · intro m y hm hy
    have h4 : deref g4.nodes m = .ok y := by rw [hold m (deref_lt hy) hm, hy]
    obtain ⟨num', hm5⟩ := R.node h4
    exact ⟨_, hm5, rfl, rfl, rfl, rfl⟩
set_option maxRecDepth 1000000 in
/-- Witness for C15: Scenario A, where node `3` is a terminal node without
infoset; player 1 appends two children to it. -/
theorem AppendNode_spec_witness :
    ∃ g x player, scenarioA = .ok g ∧ wellFormed g = true ∧ g.sortisets = true ∧
      Nodes g = .ok [0, 1, 3, 4, 2, 5, 6] ∧ 3 ∈ [0, 1, 3, 4, 2, 5, 6] ∧
      deref g.nodes 3 = .ok x ∧ x.children = [] ∧ x.infoset = none ∧
      g.playerRep 1 = .ok player ∧ 0 < 2 ∧
      ∃ g1 xn si p1, AppendNode g (some 3) (some 1) ((2 : Nat) : Int) =
          .ok (g1, some g.infosets.length) ∧
        deref g1.nodes 3 = .ok xn ∧ xn.infoset = some g.infosets.length ∧
        xn.children.length = 2 ∧ xn.parent = x.parent ∧ xn.outcome = x.outcome ∧
        (∀ k ∈ xn.children, deref g.nodes k = .error .badHandle ∧
          ∃ y, deref g1.nodes k = .ok y ∧ y.children = [] ∧ y.parent = some 3 ∧
            y.outcome = none ∧ y.infoset = none) ∧
        deref g.infosets g.infosets.length = .error .badHandle ∧
        deref g1.infosets g.infosets.length = .ok si ∧ si.m_player = 1 ∧
        si.m_actions.length = 2 ∧ si.m_members = [3] ∧
        g1.playerRep 1 = .ok p1 ∧ g.infosets.length ∈ p1.m_infosets ∧
        ∀ m y, m ≠ 3 → deref g.nodes m = .ok y →
          ∃ y1, deref g1.nodes m = .ok y1 ∧ y1.parent = y.parent ∧
            y1.children = y.children ∧ y1.infoset = y.infoset ∧ y1.outcome = y.outcome :=
  ⟨_, _, _, rfl, by decide, by decide, by decide, by decide, rfl, by decide, by decide, rfl,
    by decide,
    AppendNode_spec _ [0, 1, 3, 4, 2, 5, 6] 3 1 2 _ _ (by decide) (by decide) (by decide)
      (by decide) rfl (by decide) (by decide) rfl (by decide)⟩

theorem InsertNode_eval_root (g : efgGame) (n p c : Nat) (x : Node) (player : Player)
    (hx : deref g.nodes n = .ok x) (hpar : x.parent = none)
    (hp : g.playerRep p = .ok player) (hc : 0 < c) :
    ∃ g4 xm, InsertNode g (some n) (some p) (c : Int) =
        (SortInfosets g4 >>= fun g5 => deref g5.nodes g.nodes.length >>= fun y =>
          pure (g5, y.infoset)) ∧
      FreshInfoset g g4 p player g.nodes.length c ∧
      g4.nodes.length = g.nodes.length + c ∧
      deref g4.nodes g.nodes.length = .ok xm ∧ xm.infoset = some g.infosets.length ∧
      xm.parent = x.parent ∧ xm.outcome = none ∧
      xm.children = n :: List.range' (g.nodes.length + 1) (c - 1) ∧
      deref g4.nodes n = .ok { x with parent := some g.nodes.length } ∧
      (∀ i, i < c - 1 →
        deref g4.nodes (g.nodes.length + 1 + i) = .ok (freshNode g.nodes.length xm.gameroot)) ∧
      g4.root = g.nodes.length ∧
      (∀ u, u < g.nodes.length → u ≠ n → deref g4.nodes u = deref g.nodes u) := by
  have hnlt := deref_lt hx
  have hpX : efgGame.playerRep { g with
      m_revision := g.m_revision + 1
      m_dirty := true
      nodes := g.nodes ++ [some ⟨false, 0, "", none, none, none, [], none, some g.nodes.length⟩]
      } p = .ok player := hp
  obtain ⟨g3, h3, hroot, hsort, hout, hreps, hnodes, hplen, hpl, hinf⟩ :=
    CreateInfoset_spec _ (player.m_infosets.length + 1) p c player hpX
  dsimp only at h3 hroot hsort hout hreps hnodes hplen hpl hinf
  have hc0 : ¬ ((c : Int) ≤ 0) := by omega
  simp only [InsertNode, hc0, if_false, hx, ok_bind, hpar, newNode, hpX, Int.toNat_ofNat, h3,
    hnodes, hinf, deref_append_new, if_true, newInfoset, replaceInParent, pure_eq_ok]
  have hNn : g.nodes.length ≠ n := by omega
  have hnN : n ≠ g.nodes.length := by omega
  have hlt1 : n < g.nodes.length + 1 := by omega
  simp (disch := simp [store_length, hlt1]) only [deref_store, if_true, ok_bind, if_neg hnN, deref_append_new, hx]
  obtain ⟨B, hB⟩ : ∃ B, B = store (store (store
      (g.nodes ++ [some ⟨false, 0, "", none, none, none, [], none, some g.nodes.length⟩])
      g.nodes.length
      ⟨false, 0, "", some g.infosets.length, none, none, [], none, some g.nodes.length⟩)
      g.nodes.length
      ⟨false, 0, "", some g.infosets.length, none, none, [] ++ [n], none, some g.nodes.length⟩)
      n { x with parent := some g.nodes.length } := ⟨_, rfl⟩
  have hBlen : B.length = g.nodes.length + 1 := by simp [hB, store_length]
  have hBN : deref B g.nodes.length =
      .ok ⟨false, 0, "", some g.infosets.length, none, none, [n], none, some g.nodes.length⟩ := by
    rw [hB, deref_store_ne _ _ hnN, deref_store_self _ (by simp [store_length])]
    rfl
  have hBn : deref B n = .ok { x with parent := some g.nodes.length } := by
    rw [hB, deref_store_self _ (by simp [store_length, hlt1])]
  have hBo : ∀ u, u < g.nodes.length → u ≠ n → deref B u = deref g.nodes u := by
    intro u hu hun
    rw [hB, deref_store_ne _ _ (Ne.symm hun), deref_store_ne _ _ (by omega),
      deref_store_ne _ _ (by omega), deref_append_new, if_neg (by omega)]
  rw [← hB]
  obtain ⟨nodes4, ha1, ha2, ha3, ha4, ha5⟩ := appendChildren_spec g.nodes.length (c - 1) B _ hBN
  rw [hBlen] at ha2 ha3 ha4 ha5
  simp only [ha1, ok_bind]
  refine ⟨_, _, rfl, ?_, ?_, ha3, rfl, rfl, rfl, rfl, ?_, ?_, rfl, ?_⟩
  · constructor
    · exact hsort
    · exact hout
    · exact hreps
    · exact hplen
    · intro q
      exact hpl q
    · simp [DeleteLexicon, store]
    · refine ⟨Infoset.mk (player.m_infosets.length + 1) p "" (newActions g.actionCount 1 c)
        (if p = 0 then List.replicate c defaultChanceProb else []) [g.nodes.length], ?_, rfl,
        rfl, ?_⟩
      · simp only [DeleteLexicon]
        rw [deref_store_self _ (by simp)]
        simp
      · exact length_newActions c _ _
    · intro k hk
      simp only [DeleteLexicon]
      rw [deref_store_ne _ _ (Ne.symm hk), deref_append_new, if_neg hk]
  · simp only [DeleteLexicon]
    rw [ha2]
    omega
  · simp only [DeleteLexicon]
    rw [ha5 n hlt1 hnN, hBn]
  · intro i hi
    simp only [DeleteLexicon]
    exact ha4 i hi
  · intro u hu hun
    simp only [DeleteLexicon]
    rw [ha5 u (by omega) (by omega), hBo u hu hun]

theorem gSet_gFind {α : Type} [DecidableEq α] {l : List α} {a : α} (b : α) (h : a ∈ l) :
    gSet l (gFind l a) b = .ok (l.set (l.indexOf a) b) := by
  simp only [gFind, if_pos h, gSet, List.indexOf_lt_length.2 h, if_true]

theorem InsertNode_eval_inner (g : efgGame) (n p c par : Nat) (x xp : Node) (player : Player)
    (hx : deref g.nodes n = .ok x) (hpar : x.parent = some par)
    (hxp : deref g.nodes par = .ok xp) (hmem : n ∈ xp.children) (hne : par ≠ n)
    (hp : g.playerRep p = .ok player) (hc : 0 < c) :
    ∃ g4 xm, InsertNode g (some n) (some p) (c : Int) =
        (SortInfosets g4 >>= fun g5 => deref g5.nodes g.nodes.length >>= fun y =>
          pure (g5, y.infoset)) ∧
      FreshInfoset g g4 p player g.nodes.length c ∧
      g4.nodes.length = g.nodes.length + c ∧
      deref g4.nodes g.nodes.length = .ok xm ∧ xm.infoset = some g.infosets.length ∧
      xm.parent = x.parent ∧ xm.outcome = none ∧
      xm.children = n :: List.range' (g.nodes.length + 1) (c - 1) ∧
      deref g4.nodes n = .ok { x with parent := some g.nodes.length } ∧
      (∀ i, i < c - 1 →
        deref g4.nodes (g.nodes.length + 1 + i) = .ok (freshNode g.nodes.length xm.gameroot)) ∧
      g4.root = g.root ∧
      deref g4.nodes par = .ok { xp with
        children := xp.children.set (xp.children.indexOf n) g.nodes.length } ∧
      (∀ u, u < g.nodes.length → u ≠ n → u ≠ par → deref g4.nodes u = deref g.nodes u) := by
  have hnlt := deref_lt hx
  have hplt := deref_lt hxp
  have hpX : efgGame.playerRep { g with
      m_revision := g.m_revision + 1
      m_dirty := true
      nodes := g.nodes ++ [some ⟨false, 0, "", none, some par, none, [], none, xp.gameroot⟩]
      } p = .ok player := hp
  obtain ⟨g3, h3, hroot, hsort, hout, hreps, hnodes, hplen, hpl, hinf⟩ :=
    CreateInfoset_spec _ (player.m_infosets.length + 1) p c player hpX
  dsimp only at h3 hroot hsort hout hreps hnodes hplen hpl hinf
  have hc0 : ¬ ((c : Int) ≤ 0) := by omega
  have hNn : g.nodes.length ≠ n := by omega
  have hnN : n ≠ g.nodes.length := by omega
  have hpN : par ≠ g.nodes.length := by omega
  have hNp : g.nodes.length ≠ par := by omega
  have hnp : n ≠ par := Ne.symm hne
  have hlt1 : n < g.nodes.length + 1 := by omega
  have hlt2 : par < g.nodes.length + 1 := by omega
  simp only [InsertNode, hc0, if_false, hx, ok_bind, hpar, newNode, hxp, hpX, Int.toNat_ofNat,
    h3, hnodes, hinf, deref_append_new, if_true, newInfoset, replaceInParent, pure_eq_ok]
  simp (disch := simp [store_length, hlt1, hlt2]) only [deref_store, if_true, ok_bind,
    if_neg hnN, if_neg hpN, if_neg hNp, if_neg hnp, if_neg hne, deref_append_new, hx, hxp,
    gSet_gFind _ hmem]
  obtain ⟨B, hB⟩ : ∃ B, B = store (store (store (store
      (g.nodes ++ [some ⟨false, 0, "", none, some par, none, [], none, xp.gameroot⟩])
      g.nodes.length
      ⟨false, 0, "", some g.infosets.length, some par, none, [], none, xp.gameroot⟩)
      par { xp with children := xp.children.set (xp.children.indexOf n) g.nodes.length })
      g.nodes.length
      ⟨false, 0, "", some g.infosets.length, some par, none, [] ++ [n], none, xp.gameroot⟩)
      n { x with parent := some g.nodes.length } := ⟨_, rfl⟩
  have hBlen : B.length = g.nodes.length + 1 := by simp [hB, store_length]
  have hBN : deref B g.nodes.length =
      .ok ⟨false, 0, "", some g.infosets.length, some par, none, [n], none, xp.gameroot⟩ := by
    rw [hB, deref_store_ne _ _ hnN, deref_store_self _ (by simp [store_length])]
    rfl
  have hBn : deref B n = .ok { x with parent := some g.nodes.length } := by
    rw [hB, deref_store_self _ (by simp [store_length, hlt1])]
  have hBp : deref B par = .ok { xp with
      children := xp.children.set (xp.children.indexOf n) g.nodes.length } := by
    rw [hB, deref_store_ne _ _ hnp, deref_store_ne _ _ hNp,
      deref_store_self _ (by simp [store_length, hlt2])]
  have hBo : ∀ u, u < g.nodes.length → u ≠ n → u ≠ par → deref B u = deref g.nodes u := by
    intro u hu hun hup
    rw [hB, deref_store_ne _ _ (Ne.symm hun), deref_store_ne _ _ (by omega),
      deref_store_ne _ _ (Ne.symm hup), deref_store_ne _ _ (by omega), deref_append_new,
      if_neg (by omega)]
  rw [← hB]
  obtain ⟨nodes4, ha1, ha2, ha3, ha4, ha5⟩ := appendChildren_spec g.nodes.length (c - 1) B _ hBN
  rw [hBlen] at ha2 ha3 ha4 ha5
  simp only [ha1, ok_bind]
  refine ⟨_, _, rfl, ?_, ?_, ha3, rfl, rfl, rfl, rfl, ?_, ?_, hroot, ?_, ?_⟩
  · constructor
    · exact hsort
    · exact hout
    · exact hreps
    · exact hplen
    · intro q
      exact hpl q
    · simp [DeleteLexicon, store]
    · refine ⟨Infoset.mk (player.m_infosets.length + 1) p "" (newActions g.actionCount 1 c)
        (if p = 0 then List.replicate c defaultChanceProb else []) [g.nodes.length], ?_, rfl,
        rfl, ?_⟩
      · simp only [DeleteLexicon]
        rw [deref_store_self _ (by simp)]
        simp
      · exact length_newActions c _ _
    · intro k hk
      simp only [DeleteLexicon]
      rw [deref_store_ne _ _ (Ne.symm hk), deref_append_new, if_neg hk]
  · simp only [DeleteLexicon]
    rw [ha2]
    omega
  · simp only [DeleteLexicon]
    rw [ha5 n hlt1 hnN, hBn]
  · intro i hi
    simp only [DeleteLexicon]
    exact ha4 i hi
  · simp only [DeleteLexicon]
    rw [ha5 par hlt2 hpN, hBp]
  · intro u hu hun hup
    simp only [DeleteLexicon]
    rw [ha5 u (by omega) (by omega), hBo u hu hun hup]

theorem count_le_flatten {l : List Nat} {ls : List (List Nat)} (h : l ∈ ls) (z : Nat) :
    l.count z ≤ ls.flatten.count z := by
  induction ls with
  | nil => cases h
  | cons a t ih =>
    rw [List.flatten_cons, List.count_append]
    rcases List.mem_cons.1 h with e | e
    · subst e
      omega
    · have := ih e
      omega

theorem NDoChild_count_le (nodes : List (Option Node)) :
    ∀ (fuel v : Nat) (l : List Nat), NDoChild nodes fuel v [] = .ok l →
      ∀ u ∈ l, ∀ (fu : Nat) (lu : List Nat), NDoChild nodes fu u [] = .ok lu →
        ∀ z, lu.count z ≤ l.count z := by
  intro fuel
  induction fuel with
  | zero => intro v l h; cases h
  | succ fuel ih =>
    intro v l h u hu fu lu hlu z
    obtain ⟨x, ls, hx, hF, hl⟩ := NDoChild_ok nodes fuel v l h
    subst hl
    rcases List.mem_cons.1 hu with e | e
    · subst e
      rw [NDoChild_det hlu h]
    · obtain ⟨lc, hlc, hulc⟩ := List.mem_flatten.1 e
      obtain ⟨c, _, hc⟩ := forall₂_mem_right hF hlc
      have h1 := ih c lc hc u hulc fu lu hlu z
      have h2 := count_le_flatten hlc z
      rw [List.count_cons]
      omega

/-- The subtree of a node of a subtree holds no node more often than the larger
subtree does. -/
theorem Subtree.count_le {nodes : List (Option Node)} {v u : Nat} {l lu : List Nat}
    (h : Subtree nodes v l) (hu : u ∈ l) (hlu : Subtree nodes u lu) (z : Nat) :
    lu.count z ≤ l.count z := by
  obtain ⟨f, h⟩ := h
  obtain ⟨fu, hlu⟩ := hlu
  exact NDoChild_count_le nodes f v l h u hu fu lu hlu z

theorem Subtree.nodup {nodes : List (Option Node)} {v u : Nat} {l lu : List Nat}
    (h : Subtree nodes v l) (hnd : l.Nodup) (hu : u ∈ l) (hlu : Subtree nodes u lu) :
    lu.Nodup := by
  rw [List.nodup_iff_count_le_one]
  intro z
  have h1 := h.count_le hu hlu z
  have h2 := List.nodup_iff_count_le_one.1 hnd z
  omega

/-- Every node of a subtree other than its top is a child of a node of the
subtree. -/
theorem NDoChild_parent (nodes : List (Option Node)) :
    ∀ (fuel v : Nat) (l : List Nat), NDoChild nodes fuel v [] = .ok l →
      ∀ u ∈ l, u = v ∨ ∃ par ∈ l, ∃ xp, deref nodes par = .ok xp ∧ u ∈ xp.children := by
  intro fuel
  induction fuel with
  | zero => intro v l h; cases h
  | succ fuel ih =>
    intro v l h u hu
    obtain ⟨x, ls, hx, hF, hl⟩ := NDoChild_ok nodes fuel v l h
    subst hl
    rcases List.mem_cons.1 hu with e | e
    · exact Or.inl e
    · right
      obtain ⟨lc, hlc, hulc⟩ := List.mem_flatten.1 e
      obtain ⟨c, hcm, hc⟩ := forall₂_mem_right hF hlc
      rcases ih c lc hc u hulc with e1 | ⟨par, hpar, xp, hxp, hmem⟩
      · subst e1
        exact ⟨v, List.mem_cons_self _ _, x, hx, hcm⟩
      · exact ⟨par, List.mem_cons_of_mem _ (List.mem_flatten.2 ⟨lc, hlc, hpar⟩), xp, hxp, hmem⟩

theorem forall₂_set {α β : Type} {R : α → β → Prop} {l1 : List α} {l2 : List β}
    (h : List.Forall₂ R l1 l2) (i : Nat) {a : α} {b : β} (hab : R a b) :
    List.Forall₂ R (l1.set i a) (l2.set i b) := by
  induction h generalizing i with
  | nil => exact List.Forall₂.nil
  | cons h1 _ ih =>
    cases i with
    | zero => exact List.Forall₂.cons hab (by assumption)
    | succ i => exact List.Forall₂.cons h1 (ih i)

theorem forall₂_indexOf {α β : Type} [DecidableEq α] {R : α → β → Prop} {l1 : List α}
    {l2 : List β} (h : List.Forall₂ R l1 l2) {a : α} (ha : a ∈ l1) :
    ∃ b, l2[l1.indexOf a]? = some b ∧ R a b := by
  induction h with
  | nil => cases ha
  | @cons a1 b1 t1 t2 h1 _ ih =>
    by_cases e : a1 = a
    · subst e
      exact ⟨b1, by simp, h1⟩
    · have hin : a ∈ t1 := by
        rcases List.mem_cons.1 ha with e1 | e1
        · exact absurd e1.symm e
        · exact e1
      obtain ⟨b, hb, hr⟩ := ih hin
      refine ⟨b, ?_, hr⟩
      rw [List.indexOf_cons_ne _ e]
      simpa using hb

theorem count_flatten_set {ls : List (List Nat)} {i : Nat} {l l1 : List Nat}
    (h : ls[i]? = some l) (z : Nat) :
    (ls.set i l1).flatten.count z + l.count z = ls.flatten.count z + l1.count z := by
  induction ls generalizing i with
  | nil => simp at h
  | cons a t ih =>
    cases i with
    | zero =>
      simp at h
      subst h
      simp only [List.set_cons_zero, List.flatten_cons, List.count_append]
      omega
    | succ i =>
      simp at h
      have := ih h
      simp only [List.set_cons_succ, List.flatten_cons, List.count_append]
      omega

theorem Subtree.live_node {nodes : List (Option Node)} {v u : Nat} {l : List Nat}
    (h : Subtree nodes v l) (hu : u ∈ l) : ∃ y, deref nodes u = .ok y := by
  obtain ⟨lu, hlu, _⟩ := h.sub hu
  obtain ⟨y, _, hy, _, _⟩ := hlu.cases
  exact ⟨y, hy⟩

/-- The preorder list after one child of a node is replaced: let `n` be a child
of the node `par` of the tree below `root`, with subtree `ln`.  In a heap `H` in
which `par` has the child `m`, with subtree `lm`, in the place of `n` and every
other node has the children it had, the tree below `root` holds each node as
often as before, less `ln`, plus `lm`. -/
theorem Subtree.replace_child {nodes H : List (Option Node)} {root par n m : Nat}
    {L ln lm : List Nat} {xp xp1 : Node}
    (hL : Subtree nodes root L) (hnd : L.Nodup) (hpar : par ∈ L)
    (hxp : deref nodes par = .ok xp) (hn : n ∈ xp.children) (hln : Subtree nodes n ln)
    (hxp1 : deref H par = .ok xp1)
    (hch : xp1.children = xp.children.set (xp.children.indexOf n) m)
    (hlm : Subtree H m lm)
    (hag : ∀ u y, u ≠ par → deref nodes u = .ok y → childrenOf H u = .ok y.children) :
    ∃ L1, Subtree H root L1 ∧ ∀ z, L1.count z + ln.count z = L.count z + lm.count z := by
  obtain ⟨la, hla, _⟩ := hL.sub hpar
  obtain ⟨xp', ls, hxp', hF, hl⟩ := hla.cases
  rw [hxp] at hxp'
  cases hxp'
  have hself := hla.count_self
  rw [hl, List.count_cons_self] at hself
  have hnot : par ∉ ls.flatten := by
    intro h
    have := List.count_pos_iff.2 h
    omega
  obtain ⟨ln', hidx, hln'⟩ := forall₂_indexOf hF hn
  have e := hln'.det hln
  subst e
  have hF1 : List.Forall₂ (fun c lc => Subtree H c lc) xp.children ls := by
    refine forall₂_imp_mem hF ?_
    intro c lc _ hlc hs
    refine hs.same ?_
    intro u hu
    obtain ⟨y, hy⟩ := hs.live_node hu
    have hup : u ≠ par := by
      intro e
      subst e
      exact hnot (List.mem_flatten.2 ⟨lc, hlc, hu⟩)
    rw [hag u y hup hy]
    simp only [childrenOf, hy]
    rfl
  have hF2 := forall₂_set hF1 (xp.children.indexOf n) hlm
  rw [← hch] at hF2
  have hla1 := Subtree.mk hxp1 hF2
  obtain ⟨f, hf⟩ := hL
  obtain ⟨L1, hs, hcnt⟩ := NDoChild_rewrite nodes H par _ _ hla hla1 hag f root L hf
  refine ⟨L1, hs, ?_⟩
  intro z
  have h1 := hcnt z
  rw [List.count_eq_one_of_mem hnd hpar, Nat.one_mul, Nat.one_mul, hl, List.count_cons,
    List.count_cons] at h1
  have h2 := @count_flatten_set ls _ ln' lm hidx z
  omega

theorem Subtree.child_ne {nodes : List (Option Node)} {v : Nat} {l : List Nat} {x : Node}
    (h : Subtree nodes v l) (hx : deref nodes v = .ok x) : v ∉ x.children := by
  intro hv
  obtain ⟨x', ls, hx', hF, hl⟩ := h.cases
  rw [hx] at hx'
  cases hx'
  obtain ⟨lv, hidx, hlv⟩ := forall₂_indexOf hF hv
  have h1 := h.count_self
  rw [hl, List.count_cons_self] at h1
  have h2 : v ∈ lv := by
    obtain ⟨_, _, _, _, e⟩ := hlv.cases
    rw [e]
    exact List.mem_cons_self _ _
  have h3 : v ∈ ls.flatten :=
    by
    obtain ⟨hlt, e⟩ := List.getElem?_eq_some_iff.1 hidx
    exact List.mem_flatten.2 ⟨lv, e ▸ List.getElem_mem hlt, h2⟩
  have := List.count_pos_iff.2 h3
  omega

/-- In a tree with consistent parent pointers a node without parent is the root,
and a node with a parent is among the children of that parent, which is another
node of the tree. -/
theorem tree_parent {g : efgGame} {L : List Nat} {n : Nat} {x : Node}
    (hN : Nodes g = .ok L) (hP : parentsOk g L = true) (hn : n ∈ L)
    (hx : deref g.nodes n = .ok x) :
    (x.parent = none ∧ n = g.root) ∨
      ∃ par xp, x.parent = some par ∧ par ∈ L ∧ deref g.nodes par = .ok xp ∧
        n ∈ xp.children ∧ par ≠ n := by
  obtain ⟨⟨r, hr, hrp⟩, hPO⟩ := parentsOk_spec hP
  rcases NDoChild_parent g.nodes _ _ _ hN n hn with e | ⟨par, hpar, xp, hxp, hmem⟩
  · subst e
    rw [hx] at hr
    cases hr
    exact Or.inl ⟨hrp, rfl⟩
  · right
    obtain ⟨y, hy, hyp⟩ := hPO par hpar xp hxp n hmem
    rw [hx] at hy
    cases hy
    refine ⟨par, xp, hyp, hpar, hxp, hmem, ?_⟩
    intro e
    subst e
    have hs : Subtree g.nodes g.root L := ⟨_, hN⟩
    obtain ⟨lp, hlp, _⟩ := hs.sub hpar
    exact hlp.child_ne hxp hmem

theorem Subtree.parent_not_mem {nodes : List (Option Node)} {par n : Nat} {la ln : List Nat}
    {xp : Node} (hla : Subtree nodes par la) (hxp : deref nodes par = .ok xp)
    (hn : n ∈ xp.children) (hln : Subtree nodes n ln) : par ∉ ln := by
  intro hin
  obtain ⟨xp', ls, hxp', hF, hl⟩ := hla.cases
  rw [hxp] at hxp'
  cases hxp'
  obtain ⟨ln', hidx, hln'⟩ := forall₂_indexOf hF hn
  have e := hln'.det hln
  subst e
  have h1 := hla.count_self
  rw [hl, List.count_cons_self] at h1
  have h3 : par ∈ ls.flatten := by
    obtain ⟨hlt, e⟩ := List.getElem?_eq_some_iff.1 hidx
    exact List.mem_flatten.2 ⟨ln', e ▸ List.getElem_mem hlt, hin⟩
  have := List.count_pos_iff.2 h3
  omega

/-- The subtree of a node whose children are a node with subtree `l` followed by
terminal nodes `kids`. -/
theorem Subtree.with_kids {nodes : List (Option Node)} {m n : Nat} {l kids : List Nat}
    {xm : Node} (hm : deref nodes m = .ok xm) (hch : xm.children = n :: kids)
    (hl : Subtree nodes n l)
    (hk : ∀ k ∈ kids, ∃ y, deref nodes k = .ok y ∧ y.children = []) :
    Subtree nodes m (m :: (l ++ kids)) := by
  have hF : List.Forall₂ (fun k lk => Subtree nodes k lk) kids (kids.map (fun k => [k])) := by
    rw [List.forall₂_map_right_iff, List.forall₂_same]
    intro k hk1
    obtain ⟨y, hy, hyc⟩ := hk k hk1
    have := @Subtree.mk nodes k y [] hy (by rw [hyc]; exact List.Forall₂.nil)
    simpa using this
  have hF2 : List.Forall₂ (fun k lk => Subtree nodes k lk) xm.children
      (l :: kids.map (fun k => [k])) := by
    rw [hch]
    exact List.Forall₂.cons hl hF
  have := Subtree.mk hm hF2
  rwa [List.flatten_cons, flatten_map_single] at this

/-- From the census of a changed tree to its preorder list: when the new tree
holds each node as often as the old list `L`, less `ln`, plus `lm`, where `lm`
names no node twice and no node of `L` outside `ln`, the new preorder list is
computed within the recursion budget and names no node twice. -/
theorem Nodes_of_counts {g4 : efgGame} {L L1 ln lm : List Nat}
    (hs : Subtree g4.nodes g4.root L1)
    (hcnt : ∀ z, L1.count z + ln.count z = L.count z + lm.count z)
    (hnd : L.Nodup) (hnd1 : lm.Nodup) (hdis : ∀ z ∈ lm, z ∈ L → z ∈ ln)
    (hlive : ∀ u ∈ L, u < g4.nodes.length) (hlt1 : ∀ u ∈ lm, u < g4.nodes.length) :
    Nodes g4 = .ok L1 ∧ L1.Nodup := by
  have hnd' : L1.Nodup := by
    rw [List.nodup_iff_count_le_one]
    intro z
    have h1 := hcnt z
    have h2 := List.nodup_iff_count_le_one.1 hnd z
    have h3 := List.nodup_iff_count_le_one.1 hnd1 z
    by_cases hz1 : z ∈ lm
    · by_cases hzL : z ∈ L
      · have := List.count_pos_iff.2 (hdis z hz1 hzL)
        omega
      · have := List.count_eq_zero_of_not_mem hzL
        omega
    · have := List.count_eq_zero_of_not_mem hz1
      omega
  refine ⟨?_, hnd'⟩
  have hlt : ∀ u ∈ L1, u < g4.nodes.length := by
    intro u hu
    have h1 := hcnt u
    have h2 := List.count_pos_iff.2 hu
    by_cases hz1 : u ∈ lm
    · exact hlt1 u hz1
    · have := List.count_eq_zero_of_not_mem hz1
      have h3 : 0 < L.count u := by omega
      exact hlive u (List.count_pos_iff.1 h3)
  exact hs.fuel hnd' hlt

/-- The second half of `InsertNode(n, p, count)`: from the state `g4` in which
`SortInfosets` is called, described node by node, to the result. -/
theorem InsertNode_finish {g g4 : efgGame} {L L1 ln : List Nat} {n p c : Nat} {x xm : Node}
    {player : Player} {r : Res (efgGame × Option Nat)} (W : WellFormed g L)
    (hs : g.sortisets = true) (hn : n ∈ L) (hx : deref g.nodes n = .ok x)
    (hp : g.playerRep p = .ok player) (hc : 0 < c)
    (hA : r = (SortInfosets g4 >>= fun g5 => deref g5.nodes g.nodes.length >>= fun y =>
      pure (g5, y.infoset)))
    (F : FreshInfoset g g4 p player g.nodes.length c)
    (hm : deref g4.nodes g.nodes.length = .ok xm) (hmi : xm.infoset = some g.infosets.length)
    (hmp : xm.parent = x.parent)
    (hmc : xm.children = n :: List.range' (g.nodes.length + 1) (c - 1))
    (hn4 : deref g4.nodes n = .ok { x with parent := some g.nodes.length })
    (hkid : ∀ i, i < c - 1 →
      deref g4.nodes (g.nodes.length + 1 + i) = .ok (freshNode g.nodes.length xm.gameroot))
    (hold : ∀ u y, deref g.nodes u = .ok y → u ≠ n → x.parent ≠ some u →
      deref g4.nodes u = .ok y)
    (hpos : ∀ par xp, x.parent = some par → deref g.nodes par = .ok xp →
      deref g4.nodes par = .ok { xp with
        children := xp.children.set (xp.children.indexOf n) g.nodes.length })
    (hN1 : Nodes g4 = .ok L1) (hnd1 : L1.Nodup)
    (hmem : ∀ z, z ∈ L1 ↔ z ∈ L ∨ (g.nodes.length ≤ z ∧ z < g.nodes.length + c))
    (hln : Subtree g.nodes n ln) (hln4 : Subtree g4.nodes n ln)
    (hparln : ∀ u ∈ ln, x.parent ≠ some u) :
    ∃ g1 xm1 xn si p1, r = .ok (g1, some g.infosets.length) ∧ g1.root = g4.root ∧
      deref g.nodes g.nodes.length = .error .badHandle ∧
      deref g1.nodes g.nodes.length = .ok xm1 ∧ xm1.parent = x.parent ∧
      xm1.children = n :: List.range' (g.nodes.length + 1) (c - 1) ∧
      xm1.children.length = c ∧
      (∀ par xp, x.parent = some par → deref g.nodes par = .ok xp →
        ∃ xp1, deref g1.nodes par = .ok xp1 ∧
          xp1.children = xp.children.set (xp.children.indexOf n) g.nodes.length) ∧
      deref g1.nodes n = .ok xn ∧ xn.parent = some g.nodes.length ∧
      Subtree g1.nodes n ln ∧
      (∀ u ∈ ln, ∀ y, deref g.nodes u = .ok y →
        ∃ y1, deref g1.nodes u = .ok y1 ∧ y1.children = y.children ∧
          y1.infoset = y.infoset ∧ y1.outcome = y.outcome ∧ (u ≠ n → y1.parent = y.parent)) ∧
      (∀ k ∈ List.range' (g.nodes.length + 1) (c - 1), deref g.nodes k = .error .badHandle ∧
        ∃ y, deref g1.nodes k = .ok y ∧ y.children = [] ∧ y.parent = some g.nodes.length ∧
          y.outcome = none ∧ y.infoset = none) ∧
      xm1.infoset = some g.infosets.length ∧
      deref g.infosets g.infosets.length = .error .badHandle ∧
      deref g1.infosets g.infosets.length = .ok si ∧ si.m_player = p ∧
      si.m_actions.length = c ∧ si.m_members = [g.nodes.length] ∧
      g1.playerRep p = .ok p1 ∧ g.infosets.length ∈ p1.m_infosets := by
  have hLlt : ∀ u ∈ L, u < g.nodes.length := by
    intro u hu
    obtain ⟨y, hy⟩ := W.live u hu
    exact deref_lt hy
  have hnone : ∀ k, g.nodes.length ≤ k → deref g.nodes k = .error .badHandle := by
    intro k hk
    simp only [deref]
    rw [List.getElem?_eq_none hk]
  have hkid' : ∀ k ∈ List.range' (g.nodes.length + 1) (c - 1),
      deref g4.nodes k = .ok (freshNode g.nodes.length xm.gameroot) := by
    intro k hk
    obtain ⟨h1, h2⟩ := List.mem_range'_1.1 hk
    have := hkid (k - (g.nodes.length + 1)) (by omega)
    rwa [Nat.add_sub_cancel' h1] at this
  have hkeep : ∀ u y, deref g.nodes u = .ok y →
      ∃ y4, deref g4.nodes u = .ok y4 ∧ y4.infoset = y.infoset ∧ y4.outcome = y.outcome ∧
        (x.parent ≠ some u → y4.children = y.children) ∧ (u ≠ n → y4.parent = y.parent) := by
    intro u y hy
    by_cases hun : u = n
    · subst hun
      rw [hx] at hy
      cases hy
      exact ⟨_, hn4, rfl, rfl, fun _ => rfl, fun h => absurd rfl h⟩
    · by_cases hup : x.parent = some u
      · exact ⟨_, hpos u y hup hy, rfl, rfl, fun h => absurd hup h, fun _ => rfl⟩
      · exact ⟨y, hold u y hy hun hup, rfl, rfl, fun _ => rfl, fun _ => rfl⟩
  have hlive1 : ∀ u ∈ L1, ∃ y, deref g4.nodes u = .ok y := by
    intro u hu
    rcases (hmem u).1 hu with h | ⟨h1, h2⟩
    · obtain ⟨y, hy⟩ := W.live u h
      obtain ⟨y4, hy4, _⟩ := hkeep u y hy
      exact ⟨y4, hy4⟩
    · by_cases e : u = g.nodes.length
      · subst e
        exact ⟨_, hm⟩
      · exact ⟨_, hkid' u (List.mem_range'_1.2 ⟨by omega, by omega⟩)⟩
  obtain ⟨g5, h5, R, si, p1, hsi, hsp, hsa, hsm, hp1, hin1⟩ :=
    F.sorted W hs hp hN1 hnd1 hlive1 ((hmem _).2 (Or.inr ⟨Nat.le_refl _, by omega⟩))
      (fun u hu => (hmem u).2 (Or.inl hu))
      (by simp [infosetOf, hm, hmi]) (by simp [infosetOf, hnone _ (Nat.le_refl _)])
      (by
        intro u _ huL
        obtain ⟨y, hy⟩ := W.live u huL
        obtain ⟨y4, hy4, hi, _⟩ := hkeep u y hy
        simp [infosetOf, hy, hy4, hi])
      (by
        intro u hu hu1 huL
        rcases (hmem u).1 hu1 with h | ⟨h1, h2⟩
        · exact absurd h huL
        · simp [infosetOf, hkid' u (List.mem_range'_1.2 ⟨by omega, by omega⟩), freshNode])
  obtain ⟨num, hm5⟩ := R.node hm
  obtain ⟨numn, hn5⟩ := R.node hn4
  refine ⟨g5, _, _, si, p1, ?_, R.root, hnone _ (Nat.le_refl _), hm5, hmp, hmc, ?_, ?_, hn5,
    rfl, ?_, ?_, ?_, hmi, ?_, hsi, hsp, hsa, hsm, hp1, hin1⟩
  · rw [hA, h5, ok_bind, hm5, ok_bind]
    simp only [setNumber, hmi]
    rfl
  · show xm.children.length = c
    rw [hmc, List.length_cons, List.length_range']
    omega
  · intro par xp hpar hxp
    obtain ⟨num', h⟩ := R.node (hpos par xp hpar hxp)
    exact ⟨_, h, rfl⟩
  · refine hln4.same ?_
    intro u hu
    obtain ⟨y, hy⟩ := hln4.live_node hu
    obtain ⟨num', h⟩ := R.node hy
    simp only [childrenOf, h, hy]
    rfl
  · intro u hu y hy
    obtain ⟨y4, hy4, hi, ho, hc4, hp4⟩ := hkeep u y hy
    obtain ⟨num', h⟩ := R.node hy4
    exact ⟨_, h, hc4 (hparln u hu), hi, ho, hp4⟩
  · intro k hk
    obtain ⟨num', h⟩ := R.node (hkid' k hk)
    exact ⟨hnone k (by have := (List.mem_range'_1.1 hk).1; omega), _, h, rfl, rfl, rfl, rfl⟩
  · simp only [deref]
    rw [List.getElem?_eq_none (Nat.le_refl _)]

/-- C16: in a well-formed game with sorting switched on and consistent parent
pointers, let `n` be a node of the tree, `p` a player of the game and
`count ≥ 1`.  Then `InsertNode(n, p, count)` returns the handle of a newly
created infoset, and afterwards a newly created node `m` (the old length of the
node heap) has the parent `n` had: it is the root when `n` had no parent, and
otherwise it stands in the child list of that parent where `n` stood; `m` has
exactly `count` children, first `n`, then `count - 1` newly created nodes that
are terminal, have parent `m`, no outcome and no infoset; `n` has parent `m`, and
the subtree of `n` is the same list of nodes, each with the children, infoset
and outcome it had, and below `n` with the parent it had; the infoset of `m` is
the new infoset, owned by `p` and in the list of `p`, with exactly `count`
actions and `m` as its only member. -/
theorem InsertNode_spec (g : efgGame) (L : List Nat) (n p c : Nat) (x : Node)
    (player : Player) (hwf : wellFormed g = true) (hs : g.sortisets = true)
    (hN : Nodes g = .ok L) (hP : parentsOk g L = true) (hn : n ∈ L)
    (hx : deref g.nodes n = .ok x) (hp : g.playerRep p = .ok player) (hc : 0 < c) :
    ∃ g1 xm xn si p1 ln, InsertNode g (some n) (some p) (c : Int) =
        .ok (g1, some g.infosets.length) ∧
      deref g.nodes g.nodes.length = .error .badHandle ∧
      deref g1.nodes g.nodes.length = .ok xm ∧ xm.parent = x.parent ∧
      (x.parent = none → n = g.root ∧ g1.root = g.nodes.length) ∧
      (∀ par, x.parent = some par → g1.root = g.root ∧
        ∃ xp xp1, deref g.nodes par = .ok xp ∧ n ∈ xp.children ∧
          deref g1.nodes par = .ok xp1 ∧
          xp1.children = xp.children.set (xp.children.indexOf n) g.nodes.length) ∧
      xm.children = n :: List.range' (g.nodes.length + 1) (c - 1) ∧
      xm.children.length = c ∧
      deref g1.nodes n = .ok xn ∧ xn.parent = some g.nodes.length ∧
      Subtree g.nodes n ln ∧ Subtree g1.nodes n ln ∧
      (∀ u ∈ ln, ∀ y, deref g.nodes u = .ok y →
        ∃ y1, deref g1.nodes u = .ok y1 ∧ y1.children = y.children ∧
          y1.infoset = y.infoset ∧ y1.outcome = y.outcome ∧ (u ≠ n → y1.parent = y.parent)) ∧
      (∀ k ∈ List.range' (g.nodes.length + 1) (c - 1), deref g.nodes k = .error .badHandle ∧
        ∃ y, deref g1.nodes k = .ok y ∧ y.children = [] ∧ y.parent = some g.nodes.length ∧
          y.outcome = none ∧ y.infoset = none) ∧
      xm.infoset = some g.infosets.length ∧
      deref g.infosets g.infosets.length = .error .badHandle ∧
      deref g1.infosets g.infosets.length = .ok si ∧ si.m_player = p ∧
      si.m_actions.length = c ∧ si.m_members = [g.nodes.length] ∧
      g1.playerRep p = .ok p1 ∧ g.infosets.length ∈ p1.m_infosets := by
  obtain ⟨L0, W⟩ := wellFormed_spec g hwf
  have hLe : L0 = L := by
    have := W.nodes_ok
    rw [hN] at this
    cases this
    rfl
  subst hLe
  have hsL : Subtree g.nodes g.root L0 := ⟨_, hN⟩
  obtain ⟨ln, hln, _⟩ := hsL.sub hn
  have hLlt : ∀ u ∈ L0, u < g.nodes.length := by
    intro u hu
    obtain ⟨y, hy⟩ := W.live u hu
    exact deref_lt hy
  have hlnL : ln ⊆ L0 := hsL.subset hn hln
  have hkids_nd : (List.range' (g.nodes.length + 1) (c - 1)).Nodup := List.nodup_range' _ _
  rcases tree_parent hN hP hn hx with ⟨hpar, hroot⟩ | ⟨par, xp, hpar, hparL, hxp, hmemc, hne⟩
  · -- `n` is the root
    obtain ⟨g4, xm, hA, F, hlen, hm, hmi, hmp, hmo, hmc, hn4, hkid, hroot4, hold4⟩ :=
      InsertNode_eval_root g n p c x player hx hpar hp hc
    have e : ln = L0 := by
      subst hroot
      exact hln.det hsL
    subst e
    have hln4 : Subtree g4.nodes n ln := by
      refine hln.same ?_
      intro u hu
      by_cases hun : u = n
      · subst hun
        simp only [childrenOf, hn4, hx]
        rfl
      · simp only [childrenOf]
        rw [hold4 u (hLlt u hu) hun]
    have hs1 : Subtree g4.nodes g4.root
        (g.nodes.length :: (ln ++ List.range' (g.nodes.length + 1) (c - 1))) := by
      rw [hroot4]
      refine Subtree.with_kids hm hmc hln4 ?_
      intro k hk
      obtain ⟨h1, h2⟩ := List.mem_range'_1.1 hk
      have := hkid (k - (g.nodes.length + 1)) (by omega)
      rw [Nat.add_sub_cancel' h1] at this
      exact ⟨_, this, rfl⟩
    have hnd1 : (g.nodes.length :: (ln ++ List.range' (g.nodes.length + 1) (c - 1))).Nodup := by
      refine List.nodup_cons.2 ⟨?_, List.nodup_append.2 ⟨W.nodup, hkids_nd, ?_⟩⟩
      · intro h
        rcases List.mem_append.1 h with h | h
        · have := hLlt _ h
          omega
        · have := (List.mem_range'_1.1 h).1
          omega
      · intro z hz1 hz2
        have := hLlt _ hz1
        have := (List.mem_range'_1.1 hz2).1
        omega
    have hN1 : Nodes g4 =
        .ok (g.nodes.length :: (ln ++ List.range' (g.nodes.length + 1) (c - 1))) := by
      refine hs1.fuel hnd1 ?_
      intro u hu
      rw [hlen]
      rcases List.mem_cons.1 hu with h | h
      · omega
      · rcases List.mem_append.1 h with h | h
        · have := hLlt _ h
          omega
        · have := (List.mem_range'_1.1 h).2
          omega
    obtain ⟨g1, xm1, xn, si, p1, h1, h2, h3, h4, h5, h6, h7, h8, h9, h10, h11, h12, h13, h14⟩ :=
      InsertNode_finish W hs hn hx hp hc hA F hm hmi hmp hmc hn4 hkid
        (fun u y hy hun _ => by rw [hold4 u (deref_lt hy) hun, hy])
        (fun par xp h _ => by rw [hpar] at h; cases h) hN1 hnd1
        (by
          intro z
          simp only [List.mem_cons, List.mem_append, List.mem_range'_1]
          constructor
          · rintro (h | h | h)
            · exact Or.inr ⟨by omega, by omega⟩
            · exact Or.inl h
            · exact Or.inr ⟨by omega, by omega⟩
          · rintro (h | ⟨h1, h2⟩)
            · exact Or.inr (Or.inl h)
            · by_cases e : z = g.nodes.length
              · exact Or.inl e
              · exact Or.inr (Or.inr ⟨by omega, by omega⟩))
        hln hln4 (fun u _ h => by rw [hpar] at h; cases h)
    refine ⟨g1, xm1, xn, si, p1, ln, h1, h3, h4, h5, ?_, ?_, h6, h7, h9, h10, hln, h11, h12, h13,
      h14⟩
    · intro _
      exact ⟨hroot, by rw [h2, hroot4]⟩
    · intro par h
      rw [hpar] at h
      cases h
  · -- `n` is a child of `par`
    obtain ⟨g4, xm, hA, F, hlen, hm, hmi, hmp, hmo, hmc, hn4, hkid, hroot4, hp4, hold4⟩ :=
      InsertNode_eval_inner g n p c par x xp player hx hpar hxp hmemc hne hp hc
    obtain ⟨la, hla, _⟩ := hsL.sub hparL
    have hparln : par ∉ ln := hla.parent_not_mem hxp hmemc hln
    have hln4 : Subtree g4.nodes n ln := by
      refine hln.same ?_
      intro u hu
      by_cases hun : u = n
      · subst hun
        simp only [childrenOf, hn4, hx]
        rfl
      · simp only [childrenOf]
        rw [hold4 u (hLlt u (hlnL hu)) hun (fun e => hparln (e ▸ hu))]
    have hlm : Subtree g4.nodes g.nodes.length
        (g.nodes.length :: (ln ++ List.range' (g.nodes.length + 1) (c - 1))) := by
      refine Subtree.with_kids hm hmc hln4 ?_
      intro k hk
      obtain ⟨h1, h2⟩ := List.mem_range'_1.1 hk
      have := hkid (k - (g.nodes.length + 1)) (by omega)
      rw [Nat.add_sub_cancel' h1] at this
      exact ⟨_, this, rfl⟩
    obtain ⟨L1, hs1, hcnt⟩ := Subtree.replace_child hsL W.nodup hparL hxp hmemc hln hp4 rfl hlm
      (by
        intro u y hu hy
        by_cases hun : u = n
        · subst hun
          rw [hx] at hy
          cases hy
          simp only [childrenOf, hn4]
          rfl
        · simp only [childrenOf]
          rw [hold4 u (deref_lt hy) hun hu, hy]
          rfl)
    rw [← hroot4] at hs1
    have hlnnd : ln.Nodup := hsL.nodup W.nodup hn hln
    obtain ⟨hN1, hnd1⟩ := Nodes_of_counts hs1 hcnt W.nodup
      (by
        refine List.nodup_cons.2 ⟨?_, List.nodup_append.2 ⟨hlnnd, hkids_nd, ?_⟩⟩
        · intro h
          rcases List.mem_append.1 h with h | h
          · have := hLlt _ (hlnL h)
            omega
          · have := (List.mem_range'_1.1 h).1
            omega
        · intro z hz1 hz2
          have := hLlt _ (hlnL hz1)
          have := (List.mem_range'_1.1 hz2).1
          omega)
      (by
        intro z hz hzL
        have := hLlt z hzL
        rcases List.mem_cons.1 hz with h | h
        · omega
        · rcases List.mem_append.1 h with h | h
          · exact h
          · have := (List.mem_range'_1.1 h).1
            omega)
      (fun u hu => by have := hLlt u hu; omega)
      (by
        intro u hu
        rw [hlen]
        rcases List.mem_cons.1 hu with h | h
        · omega
        · rcases List.mem_append.1 h with h | h
          · have := hLlt _ (hlnL h)
            omega
          · have := (List.mem_range'_1.1 h).2
            omega)
    obtain ⟨g1, xm1, xn, si, p1, h1, h2, h3, h4, h5, h6, h7, h8, h9, h10, h11, h12, h13, h14⟩ :=
      InsertNode_finish W hs hn hx hp hc hA F hm hmi hmp hmc hn4 hkid
        (fun u y hy hun hup => by
          rw [hold4 u (deref_lt hy) hun (fun e => hup (by rw [hpar, e])), hy])
        (fun par' xp' h hxp' => by
          rw [hpar] at h
          cases h
          rw [hxp] at hxp'
          cases hxp'
          exact hp4) hN1 hnd1
        (by
          intro z
          have h := hcnt z
          rw [List.count_cons, List.count_append] at h
          rw [← List.count_pos_iff, ← List.count_pos_iff]
          have hk : 0 < (List.range' (g.nodes.length + 1) (c - 1)).count z ↔
              g.nodes.length + 1 ≤ z ∧ z < g.nodes.length + 1 + (c - 1) := by
            rw [List.count_pos_iff, List.mem_range'_1]
          by_cases e : z = g.nodes.length
          · subst e
            have hh : (g.nodes.length == g.nodes.length) = true := by simp
            rw [hh] at h
            simp only [if_true] at h
            constructor
            · intro _
              exact Or.inr ⟨Nat.le_refl _, by omega⟩
            · intro _
              omega
          · have e' : (g.nodes.length == z) = false := by simpa using Ne.symm e
            rw [e'] at h
            simp only [Bool.false_eq_true, if_false] at h
            constructor
            · intro h0
              by_cases hz : 0 < L0.count z
              · exact Or.inl hz
              · right
                have : 0 < (List.range' (g.nodes.length + 1) (c - 1)).count z := by omega
                have := hk.1 this
                omega
            · rintro (h0 | ⟨h1, h2⟩)
              · omega
              · have := hk.2 ⟨by omega, by omega⟩
                omega)
        hln hln4 (fun u hu h => by
          rw [hpar] at h
          cases h
          exact hparln hu)
    refine ⟨g1, xm1, xn, si, p1, ln, h1, h3, h4, h5, ?_, ?_, h6, h7, h9, h10, hln, h11, h12, h13,
      h14⟩
    · intro h
      rw [hpar] at h
      cases h
    · intro par' h
      rw [hpar] at h
      cases h
      obtain ⟨xp1, hxp1, hch⟩ := h8 par xp hpar hxp
      exact ⟨by rw [h2, hroot4], xp, xp1, hxp, hmemc, hxp1, hch⟩
set_option maxRecDepth 1000000 in
/-- Witness for C16: Scenario A, where node `1` is the first child of the root;
player 2 inserts a node with two children above it. -/
theorem InsertNode_spec_witness :
    ∃ g x player, scenarioA = .ok g ∧ wellFormed g = true ∧ g.sortisets = true ∧
      Nodes g = .ok [0, 1, 3, 4, 2, 5, 6] ∧ parentsOk g [0, 1, 3, 4, 2, 5, 6] = true ∧
      1 ∈ [0, 1, 3, 4, 2, 5, 6] ∧ deref g.nodes 1 = .ok x ∧
      g.playerRep 2 = .ok player ∧ 0 < 2 ∧
      ∃ g1 xm xn si p1 ln, InsertNode g (some 1) (some 2) ((2 : Nat) : Int) =
          .ok (g1, some g.infosets.length) ∧
        deref g.nodes g.nodes.length = .error .badHandle ∧
        deref g1.nodes g.nodes.length = .ok xm ∧ xm.parent = x.parent ∧
        (x.parent = none → 1 = g.root ∧ g1.root = g.nodes.length) ∧
        (∀ par, x.parent = some par → g1.root = g.root ∧
          ∃ xp xp1, deref g.nodes par = .ok xp ∧ 1 ∈ xp.children ∧
            deref g1.nodes par = .ok xp1 ∧
            xp1.children = xp.children.set (xp.children.indexOf 1) g.nodes.length) ∧
        xm.children = 1 :: List.range' (g.nodes.length + 1) (2 - 1) ∧
        xm.children.length = 2 ∧
        deref g1.nodes 1 = .ok xn ∧ xn.parent = some g.nodes.length ∧
        Subtree g.nodes 1 ln ∧ Subtree g1.nodes 1 ln ∧
        (∀ u ∈ ln, ∀ y, deref g.nodes u = .ok y →
          ∃ y1, deref g1.nodes u = .ok y1 ∧ y1.children = y.children ∧
            y1.infoset = y.infoset ∧ y1.outcome = y.outcome ∧
            (u ≠ 1 → y1.parent = y.parent)) ∧
        (∀ k ∈ List.range' (g.nodes.length + 1) (2 - 1),
          deref g.nodes k = .error .badHandle ∧
          ∃ y, deref g1.nodes k = .ok y ∧ y.children = [] ∧ y.parent = some g.nodes.length ∧
            y.outcome = none ∧ y.infoset = none) ∧
        xm.infoset = some g.infosets.length ∧
        deref g.infosets g.infosets.length = .error .badHandle ∧
        deref g1.infosets g.infosets.length = .ok si ∧ si.m_player = 2 ∧
        si.m_actions.length = 2 ∧ si.m_members = [g.nodes.length] ∧
        g1.playerRep 2 = .ok p1 ∧ g.infosets.length ∈ p1.m_infosets :=
  ⟨_, _, _, rfl, by decide, by decide, by decide, by decide, by decide, rfl, rfl, by decide,
    InsertNode_spec _ [0, 1, 3, 4, 2, 5, 6] 1 2 2 _ _ (by decide) (by decide) (by decide)
      (by decide) (by decide) rfl rfl (by decide)⟩

theorem forall₂_getElem {α β : Type} {R : α → β → Prop} {xs : List α} {ys : List β}
    (h : List.Forall₂ R xs ys) :
    ∀ (k : Nat) (x : α), xs[k]? = some x → ∃ y, R x y ∧ ys[k]? = some y := by
  induction h with
  | nil =>
    intro k x hx
    simp at hx
  | @cons a1 b1 t1 t2 h1 _ ih =>
    intro k x hx
    cases k with
    | zero =>
      simp at hx
      subst hx
      exact ⟨b1, h1, by simp⟩
    | succ k =>
      simp at hx
      obtain ⟨y, hr, hy⟩ := ih k x hx
      exact ⟨y, hr, by simpa using hy⟩

/-- The positional form of `Subtree.replace_child`: the child at position `i` of
the node `par`, which occurs once in the tree below `root`, is replaced. -/
theorem Subtree.replace_at {nodes H : List (Option Node)} {root par n m i : Nat}
    {L ln lm : List Nat} {xp xp1 : Node}
    (hL : Subtree nodes root L) (hcp : L.count par = 1)
    (hxp : deref nodes par = .ok xp) (hn : xp.children[i]? = some n)
    (hln : Subtree nodes n ln) (hxp1 : deref H par = .ok xp1)
    (hch : xp1.children = xp.children.set i m) (hlm : Subtree H m lm)
    (hag : ∀ u y, u ≠ par → deref nodes u = .ok y → childrenOf H u = .ok y.children) :
    ∃ L1, Subtree H root L1 ∧ ∀ z, L1.count z + ln.count z = L.count z + lm.count z := by
  have hpar : par ∈ L := List.count_pos_iff.1 (by omega)
  obtain ⟨la, hla, _⟩ := hL.sub hpar
  obtain ⟨xp', ls, hxp', hF, hl⟩ := hla.cases
  rw [hxp] at hxp'
  cases hxp'
  have hself := hla.count_self
  rw [hl, List.count_cons_self] at hself
  have hnot : par ∉ ls.flatten := by
    intro h
    have := List.count_pos_iff.2 h
    omega
  obtain ⟨ln', hln', hidx⟩ := forall₂_getElem hF _ _ hn
  have e := hln'.det hln
  subst e
  have hF1 : List.Forall₂ (fun c lc => Subtree H c lc) xp.children ls := by
    refine forall₂_imp_mem hF ?_
    intro c lc _ hlc hs
    refine hs.same ?_
    intro u hu
    obtain ⟨y, hy⟩ := hs.live_node hu
    have hup : u ≠ par := by
      intro e
      subst e
      exact hnot (List.mem_flatten.2 ⟨lc, hlc, hu⟩)
    rw [hag u y hup hy]
    simp only [childrenOf, hy]
    rfl
  have hF2 := forall₂_set hF1 i hlm
  rw [← hch] at hF2
  have hla1 := Subtree.mk hxp1 hF2
  obtain ⟨f, hf⟩ := hL
  obtain ⟨L1, hs, hcnt⟩ := NDoChild_rewrite nodes H par _ _ hla hla1 hag f root L hf
  refine ⟨L1, hs, ?_⟩
  intro z
  have h1 := hcnt z
  rw [hcp, Nat.one_mul, Nat.one_mul, hl, List.count_cons, List.count_cons] at h1
  have h2 := @count_flatten_set ls _ ln' lm hidx z
  omega

/-- The invariants carry over to a game with the same infosets and players whose
tree has the same nodes, in another order, with the same infoset references. -/
theorem WellFormed.of_perm {g g1 : efgGame} {L L1 : List Nat} (hwf : WellFormed g L)
    (hN : Nodes g1 = .ok L1) (hperm : L1.Perm L)
    (hlive : ∀ n ∈ L, ∃ x, deref g1.nodes n = .ok x)
    (hinf : ∀ n ∈ L, infosetOf g1.nodes n = infosetOf g.nodes n)
    (hI : g1.infosets = g.infosets) (hP : ∀ pl, g1.playerRep pl = g.playerRep pl) :
    WellFormed g1 L1 := by
  constructor
  · exact hN
  · exact hperm.nodup_iff.2 hwf.nodup
  · intro n hn
    exact hlive n (hperm.subset hn)
  · intro n hn s hs
    rw [hinf n (hperm.subset hn)] at hs
    obtain ⟨si, p, h1, h2, h3, h4⟩ := hwf.fwd n (hperm.subset hn) s hs
    exact ⟨si, p, by rw [hI]; exact h1, h2, by rw [hP]; exact h3, h4⟩
  · intro pl p hp
    rw [hP] at hp
    obtain ⟨h1, h2⟩ := hwf.lists pl p hp
    refine ⟨h1, ?_⟩
    intro s hs
    obtain ⟨si, h3, h4, h5, h6⟩ := h2 s hs
    refine ⟨si, by rw [hI]; exact h3, h4, h5, ?_⟩
    intro m hm
    obtain ⟨h7, h8⟩ := h6 m hm
    exact ⟨hperm.symm.subset h7, by rw [hinf m h7]; exact h8⟩

theorem MoveTree_eval_diff (g : efgGame) (src dest par dpar : Nat) (xs xd xp xq : Node)
    (hxs : deref g.nodes src = .ok xs) (hxd : deref g.nodes dest = .ok xd)
    (hne : src ≠ dest) (hterm : xd.children = [])
    (hpred : IsPredecessor g.nodes (g.nodes.length + 1) (some src) (some dest) = .ok false)
    (hgr : xs.gameroot = xd.gameroot) (hps : xs.parent = some par)
    (hpd : xd.parent = some dpar) (hpne : par ≠ dpar)
    (hxp : deref g.nodes par = .ok xp) (hsm : src ∈ xp.children)
    (hxq : deref g.nodes dpar = .ok xq) (hdm : dest ∈ xq.children)
    (h1 : par ≠ src) (h2 : par ≠ dest) (h3 : dpar ≠ src) (h4 : dpar ≠ dest) :
    ∃ g4, MoveTree g (some src) (some dest) =
        (SortInfosets g4 >>= fun g5 => pure (g5, some dest)) ∧
      g4.root = g.root ∧ g4.infosets = g.infosets ∧ g4.players = g.players ∧
      g4.chance = g.chance ∧ g4.sortisets = g.sortisets ∧
      g4.nodes.length = g.nodes.length ∧
      deref g4.nodes par = .ok { xp with
        children := xp.children.set (xp.children.indexOf src) dest } ∧
      deref g4.nodes dpar = .ok { xq with
        children := xq.children.set (xq.children.indexOf dest) src } ∧
      deref g4.nodes src = .ok { xs with parent := some dpar } ∧
      deref g4.nodes dest = .ok { xd with parent := some par, name := "", outcome := none } ∧
      (∀ u, u ≠ par → u ≠ dpar → u ≠ src → u ≠ dest → deref g4.nodes u = deref g.nodes u) := by
  have l1 := deref_lt hxs
  have l2 := deref_lt hxd
  have l3 := deref_lt hxp
  have l4 := deref_lt hxq
  have hpp : ¬ (some par = some dpar) := by simpa using hpne
  simp only [MoveTree, hxs, hxd, ok_bind, hne, hterm, List.length_nil, ne_eq, not_true_eq_false,
    or_self, if_false, hpred, pure_eq_ok, Bool.false_eq_true, hgr, hps, hpd, hpp, hxp,
    gSet_gFind _ hsm]
  simp (disch := simp [store_length, l1, l2, l3, l4]) only [deref_store, if_true, ok_bind,
    if_neg (Ne.symm hpne), if_neg (Ne.symm h1), if_neg (Ne.symm h2), if_neg (Ne.symm h3),
    if_neg (Ne.symm h4), if_neg hpne, if_neg h1, if_neg h2, if_neg h3, if_neg h4,
    if_neg hne, if_neg (Ne.symm hne), hxs, hxd, hxp, hxq, gSet_gFind _ hdm]
  refine ⟨_, rfl, rfl, rfl, rfl, rfl, rfl, ?_, ?_, ?_, ?_, ?_, ?_⟩
  · simp [DeleteLexicon, store_length]
  · simp (disch := simp [store_length, l1, l2, l3, l4]) only [DeleteLexicon, deref_store,
      if_true, if_neg h1, if_neg h2, if_neg hpne]
  · simp (disch := simp [store_length, l1, l2, l3, l4]) only [DeleteLexicon, deref_store,
      if_true, if_neg h3, if_neg h4]
  · simp (disch := simp [store_length, l1, l2, l3, l4]) only [DeleteLexicon, deref_store,
      if_true, if_neg hne, hgr]
  · simp (disch := simp [store_length, l1, l2, l3, l4]) only [DeleteLexicon, deref_store,
      if_true, hterm]
  · intro u hu1 hu2 hu3 hu4
    simp (disch := simp [store_length, l1, l2, l3, l4]) only [DeleteLexicon, deref_store,
      if_neg hu1, if_neg hu2, if_neg hu3, if_neg hu4]
theorem MoveTree_eval_same (g : efgGame) (src dest par : Nat) (xs xd xp : Node)
    (hxs : deref g.nodes src = .ok xs) (hxd : deref g.nodes dest = .ok xd)
    (hne : src ≠ dest) (hterm : xd.children = [])
    (hpred : IsPredecessor g.nodes (g.nodes.length + 1) (some src) (some dest) = .ok false)
    (hgr : xs.gameroot = xd.gameroot) (hps : xs.parent = some par)
    (hpd : xd.parent = some par)
    (hxp : deref g.nodes par = .ok xp) (hsm : src ∈ xp.children) (hdm : dest ∈ xp.children)
    (h2 : par ≠ dest) :
    ∃ g4, MoveTree g (some src) (some dest) =
        (SortInfosets g4 >>= fun g5 => pure (g5, some dest)) ∧
      g4.root = g.root ∧ g4.infosets = g.infosets ∧ g4.players = g.players ∧
      g4.chance = g.chance ∧ g4.sortisets = g.sortisets ∧
      g4.nodes.length = g.nodes.length ∧
      deref g4.nodes par = .ok { xp with
        children := (xp.children.set (xp.children.indexOf src) dest).set
          (xp.children.indexOf dest) src } ∧
      deref g4.nodes dest = .ok { xd with name := "", outcome := none } ∧
      (∀ u, u ≠ par → u ≠ dest → deref g4.nodes u = deref g.nodes u) := by
  have l2 := deref_lt hxd
  have l3 := deref_lt hxp
  have hset : gSet (xp.children.set (xp.children.indexOf src) dest)
      (gFind xp.children dest) src =
      .ok ((xp.children.set (xp.children.indexOf src) dest).set (xp.children.indexOf dest) src) := by
    simp only [gFind, if_pos hdm, gSet, List.length_set, List.indexOf_lt_length.2 hdm, if_true]
  simp only [MoveTree, hxs, hxd, ok_bind, hne, hterm, List.length_nil, ne_eq, not_true_eq_false,
    or_self, if_false, hpred, pure_eq_ok, Bool.false_eq_true, hgr, hps, hpd, if_true, hxp,
    gSet_gFind _ hsm, hset]
  simp (disch := simp [store_length, l2, l3]) only [deref_store, if_true, ok_bind,
    if_neg (Ne.symm h2), if_neg h2, hxd]
  refine ⟨_, rfl, rfl, rfl, rfl, rfl, rfl, ?_, ?_, ?_, ?_⟩
  · simp [DeleteLexicon, store_length]
  · simp (disch := simp [store_length, l2, l3]) only [DeleteLexicon, deref_store,
      if_true, if_neg h2]
  · simp (disch := simp [store_length, l2, l3]) only [DeleteLexicon, deref_store,
      if_true, hterm, hpd]
  · intro u hu1 hu2
    simp (disch := simp [store_length, l2, l3]) only [DeleteLexicon, deref_store,
      if_neg hu1, if_neg hu2]

theorem Subtree.child_mem {nodes : List (Option Node)} {v u c : Nat} {l : List Nat} {y : Node}
    (h : Subtree nodes v l) (hu : u ∈ l) (hy : deref nodes u = .ok y) (hc : c ∈ y.children) :
    c ∈ l := by
  obtain ⟨lu, hlu, _⟩ := h.sub hu
  refine h.subset hu hlu ?_
  obtain ⟨y', ls, hy', hF, hl⟩ := hlu.cases
  rw [hy] at hy'
  cases hy'
  obtain ⟨lc, hidx, hlc⟩ := forall₂_indexOf hF hc
  rw [hl]
  refine List.mem_cons_of_mem _ ?_
  obtain ⟨hlt, e⟩ := List.getElem?_eq_some_iff.1 hidx
  refine List.mem_flatten.2 ⟨lc, e ▸ List.getElem_mem hlt, ?_⟩
  obtain ⟨_, _, _, _, e1⟩ := hlc.cases
  rw [e1]
  exact List.mem_cons_self _ _

theorem Subtree.leaf {nodes : List (Option Node)} {v : Nat} {x : Node}
    (hx : deref nodes v = .ok x) (hc : x.children = []) : Subtree nodes v [v] := by
  have := @Subtree.mk nodes v x [] hx (by rw [hc]; exact List.Forall₂.nil)
  simpa using this

/-- The tree after `MoveTree` has exchanged the subtree of `src`, which is the
child at position `i` of `par`, and the terminal node `dest`, which is the child
at position `j` of `dpar`: it holds the same nodes as often as before. -/
theorem MoveTree_tree {nodes H2 : List (Option Node)} {root src dest par dpar i j : Nat}
    {L lsrc : List Nat} {xp xd xq1 xq2 : Node}
    (hL : Subtree nodes root L) (hnd : L.Nodup) (hparL : par ∈ L) (hdparL : dpar ∈ L)
    (hxp : deref nodes par = .ok xp) (hi : xp.children[i]? = some src)
    (hls : Subtree nodes src lsrc) (hxd : deref nodes dest = .ok xd)
    (hterm : xd.children = []) (hpd : par ≠ dest) (hdd : dpar ≠ dest) (hdl : dpar ∉ lsrc)
    (hq1 : deref (store nodes par { xp with children := xp.children.set i dest }) dpar =
      .ok xq1)
    (hj : xq1.children[j]? = some dest)
    (hq2 : deref H2 dpar = .ok xq2) (hch2 : xq2.children = xq1.children.set j src)
    (hag2 : ∀ u y, u ≠ dpar →
      deref (store nodes par { xp with children := xp.children.set i dest }) u = .ok y →
      childrenOf H2 u = .ok y.children) :
    ∃ L1, Subtree H2 root L1 ∧ ∀ z, L1.count z = L.count z := by
  have hplt := deref_lt hxp
  have hsm : src ∈ xp.children := by
    obtain ⟨hlt, e⟩ := List.getElem?_eq_some_iff.1 hi
    exact e ▸ List.getElem_mem hlt
  obtain ⟨la, hla, _⟩ := hL.sub hparL
  have hpl : par ∉ lsrc := hla.parent_not_mem hxp hsm hls
  have hH1p : deref (store nodes par { xp with children := xp.children.set i dest }) par =
      .ok { xp with children := xp.children.set i dest } := deref_store_self _ hplt
  have hH1o : ∀ u, u ≠ par →
      deref (store nodes par { xp with children := xp.children.set i dest }) u =
        deref nodes u := fun u hu => deref_store_ne _ _ (Ne.symm hu)
  have hd1 : Subtree (store nodes par { xp with children := xp.children.set i dest }) dest
      [dest] := Subtree.leaf (by rw [hH1o dest (Ne.symm hpd)]; exact hxd) hterm
  obtain ⟨L', hs', hcnt'⟩ := Subtree.replace_at hL (List.count_eq_one_of_mem hnd hparL) hxp hi
    hls hH1p rfl hd1
    (by
      intro u y hu hy
      simp only [childrenOf]
      rw [hH1o u hu, hy]
      rfl)
  have hs1 : Subtree (store nodes par { xp with children := xp.children.set i dest }) src
      lsrc := by
    refine hls.same ?_
    intro u hu
    simp only [childrenOf]
    rw [hH1o u (fun e => hpl (e ▸ hu))]
  have hs2 : Subtree H2 src lsrc := by
    refine hs1.same ?_
    intro u hu
    obtain ⟨y, hy⟩ := hs1.live_node hu
    rw [hag2 u y (fun e => hdl (e ▸ hu)) hy]
    simp only [childrenOf, hy]
    rfl
  have hcq : L'.count dpar = 1 := by
    have h := hcnt' dpar
    have h1 : lsrc.count dpar = 0 := List.count_eq_zero_of_not_mem hdl
    have h2 : [dest].count dpar = 0 :=
      List.count_eq_zero_of_not_mem (by simpa using hdd)
    have h3 := List.count_eq_one_of_mem hnd hdparL
    omega
  obtain ⟨L1, hs1', hcnt1⟩ := Subtree.replace_at hs' hcq hq1 hj hd1 hq2 hch2 hs2 hag2
  refine ⟨L1, hs1', ?_⟩
  intro z
  have h1 := hcnt' z
  have h2 := hcnt1 z
  omega

theorem getElem?_indexOf_mem {α : Type} [DecidableEq α] {l : List α} {a : α} (h : a ∈ l) :
    l[l.indexOf a]? = some a := by
  rw [List.getElem?_eq_some_iff]
  exact ⟨List.indexOf_lt_length.2 h, List.indexOf_get _⟩

/-- The sort at the end of an operation that has rearranged the tree without
creating or deleting nodes and without touching infosets or players. -/
theorem rearranged_sorted {g g4 : efgGame} {L L1 : List Nat} (W : WellFormed g L)
    (hs : g.sortisets = true) (hroot : g4.root = g.root) (hI : g4.infosets = g.infosets)
    (hpl : g4.players = g.players) (hch : g4.chance = g.chance)
    (hso : g4.sortisets = g.sortisets) (hlen : g4.nodes.length = g.nodes.length)
    (hs1 : Subtree g4.nodes g.root L1) (hcnt : ∀ z, L1.count z = L.count z)
    (hkeep : ∀ u y, deref g.nodes u = .ok y →
      ∃ y4, deref g4.nodes u = .ok y4 ∧ y4.infoset = y.infoset) :
    ∃ g5, SortInfosets g4 = .ok g5 ∧ SortResult g4 g5 L1 ∧ L1.Perm L := by
  have hperm : L1.Perm L := List.perm_iff_count.2 hcnt
  have hnd1 : L1.Nodup := hperm.nodup_iff.2 W.nodup
  have hN1 : Nodes g4 = .ok L1 := by
    rw [← hroot] at hs1
    refine hs1.fuel hnd1 ?_
    intro u hu
    obtain ⟨y, hy⟩ := W.live u (hperm.subset hu)
    rw [hlen]
    exact deref_lt hy
  have W4 : WellFormed g4 L1 := by
    refine W.of_perm hN1 hperm ?_ ?_ hI (fun pl => playerRep_congr g4 g pl hpl hch)
    · intro n hn
      obtain ⟨y, hy⟩ := W.live n hn
      obtain ⟨y4, hy4, _⟩ := hkeep n y hy
      exact ⟨y4, hy4⟩
    · intro n hn
      obtain ⟨y, hy⟩ := W.live n hn
      obtain ⟨y4, hy4, hi⟩ := hkeep n y hy
      simp [infosetOf, hy, hy4, hi]
  obtain ⟨g5, h5, R⟩ := SortInfosets_spec g4 L1 W4 (by rw [hso, hs])
  exact ⟨g5, h5, R, hperm⟩

/-- C19: in a well-formed game with sorting switched on and consistent parent
pointers, let `src` and `dest` be distinct nodes of the tree with the same
subgame root, `dest` terminal and not in the subtree `ls` of `src`.  Then
`MoveTree(src, dest)` returns `dest`, and afterwards: the tree has the same root
and the same nodes; `src` has the parent `dest` had and stands in that parent's
child list where `dest` stood, `dest` has the parent `src` had and stands where
`src` stood, has no children, an empty name and no outcome; the subtree of `src`
is the same list of nodes, each with the children, infoset, outcome and name it
had, and below `src` with the parent it had. -/
theorem MoveTree_spec (g : efgGame) (L ls : List Nat) (src dest : Nat) (xs xd : Node)
    (hwf : wellFormed g = true) (hs : g.sortisets = true) (hN : Nodes g = .ok L)
    (hP : parentsOk g L = true) (hsL : src ∈ L) (hdL : dest ∈ L) (hne : src ≠ dest)
    (hxs : deref g.nodes src = .ok xs) (hxd : deref g.nodes dest = .ok xd)
    (hterm : xd.children = []) (hgr : xs.gameroot = xd.gameroot)
    (hls : NDoChild g.nodes g.nodes.length src [] = .ok ls) (hnot : dest ∉ ls) :
    ∃ g1 L1 xs1 xd1 par dpar xp xq xp1 xq1,
      MoveTree g (some src) (some dest) = .ok (g1, some dest) ∧
      g1.root = g.root ∧ Nodes g1 = .ok L1 ∧ L1.Perm L ∧
      xs.parent = some par ∧ xd.parent = some dpar ∧
      deref g.nodes par = .ok xp ∧ deref g.nodes dpar = .ok xq ∧
      src ∈ xp.children ∧ dest ∈ xq.children ∧
      deref g1.nodes src = .ok xs1 ∧ xs1.parent = some dpar ∧
      deref g1.nodes dest = .ok xd1 ∧ xd1.parent = some par ∧
      xd1.children = [] ∧ xd1.name = "" ∧ xd1.outcome = none ∧
      deref g1.nodes par = .ok xp1 ∧ deref g1.nodes dpar = .ok xq1 ∧
      (par ≠ dpar → xp1.children = xp.children.set (xp.children.indexOf src) dest ∧
        xq1.children = xq.children.set (xq.children.indexOf dest) src) ∧
      (par = dpar → xp1.children =
        (xp.children.set (xp.children.indexOf src) dest).set (xp.children.indexOf dest) src) ∧
      Subtree g1.nodes src ls ∧
      ∀ u ∈ ls, ∀ y, deref g.nodes u = .ok y →
        ∃ y1, deref g1.nodes u = .ok y1 ∧ y1.children = y.children ∧
          y1.infoset = y.infoset ∧ y1.outcome = y.outcome ∧ y1.name = y.name ∧
          (u ≠ src → y1.parent = y.parent) := by
  obtain ⟨L0, W⟩ := wellFormed_spec g hwf
  have hLe : L0 = L := by
    have := W.nodes_ok
    rw [hN] at this
    cases this
    rfl
  subst hLe
  have hsT : Subtree g.nodes g.root L0 := ⟨_, hN⟩
  have hlsT : Subtree g.nodes src ls := ⟨_, hls⟩
  have hsrc_ls : src ∈ ls := by
    obtain ⟨_, _, _, _, e⟩ := hlsT.cases
    rw [e]
    exact List.mem_cons_self _ _
  -- the parent of `src`
  rcases tree_parent hN hP hsL hxs with ⟨_, hroot⟩ | ⟨par, xp, hps, hparL, hxp, hsm, hpsrc⟩
  · exfalso
    subst hroot
    rw [hlsT.det hsT] at hnot
    exact hnot hdL
  -- the parent of `dest`
  rcases tree_parent hN hP hdL hxd with ⟨_, hroot⟩ | ⟨dpar, xq, hpd, hdparL, hxq, hdm, hpdest⟩
  · exfalso
    subst hroot
    have := (Subtree.leaf hxd hterm).det hsT
    rw [← this] at hsL
    exact hne (by simpa using hsL)
  have hpd' : par ≠ dest := by
    intro e
    subst e
    rw [hxp] at hxd
    cases hxd
    rw [hterm] at hsm
    cases hsm
  have hdl : dpar ∉ ls := fun h => hnot (hlsT.child_mem h hxq hdm)
  have hpl : par ∉ ls := by
    obtain ⟨la, hla, _⟩ := hsT.sub hparL
    exact hla.parent_not_mem hxp hsm hlsT
  have hdsrc : dpar ≠ src := fun e => hdl (e ▸ hsrc_ls)
  have hpred : IsPredecessor g.nodes (g.nodes.length + 1) (some src) (some dest) =
      .ok false := by
    obtain ⟨b, hb, hbt⟩ := IsPredecessor_spec g L0 src dest hN hP hdL
    cases b with
    | false => exact hb
    | true =>
      obtain ⟨fw, lw, h1, h2⟩ := hbt rfl
      rw [NDoChild_det h1 hls] at h2
      exact absurd h2 hnot
  have hi := getElem?_indexOf_mem hsm
  have hj := getElem?_indexOf_mem hdm
  by_cases hsame : par = dpar
  · subst hsame
    rw [hxp] at hxq
    cases hxq
    obtain ⟨g4, hA, hroot4, hI4, hpl4, hch4, hso4, hlen4, hp4, hd4, ho4⟩ :=
      MoveTree_eval_same g src dest par xs xd xp hxs hxd hne hterm hpred hgr hps hpd hxp hsm hdm
        hpd'
    have hij : xp.children.indexOf src ≠ xp.children.indexOf dest := by
      intro e
      rw [e, hj] at hi
      cases hi
      exact hne rfl
    obtain ⟨L1, hs1, hcnt⟩ := @MoveTree_tree g.nodes g4.nodes g.root src dest par par
      (xp.children.indexOf src) (xp.children.indexOf dest) L0 ls xp xd _ _
      hsT W.nodup hparL hparL hxp hi hlsT hxd hterm hpd' hpd' hdl
      (deref_store_self _ (deref_lt hxp))
      (by
        show (xp.children.set (xp.children.indexOf src) dest)[xp.children.indexOf dest]? = _
        rw [List.getElem?_set_ne hij]
        exact hj)
      hp4 rfl
      (by
        intro u y hu hy
        rw [deref_store_ne _ _ (Ne.symm hu)] at hy
        by_cases hud : u = dest
        · subst hud
          rw [hxd] at hy
          cases hy
          simp only [childrenOf, hd4]
          rfl
        · simp only [childrenOf]
          rw [ho4 u hu hud, hy]
          rfl)
    have hkeep : ∀ u y, deref g.nodes u = .ok y →
        ∃ y4, deref g4.nodes u = .ok y4 ∧ y4.infoset = y.infoset ∧
          (u ∈ ls → y4.children = y.children ∧ y4.outcome = y.outcome ∧ y4.name = y.name ∧
            y4.parent = y.parent) := by
      intro u y hy
      by_cases hup : u = par
      · subst hup
        rw [hxp] at hy
        cases hy
        exact ⟨_, hp4, rfl, fun h => absurd h hpl⟩
      · by_cases hud : u = dest
        · subst hud
          rw [hxd] at hy
          cases hy
          exact ⟨_, hd4, rfl, fun h => absurd h hnot⟩
        · exact ⟨y, by rw [ho4 u hup hud, hy], rfl, fun _ => ⟨rfl, rfl, rfl, rfl⟩⟩
    obtain ⟨g5, h5, R, hperm⟩ := rearranged_sorted W hs hroot4 hI4 hpl4 hch4 hso4 hlen4 hs1 hcnt
      (fun u y hy => by
        obtain ⟨y4, h1, h2, _⟩ := hkeep u y hy
        exact ⟨y4, h1, h2⟩)
    have hs4 : deref g4.nodes src = .ok xs := by
      rw [ho4 src (Ne.symm hpsrc) hne, hxs]
    obtain ⟨_, hs5⟩ := R.node hs4
    obtain ⟨_, hd5⟩ := R.node hd4
    obtain ⟨_, hp5⟩ := R.node hp4
    refine ⟨g5, L1, _, _, par, par, xp, xp, _, _, ?_, R.root.trans hroot4, R.wf.nodes_ok, hperm,
      hps, hpd, hxp, hxp, hsm, hdm, hs5, hps, hd5, hpd, hterm, rfl, rfl, hp5, hp5,
      fun h => absurd rfl h, fun _ => rfl, ?_, ?_⟩
    · rw [hA, h5]
      rfl
    · refine hlsT.same ?_
      intro u hu
      obtain ⟨y, hy⟩ := hlsT.live_node hu
      obtain ⟨y4, hy4, _, hr⟩ := hkeep u y hy
      obtain ⟨_, h⟩ := R.node hy4
      simp only [childrenOf, h, hy]
      exact congrArg Except.ok (hr hu).1
    · intro u hu y hy
      obtain ⟨y4, hy4, hi4, hr⟩ := hkeep u y hy
      obtain ⟨_, h⟩ := R.node hy4
      obtain ⟨r1, r2, r3, r4⟩ := hr hu
      exact ⟨_, h, r1, hi4, r2, r3, fun _ => r4⟩
  · obtain ⟨g4, hA, hroot4, hI4, hpl4, hch4, hso4, hlen4, hp4, hq4, hs4, hd4, ho4⟩ :=
      MoveTree_eval_diff g src dest par dpar xs xd xp xq hxs hxd hne hterm hpred hgr hps hpd
        hsame hxp hsm hxq hdm hpsrc hpd' hdsrc hpdest
    obtain ⟨L1, hs1, hcnt⟩ := @MoveTree_tree g.nodes g4.nodes g.root src dest par dpar
      (xp.children.indexOf src) (xq.children.indexOf dest) L0 ls xp xd xq _
      hsT W.nodup hparL hdparL hxp hi hlsT hxd hterm hpd' hpdest hdl
      (by rw [deref_store_ne _ _ hsame, hxq]) hj hq4 rfl
      (by
        intro u y hu hy
        by_cases hup : u = par
        · subst hup
          rw [deref_store_self _ (deref_lt hxp)] at hy
          cases hy
          simp only [childrenOf, hp4]
          rfl
        · rw [deref_store_ne _ _ (Ne.symm hup)] at hy
          by_cases hus : u = src
          · subst hus
            rw [hxs] at hy
            cases hy
            simp only [childrenOf, hs4]
            rfl
          · by_cases hud : u = dest
            · subst hud
              rw [hxd] at hy
              cases hy
              simp only [childrenOf, hd4]
              rfl
            · simp only [childrenOf]
              rw [ho4 u hup hu hus hud, hy]
              rfl)
    have hkeep : ∀ u y, deref g.nodes u = .ok y →
        ∃ y4, deref g4.nodes u = .ok y4 ∧ y4.infoset = y.infoset ∧
          (u ∈ ls → y4.children = y.children ∧ y4.outcome = y.outcome ∧ y4.name = y.name ∧
            (u ≠ src → y4.parent = y.parent)) := by
      intro u y hy
      by_cases hup : u = par
      · subst hup
        rw [hxp] at hy
        cases hy
        exact ⟨_, hp4, rfl, fun h => absurd h hpl⟩
      · by_cases huq : u = dpar
        · subst huq
          rw [hxq] at hy
          cases hy
          exact ⟨_, hq4, rfl, fun h => absurd h hdl⟩
        · by_cases hud : u = dest
          · subst hud
            rw [hxd] at hy
            cases hy
            exact ⟨_, hd4, rfl, fun h => absurd h hnot⟩
          · by_cases hus : u = src
            · subst hus
              rw [hxs] at hy
              cases hy
              exact ⟨_, hs4, rfl, fun _ => ⟨rfl, rfl, rfl, fun h => absurd rfl h⟩⟩
            · exact ⟨y, by rw [ho4 u hup huq hus hud, hy], rfl,
                fun _ => ⟨rfl, rfl, rfl, fun _ => rfl⟩⟩
    obtain ⟨g5, h5, R, hperm⟩ := rearranged_sorted W hs hroot4 hI4 hpl4 hch4 hso4 hlen4 hs1 hcnt
      (fun u y hy => by
        obtain ⟨y4, h1, h2, _⟩ := hkeep u y hy
        exact ⟨y4, h1, h2⟩)
    obtain ⟨_, hs5⟩ := R.node hs4
    obtain ⟨_, hd5⟩ := R.node hd4
    obtain ⟨_, hp5⟩ := R.node hp4
    obtain ⟨_, hq5⟩ := R.node hq4
    refine ⟨g5, L1, _, _, par, dpar, xp, xq, _, _, ?_, R.root.trans hroot4, R.wf.nodes_ok,
      hperm, hps, hpd, hxp, hxq, hsm, hdm, hs5, rfl, hd5, rfl, hterm, rfl, rfl, hp5, hq5,
      fun _ => ⟨rfl, rfl⟩, fun h => absurd h hsame, ?_, ?_⟩
    · rw [hA, h5]
      rfl
    · refine hlsT.same ?_
      intro u hu
      obtain ⟨y, hy⟩ := hlsT.live_node hu
      obtain ⟨y4, hy4, _, hr⟩ := hkeep u y hy
      obtain ⟨_, h⟩ := R.node hy4
      simp only [childrenOf, h, hy]
      exact congrArg Except.ok (hr hu).1
    · intro u hu y hy
      obtain ⟨y4, hy4, hi4, hr⟩ := hkeep u y hy
      obtain ⟨_, h⟩ := R.node hy4
      obtain ⟨r1, r2, r3, r4⟩ := hr hu
      exact ⟨_, h, r1, hi4, r2, r3, r4⟩
set_option maxRecDepth 1000000 in
/-- Witness for C19: Scenario A, where node `1` with its two children is moved
onto the terminal node `5` below node `2`. -/
theorem MoveTree_spec_witness :
    ∃ g xs xd, scenarioA = .ok g ∧ wellFormed g = true ∧ g.sortisets = true ∧
      Nodes g = .ok [0, 1, 3, 4, 2, 5, 6] ∧ parentsOk g [0, 1, 3, 4, 2, 5, 6] = true ∧
      1 ∈ [0, 1, 3, 4, 2, 5, 6] ∧ 5 ∈ [0, 1, 3, 4, 2, 5, 6] ∧ 1 ≠ 5 ∧
      deref g.nodes 1 = .ok xs ∧ deref g.nodes 5 = .ok xd ∧ xd.children = [] ∧
      xs.gameroot = xd.gameroot ∧
      NDoChild g.nodes g.nodes.length 1 [] = .ok [1, 3, 4] ∧ 5 ∉ [1, 3, 4] ∧
      ∃ g1 L1 xs1 xd1 par dpar xp xq xp1 xq1,
        MoveTree g (some 1) (some 5) = .ok (g1, some 5) ∧
        g1.root = g.root ∧ Nodes g1 = .ok L1 ∧ L1.Perm [0, 1, 3, 4, 2, 5, 6] ∧
        xs.parent = some par ∧ xd.parent = some dpar ∧
        deref g.nodes par = .ok xp ∧ deref g.nodes dpar = .ok xq ∧
        1 ∈ xp.children ∧ 5 ∈ xq.children ∧
        deref g1.nodes 1 = .ok xs1 ∧ xs1.parent = some dpar ∧
        deref g1.nodes 5 = .ok xd1 ∧ xd1.parent = some par ∧
        xd1.children = [] ∧ xd1.name = "" ∧ xd1.outcome = none ∧
        deref g1.nodes par = .ok xp1 ∧ deref g1.nodes dpar = .ok xq1 ∧
        (par ≠ dpar → xp1.children = xp.children.set (xp.children.indexOf 1) 5 ∧
          xq1.children = xq.children.set (xq.children.indexOf 5) 1) ∧
        (par = dpar → xp1.children =
          (xp.children.set (xp.children.indexOf 1) 5).set (xp.children.indexOf 5) 1) ∧
        Subtree g1.nodes 1 [1, 3, 4] ∧
        ∀ u ∈ [1, 3, 4], ∀ y, deref g.nodes u = .ok y →
          ∃ y1, deref g1.nodes u = .ok y1 ∧ y1.children = y.children ∧
            y1.infoset = y.infoset ∧ y1.outcome = y.outcome ∧ y1.name = y.name ∧
            (u ≠ 1 → y1.parent = y.parent) :=
  ⟨_, _, _, rfl, by decide, by decide, by decide, by decide, by decide, by decide, by decide,
    rfl, rfl, by decide, by decide, by decide, by decide,
    MoveTree_spec _ [0, 1, 3, 4, 2, 5, 6] [1, 3, 4] 1 5 _ _ (by decide) (by decide) (by decide)
      (by decide) (by decide) (by decide) (by decide) rfl rfl (by decide) (by decide)
      (by decide) (by decide)⟩

theorem deref_set_none_self {α : Type} (heap : List (Option α)) (c : Nat) :
    deref (heap.set c none) c = .error .badHandle := by
  unfold deref
  by_cases h : c < heap.length
  · rw [List.getElem?_set_self h]
  · rw [List.getElem?_eq_none (by simp; omega)]

theorem deref_set_none_ne {α : Type} (heap : List (Option α)) {c u : Nat} (h : c ≠ u) :
    deref (heap.set c none) u = deref heap u := by
  unfold deref
  rw [List.getElem?_set_ne h]

theorem NDoChild_head {nodes : List (Option Node)} {fuel c : Nat} {l : List Nat}
    (h : NDoChild nodes fuel c [] = .ok l) : ∃ t, l = c :: t := by
  cases fuel with
  | zero => cases h
  | succ fuel =>
    obtain ⟨_, ls, _, _, e⟩ := NDoChild_ok nodes fuel c l h
    exact ⟨_, e⟩

theorem prune_nil (nodes : List (Option Node)) (s : Nat) (si : Infoset) :
    prune nodes [] s si = si := by
  simp [prune]

theorem prune_prune (nodes nodes1 : List (Option Node)) (D P : List Nat) (s : Nat)
    (si : Infoset) (h : ∀ m ∈ P, infosetOf nodes1 m = infosetOf nodes m) :
    prune nodes1 P s (prune nodes D s si) = prune nodes (D ++ P) s si := by
  simp only [prune, List.filter_filter]
  congr 1
  apply List.filter_congr
  intro m _
  by_cases hP : m ∈ P
  · rw [h m hP]
    by_cases hD : m ∈ D <;> simp [hP, hD]
  · by_cases hD : m ∈ D <;> simp [hP, hD]

theorem SortInfosets_off (g : efgGame) (h : g.sortisets = false) : SortInfosets g = .ok g := by
  simp [SortInfosets, h]

theorem prune_cons_ne (nodes : List (Option Node)) (n : Nat) (F : List Nat) (s : Nat)
    (si : Infoset) (h : infosetOf nodes n ≠ some s) :
    prune nodes (n :: F) s si = prune nodes F s si := by
  simp only [prune]
  congr 1
  apply List.filter_congr
  intro m _
  by_cases hm : m = n
  · subst hm
    simp [h]
  · simp [hm]

theorem prune_cons_eq (nodes : List (Option Node)) (n : Nat) (F : List Nat) (s : Nat)
    (si : Infoset) (h : infosetOf nodes n = some s) (hnd : si.m_members.Nodup) :
    { prune nodes F s si with m_members := (prune nodes F s si).m_members.erase n } =
      prune nodes (n :: F) s si := by
  simp only [prune]
  congr 1
  rw [(hnd.filter _).erase_eq_filter, List.filter_filter]
  apply List.filter_congr
  intro m _
  by_cases hm : m = n
  · subst hm
    simp [h]
  · simp [hm]

/-- What `DeleteTree(n)` does while sorting is switched off, on a node `n` whose
subtree `T` names no node twice and whose nodes are members, without
repetition, of the infosets they refer to: it returns `n`; the nodes below `n`
are deleted; `n` has no children, infoset, outcome or name left; the nodes of
`T` are removed from the member lists of their infosets; nothing else changes
in nodes, infosets, players and root. -/
theorem DeleteTree_go_spec : ∀ (fuel : Nat) (g : efgGame) (n : Nat) (T : List Nat) (x : Node),
    NDoChild g.nodes fuel n [] = .ok T → T.Nodup → g.sortisets = false →
    deref g.nodes n = .ok x →
    (∀ u ∈ T, ∀ s, infosetOf g.nodes u = some s →
      ∃ si, deref g.infosets s = .ok si ∧ u ∈ si.m_members ∧ si.m_members.Nodup) →
    ∃ g1, DeleteTree.go fuel g (some n) = .ok (g1, n) ∧
      Pruned g g1 T.tail T n (clearedNode x) := by
  intro fuel
  induction fuel with
  | zero => intro g n T x h; cases h
  | succ fuel ih =>
    intro g n T x hT hnd hso hx hmem
    obtain ⟨x', ls, hx', hF, hTe⟩ := NDoChild_ok g.nodes fuel n T hT
    rw [hx] at hx'
    cases hx'
    subst hTe
    have hnT : n ∉ ls.flatten := (List.nodup_cons.1 hnd).1
    have hndF : ls.flatten.Nodup := (List.nodup_cons.1 hnd).2
    have key : ∀ (todo : List Nat) (ls : List (List Nat)),
        List.Forall₂ (fun c lc => NDoChild g.nodes fuel c [] = .ok lc) todo ls →
        ∀ (D : List Nat) (ga : efgGame),
          Pruned g ga D D n { x with children := todo } → ga.sortisets = false →
          (D ++ ls.flatten).Nodup → n ∉ D ++ ls.flatten →
          (∀ u ∈ ls.flatten, ∀ s, infosetOf g.nodes u = some s →
            ∃ si, deref g.infosets s = .ok si ∧ u ∈ si.m_members ∧ si.m_members.Nodup) →
          ∃ g2, todo.foldlM (fun (ga : efgGame) _ => do
              let xa ← deref ga.nodes n
              let c ← gAt xa.children 1
              let (gb, _) ← DeleteTree.go fuel ga (some c)
              let xb ← deref gb.nodes n
              let (d, rest) ← gRemove xb.children 1
              pure { gb with
                nodes := (store gb.nodes n { xb with children := rest }).set d none }) ga =
              .ok g2 ∧
            Pruned g g2 (D ++ ls.flatten) (D ++ ls.flatten) n { x with children := [] } ∧
            g2.sortisets = false := by
      intro todo ls hF
      induction hF with
      | nil =>
        intro D ga PR hsa _ _ _
        refine ⟨ga, rfl, ?_, hsa⟩
        simpa using PR
      | @cons c lc rest lrest hc _ ihf =>
        intro D ga PR hsa hnd1 hn1 hm1
        obtain ⟨tc, hlc⟩ := NDoChild_head hc
        have hcl : c ∈ lc := by rw [hlc]; exact List.mem_cons_self _ _
        rw [List.flatten_cons, ← List.append_assoc] at hnd1 hn1
        have hndDl : (D ++ lc).Nodup := (List.nodup_append.1 hnd1).1
        have hdisj : ∀ u ∈ lc, u ∉ D := fun u hu hD =>
          (List.nodup_append.1 hndDl).2.2 hD hu
        have hnl : ∀ u ∈ lc, u ≠ n := fun u hu e =>
          hn1 (List.mem_append_left _ (List.mem_append_right _ (e ▸ hu)))
        have hsame : ∀ u ∈ lc, deref ga.nodes u = deref g.nodes u := fun u hu =>
          PR.keep u (hdisj u hu) (hnl u hu)
        have hNc : NDoChild ga.nodes fuel c [] = .ok lc := by
          refine NDoChild_same g.nodes ga.nodes fuel c lc hc ?_
          intro u hu
          simp only [childrenOf]
          rw [hsame u hu]
        obtain ⟨xc, hxc⟩ : ∃ xc, deref g.nodes c = .ok xc := by
          cases fuel with
          | zero => cases hc
          | succ f =>
            obtain ⟨xc, _, h, _⟩ := NDoChild_ok g.nodes f c lc hc
            exact ⟨xc, h⟩
        obtain ⟨gb, hgo, PB⟩ := ih ga c lc xc hNc (List.nodup_append.1 hndDl).2.1 hsa
          (by rw [hsame c hcl]; exact hxc)
          (by
            intro u hu s hs
            have hs' : infosetOf g.nodes u = some s := by
              simp only [infosetOf] at hs ⊢
              rw [← hsame u hu]
              exact hs
            obtain ⟨si, h1, h2, h3⟩ := hm1 u
              (by rw [List.flatten_cons]; exact List.mem_append_left _ hu) s hs'
            refine ⟨prune g.nodes D s si, ?_, ?_, ?_⟩
            · rw [PR.inf s, h1]
              rfl
            · simp only [prune, List.mem_filter]
              exact ⟨h2, by simp [hdisj u hu]⟩
            · exact h3.filter _)
        have hnc : n ≠ c := fun e => hnl c hcl e.symm
        have hntail : n ∉ lc.tail := fun h => hnl n (List.mem_of_mem_tail h) rfl
        have hbn : deref gb.nodes n = .ok { x with children := c :: rest } := by
          rw [PB.keep n hntail hnc, PR.top]
        have hnlt : n < gb.nodes.length := deref_lt hbn
        simp only [List.foldlM_cons, PR.top, ok_bind, gAt, List.getElem?_cons_zero, hgo, hbn,
          gRemove, List.eraseIdx_cons_zero]
        have hsb : gb.sortisets = false := by rw [PB.sortisets, hsa]
        obtain ⟨g2, h2, P2, hs2⟩ := ihf (D ++ lc)
          { gb with nodes := (store gb.nodes n { x with children := rest }).set c none }
          (by
            constructor
            · show ((store gb.nodes n _).set c none).length = _
              rw [List.length_set, store_length, PB.len, PR.len]
            · intro u hu
              show deref ((store gb.nodes n _).set c none) u = _
              by_cases huc : u = c
              · subst huc
                exact deref_set_none_self _ _
              · rw [deref_set_none_ne _ (Ne.symm huc)]
                have hun : u ≠ n := by
                  intro e
                  exact hn1 (List.mem_append_left _ (e ▸ hu))
                rw [deref_store_ne _ _ (Ne.symm hun)]
                rcases List.mem_append.1 hu with h | h
                · have hut : u ∉ lc.tail := fun ht => hdisj u (List.mem_of_mem_tail ht) h
                  rw [PB.keep u hut huc]
                  exact PR.dead u h
                · apply PB.dead
                  rw [hlc] at h ⊢
                  rcases List.mem_cons.1 h with e | e
                  · exact absurd e huc
                  · exact e
            · show deref ((store gb.nodes n _).set c none) n = _
              rw [deref_set_none_ne _ (Ne.symm hnc), deref_store_self _ hnlt]
            · intro u hu hun
              show deref ((store gb.nodes n _).set c none) u = _
              have huc : u ≠ c := fun e => hu (List.mem_append_right _ (e ▸ hcl))
              rw [deref_set_none_ne _ (Ne.symm huc), deref_store_ne _ _ (Ne.symm hun),
                PB.keep u (fun ht => hu (List.mem_append_right _ (List.mem_of_mem_tail ht))) huc,
                PR.keep u (fun h => hu (List.mem_append_left _ h)) hun]
            · show gb.infosets.length = _
              rw [PB.ilen, PR.ilen]
            · intro s
              show deref gb.infosets s = _
              rw [PB.inf s, PR.inf s]
              cases hd : deref g.infosets s with
              | error e => rfl
              | ok si =>
                show Except.ok _ = Except.ok _
                rw [prune_prune g.nodes ga.nodes D lc s si (fun m hm => by
                  simp only [infosetOf]
                  rw [hsame m hm])]
            · exact PB.root.trans PR.root
            · exact PB.players.trans PR.players
            · exact PB.chance.trans PR.chance
            · exact PB.sortisets.trans PR.sortisets)
          hsb hnd1 hn1
          (fun u hu => hm1 u (by rw [List.flatten_cons]; exact List.mem_append_right _ hu))
        refine ⟨g2, h2, ?_, hs2⟩
        rw [List.flatten_cons, ← List.append_assoc]
        exact P2
    -- the loop over the children
    obtain ⟨g2, h2, P2, hs2⟩ := key x.children ls hF []
      { g with m_revision := g.m_revision + 1, m_dirty := true }
      (by
        constructor
        · rfl
        · intro u hu
          cases hu
        · exact hx
        · intro u _ _
          rfl
        · rfl
        · intro s
          cases hd : deref g.infosets s with
          | error e => rfl
          | ok si =>
            show Except.ok si = Except.ok (prune g.nodes [] s si)
            rw [prune_nil]
        · rfl
        · rfl
        · rfl
        · rfl)
      hso (by simpa using hndF) (by simpa using hnT)
      (fun u hu => hmem u (List.mem_cons_of_mem _ hu))
    simp only [List.nil_append] at P2
    simp only [DeleteTree.go, hx, ok_bind, h2, P2.top]
    have hnlt : n < g2.nodes.length := deref_lt P2.top
    cases hxi : x.infoset with
    | none =>
      simp only [pure_eq_ok, ok_bind]
      rw [SortInfosets_off _ (by simpa [DeleteLexicon] using hs2)]
      refine ⟨_, rfl, ?_⟩
      rw [List.tail_cons]
      constructor
      · show (store g2.nodes n _).length = _
        rw [store_length, P2.len]
      · intro u hu
        show deref (store g2.nodes n _) u = _
        have hnu : n ≠ u := by
          intro e
          subst e
          exact hnT hu
        rw [deref_store_ne _ _ hnu]
        exact P2.dead u hu
      · show deref (store g2.nodes n _) n = _
        rw [deref_store_self _ hnlt]
        simp [clearedNode]
      · intro u hu hun
        show deref (store g2.nodes n _) u = _
        rw [deref_store_ne _ _ (Ne.symm hun)]
        exact P2.keep u hu hun
      · exact P2.ilen
      · intro s
        show deref g2.infosets s = _
        rw [P2.inf s]
        cases hd : deref g.infosets s with
        | error e => rfl
        | ok si =>
          show Except.ok _ = Except.ok _
          rw [prune_cons_ne]
          simp [infosetOf, hx, hxi]
      · exact P2.root
      · exact P2.players
      · exact P2.chance
      · exact P2.sortisets
    | some s =>
      obtain ⟨si, hsi, hnm, hsnd⟩ := hmem n (List.mem_cons_self _ _) s
        (by simp [infosetOf, hx, hxi])
      have hsi2 : deref g2.infosets s = .ok (prune g.nodes ls.flatten s si) := by
        rw [P2.inf s, hsi]
        rfl
      have hnm2 : n ∈ (prune g.nodes ls.flatten s si).m_members := by
        simp only [prune, List.mem_filter]
        exact ⟨hnm, by simp [hnT]⟩
      simp only [hsi2, ok_bind, gRemove_gFind _ n hnm2, pure_eq_ok]
      rw [SortInfosets_off _ (by simpa [DeleteLexicon] using hs2)]
      refine ⟨_, rfl, ?_⟩
      rw [List.tail_cons]
      constructor
      · show (store g2.nodes n _).length = _
        rw [store_length, P2.len]
      · intro u hu
        show deref (store g2.nodes n _) u = _
        have hnu : n ≠ u := by
          intro e
          subst e
          exact hnT hu
        rw [deref_store_ne _ _ hnu]
        exact P2.dead u hu
      · show deref (store g2.nodes n _) n = _
        rw [deref_store_self _ hnlt]
        simp [clearedNode]
      · intro u hu hun
        show deref (store g2.nodes n _) u = _
        rw [deref_store_ne _ _ (Ne.symm hun)]
        exact P2.keep u hu hun
      · show (store g2.infosets s _).length = _
        rw [store_length, P2.ilen]
      · intro s'
        show deref (store g2.infosets s _) s' = _
        rw [deref_store _ _ (deref_lt hsi2)]
        by_cases hss : s' = s
        · subst hss
          rw [if_pos rfl, hsi]
          show Except.ok _ = Except.ok _
          rw [← prune_cons_eq g.nodes n ls.flatten s' si (by simp [infosetOf, hx, hxi]) hsnd]
        · rw [if_neg hss, P2.inf s']
          cases hd : deref g.infosets s' with
          | error e => rfl
          | ok si' =>
            show Except.ok _ = Except.ok _
            rw [prune_cons_ne]
            simp only [infosetOf, hx, hxi]
            intro e
            cases e
            exact hss rfl
      · exact P2.root
      · exact P2.players
      · exact P2.chance
      · exact P2.sortisets

/-- The walk `MarkSubgame(n, base)` returns within the recursion budget of the
subtree of `n` and changes nothing but subgame roots. -/
theorem MarkSubgameBase_spec (base : Option Nat) (nodes : List (Option Node)) :
    ∀ (fuel n : Nat) (l : List Nat), NDoChild nodes fuel n [] = .ok l →
      ∀ st : List (Option Node), st.length = nodes.length →
        (∀ u, (deref st u).map clearGameroot = (deref nodes u).map clearGameroot) →
        ∃ st1, MarkSubgameBase base fuel n st = .ok st1 ∧ st1.length = nodes.length ∧
          ∀ u, (deref st1 u).map clearGameroot = (deref nodes u).map clearGameroot := by
  intro fuel
  induction fuel with
  | zero => intro n l h; cases h
  | succ fuel ih =>
    intro n l h st hlen hsame
    obtain ⟨x, ls, hx, hF, _⟩ := NDoChild_ok nodes fuel n l h
    obtain ⟨x1, hx1, hxe⟩ : ∃ x1, deref st n = .ok x1 ∧ clearGameroot x1 = clearGameroot x := by
      have := hsame n
      rw [hx] at this
      cases hd : deref st n with
      | error e =>
        rw [hd] at this
        cases this
      | ok x1 =>
        rw [hd] at this
        exact ⟨x1, rfl, by injection this⟩
    have hch : x1.children = x.children := by
      show (clearGameroot x1).children = (clearGameroot x).children
      rw [hxe]
    simp only [MarkSubgameBase, hx1, ok_bind]
    by_cases hg : x1.gameroot = some n
    · rw [if_pos hg]
      exact ⟨st, rfl, hlen, hsame⟩
    · rw [if_neg hg]
      rw [← hch] at hF
      have key : ∀ (cs : List Nat) (ls : List (List Nat)),
          List.Forall₂ (fun c lc => NDoChild nodes fuel c [] = .ok lc) cs ls →
          ∀ st : List (Option Node), st.length = nodes.length →
            (∀ u, (deref st u).map clearGameroot = (deref nodes u).map clearGameroot) →
            ∃ st1, cs.foldlM (fun st c => MarkSubgameBase base fuel c st) st = .ok st1 ∧
              st1.length = nodes.length ∧
              ∀ u, (deref st1 u).map clearGameroot = (deref nodes u).map clearGameroot := by
        intro cs ls hF
        induction hF with
        | nil =>
          intro st h1 h2
          exact ⟨st, rfl, h1, h2⟩
        | @cons c lc cs ls hc _ ihf =>
          intro st h1 h2
          obtain ⟨st1, e1, l1, s1⟩ := ih c lc hc st h1 h2
          obtain ⟨st2, e2, l2, s2⟩ := ihf st1 l1 s1
          refine ⟨st2, ?_, l2, s2⟩
          simp only [List.foldlM_cons, e1, ok_bind]
          exact e2
      refine key x1.children ls hF _ (by rw [store_length, hlen]) ?_
      intro u
      rw [deref_store _ _ (deref_lt hx1)]
      by_cases hu : u = n
      · subst hu
        rw [if_pos rfl, hx]
        refine congrArg Except.ok ?_
        rw [← hxe]
        rfl
      · rw [if_neg hu]
        exact hsame u

theorem forall₂_eraseIdx {α β : Type} {R : α → β → Prop} {l1 : List α} {l2 : List β}
    (h : List.Forall₂ R l1 l2) (i : Nat) :
    List.Forall₂ R (l1.eraseIdx i) (l2.eraseIdx i) := by
  induction h generalizing i with
  | nil => exact List.Forall₂.nil
  | cons h1 h2 ih =>
    cases i with
    | zero => exact h2
    | succ i => exact List.Forall₂.cons h1 (ih i)

theorem count_flatten_eraseIdx {ls : List (List Nat)} {i : Nat} {l : List Nat}
    (h : ls[i]? = some l) (z : Nat) :
    (ls.eraseIdx i).flatten.count z + l.count z = ls.flatten.count z := by
  induction ls generalizing i with
  | nil => simp at h
  | cons a t ih =>
    cases i with
    | zero =>
      simp at h
      subst h
      simp only [List.eraseIdx_cons_zero, List.flatten_cons, List.count_append]
      omega
    | succ i =>
      simp at h
      have := ih h
      simp only [List.eraseIdx_cons_succ, List.flatten_cons, List.count_append]
      omega

theorem same_deref {nodes0 nodes : List (Option Node)} {u : Nat} {y : Node}
    (h : (deref nodes0 u).map clearGameroot = (deref nodes u).map clearGameroot)
    (hy : deref nodes u = .ok y) :
    ∃ y0, deref nodes0 u = .ok y0 ∧ y0.children = y.children ∧ y0.infoset = y.infoset ∧
      y0.parent = y.parent ∧ y0.outcome = y.outcome ∧ y0.name = y.name := by
  rw [hy] at h
  cases hd : deref nodes0 u with
  | error e =>
    rw [hd] at h
    cases h
  | ok y0 =>
    rw [hd] at h
    have e : clearGameroot y0 = clearGameroot y := by injection h
    refine ⟨y0, rfl, ?_, ?_, ?_, ?_, ?_⟩
    · show (clearGameroot y0).children = (clearGameroot y).children
      rw [e]
    · show (clearGameroot y0).infoset = (clearGameroot y).infoset
      rw [e]
    · show (clearGameroot y0).parent = (clearGameroot y).parent
      rw [e]
    · show (clearGameroot y0).outcome = (clearGameroot y).outcome
      rw [e]
    · show (clearGameroot y0).name = (clearGameroot y).name
      rw [e]

theorem same_deref_error {nodes0 nodes : List (Option Node)} {u : Nat} {e : Err}
    (h : (deref nodes0 u).map clearGameroot = (deref nodes u).map clearGameroot)
    (hy : deref nodes u = .error e) : deref nodes0 u = .error e := by
  rw [hy] at h
  cases hd : deref nodes0 u with
  | error e1 =>
    rw [hd] at h
    exact h
  | ok y0 =>
    rw [hd] at h
    cases h

theorem same_infosetOf {nodes0 nodes : List (Option Node)} {u : Nat}
    (h : (deref nodes0 u).map clearGameroot = (deref nodes u).map clearGameroot) :
    infosetOf nodes0 u = infosetOf nodes u := by
  cases hy : deref nodes u with
  | error e =>
    simp only [infosetOf, same_deref_error h hy, hy]
  | ok y =>
    obtain ⟨y0, h0, _, hi, _⟩ := same_deref h hy
    simp only [infosetOf, h0, hy, hi]

theorem prune_congr {nodes nodes1 : List (Option Node)}
    (h : ∀ m, infosetOf nodes1 m = infosetOf nodes m) (P : List Nat) (s : Nat) (si : Infoset) :
    prune nodes1 P s si = prune nodes P s si := by
  simp only [prune, h]

/-- The invariants after the nodes of `T` have left the tree and the member
lists of their infosets. -/
theorem WellFormed.pruned {g G : efgGame} {L L6 T : List Nat} (W : WellFormed g L)
    (hN : Nodes G = .ok L6) (hnd : L6.Nodup) (hmem : ∀ z, z ∈ L6 ↔ z ∈ L ∧ z ∉ T)
    (hlive : ∀ u ∈ L6, ∃ y, deref G.nodes u = .ok y)
    (hinfo : ∀ u ∈ L6, infosetOf G.nodes u = infosetOf g.nodes u)
    (hinf : ∀ s, deref G.infosets s = (deref g.infosets s).map (prune g.nodes T s))
    (hP : ∀ pl, G.playerRep pl = g.playerRep pl) : WellFormed G L6 := by
  constructor
  · exact hN
  · exact hnd
  · exact hlive
  · intro n hn s hs
    rw [hinfo n hn] at hs
    obtain ⟨si, p, h1, h2, h3, h4⟩ := W.fwd n ((hmem n).1 hn).1 s hs
    refine ⟨prune g.nodes T s si, p, by rw [hinf s, h1]; rfl, ?_, by rw [hP]; exact h3, h4⟩
    simp only [prune, List.mem_filter]
    exact ⟨h2, by simp [((hmem n).1 hn).2]⟩
  · intro pl p hp
    rw [hP] at hp
    obtain ⟨h1, h2⟩ := W.lists pl p hp
    refine ⟨h1, ?_⟩
    intro s hs
    obtain ⟨si, h3, h4, h5, h6⟩ := h2 s hs
    refine ⟨prune g.nodes T s si, by rw [hinf s, h3]; rfl, h4, h5.filter _, ?_⟩
    intro m hm
    simp only [prune, List.mem_filter] at hm
    obtain ⟨hm1, hm2⟩ := hm
    obtain ⟨h7, h8⟩ := h6 m hm1
    have hmT : m ∉ T := by
      intro hT
      simp [hT, h8] at hm2
    have hm6 : m ∈ L6 := (hmem m).2 ⟨h7, hmT⟩
    exact ⟨hm6, by rw [hinfo m hm6]; exact h8⟩

/-- The body of `DeleteNode(n, keep)` after the guard and the subgame marks, with
`nodes0` the node heap that `MarkSubgame(keep, keep)` leaves. -/
theorem DeleteNode_unfold (g : efgGame) (n keep : Nat) (xk xn : Node)
    (nodes0 : List (Option Node))
    (hxk : deref g.nodes keep = .ok xk) (hkp : xk.parent = some n)
    (hxn : deref g.nodes n = .ok xn)
    (hn0 : (if xn.gameroot = some n then
        MarkSubgameBase (some keep) g.nodes.length keep g.nodes
      else pure g.nodes) = .ok nodes0) :
    DeleteNode g (some n) (some keep) = (do
      let x1 ← deref nodes0 n
      let (_, rest) ← gRemove x1.children (gFind x1.children keep)
      let (g3, _) ← DeleteTree { g with
        nodes := store nodes0 n { x1 with children := rest }
        m_revision := g.m_revision + 1
        m_dirty := true
        sortisets := false } (some n)
      let y ← deref g3.nodes n
      let yk ← deref g3.nodes keep
      let g5 ← replaceInParent
        { g3 with nodes := store g3.nodes keep { yk with parent := y.parent } } y.parent n keep
      let g7 ← SortInfosets
        { DeleteLexicon { g5 with nodes := g5.nodes.set n none } with sortisets := true }
      pure (g7, some keep)) := by
  have hkp' : ¬ (xk.parent ≠ some n) := by simp [hkp]
  by_cases hgr : xn.gameroot = some n
  · rw [if_pos hgr] at hn0
    simp only [DeleteNode, hxk, ok_bind, hkp', if_false, hxn, hgr, if_true, hn0]
  · rw [if_neg hgr] at hn0
    cases hn0
    simp only [DeleteNode, hxk, ok_bind, hkp', if_false, hxn, hgr, pure_eq_ok]

theorem DeleteNode_eval (g : efgGame) (L la lk : List Nat) (ls : List (List Nat))
    (n keep : Nat) (xk xn : Node)
    (W : WellFormed g L)
    (hxk : deref g.nodes keep = .ok xk) (hkp : xk.parent = some n)
    (hxn : deref g.nodes n = .ok xn) (hkc : keep ∈ xn.children)
    (hF : List.Forall₂ (fun c lc => Subtree g.nodes c lc) xn.children ls)
    (hla : la = n :: ls.flatten) (hlaL : la ⊆ L) (hland : la.Nodup)
    (hlk : ls[xn.children.indexOf keep]? = some lk)
    (hpar : ∀ par, xn.parent = some par → par ∉ la ∧
      ∃ xp, deref g.nodes par = .ok xp ∧ n ∈ xp.children) :
    ∃ (G : efgGame) (xk0 : Node) (T : List Nat), DeleteNode g (some n) (some keep) =
        (SortInfosets G >>= fun g7 => pure (g7, some keep)) ∧
      G.nodes.length = g.nodes.length ∧
      (∀ u, u ∈ T ↔ u ∈ la ∧ u ∉ lk) ∧
      (∀ u ∈ T, deref G.nodes u = .error .badHandle) ∧
      deref G.nodes keep = .ok { xk0 with parent := xn.parent } ∧
      xk0.children = xk.children ∧ xk0.infoset = xk.infoset ∧ xk0.outcome = xk.outcome ∧
      xk0.name = xk.name ∧
      (xn.parent = none → G.root = keep) ∧
      (∀ par xp, xn.parent = some par → deref g.nodes par = .ok xp → G.root = g.root ∧
        ∃ xp0 : Node, deref G.nodes par = .ok { xp0 with
            children := xp.children.set (xp.children.indexOf n) keep } ∧
          xp0.infoset = xp.infoset ∧ xp0.parent = xp.parent ∧ xp0.outcome = xp.outcome ∧
          xp0.name = xp.name) ∧
      (∀ u, u ∉ T → u ≠ keep → xn.parent ≠ some u →
        (deref G.nodes u).map clearGameroot = (deref g.nodes u).map clearGameroot) ∧
      G.infosets.length = g.infosets.length ∧
      (∀ s, deref G.infosets s = (deref g.infosets s).map (prune g.nodes T s)) ∧
      G.players = g.players ∧ G.chance = g.chance ∧ G.sortisets = true := by
  have hnlt := deref_lt hxn
  have hklt := deref_lt hxk
  -- the subtree of `keep`
  have hkS : Subtree g.nodes keep lk := by
    obtain ⟨lk', h1, h2⟩ := forall₂_indexOf hF hkc
    rw [hlk] at h1
    cases h1
    exact h2
  have hklk : keep ∈ lk := by
    obtain ⟨_, _, _, _, e⟩ := hkS.cases
    rw [e]
    exact List.mem_cons_self _ _
  have hlkla : lk ⊆ la := by
    intro u hu
    rw [hla]
    obtain ⟨hlt, e⟩ := List.getElem?_eq_some_iff.1 hlk
    exact List.mem_cons_of_mem _ (List.mem_flatten.2 ⟨lk, e ▸ List.getElem_mem hlt, hu⟩)
  have hnfl : n ∉ ls.flatten := by
    rw [hla] at hland
    exact (List.nodup_cons.1 hland).1
  have hnk : n ≠ keep := by
    intro e
    apply hnfl
    have := hlkla hklk
    rw [hla, ← e] at this
    rcases List.mem_cons.1 this with h | h
    · obtain ⟨hlt, e'⟩ := List.getElem?_eq_some_iff.1 hlk
      exact List.mem_flatten.2 ⟨lk, e' ▸ List.getElem_mem hlt, e ▸ hklk⟩
    · exact h
  have hLlt : ∀ u ∈ L, u < g.nodes.length := by
    intro u hu
    obtain ⟨y, hy⟩ := W.live u hu
    exact deref_lt hy
  -- the subgame marks
  obtain ⟨nodes0, hn0, hlen0, hsame0⟩ : ∃ nodes0,
      (if xn.gameroot = some n then MarkSubgameBase (some keep) g.nodes.length keep g.nodes
        else pure g.nodes) = .ok nodes0 ∧ nodes0.length = g.nodes.length ∧
      ∀ u, (deref nodes0 u).map clearGameroot = (deref g.nodes u).map clearGameroot := by
    by_cases hgr : xn.gameroot = some n
    · rw [if_pos hgr]
      have hkf : NDoChild g.nodes g.nodes.length keep [] = .ok lk := by
        refine hkS.fuel ?_ (fun u hu => hLlt u (hlaL (hlkla hu)))
        rw [List.nodup_iff_count_le_one]
        intro z
        have h1 := List.nodup_iff_count_le_one.1 hland z
        have h2 := count_flatten_eraseIdx hlk z
        rw [hla, List.count_cons] at h1
        omega
      exact MarkSubgameBase_spec (some keep) g.nodes _ keep lk hkf g.nodes rfl (fun _ => rfl)
    · rw [if_neg hgr]
      exact ⟨g.nodes, rfl, rfl, fun _ => rfl⟩
  obtain ⟨x1, hx1, hx1c, hx1i, hx1p, hx1o, hx1n⟩ := same_deref (hsame0 n) hxn
  obtain ⟨xk0, hxk0, hk0c, hk0i, hk0p, hk0o, hk0n⟩ := same_deref (hsame0 keep) hxk
  have hkc1 : keep ∈ x1.children := by rw [hx1c]; exact hkc
  rw [DeleteNode_unfold g n keep xk xn nodes0 hxk hkp hxn hn0]
  simp only [hx1, ok_bind, gRemove_gFind _ _ hkc1]
  -- the state in which `DeleteTree(n)` is called
  obtain ⟨g2, hg2⟩ : ∃ g2 : efgGame, g2 = { g with
      nodes := store nodes0 n { x1 with children := x1.children.erase keep }
      m_revision := g.m_revision + 1
      m_dirty := true
      sortisets := false } := ⟨_, rfl⟩
  rw [← hg2]
  have h2n : deref g2.nodes n = .ok { x1 with children := x1.children.erase keep } := by
    rw [hg2]
    exact deref_store_self _ (by rw [hlen0]; exact hnlt)
  have h2o : ∀ u, u ≠ n → deref g2.nodes u = deref nodes0 u := by
    intro u hu
    rw [hg2]
    exact deref_store_ne _ _ (Ne.symm hu)
  have h2len : g2.nodes.length = g.nodes.length := by
    rw [hg2]
    show (store nodes0 n _).length = _
    rw [store_length, hlen0]
  have h2inf : ∀ u, infosetOf g2.nodes u = infosetOf g.nodes u := by
    intro u
    by_cases hu : u = n
    · subst hu
      simp only [infosetOf, h2n, hxn, hx1i]
    · rw [← same_infosetOf (hsame0 u)]
      simp only [infosetOf]
      rw [h2o u hu]
  have h2ch : ∀ u y, u ≠ n → deref g.nodes u = .ok y → childrenOf g2.nodes u = .ok y.children := by
    intro u y hu hy
    obtain ⟨y0, hy0, hc0, _⟩ := same_deref (hsame0 u) hy
    simp only [childrenOf]
    rw [h2o u hu, hy0]
    exact congrArg Except.ok hc0
  have herase : x1.children.erase keep = xn.children.eraseIdx (xn.children.indexOf keep) := by
    rw [hx1c, List.eraseIdx_indexOf_eq_erase]
  have hF2 : List.Forall₂ (fun c lc => Subtree g2.nodes c lc) xn.children ls := by
    refine forall₂_imp_mem hF ?_
    intro c lc _ hlc hs
    refine hs.same ?_
    intro u hu
    obtain ⟨y, hy⟩ := hs.live_node hu
    have hun : u ≠ n := by
      intro e
      subst e
      exact hnfl (List.mem_flatten.2 ⟨lc, hlc, hu⟩)
    rw [h2ch u y hun hy]
    simp only [childrenOf, hy]
    rfl
  have hT : Subtree g2.nodes n
      (n :: (ls.eraseIdx (xn.children.indexOf keep)).flatten) := by
    refine Subtree.mk h2n ?_
    show List.Forall₂ _ (x1.children.erase keep) _
    rw [herase]
    exact forall₂_eraseIdx hF2 _
  have hcT : ∀ z, (n :: (ls.eraseIdx (xn.children.indexOf keep)).flatten).count z +
      lk.count z = la.count z := by
    intro z
    have := count_flatten_eraseIdx hlk z
    rw [hla, List.count_cons, List.count_cons]
    omega
  have hTmem : ∀ u, u ∈ n :: (ls.eraseIdx (xn.children.indexOf keep)).flatten ↔
      u ∈ la ∧ u ∉ lk := by
    intro u
    have h1 := hcT u
    have h2 := List.nodup_iff_count_le_one.1 hland u
    rw [← List.count_pos_iff, ← List.count_pos_iff]
    constructor
    · intro h
      refine ⟨by omega, ?_⟩
      intro hk
      have := List.count_pos_iff.2 hk
      omega
    · rintro ⟨h, hk⟩
      have := List.count_eq_zero_of_not_mem hk
      omega
  have hTnd : (n :: (ls.eraseIdx (xn.children.indexOf keep)).flatten).Nodup := by
    rw [List.nodup_iff_count_le_one]
    intro z
    have h1 := hcT z
    have h2 := List.nodup_iff_count_le_one.1 hland z
    omega
  have hTf : NDoChild g2.nodes (g2.nodes.length + 1) n [] =
      .ok (n :: (ls.eraseIdx (xn.children.indexOf keep)).flatten) := by
    refine NDoChild_mono_le _ _ _ 1 _ (hT.fuel hTnd ?_)
    intro u hu
    rw [h2len]
    exact hLlt u (hlaL ((hTmem u).1 hu).1)
  obtain ⟨g3, hgo, PR⟩ := DeleteTree_go_spec _ g2 n _ _ hTf hTnd (by rw [hg2]) h2n
    (by
      intro u hu s hs
      rw [h2inf u] at hs
      obtain ⟨si, p, h1, h2, h3, h4⟩ := W.fwd u (hlaL ((hTmem u).1 hu).1) s hs
      obtain ⟨_, h5⟩ := W.lists _ p h3
      obtain ⟨si', h6, _, h7, _⟩ := h5 s h4
      rw [h1] at h6
      cases h6
      exact ⟨si, by rw [hg2]; exact h1, h2, h7⟩)
  rw [List.tail_cons] at PR
  simp only [DeleteTree, hgo, ok_bind, PR.top]
  have hkD : keep ∉ (ls.eraseIdx (xn.children.indexOf keep)).flatten := by
    intro h
    exact ((hTmem keep).1 (List.mem_cons_of_mem _ h)).2 hklk
  have h3k : deref g3.nodes keep = .ok xk0 := by
    rw [PR.keep keep hkD (Ne.symm hnk), h2o keep (Ne.symm hnk), hxk0]
  have h3keep : ∀ u, u ∉ n :: (ls.eraseIdx (xn.children.indexOf keep)).flatten →
      deref g3.nodes u = deref nodes0 u := by
    intro u hu
    have hun : u ≠ n := fun e => hu (e ▸ List.mem_cons_self _ _)
    rw [PR.keep u (fun h => hu (List.mem_cons_of_mem _ h)) hun, h2o u hun]
  have h3inf : ∀ s, deref g3.infosets s = (deref g.infosets s).map
      (prune g.nodes (n :: (ls.eraseIdx (xn.children.indexOf keep)).flatten) s) := by
    intro s
    have h2I : g2.infosets = g.infosets := by rw [hg2]
    rw [PR.inf s, h2I]
    cases hd : deref g.infosets s with
    | error e => rfl
    | ok si =>
      show Except.ok _ = Except.ok _
      rw [prune_congr h2inf]
  have h3len : g3.nodes.length = g.nodes.length := by rw [PR.len, h2len]
  have h3ilen : g3.infosets.length = g.infosets.length := by rw [PR.ilen, hg2]
  have h3pl : g3.players = g.players := by rw [PR.players, hg2]
  have h3ch : g3.chance = g.chance := by rw [PR.chance, hg2]
  have h3root : g3.root = g.root := by rw [PR.root, hg2]
  have hcp : (clearedNode { x1 with children := x1.children.erase keep }).parent = xn.parent :=
    hx1p
  simp only [h3k, ok_bind, hcp]
  have hTdead : ∀ u ∈ n :: (ls.eraseIdx (xn.children.indexOf keep)).flatten, ∀ B : List (Option Node),
      (∀ v, v ∈ (ls.eraseIdx (xn.children.indexOf keep)).flatten → deref B v = deref g3.nodes v) →
      deref (B.set n none) u = .error .badHandle := by
    intro u hu B hB
    by_cases hun : u = n
    · subst hun
      exact deref_set_none_self _ _
    · rw [deref_set_none_ne _ (Ne.symm hun)]
      rcases List.mem_cons.1 hu with h | h
      · exact absurd h hun
      · rw [hB u h]
        exact PR.dead u h
  cases hxp : xn.parent with
  | none =>
    simp only [replaceInParent, pure_eq_ok, ok_bind]
    refine ⟨_, xk0, _, rfl, ?_, hTmem, ?_, ?_, hk0c, hk0i, hk0o, hk0n, fun _ => rfl, ?_, ?_,
      h3ilen, h3inf, h3pl, h3ch, rfl⟩
    · show ((store g3.nodes keep _).set n none).length = _
      rw [List.length_set, store_length, h3len]
    · intro u hu
      refine hTdead u hu _ ?_
      intro v hv
      exact deref_store_ne _ _ (fun e => hkD (e ▸ hv))
    · show deref ((store g3.nodes keep _).set n none) keep = _
      rw [deref_set_none_ne _ hnk, deref_store_self _ (by rw [h3len]; exact hklt)]
    · intro par xp h _
      cases h
    · intro u hu huk _
      show (deref ((store g3.nodes keep _).set n none) u).map clearGameroot = _
      have hun : u ≠ n := fun e => hu (e ▸ List.mem_cons_self _ _)
      rw [deref_set_none_ne _ (Ne.symm hun), deref_store_ne _ _ (Ne.symm huk), h3keep u hu]
      exact hsame0 u
  | some par =>
    rw [hxp] at hpar
    obtain ⟨hparla, xp, hxp', hnxp⟩ := hpar par rfl
    obtain ⟨xp0, hxp0, hp0c, hp0i, hp0p, hp0o, hp0n⟩ := same_deref (hsame0 par) hxp'
    have hparT : par ∉ n :: (ls.eraseIdx (xn.children.indexOf keep)).flatten :=
      fun h => hparla ((hTmem par).1 h).1
    have hpark : par ≠ keep := fun e => hparla (e ▸ hlkla hklk)
    have hparn : par ≠ n := fun e => hparT (e ▸ List.mem_cons_self _ _)
    have h4p : deref (store g3.nodes keep { xk0 with parent := some par }) par = .ok xp0 := by
      rw [deref_store_ne _ _ (Ne.symm hpark), h3keep par hparT, hxp0]
    have hnxp0 : n ∈ xp0.children := by rw [hp0c]; exact hnxp
    simp only [replaceInParent, h4p, ok_bind, gSet_gFind _ hnxp0, pure_eq_ok]
    have hplt := deref_lt hxp'
    refine ⟨_, xk0, _, rfl, ?_, hTmem, ?_, ?_, hk0c, hk0i, hk0o, hk0n, ?_, ?_, ?_,
      h3ilen, h3inf, h3pl, h3ch, rfl⟩
    · show ((store (store g3.nodes keep _) par _).set n none).length = _
      rw [List.length_set, store_length, store_length, h3len]
    · intro u hu
      refine hTdead u hu _ ?_
      intro v hv
      have hvT : v ∈ n :: (ls.eraseIdx (xn.children.indexOf keep)).flatten :=
        List.mem_cons_of_mem _ hv
      have hpv : par ≠ v := by
        intro e
        subst e
        exact hparT hvT
      have hkv : keep ≠ v := by
        intro e
        subst e
        exact hkD hv
      rw [deref_store_ne _ _ hpv, deref_store_ne _ _ hkv]
    · show deref ((store (store g3.nodes keep _) par _).set n none) keep = _
      rw [deref_set_none_ne _ hnk, deref_store_ne _ _ hpark,
        deref_store_self _ (by rw [h3len]; exact hklt)]
    · intro h
      cases h
    · intro par' xp' h hxp2
      cases h
      rw [hxp'] at hxp2
      cases hxp2
      refine ⟨h3root, xp0, ?_, hp0i, hp0p, hp0o, hp0n⟩
      show deref ((store (store g3.nodes keep _) par _).set n none) par = _
      rw [deref_set_none_ne _ (Ne.symm hparn),
        deref_store_self _ (by rw [store_length, h3len]; exact hplt), hp0c]
    · intro u hu huk hup
      show (deref ((store (store g3.nodes keep _) par _).set n none) u).map clearGameroot = _
      have hun : u ≠ n := fun e => hu (e ▸ List.mem_cons_self _ _)
      have hup' : par ≠ u := fun e => hup (by rw [e])
      rw [deref_set_none_ne _ (Ne.symm hun), deref_store_ne _ _ hup',
        deref_store_ne _ _ (Ne.symm huk), h3keep u hu]
      exact hsame0 u

/-- The second half of `DeleteNode(n, keep)`: from the state `G` in which
`SortInfosets` is called, described node by node, to the result. -/
theorem DeleteNode_finish {g G : efgGame} {L L6 T lk : List Nat} {n keep : Nat}
    {xk xk0 xn : Node} {r : Res (efgGame × Option Nat)} (W : WellFormed g L)
    (hA : r = (SortInfosets G >>= fun g7 => pure (g7, some keep)))
    (hdead : ∀ u ∈ T, deref G.nodes u = .error .badHandle)
    (hxk : deref g.nodes keep = .ok xk)
    (hGk : deref G.nodes keep = .ok { xk0 with parent := xn.parent })
    (hk0c : xk0.children = xk.children) (hk0i : xk0.infoset = xk.infoset)
    (hk0o : xk0.outcome = xk.outcome) (hk0n : xk0.name = xk.name)
    (hGp : ∀ par xp, xn.parent = some par → deref g.nodes par = .ok xp →
      ∃ xp0 : Node, deref G.nodes par = .ok { xp0 with
          children := xp.children.set (xp.children.indexOf n) keep } ∧
        xp0.infoset = xp.infoset ∧ xp0.parent = xp.parent ∧ xp0.outcome = xp.outcome ∧
        xp0.name = xp.name)
    (hGo : ∀ u, u ∉ T → u ≠ keep → xn.parent ≠ some u →
      (deref G.nodes u).map clearGameroot = (deref g.nodes u).map clearGameroot)
    (hGinf : ∀ s, deref G.infosets s = (deref g.infosets s).map (prune g.nodes T s))
    (hGpl : G.players = g.players) (hGch : G.chance = g.chance) (hGs : G.sortisets = true)
    (hN6 : Nodes G = .ok L6) (hnd6 : L6.Nodup) (hmem6 : ∀ z, z ∈ L6 ↔ z ∈ L ∧ z ∉ T)
    (hkS6 : Subtree G.nodes keep lk) (hlkT : ∀ u ∈ lk, u ∉ T)
    (hlkp : ∀ u ∈ lk, xn.parent ≠ some u) :
    ∃ g1 xk1, r = .ok (g1, some keep) ∧ g1.root = G.root ∧ Nodes g1 = .ok L6 ∧
      deref g1.nodes keep = .ok xk1 ∧ xk1.parent = xn.parent ∧
      (∀ par xp, xn.parent = some par → deref g.nodes par = .ok xp →
        ∃ xp1, deref g1.nodes par = .ok xp1 ∧
          xp1.children = xp.children.set (xp.children.indexOf n) keep) ∧
      Subtree g1.nodes keep lk ∧
      (∀ u ∈ lk, ∀ y, deref g.nodes u = .ok y →
        ∃ y1, deref g1.nodes u = .ok y1 ∧ y1.children = y.children ∧
          y1.infoset = y.infoset ∧ y1.outcome = y.outcome ∧ y1.name = y.name ∧
          (u ≠ keep → y1.parent = y.parent)) ∧
      (∀ u ∈ T, u ∉ L6 ∧ deref g1.nodes u = .error .badHandle ∧
        ∀ pl p, g1.playerRep pl = .ok p → ∀ s ∈ p.m_infosets, ∀ si,
          deref g1.infosets s = .ok si → u ∉ si.m_members) := by
  have hkeep : ∀ u y, u ∉ T → deref g.nodes u = .ok y →
      ∃ y6, deref G.nodes u = .ok y6 ∧ y6.infoset = y.infoset ∧ y6.outcome = y.outcome ∧
        y6.name = y.name ∧ (xn.parent ≠ some u → y6.children = y.children) ∧
        (u ≠ keep → y6.parent = y.parent) := by
    intro u y huT hy
    by_cases huk : u = keep
    · subst huk
      rw [hxk] at hy
      cases hy
      exact ⟨_, hGk, hk0i, hk0o, hk0n, fun _ => hk0c, fun h => absurd rfl h⟩
    · by_cases hup : xn.parent = some u
      · obtain ⟨xp0, h1, h2, h3, h4, h5⟩ := hGp u y hup hy
        exact ⟨_, h1, h2, h4, h5, fun h => absurd hup h, fun _ => h3⟩
      · obtain ⟨y0, h0, c0, i0, p0, o0, n0⟩ := same_deref (hGo u huT huk hup) hy
        exact ⟨y0, h0, i0, o0, n0, fun _ => c0, fun _ => p0⟩
  have W6 : WellFormed G L6 := by
    refine W.pruned hN6 hnd6 hmem6 ?_ ?_ hGinf (fun pl => playerRep_congr G g pl hGpl hGch)
    · intro u hu
      obtain ⟨huL, huT⟩ := (hmem6 u).1 hu
      obtain ⟨y, hy⟩ := W.live u huL
      obtain ⟨y6, h6, _⟩ := hkeep u y huT hy
      exact ⟨y6, h6⟩
    · intro u hu
      obtain ⟨huL, huT⟩ := (hmem6 u).1 hu
      obtain ⟨y, hy⟩ := W.live u huL
      obtain ⟨y6, h6, hi, _⟩ := hkeep u y huT hy
      simp only [infosetOf, h6, hy, hi]
  obtain ⟨g7, h7, R⟩ := SortInfosets_spec G L6 W6 hGs
  obtain ⟨_, hk7⟩ := R.node hGk
  refine ⟨g7, _, ?_, R.root, R.wf.nodes_ok, hk7, rfl, ?_, ?_, ?_, ?_⟩
  · rw [hA, h7]
    rfl
  · intro par xp hpar hxp
    obtain ⟨xp0, h1, _⟩ := hGp par xp hpar hxp
    obtain ⟨_, h⟩ := R.node h1
    exact ⟨_, h, rfl⟩
  · refine hkS6.same ?_
    intro u hu
    obtain ⟨y, hy⟩ := hkS6.live_node hu
    obtain ⟨_, h⟩ := R.node hy
    simp only [childrenOf, h, hy]
    rfl
  · intro u hu y hy
    obtain ⟨y6, h6, hi, ho, hn, hc, hp⟩ := hkeep u y (hlkT u hu) hy
    obtain ⟨_, h⟩ := R.node h6
    exact ⟨_, h, hc (hlkp u hu), hi, ho, hn, hp⟩
  · intro u hu
    have huL : u ∉ L6 := fun h => ((hmem6 u).1 h).2 hu
    refine ⟨huL, ?_, ?_⟩
    · have h := R.nodes u
      rw [if_neg huL, hdead u hu] at h
      exact h
    · intro pl p hp s hs si hsi hmem
      obtain ⟨_, h2⟩ := R.wf.lists pl p hp
      obtain ⟨si', h3, _, _, h4⟩ := h2 s hs
      rw [hsi] at h3
      cases h3
      exact huL (h4 u hmem).1

/-- C17: in a well-formed game with consistent parent pointers, let `keep` be a
node of the tree whose parent is `n`, and let `la` and `lk` be the subtrees of
`n` and `keep`.  Then `DeleteNode(n, keep)` returns `keep`, and afterwards:
`keep` has the parent `n` had; it is the root when `n` was the root, and
otherwise stands in the child list of that parent where `n` stood; the subtree
of `keep` is the same list of nodes, each with the children, infoset, outcome
and name it had, and below `keep` with the parent it had; the tree holds the
nodes it held except those of `la` outside `lk`; and every node of `la` outside
`lk`, that is `n` and the nodes in the subtrees of the other children of `n`, is
deleted, is not in the tree and is a member of no infoset in the list of any
player. -/
theorem DeleteNode_spec (g : efgGame) (L : List Nat) (n keep : Nat) (xk xn : Node)
    (hwf : wellFormed g = true) (hN : Nodes g = .ok L) (hP : parentsOk g L = true)
    (hkL : keep ∈ L) (hxk : deref g.nodes keep = .ok xk) (hkp : xk.parent = some n)
    (hxn : deref g.nodes n = .ok xn) :
    ∃ g1 L1 la lk xk1, DeleteNode g (some n) (some keep) = .ok (g1, some keep) ∧
      Nodes g1 = .ok L1 ∧ (∀ z, z ∈ L1 ↔ z ∈ L ∧ (z ∉ la ∨ z ∈ lk)) ∧
      Subtree g.nodes n la ∧ Subtree g.nodes keep lk ∧
      deref g1.nodes keep = .ok xk1 ∧ xk1.parent = xn.parent ∧
      (xn.parent = none → n = g.root ∧ g1.root = keep) ∧
      (∀ par, xn.parent = some par → g1.root = g.root ∧
        ∃ xp xp1, deref g.nodes par = .ok xp ∧ n ∈ xp.children ∧
          deref g1.nodes par = .ok xp1 ∧
          xp1.children = xp.children.set (xp.children.indexOf n) keep) ∧
      Subtree g1.nodes keep lk ∧
      (∀ u ∈ lk, ∀ y, deref g.nodes u = .ok y →
        ∃ y1, deref g1.nodes u = .ok y1 ∧ y1.children = y.children ∧
          y1.infoset = y.infoset ∧ y1.outcome = y.outcome ∧ y1.name = y.name ∧
          (u ≠ keep → y1.parent = y.parent)) ∧
      (∀ u ∈ la, u ∉ lk → u ∉ L1 ∧ deref g1.nodes u = .error .badHandle ∧
        ∀ pl p, g1.playerRep pl = .ok p → ∀ s ∈ p.m_infosets, ∀ si,
          deref g1.infosets s = .ok si → u ∉ si.m_members) := by
  obtain ⟨L0, W⟩ := wellFormed_spec g hwf
  have hLe : L0 = L := by
    have := W.nodes_ok
    rw [hN] at this
    cases this
    rfl
  subst hLe
  have hsL : Subtree g.nodes g.root L0 := ⟨_, hN⟩
  have hLlt : ∀ u ∈ L0, u < g.nodes.length := by
    intro u hu
    obtain ⟨y, hy⟩ := W.live u hu
    exact deref_lt hy
  -- `n` is a node of the tree and `keep` one of its children
  obtain ⟨hnL, hkc, hnk⟩ : n ∈ L0 ∧ keep ∈ xn.children ∧ n ≠ keep := by
    rcases tree_parent hN hP hkL hxk with ⟨h, _⟩ | ⟨par, xp, h1, h2, h3, h4, h5⟩
    · rw [hkp] at h
      cases h
    · rw [hkp] at h1
      cases h1
      rw [hxn] at h3
      cases h3
      exact ⟨h2, h4, h5⟩
  obtain ⟨la, hlaS, _⟩ := hsL.sub hnL
  obtain ⟨xn', ls, hxn', hF, hla⟩ := hlaS.cases
  rw [hxn] at hxn'
  cases hxn'
  have hlaL : la ⊆ L0 := hsL.subset hnL hlaS
  have hland : la.Nodup := hsL.nodup W.nodup hnL hlaS
  obtain ⟨lk, hlk, hkS⟩ := forall₂_indexOf hF hkc
  have hklk : keep ∈ lk := by
    obtain ⟨_, _, _, _, e⟩ := hkS.cases
    rw [e]
    exact List.mem_cons_self _ _
  have hlkla : lk ⊆ la := hlaS.subset (hlaS.child_mem (by
    rw [hla]
    exact List.mem_cons_self _ _) hxn hkc) hkS
  have hlknd : lk.Nodup := hlaS.nodup hland (hlkla hklk) hkS
  have hnlk : n ∉ lk := hlaS.parent_not_mem hxn hkc hkS
  -- the parent of `n`
  have hparents := tree_parent hN hP hnL hxn
  have hpar : ∀ par, xn.parent = some par → par ∉ la ∧
      ∃ xp, deref g.nodes par = .ok xp ∧ n ∈ xp.children := by
    intro par hp
    rcases hparents with ⟨h, _⟩ | ⟨par', xp, h1, h2, h3, h4, h5⟩
    · rw [hp] at h
      cases h
    · rw [hp] at h1
      cases h1
      obtain ⟨lp, hlp, _⟩ := hsL.sub h2
      exact ⟨hlp.parent_not_mem h3 h4 hlaS, xp, h3, h4⟩
  obtain ⟨G, xk0, T, hA, hGlen, hT, hdead, hGk, hk0c, hk0i, hk0o, hk0n, hGroot, hGp, hGo,
    hGilen, hGinf, hGpl, hGch, hGs⟩ :=
    DeleteNode_eval g L0 la lk ls n keep xk xn W hxk hkp hxn hkc hF hla hlaL hland hlk hpar
  have hlkT : ∀ u ∈ lk, u ∉ T := fun u hu h => ((hT u).1 h).2 hu
  have hlkp : ∀ u ∈ lk, xn.parent ≠ some u := by
    intro u hu h
    exact (hpar u h).1 (hlkla hu)
  have hGch_lk : ∀ u ∈ lk, childrenOf G.nodes u = childrenOf g.nodes u := by
    intro u hu
    by_cases huk : u = keep
    · subst huk
      simp only [childrenOf, hGk, hxk]
      exact congrArg Except.ok hk0c
    · obtain ⟨y, hy⟩ := hkS.live_node hu
      obtain ⟨y0, h0, c0, _⟩ := same_deref (hGo u (hlkT u hu) huk (hlkp u hu)) hy
      simp only [childrenOf, h0, hy]
      exact congrArg Except.ok c0
  have hkS6 : Subtree G.nodes keep lk := hkS.same hGch_lk
  -- the tree before the sort
  obtain ⟨L6, hN6, hnd6, hmem6⟩ : ∃ L6, Nodes G = .ok L6 ∧ L6.Nodup ∧
      ∀ z, z ∈ L6 ↔ z ∈ L0 ∧ z ∉ T := by
    rcases hparents with ⟨hnone, hroot⟩ | ⟨par, xp, hsome, hparL, hxp, hnxp, hparn⟩
    · have e : la = L0 := by
        subst hroot
        exact hlaS.det hsL
      subst e
      refine ⟨lk, ?_, hlknd, ?_⟩
      · have := hkS6.fuel hlknd (fun u hu => by rw [hGlen]; exact hLlt u (hlkla hu))
        rw [← hGroot hnone] at this
        exact this
      · intro z
        rw [hT z]
        constructor
        · intro h
          exact ⟨hlkla h, fun h' => h'.2 h⟩
        · rintro ⟨h1, h2⟩
          by_contra h3
          exact h2 ⟨h1, h3⟩
    · obtain ⟨hroot6, xp0, hG6p, _⟩ := hGp par xp hsome hxp
      have hparla : par ∉ la := (hpar par hsome).1
      have hplt := deref_lt hxp
      obtain ⟨L', hs', hcnt⟩ := @Subtree.replace_child g.nodes
        (store g.nodes par { xp with
          children := xp.children.set (xp.children.indexOf n) keep })
        g.root par n keep L0 la lk xp _ hsL W.nodup hparL hxp hnxp hlaS
        (deref_store_self _ hplt) rfl
        (by
          refine hkS.same ?_
          intro u hu
          have hpu : par ≠ u := by
            intro e
            subst e
            exact hparla (hlkla hu)
          simp only [childrenOf]
          rw [deref_store_ne _ _ hpu])
        (by
          intro u y hu hy
          simp only [childrenOf]
          rw [deref_store_ne _ _ (Ne.symm hu), hy]
          rfl)
      have hmem' : ∀ z, z ∈ L' ↔ z ∈ L0 ∧ z ∉ T := by
        intro z
        have h1 := hcnt z
        have h2 := List.nodup_iff_count_le_one.1 W.nodup z
        have h3 := List.nodup_iff_count_le_one.1 hland z
        rw [hT z, ← List.count_pos_iff, ← List.count_pos_iff]
        constructor
        · intro h
          by_cases hzk : z ∈ lk
          · exact ⟨List.count_pos_iff.2 (hlaL (hlkla hzk)), fun h' => h'.2 hzk⟩
          · have := List.count_eq_zero_of_not_mem hzk
            refine ⟨by omega, ?_⟩
            rintro ⟨h4, _⟩
            have := List.count_pos_iff.2 h4
            omega
        · rintro ⟨h4, h5⟩
          by_cases hzk : z ∈ lk
          · have := List.count_pos_iff.2 hzk
            have := List.count_pos_iff.2 (hlkla hzk)
            omega
          · have hzla : z ∉ la := fun h => h5 ⟨h, hzk⟩
            have := List.count_eq_zero_of_not_mem hzla
            omega
      have hs6 : Subtree G.nodes G.root L' := by
        rw [hroot6]
        refine hs'.same ?_
        intro u hu
        obtain ⟨huL, huT⟩ := (hmem' u).1 hu
        by_cases hup : u = par
        · subst hup
          simp only [childrenOf, hG6p, deref_store_self _ hplt]
          rfl
        · simp only [childrenOf]
          rw [deref_store_ne _ _ (Ne.symm hup)]
          by_cases huk : u = keep
          · subst huk
            rw [hGk, hxk]
            exact congrArg Except.ok hk0c
          · obtain ⟨y, hy⟩ := W.live u huL
            obtain ⟨y0, h0, c0, _⟩ := same_deref
              (hGo u huT huk (fun h => hup (by rw [hsome] at h; cases h; rfl))) hy
            rw [h0, hy]
            exact congrArg Except.ok c0
      obtain ⟨h1, h2⟩ := Nodes_of_counts hs6 hcnt W.nodup hlknd
        (fun z hz _ => hlkla hz)
        (fun u hu => by rw [hGlen]; exact hLlt u hu)
        (fun u hu => by rw [hGlen]; exact hLlt u (hlaL (hlkla hu)))
      exact ⟨L', h1, h2, hmem'⟩
  obtain ⟨g1, xk1, h1, h2, h3, h4, h5, h6, h7, h8, h9⟩ :=
    DeleteNode_finish W hA hdead hxk hGk hk0c hk0i hk0o hk0n
      (fun par xp hp hxp => (hGp par xp hp hxp).2) hGo hGinf hGpl hGch hGs hN6 hnd6 hmem6
      hkS6 hlkT hlkp
  refine ⟨g1, L6, la, lk, xk1, h1, h3, ?_, hlaS, hkS, h4, h5, ?_, ?_, h7, h8, ?_⟩
  · intro z
    rw [hmem6 z, hT z]
    constructor
    · rintro ⟨a, b⟩
      refine ⟨a, ?_⟩
      by_cases hz : z ∈ lk
      · exact Or.inr hz
      · exact Or.inl (fun h => b ⟨h, hz⟩)
    · rintro ⟨a, b | b⟩
      · exact ⟨a, fun h => b h.1⟩
      · exact ⟨a, fun h => h.2 b⟩
  · intro hnone
    rcases hparents with ⟨_, hroot⟩ | ⟨par, xp, hsome, _⟩
    · exact ⟨hroot, by rw [h2, hGroot hnone]⟩
    · rw [hnone] at hsome
      cases hsome
  · intro par hp
    obtain ⟨_, xp, hxp, hnxp⟩ := hpar par hp
    obtain ⟨xp1, hxp1, hch⟩ := h6 par xp hp hxp
    exact ⟨by rw [h2, (hGp par xp hp hxp).1], xp, xp1, hxp, hnxp, hxp1, hch⟩
  · intro u hu huk
    exact h9 u ((hT u).2 ⟨hu, huk⟩)
set_option maxRecDepth 1000000 in
/-- Witness for C17: Scenario A, where node `3` is the first child of node `1`;
node `1` is deleted and node `3` kept. -/
theorem DeleteNode_spec_witness :
    ∃ g xk xn, scenarioA = .ok g ∧ wellFormed g = true ∧
      Nodes g = .ok [0, 1, 3, 4, 2, 5, 6] ∧ parentsOk g [0, 1, 3, 4, 2, 5, 6] = true ∧
      3 ∈ [0, 1, 3, 4, 2, 5, 6] ∧ deref g.nodes 3 = .ok xk ∧ xk.parent = some 1 ∧
      deref g.nodes 1 = .ok xn ∧
      ∃ g1 L1 la lk xk1, DeleteNode g (some 1) (some 3) = .ok (g1, some 3) ∧
        Nodes g1 = .ok L1 ∧ (∀ z, z ∈ L1 ↔ z ∈ [0, 1, 3, 4, 2, 5, 6] ∧ (z ∉ la ∨ z ∈ lk)) ∧
        Subtree g.nodes 1 la ∧ Subtree g.nodes 3 lk ∧
        deref g1.nodes 3 = .ok xk1 ∧ xk1.parent = xn.parent ∧
        (xn.parent = none → 1 = g.root ∧ g1.root = 3) ∧
        (∀ par, xn.parent = some par → g1.root = g.root ∧
          ∃ xp xp1, deref g.nodes par = .ok xp ∧ 1 ∈ xp.children ∧
            deref g1.nodes par = .ok xp1 ∧
            xp1.children = xp.children.set (xp.children.indexOf 1) 3) ∧
        Subtree g1.nodes 3 lk ∧
        (∀ u ∈ lk, ∀ y, deref g.nodes u = .ok y →
          ∃ y1, deref g1.nodes u = .ok y1 ∧ y1.children = y.children ∧
            y1.infoset = y.infoset ∧ y1.outcome = y.outcome ∧ y1.name = y.name ∧
            (u ≠ 3 → y1.parent = y.parent)) ∧
        (∀ u ∈ la, u ∉ lk → u ∉ L1 ∧ deref g1.nodes u = .error .badHandle ∧
          ∀ pl p, g1.playerRep pl = .ok p → ∀ s ∈ p.m_infosets, ∀ si,
            deref g1.infosets s = .ok si → u ∉ si.m_members) :=
  ⟨_, _, _, rfl, by decide, by decide, by decide, by decide, rfl, by decide, rfl,
    DeleteNode_spec _ [0, 1, 3, 4, 2, 5, 6] 1 3 _ _ (by decide) (by decide) (by decide)
      (by decide) rfl (by decide) rfl⟩

set_option maxRecDepth 1000000 in
/-- C30 (failing input): after `NewOutcome()`, `NewOutcome()`, `DeleteOutcome` of
the first outcome and `NewOutcome()` the game has two outcomes, and both have
the id 2. -/
theorem NewOutcome_reuses_id :
    ∃ g, outcomesNewNewDeleteNew = .ok g ∧ NumOutcomes g = 2 ∧ outcomeIds g = .ok [2, 2] := by
  refine ⟨_, rfl, by decide, by decide⟩

set_option maxRecDepth 1000000 in
/-- C22 (failing input): the root is the only member of the infoset `s`, which has
two actions; `InsertAction(s, a)` with `a` the first action of `s` does not
return: its loop over the members runs up to the new number of actions and
reads past the end of the member list. -/
theorem InsertActionAt_single_member_raises :
    ∃ g s a si, oneMemberTwoActions = .ok (g, s, a) ∧ deref g.infosets s = .ok si ∧
      si.m_members = [g.root] ∧ si.m_actions.length = 2 ∧ findAction si.m_actions a = 1 ∧
      InsertActionAt g (some s) (some a) = .error .badIndex := by
  refine ⟨_, _, _, _, rfl, rfl, by decide, by decide, by decide, rfl⟩

set_option maxRecDepth 1000000 in
/-- C24 (failing input): in Scenario A the nodes `1` and `2` are the members, in
this order, of the infoset `1` of player 2.  `SplitInfoset` on node `1` returns
the infoset `1` itself; node `1` still refers to it and is its only member,
while node `2` is the only member of the new infoset. -/
theorem SplitInfoset_keeps_node :
    ∃ g si g1 x y s1 t1, scenarioA = .ok g ∧ deref g.infosets 1 = .ok si ∧
      si.m_members = [1, 2] ∧ g.infosets.length = 2 ∧
      SplitInfoset g (some 1) = .ok (g1, some 1) ∧
      deref g1.nodes 1 = .ok x ∧ x.infoset = some 1 ∧
      deref g1.nodes 2 = .ok y ∧ y.infoset = some 2 ∧
      deref g1.infosets 1 = .ok s1 ∧ s1.m_members = [1] ∧
      deref g1.infosets 2 = .ok t1 ∧ t1.m_members = [2] := by
  refine ⟨_, _, _, _, _, _, _, rfl, rfl, by decide, by decide, rfl, rfl, by decide, rfl,
    by decide, rfl, by decide, rfl, by decide⟩

theorem NewPlayer_extend_spec : ∀ (l : List Nat) (reps : List (Option Outcome)), l.Nodup →
    (∀ o ∈ l, ∃ oc, deref reps o = .ok oc) →
    ∃ reps1, NewPlayer.extend reps l = .ok reps1 ∧ reps1.length = reps.length ∧
      (∀ o ∈ l, ∀ oc, deref reps o = .ok oc →
        deref reps1 o = .ok { oc with m_payoffs := oc.m_payoffs ++ [0] }) ∧
      ∀ o, o ∉ l → deref reps1 o = deref reps o := by
  intro l
  induction l with
  | nil =>
    intro reps _ _
    exact ⟨reps, rfl, rfl, fun o ho => absurd ho (List.not_mem_nil o), fun _ _ => rfl⟩
  | cons h t ih =>
    intro reps hnd hlive
    obtain ⟨hht, hndt⟩ := List.nodup_cons.1 hnd
    obtain ⟨oh, hoh⟩ := hlive h (List.mem_cons_self _ _)
    have hlt := deref_lt hoh
    obtain ⟨reps1, h1, h2, h3, h4⟩ :=
      ih (store reps h { oh with m_payoffs := oh.m_payoffs ++ [0] }) hndt
        (by
          intro o ho
          obtain ⟨oc, hoc⟩ := hlive o (List.mem_cons_of_mem _ ho)
          have hne : h ≠ o := fun e => hht (e ▸ ho)
          exact ⟨oc, by rw [deref_store_ne _ _ hne, hoc]⟩)
    refine ⟨reps1, ?_, ?_, ?_, ?_⟩
    · simp only [NewPlayer.extend, hoh, ok_bind]
      exact h1
    · rw [h2, store_length]
    · intro o ho oc hoc
      rcases List.mem_cons.1 ho with e | e
      · subst e
        rw [hoh] at hoc
        cases hoc
        rw [h4 o hht, deref_store_self _ hlt]
      · have hne : h ≠ o := fun e' => hht (e' ▸ e)
        exact h3 o e oc (by rw [deref_store_ne _ _ hne, hoc])
    · intro o ho
      have hne : h ≠ o := fun e => ho (e ▸ List.mem_cons_self _ _)
      rw [h4 o (fun h' => ho (List.mem_cons_of_mem _ h')), deref_store_ne _ _ hne]

/-- C29: in a game whose outcome list names live outcome objects, each once,
`NewPlayer()` returns the id `NumPlayers() + 1`, and afterwards: the player list
is the old one followed by one new player, who has that id as position and owns
no infosets; the payoff vector of every outcome is the old one followed by one
entry `0`; the outcome list, the nodes, the root, the infosets and the chance
player are unchanged. -/
theorem NewPlayer_spec (g : efgGame) (hl : outcomesLive g = true) (hnd : g.outcomes.Nodup) :
    ∃ g1, NewPlayer g = .ok (g1, NumPlayers g + 1) ∧ NumPlayers g1 = NumPlayers g + 1 ∧
      g1.players = g.players ++ [Player.mk "" []] ∧
      g1.playerRep (NumPlayers g + 1) = .ok (Player.mk "" []) ∧
      (∀ pl, pl ≤ NumPlayers g → g1.playerRep pl = g.playerRep pl) ∧
      g1.outcomes = g.outcomes ∧
      (∀ o ∈ g.outcomes, ∀ oc, deref g.outcomeReps o = .ok oc →
        deref g1.outcomeReps o = .ok { oc with m_payoffs := oc.m_payoffs ++ [0] }) ∧
      g1.nodes = g.nodes ∧ g1.root = g.root ∧ g1.infosets = g.infosets ∧
      g1.chance = g.chance := by
  obtain ⟨reps1, h1, h2, h3, h4⟩ :=
    NewPlayer_extend_spec g.outcomes g.outcomeReps hnd (outcomesLive_spec hl)
  refine ⟨DeleteLexicon { g with
    m_revision := g.m_revision + 1
    m_dirty := true
    players := g.players ++ [Player.mk "" []]
    outcomeReps := reps1 }, ?_, ?_, ?_, ?_, ?_, ?_, ?_, ?_, ?_, ?_, ?_⟩
  · simp only [NewPlayer, h1, ok_bind, pure_eq_ok, NumPlayers]
  · simp [NumPlayers, DeleteLexicon]
  · rfl
  · simp [efgGame.playerRep, DeleteLexicon, NumPlayers]
  · intro pl hpl
    simp only [efgGame.playerRep, DeleteLexicon, NumPlayers] at hpl ⊢
    by_cases h0 : pl = 0
    · simp [h0]
    · rw [if_neg h0, if_neg h0, List.getElem?_append_left (by omega)]
  · rfl
  · intro o ho oc hoc
    exact h3 o ho oc hoc
  · rfl
  · rfl
  · rfl
  · rfl

set_option maxRecDepth 1000000 in
/-- Witness for C29: Scenario A, with two players and four outcomes. -/
theorem NewPlayer_spec_witness :
    ∃ g, scenarioA = .ok g ∧ outcomesLive g = true ∧ g.outcomes.Nodup ∧
      ∃ g1, NewPlayer g = .ok (g1, NumPlayers g + 1) ∧ NumPlayers g1 = NumPlayers g + 1 ∧
        g1.players = g.players ++ [Player.mk "" []] ∧
        g1.playerRep (NumPlayers g + 1) = .ok (Player.mk "" []) ∧
        (∀ pl, pl ≤ NumPlayers g → g1.playerRep pl = g.playerRep pl) ∧
        g1.outcomes = g.outcomes ∧
        (∀ o ∈ g.outcomes, ∀ oc, deref g.outcomeReps o = .ok oc →
          deref g1.outcomeReps o = .ok { oc with m_payoffs := oc.m_payoffs ++ [0] }) ∧
        g1.nodes = g.nodes ∧ g1.root = g.root ∧ g1.infosets = g.infosets ∧
        g1.chance = g.chance :=
  ⟨_, rfl, by decide, by decide, NewPlayer_spec _ (by decide) (by decide)⟩

theorem IsConstSum_sum_spec (pays : List ℚ) : ∀ (k pl : Nat) (v : ℚ),
    pays.length = pl + k → IsConstSum.sum pays k (pl + 1) v = .ok (v + (pays.drop pl).sum) := by
  intro k
  induction k with
  | zero =>
    intro pl v h
    simp only [IsConstSum.sum]
    rw [List.drop_of_length_le (by omega)]
    simp
  | succ k ih =>
    intro pl v h
    have hlt : pl < pays.length := by omega
    simp only [IsConstSum.sum, gAt, List.getElem?_eq_getElem hlt, ok_bind]
    rw [ih (pl + 1) _ (by omega), List.drop_eq_getElem_cons hlt, List.sum_cons, add_assoc]

theorem payoffsSized_spec {g : efgGame} (h : payoffsSized g = true) :
    ∀ o ∈ g.outcomes, ∃ oc, deref g.outcomeReps o = .ok oc ∧
      oc.m_payoffs.length = g.players.length := by
  intro o ho
  have := List.all_eq_true.1 h o ho
  cases hd : deref g.outcomeReps o with
  | ok oc =>
    rw [hd] at this
    exact ⟨oc, rfl, by simpa using this⟩
  | error e => simp [hd] at this

theorem IsConstSum_value {g : efgGame} {o : Nat} {oc : Outcome}
    (hoc : deref g.outcomeReps o = .ok oc) (hlen : oc.m_payoffs.length = g.players.length) :
    IsConstSum.sum oc.m_payoffs g.players.length 1 0 = .ok (payoffSum g o) := by
  rw [IsConstSum_sum_spec oc.m_payoffs g.players.length 0 0 (by omega)]
  simp [payoffSum, hoc]

theorem IsConstSum_loop_spec (g : efgGame) (c : ℚ) : ∀ rest : List Nat,
    (∀ o ∈ rest, ∃ oc, deref g.outcomeReps o = .ok oc ∧
      oc.m_payoffs.length = g.players.length) →
    ∃ b, IsConstSum.loop g c rest = .ok b ∧ (b = true ↔ ∀ o ∈ rest, payoffSum g o = c) := by
  intro rest
  induction rest with
  | nil =>
    intro _
    exact ⟨true, rfl, by simp⟩
  | cons o t ih =>
    intro h
    obtain ⟨oc, hoc, hlen⟩ := h o (List.mem_cons_self _ _)
    obtain ⟨b, hb, hiff⟩ := ih (fun o' ho' => h o' (List.mem_cons_of_mem _ ho'))
    simp only [IsConstSum.loop, hoc, ok_bind, IsConstSum_value hoc hlen]
    by_cases he : payoffSum g o = c
    · have hno : ¬ (payoffSum g o > c ∨ payoffSum g o < c) := by
        rw [he]
        simp
      rw [if_neg hno]
      refine ⟨b, hb, ?_⟩
      rw [hiff]
      simp [he]
    · have hyes : payoffSum g o > c ∨ payoffSum g o < c := by
        rcases lt_trichotomy (payoffSum g o) c with h1 | h1 | h1
        · exact Or.inr h1
        · exact absurd h1 he
        · exact Or.inl h1
      rw [if_pos hyes]
      refine ⟨false, rfl, ?_⟩
      simp [he]

/-- C28: in a game whose outcomes are live objects with one payoff per player,
`IsConstSum()` returns, and it returns `true` exactly when the sum of the
payoffs over all players is the same for every two outcomes of the game; with no
outcome or one outcome that is always so. -/
theorem IsConstSum_spec (g : efgGame) (h : payoffsSized g = true) :
    ∃ b, IsConstSum g = .ok b ∧
      (b = true ↔ ∀ o1 ∈ g.outcomes, ∀ o2 ∈ g.outcomes, payoffSum g o1 = payoffSum g o2) ∧
      (g.outcomes.length ≤ 1 → b = true) := by
  have hs := payoffsSized_spec h
  cases ho : g.outcomes with
  | nil =>
    refine ⟨true, ?_, ?_, fun _ => rfl⟩
    · simp [IsConstSum, ho]
    · simp
  | cons o1 rest =>
    rw [ho] at hs
    obtain ⟨oc, hoc, hlen⟩ := hs o1 (List.mem_cons_self _ _)
    obtain ⟨b, hb, hiff⟩ := IsConstSum_loop_spec g (payoffSum g o1) rest
      (fun o' ho' => hs o' (List.mem_cons_of_mem _ ho'))
    refine ⟨b, ?_, ?_, ?_⟩
    · simp only [IsConstSum, ho, hoc, ok_bind, IsConstSum_value hoc hlen]
      exact hb
    · rw [hiff]
      constructor
      · intro hall a ha b' hb'
        have e1 : payoffSum g a = payoffSum g o1 := by
          rcases List.mem_cons.1 ha with e | e
          · rw [e]
          · exact hall a e
        have e2 : payoffSum g b' = payoffSum g o1 := by
          rcases List.mem_cons.1 hb' with e | e
          · rw [e]
          · exact hall b' e
        rw [e1, e2]
      · intro hall o ho'
        exact hall o (List.mem_cons_of_mem _ ho') o1 (List.mem_cons_self _ _)
    · intro hle
      have : rest = [] := by
        simp at hle
        exact hle
      subst this
      exact hiff.2 (fun o ho' => absurd ho' (List.not_mem_nil o))

set_option maxRecDepth 1000000 in
/-- Witness for C28: Scenario A, whose four outcomes have the sums 2, 2, 2 and 4. -/
theorem IsConstSum_spec_witness :
    ∃ g, scenarioA = .ok g ∧ payoffsSized g = true ∧
      ∃ b, IsConstSum g = .ok b ∧
        (b = true ↔ ∀ o1 ∈ g.outcomes, ∀ o2 ∈ g.outcomes, payoffSum g o1 = payoffSum g o2) ∧
        (g.outcomes.length ≤ 1 → b = true) :=
  ⟨_, rfl, by decide, IsConstSum_spec _ (by decide)⟩

/-- The assignment `m->infoset = to.rep` of `MergeInfoset`. -/
theorem retarget_spec (dst : Nat) : ∀ (l : List Nat) (nodes : List (Option Node)),
    (∀ m ∈ l, ∃ x, deref nodes m = .ok x) →
    MergeInfoset.retarget dst l nodes =
      .ok (updAll (fun x => { x with infoset := some dst }) l nodes) := by
  intro l
  induction l with
  | nil =>
    intro nodes _
    rfl
  | cons a t ih =>
    intro nodes h
    obtain ⟨x, hx⟩ := h a (List.mem_cons_self _ _)
    simp only [MergeInfoset.retarget, hx, ok_bind, updAll, List.foldl_cons]
    refine ih _ ?_
    intro m hm
    obtain ⟨y, hy⟩ := h m (List.mem_cons_of_mem _ hm)
    rw [deref_store _ _ (deref_lt hx)]
    by_cases e : m = a
    · exact ⟨_, by rw [if_pos e]⟩
    · exact ⟨y, by rw [if_neg e, hy]⟩

/-- The state in which `MergeInfoset(to, from)` calls `SortInfosets` is
well-formed: the members of `from` refer to `to`, whose member list is the old
one followed by the members of `from`, and `from` has no members. -/
theorem MergeInfoset_wf {g g2 : efgGame} {L : List Nat} {dst src : Nat} {ti fi : Infoset}
    {pt pf : Player} (W : WellFormed g L) (hne : dst ≠ src)
    (hti : deref g.infosets dst = .ok ti) (hfi : deref g.infosets src = .ok fi)
    (hpt : g.playerRep ti.m_player = .ok pt) (hts : dst ∈ pt.m_infosets)
    (hpf : g.playerRep fi.m_player = .ok pf) (hfs : src ∈ pf.m_infosets)
    (hroot : g2.root = g.root) (hpl : g2.players = g.players) (hch : g2.chance = g.chance)
    (hnodes : g2.nodes = updAll (fun x => { x with infoset := some dst }) fi.m_members g.nodes)
    (hinf : g2.infosets = store (store g.infosets dst
        { ti with m_members := ti.m_members ++ fi.m_members }) src
        { fi with m_members := [] }) :
    WellFormed g2 L := by
  have hP : ∀ pl, g2.playerRep pl = g.playerRep pl := fun pl => playerRep_congr g2 g pl hpl hch
  obtain ⟨_, hlt⟩ := W.lists _ pt hpt
  obtain ⟨ti', hti', _, htnd, htm⟩ := hlt dst hts
  rw [hti] at hti'
  cases hti'
  obtain ⟨_, hlf⟩ := W.lists _ pf hpf
  obtain ⟨fi', hfi', _, hfnd, hfm⟩ := hlf src hfs
  rw [hfi] at hfi'
  cases hfi'
  have hdlt := deref_lt hti
  have hslt := deref_lt hfi
  have hd2 : ∀ u, deref g2.nodes u =
      if u ∈ fi.m_members then (deref g.nodes u).map (fun x => { x with infoset := some dst })
      else deref g.nodes u := by
    intro u
    rw [hnodes]
    exact deref_updAll (fun x => { x with infoset := some dst }) (fun _ => rfl) _ _ _
  have hio : ∀ u, u ∈ L → infosetOf g2.nodes u =
      if u ∈ fi.m_members then some dst else infosetOf g.nodes u := by
    intro u hu
    obtain ⟨y, hy⟩ := W.live u hu
    simp only [infosetOf, hd2 u]
    by_cases hm : u ∈ fi.m_members
    · simp [hm, hy, Except.map]
    · simp [hm]
  have hfmem : ∀ u, u ∈ L → infosetOf g.nodes u = some src → u ∈ fi.m_members := by
    intro u hu hs
    obtain ⟨si, p, h1, h2, _⟩ := W.fwd u hu src hs
    rw [hfi] at h1
    cases h1
    exact h2
  have hI : ∀ s, deref g2.infosets s =
      if s = src then .ok { fi with m_members := [] }
      else if s = dst then .ok { ti with m_members := ti.m_members ++ fi.m_members }
      else deref g.infosets s := by
    intro s
    rw [hinf, deref_store _ _ (by rw [store_length]; exact hslt), deref_store _ _ hdlt]
  constructor
  · unfold Nodes
    rw [hroot, hnodes, updAll_length, NDoChild_congr (childrenOf_updAll
      (fun x => { x with infoset := some dst }) (fun _ => rfl) _ _)]
    exact W.nodes_ok
  · exact W.nodup
  · intro u hu
    obtain ⟨y, hy⟩ := W.live u hu
    rw [hd2 u, hy]
    by_cases hm : u ∈ fi.m_members
    · exact ⟨_, by rw [if_pos hm]; rfl⟩
    · exact ⟨_, by rw [if_neg hm]⟩
  · intro u hu s hs
    rw [hio u hu] at hs
    by_cases hm : u ∈ fi.m_members
    · rw [if_pos hm] at hs
      cases hs
      refine ⟨_, pt, by rw [hI, if_neg hne, if_pos rfl], List.mem_append_right _ hm,
        by rw [hP]; exact hpt, hts⟩
    · rw [if_neg hm] at hs
      have hss : s ≠ src := fun e => hm (hfmem u hu (e ▸ hs))
      obtain ⟨si, p, h1, h2, h3, h4⟩ := W.fwd u hu s hs
      by_cases hsd : s = dst
      · subst hsd
        rw [hti] at h1
        cases h1
        exact ⟨_, p, by rw [hI, if_neg hss, if_pos rfl], List.mem_append_left _ h2,
          by rw [hP]; exact h3, h4⟩
      · exact ⟨si, p, by rw [hI, if_neg hss, if_neg hsd]; exact h1, h2, by rw [hP]; exact h3, h4⟩
  · intro pl p hp
    rw [hP] at hp
    obtain ⟨h1, h2⟩ := W.lists pl p hp
    refine ⟨h1, ?_⟩
    intro s hs
    obtain ⟨si, h3, h4, h5, h6⟩ := h2 s hs
    by_cases hss : s = src
    · subst hss
      rw [hfi] at h3
      cases h3
      refine ⟨{ fi with m_members := [] }, by rw [hI, if_pos rfl], h4, List.nodup_nil, ?_⟩
      intro m hm
      cases hm
    · by_cases hsd : s = dst
      · subst hsd
        rw [hti] at h3
        cases h3
        refine ⟨{ ti with m_members := ti.m_members ++ fi.m_members },
          by rw [hI, if_neg hss, if_pos rfl], h4, ?_, ?_⟩
        · refine List.nodup_append.2 ⟨htnd, hfnd, ?_⟩
          intro m hm1 hm2
          have e1 := (htm m hm1).2
          have e2 := (hfm m hm2).2
          rw [e1] at e2
          cases e2
          exact hne rfl
        · intro m hm
          rcases List.mem_append.1 hm with h | h
          · obtain ⟨a, b⟩ := htm m h
            refine ⟨a, ?_⟩
            rw [hio m a]
            by_cases hmf : m ∈ fi.m_members
            · rw [if_pos hmf]
            · rw [if_neg hmf]
              exact b
          · obtain ⟨a, _⟩ := hfm m h
            exact ⟨a, by rw [hio m a, if_pos h]⟩
      · refine ⟨si, by rw [hI, if_neg hss, if_neg hsd]; exact h3, h4, h5, ?_⟩
        intro m hm
        obtain ⟨a, b⟩ := h6 m hm
        refine ⟨a, ?_⟩
        have hmf : m ∉ fi.m_members := by
          intro h
          have := (hfm m h).2
          rw [b] at this
          cases this
          exact hss rfl
        rw [hio m a, if_neg hmf]
        exact b

/-- C25: in a well-formed game with sorting switched on, let `to` and `from` be
distinct infosets, each in the list of its player, with the same number of
actions, whose first members `a` and `b` have the same subgame root.  Then
`MergeInfoset(to, from)` returns `to`, and afterwards: every former member of
`from` refers to `to` and every other node refers to the infoset it referred to;
the members of `to` are its former members together with the former members of
`from`; `from` has no members and is still in the list of its player; every
node has the children it had. -/
theorem MergeInfoset_spec (g : efgGame) (L : List Nat) (dst src a b : Nat) (ti fi : Infoset)
    (pt pf : Player) (xa xb : Node) (hwf : wellFormed g = true) (hs : g.sortisets = true)
    (hN : Nodes g = .ok L) (hne : dst ≠ src)
    (hti : deref g.infosets dst = .ok ti) (hfi : deref g.infosets src = .ok fi)
    (hpt : g.playerRep ti.m_player = .ok pt) (hts : dst ∈ pt.m_infosets)
    (hpf : g.playerRep fi.m_player = .ok pf) (hfs : src ∈ pf.m_infosets)
    (hacts : ti.m_actions.length = fi.m_actions.length)
    (ha : ti.m_members.head? = some a) (hb : fi.m_members.head? = some b)
    (hxa : deref g.nodes a = .ok xa) (hxb : deref g.nodes b = .ok xb)
    (hgr : xa.gameroot = xb.gameroot) :
    ∃ g1 t1 f1 pf1, MergeInfoset g (some dst) (some src) = .ok (g1, some dst) ∧
      (∀ m ∈ fi.m_members, infosetOf g1.nodes m = some dst) ∧
      (∀ u, u ∉ fi.m_members → infosetOf g1.nodes u = infosetOf g.nodes u) ∧
      deref g1.infosets dst = .ok t1 ∧ t1.m_members.Perm (ti.m_members ++ fi.m_members) ∧
      deref g1.infosets src = .ok f1 ∧ f1.m_members = [] ∧
      g1.playerRep fi.m_player = .ok pf1 ∧ src ∈ pf1.m_infosets ∧
      ∀ u, childrenOf g1.nodes u = childrenOf g.nodes u := by
  obtain ⟨L0, W⟩ := wellFormed_spec g hwf
  have hLe : L0 = L := by
    have := W.nodes_ok
    rw [hN] at this
    cases this
    rfl
  subst hLe
  obtain ⟨_, hlf⟩ := W.lists _ pf hpf
  obtain ⟨fi', hfi', _, hfnd, hfm⟩ := hlf src hfs
  rw [hfi] at hfi'
  cases hfi'
  have hga : gAt ti.m_members 1 = .ok a := by
    cases hm : ti.m_members with
    | nil => rw [hm] at ha; cases ha
    | cons h t =>
      rw [hm] at ha
      cases ha
      simp [gAt]
  have hgb : gAt fi.m_members 1 = .ok b := by
    cases hm : fi.m_members with
    | nil => rw [hm] at hb; cases hb
    | cons h t =>
      rw [hm] at hb
      cases hb
      simp [gAt]
  have hguard : ¬ (dst = src ∨ ti.m_actions.length ≠ fi.m_actions.length) := by
    simp [hne, hacts]
  have hgr' : ¬ (xa.gameroot ≠ xb.gameroot) := by simp [hgr]
  have hsrc1 : deref (store g.infosets dst
      { ti with m_members := ti.m_members ++ fi.m_members }) src = .ok fi := by
    rw [deref_store_ne _ _ hne, hfi]
  have hret := retarget_spec dst fi.m_members g.nodes
    (fun m hm => W.live m (hfm m hm).1)
  obtain ⟨G, hG⟩ : ∃ G : efgGame, G = DeleteLexicon { g with
      m_revision := g.m_revision + 1
      m_dirty := true
      nodes := updAll (fun x => { x with infoset := some dst }) fi.m_members g.nodes
      infosets := store (store g.infosets dst
        { ti with m_members := ti.m_members ++ fi.m_members }) src
        { fi with m_members := [] } } := ⟨_, rfl⟩
  have hE : MergeInfoset g (some dst) (some src) =
      (SortInfosets G >>= fun g2 => pure (g2, some dst)) := by
    simp only [MergeInfoset, hti, hfi, ok_bind, hguard, if_false, hga, hgb, hxa, hxb, hgr',
      hsrc1, hret, hG]
  have W2 : WellFormed G L0 := by
    refine MergeInfoset_wf W hne hti hfi hpt hts hpf hfs ?_ ?_ ?_ ?_ ?_ <;> rw [hG] <;> rfl
  obtain ⟨g5, h5, R⟩ := SortInfosets_spec G L0 W2 (by rw [hG]; exact hs)
  have hGn : ∀ u, deref G.nodes u =
      if u ∈ fi.m_members then (deref g.nodes u).map (fun x => { x with infoset := some dst })
      else deref g.nodes u := by
    intro u
    rw [hG]
    exact deref_updAll (fun x => { x with infoset := some dst }) (fun _ => rfl) _ _ _
  have hGt : deref G.infosets dst =
      .ok { ti with m_members := ti.m_members ++ fi.m_members } := by
    rw [hG]
    show deref (store (store g.infosets dst _) src _) dst = _
    rw [deref_store_ne _ _ (Ne.symm hne), deref_store_self _ (deref_lt hti)]
  have hGf : deref G.infosets src = .ok { fi with m_members := [] } := by
    rw [hG]
    show deref (store (store g.infosets dst _) src _) src = _
    rw [deref_store_self _ (by rw [store_length]; exact deref_lt hfi)]
  have hGpt : G.playerRep ti.m_player = .ok pt := by
    rw [hG]
    exact hpt
  have hGpf : G.playerRep fi.m_player = .ok pf := by
    rw [hG]
    exact hpf
  obtain ⟨pt1, _, hpt1, _, _, hpermt, _, hdt⟩ := R.lists _ pt hGpt
  obtain ⟨si, hsi, hsi1⟩ := hdt dst (hpermt.mem_iff.2 hts)
  rw [hGt] at hsi
  cases hsi
  obtain ⟨pf1, _, hpf1, _, _, hpermf, _, hdf⟩ := R.lists _ pf hGpf
  obtain ⟨sj, hsj, hsj1⟩ := hdf src (hpermf.mem_iff.2 hfs)
  rw [hGf] at hsj
  cases hsj
  have hmt := W2.members_perm hGpt hts hGt
  have hmf := W2.members_perm hGpf hfs hGf
  refine ⟨g5, _, _, pf1, ?_, ?_, ?_, hsi1, hmt.symm, hsj1, ?_, hpf1, hpermf.mem_iff.2 hfs, ?_⟩
  · rw [hE, h5]
    rfl
  · intro m hm
    obtain ⟨y, hy⟩ := W.live m (hfm m hm).1
    rw [R.infosetOf_eq m]
    simp [infosetOf, hGn m, hm, hy, Except.map]
  · intro u hu
    rw [R.infosetOf_eq u]
    simp [infosetOf, hGn u, hu]
  · show nodesOf G.nodes src L0 = []
    first | exact List.Perm.eq_nil hmf | exact List.Perm.eq_nil hmf.symm
  · intro u
    have h := R.nodes u
    simp only [childrenOf]
    rw [h, hGn u]
    by_cases hL : u ∈ L0 <;> by_cases hm : u ∈ fi.m_members <;>
      cases hd : deref g.nodes u <;> simp [hL, hm, Except.map, setNumber]

set_option maxRecDepth 1000000 in
/-- Witness for C25: two infosets of player 2 with two actions each, one member
each, both children of the root; the second is merged into the first. -/
theorem MergeInfoset_spec_witness :
    ∃ g ti fi pt pf xa xb, twoInfosets = .ok (g, 1, 2) ∧ wellFormed g = true ∧
      g.sortisets = true ∧ Nodes g = .ok [0, 1, 3, 4, 2, 5, 6] ∧ (1 : Nat) ≠ 2 ∧
      deref g.infosets 1 = .ok ti ∧ deref g.infosets 2 = .ok fi ∧
      g.playerRep ti.m_player = .ok pt ∧ 1 ∈ pt.m_infosets ∧
      g.playerRep fi.m_player = .ok pf ∧ 2 ∈ pf.m_infosets ∧
      ti.m_actions.length = fi.m_actions.length ∧
      ti.m_members.head? = some 1 ∧ fi.m_members.head? = some 2 ∧
      deref g.nodes 1 = .ok xa ∧ deref g.nodes 2 = .ok xb ∧ xa.gameroot = xb.gameroot ∧
      ∃ g1 t1 f1 pf1, MergeInfoset g (some 1) (some 2) = .ok (g1, some 1) ∧
        (∀ m ∈ fi.m_members, infosetOf g1.nodes m = some 1) ∧
        (∀ u, u ∉ fi.m_members → infosetOf g1.nodes u = infosetOf g.nodes u) ∧
        deref g1.infosets 1 = .ok t1 ∧ t1.m_members.Perm (ti.m_members ++ fi.m_members) ∧
        deref g1.infosets 2 = .ok f1 ∧ f1.m_members = [] ∧
        g1.playerRep fi.m_player = .ok pf1 ∧ 2 ∈ pf1.m_infosets ∧
        ∀ u, childrenOf g1.nodes u = childrenOf g.nodes u := by
  refine ⟨_, _, _, Player.mk "" [1, 2], Player.mk "" [1, 2], _, _, rfl, by decide, rfl,
    by decide, by decide, rfl, rfl, rfl, by decide, rfl, by decide, rfl, rfl, rfl, rfl, rfl,
    rfl, ?_⟩
  exact MergeInfoset_spec _ [0, 1, 3, 4, 2, 5, 6] 1 2 1 2 _ _ (Player.mk "" [1, 2])
    (Player.mk "" [1, 2]) _ _ (by decide) rfl (by decide) (by decide) rfl rfl rfl (by decide)
    rfl (by decide) (by decide) rfl rfl rfl rfl rfl

theorem Payoff_add_spec (prob : ℚ) (pays : List ℚ) :
    ∀ (k i : Nat) (acc : List ℚ), i + k = acc.length → pays.length = acc.length →
      ∃ v, Payoff.add prob pays k (i + 1) acc = .ok v ∧ v.length = acc.length ∧
        ∀ j, v.getD j 0 = acc.getD j 0 +
          if i ≤ j ∧ j < acc.length then prob * pays.getD j 0 else 0 := by
  intro k
  induction k with
  | zero =>
    intro i acc h _
    refine ⟨acc, rfl, rfl, fun j => ?_⟩
    have : ¬ (i ≤ j ∧ j < acc.length) := by omega
    simp [this]
  | succ k ih =>
    intro i acc h hp
    have hi : i < acc.length := by omega
    have hi2 : i < pays.length := by omega
    obtain ⟨v, hv, hl, hj⟩ := ih (i + 1) (acc.set i (acc[i] + prob * pays[i]))
      (by simp; omega) (by simp [hp])
    refine ⟨v, ?_, by simpa using hl, fun j => ?_⟩
    · simp only [Payoff.add, bind_eq_ok, gAt_eq_ok, gSet_eq_ok]
      exact ⟨acc[i], ⟨i, rfl, by simp [hi]⟩, pays[i], ⟨i, rfl, by simp [hi2]⟩, _,
        ⟨i, rfl, hi, rfl⟩, hv⟩
    · rw [hj j]
      simp only [List.length_set]
      by_cases hji : j = i
      · subst hji
        have h1 : ¬ (j + 1 ≤ j ∧ j < acc.length) := by omega
        have h2 : j ≤ j ∧ j < acc.length := ⟨le_refl _, hi⟩
        simp [List.getD, h1, h2, hi, hi2]
      · have hne : i ≠ j := Ne.symm hji
        by_cases hc : i + 1 ≤ j ∧ j < acc.length
        · have h2 : i ≤ j ∧ j < acc.length := ⟨by omega, hc.2⟩
          simp [List.getD, hc, h2, List.getElem?_set_ne hne]
        · have h2 : ¬ (i ≤ j ∧ j < acc.length) := by omega
          simp [List.getD, hc, h2, List.getElem?_set_ne hne]

theorem Payoff_unfold (g : efgGame) (profile : List (List Nat)) (fuel n : Nat) (prob : ℚ)
    (acc : List ℚ) (x : Node) (hx : deref g.nodes n = .ok x) :
    Payoff g profile (fuel + 1) n prob acc =
      Payoff.outcomePart g x prob acc >>= fun payoff1 =>
        match x.infoset with
        | none => .ok payoff1
        | some s => deref g.infosets s >>= fun si =>
            if si.m_player = 0 then
              Payoff.chance (Payoff g profile fuel) si prob x.children 1 payoff1
            else profileAt profile si.m_player si.m_id >>= fun a =>
              gAt x.children a >>= fun c => Payoff g profile fuel c prob payoff1 := by
  simp only [Payoff, hx, Payoff.outcomePart]
  rcases ho : x.outcome with _ | o <;> rcases hi : x.infoset with _ | s <;>
    simp only [ho, hi, ok_bind, pure_eq_ok, bind_assoc, bind_ok]

theorem Payoff_outcome_part (g : efgGame) (n : Nat) (x : Node) (prob : ℚ) (acc : List ℚ)
    (hx : deref g.nodes n = .ok x) (hout : outcomeReady g n = true)
    (hlen : acc.length = g.players.length) :
    ∃ p1, Payoff.outcomePart g x prob acc = .ok p1 ∧
      p1.length = acc.length ∧
      ∀ j, j < acc.length → p1.getD j 0 = acc.getD j 0 + prob * payoffOf g n (j + 1) := by
  simp only [outcomeReady, hx] at hout
  unfold Payoff.outcomePart
  cases ho : x.outcome with
  | none =>
    refine ⟨acc, rfl, rfl, fun j _ => ?_⟩
    simp [payoffOf, hx, ho]
  | some o =>
    simp only [ho] at hout
    cases hoc : deref g.outcomeReps o with
    | error e => simp [hoc] at hout
    | ok oc =>
      simp only [hoc, beq_iff_eq] at hout
      obtain ⟨v, hv, hl, hj⟩ := Payoff_add_spec prob oc.m_payoffs g.players.length 0 acc
        (by omega) (by omega)
      refine ⟨v, ?_, hl, fun j hjl => ?_⟩
      · simp only [hoc, ok_bind]
        exact hv
      · rw [hj j]
        simp [payoffOf, hx, ho, hoc, hjl]

theorem Payoff_chance_walk (g : efgGame) (profile : List (List Nat)) (fuel : Nat)
    (si : Infoset) (hpl : si.m_player = 0) (prob : ℚ)
    (P : Nat → Prop)
    (ih : ∀ (c : Nat) (lc : List Nat), NDoChild g.nodes fuel c [] = .ok lc → (∀ m ∈ lc, P m) →
      ∀ (q : ℚ) (acc : List ℚ), acc.length = g.players.length →
      ∃ R v, reached g profile fuel c q = .ok R ∧ Payoff g profile fuel c q acc = .ok v ∧
        v.length = acc.length ∧ (∀ np ∈ R, np.1 ∈ lc) ∧
        ∀ j, j < acc.length → v.getD j 0 =
          acc.getD j 0 + (R.map (fun np => np.2 * payoffOf g np.1 (j + 1))).sum) :
    ∀ (cs : List Nat) (ls : List (List Nat)) (i : Nat) (acc : List ℚ),
      List.Forall₂ (fun c lc => NDoChild g.nodes fuel c [] = .ok lc) cs ls →
      (∀ m ∈ ls.flatten, P m) → i + cs.length ≤ si.m_chanceProbs.length →
      acc.length = g.players.length →
      ∃ R v, reached.chance (reached g profile fuel) si prob cs (i + 1) = .ok R ∧
        Payoff.chance (Payoff g profile fuel) si prob cs (i + 1) acc = .ok v ∧
        v.length = acc.length ∧ (∀ np ∈ R, np.1 ∈ ls.flatten) ∧
        ∀ j, j < acc.length → v.getD j 0 =
          acc.getD j 0 + (R.map (fun np => np.2 * payoffOf g np.1 (j + 1))).sum := by
  intro cs
  induction cs with
  | nil =>
    intro ls i acc hF _ _ _
    cases hF
    exact ⟨[], acc, rfl, rfl, rfl, fun _ h => absurd h (List.not_mem_nil _), fun j _ => by simp⟩
  | cons c rest ihc =>
    intro ls i acc hF hP hi hlen
    cases hF with
    | cons hc hrest =>
      rename_i lc ls1
      simp only [List.length_cons] at hi
      have hlt : i < si.m_chanceProbs.length := by omega
      have hq : GetChanceProb si (i + 1) = .ok si.m_chanceProbs[i] := by
        simp [GetChanceProb, hpl, gAt, hlt]
      obtain ⟨R1, v1, hR1, hv1, hl1, hm1, hs1⟩ := ih c lc hc
        (fun m hm => hP m (by simp [hm])) (prob * si.m_chanceProbs[i]) acc hlen
      obtain ⟨R2, v2, hR2, hv2, hl2, hm2, hs2⟩ := ihc ls1 (i + 1) v1 hrest
        (fun m hm => hP m (by simp only [List.flatten_cons, List.mem_append]; exact Or.inr hm))
        (by omega) (by omega)
      refine ⟨R1 ++ R2, v2, ?_, ?_, by omega, ?_, fun j hj => ?_⟩
      · simp only [reached.chance, hq, ok_bind, hR1, hR2, pure_eq_ok]
      · simp only [Payoff.chance, hq, ok_bind, hv1, hv2]
      · intro np hnp
        simp only [List.flatten_cons, List.mem_append]
        rcases List.mem_append.1 hnp with h | h
        · exact Or.inl (hm1 np h)
        · exact Or.inr (hm2 np h)
      · rw [hs2 j (by omega), hs1 j hj]
        simp only [List.map_append, List.sum_append]
        ring

theorem Payoff_walk (g : efgGame) (profile : List (List Nat)) :
    ∀ (fuel n : Nat) (l : List Nat), NDoChild g.nodes fuel n [] = .ok l →
      (∀ m ∈ l, playableAt g profile m = true ∧ outcomeReady g m = true) →
      ∀ (prob : ℚ) (acc : List ℚ), acc.length = g.players.length →
      ∃ R v, reached g profile fuel n prob = .ok R ∧ Payoff g profile fuel n prob acc = .ok v ∧
        v.length = acc.length ∧ (∀ np ∈ R, np.1 ∈ l) ∧
        ∀ j, j < acc.length → v.getD j 0 =
          acc.getD j 0 + (R.map (fun np => np.2 * payoffOf g np.1 (j + 1))).sum := by
  intro fuel
  induction fuel with
  | zero => intro n l h; cases h
  | succ fuel ih =>
    intro n l h hP prob acc hlen
    obtain ⟨x, ls, hx, hF, hl⟩ := NDoChild_ok g.nodes fuel n l h
    subst hl
    obtain ⟨hplay, hout⟩ := hP n (List.mem_cons_self _ _)
    obtain ⟨p1, hp1, hl1, hs1⟩ := Payoff_outcome_part g n x prob acc hx hout hlen
    have hP2 : ∀ m ∈ ls.flatten, playableAt g profile m = true ∧ outcomeReady g m = true :=
      fun m hm => hP m (List.mem_cons_of_mem _ hm)
    simp only [playableAt, hx] at hplay
    cases hi : x.infoset with
    | none =>
      refine ⟨[(n, prob)], p1, ?_, ?_, hl1, ?_, fun j hj => ?_⟩
      · simp [reached, hx, hi, pure_eq_ok]
      · simp only [Payoff_unfold g profile fuel n prob acc x hx, hp1, ok_bind, hi]
      · intro np hnp
        rw [List.mem_singleton.1 hnp]
        exact List.mem_cons_self _ _
      · rw [hs1 j hj]
        simp
    | some s =>
      simp only [hi] at hplay
      cases hsi : deref g.infosets s with
      | error e => simp [hsi] at hplay
      | ok si =>
        simp only [hsi] at hplay
        by_cases hpl : si.m_player = 0
        · simp only [hpl, if_true, decide_eq_true_eq] at hplay
          obtain ⟨R, v, hR, hv, hl2, hm, hs2⟩ := Payoff_chance_walk g profile fuel si hpl prob _
            ih x.children ls 0 p1 hF hP2 (by omega) (by omega)
          refine ⟨(n, prob) :: R, v, ?_, ?_, by omega, ?_, fun j hj => ?_⟩
          · simp only [reached, hx, ok_bind, hi, hsi, hpl, if_true, hR, pure_eq_ok]
          · simp only [Payoff_unfold g profile fuel n prob acc x hx, hp1, ok_bind, hi, hsi, hpl, if_true, hv]
          · intro np hnp
            rcases List.mem_cons.1 hnp with h1 | h1
            · rw [h1]
              exact List.mem_cons_self _ _
            · exact List.mem_cons_of_mem _ (hm np h1)
          · rw [hs2 j (by omega), hs1 j hj]
            simp only [List.map_cons, List.sum_cons]
            ring
        · simp only [hpl, if_false] at hplay
          cases ha : profileAt profile si.m_player si.m_id with
          | error e => simp [ha] at hplay
          | ok a =>
            simp only [ha, decide_eq_true_eq] at hplay
            obtain ⟨k, rfl⟩ : ∃ k, a = k + 1 := ⟨a - 1, by omega⟩
            have hk : k < x.children.length := by omega
            have hc : gAt x.children (k + 1) = .ok x.children[k] := by simp [gAt, hk]
            obtain ⟨lc, hlc1, hlc2⟩ := forall₂_getElem hF k x.children[k] (by simp [hk])
            have hsub : ∀ m ∈ lc, m ∈ ls.flatten := fun m hm =>
              List.mem_flatten.2 ⟨lc, List.mem_iff_getElem?.2 ⟨k, hlc2⟩, hm⟩
            obtain ⟨R, v, hR, hv, hl2, hm, hs2⟩ := ih _ lc hlc1
              (fun m hm => hP2 m (hsub m hm)) prob p1 (by omega)
            refine ⟨(n, prob) :: R, v, ?_, ?_, by omega, ?_, fun j hj => ?_⟩
            · simp only [reached, hx, ok_bind, hi, hsi, hpl, if_false, ha, hc, hR, pure_eq_ok]
            · simp only [Payoff_unfold g profile fuel n prob acc x hx, hp1, ok_bind, hi, hsi, hpl, if_false, ha, hc, hv]
            · intro np hnp
              rcases List.mem_cons.1 hnp with h1 | h1
              · rw [h1]
                exact List.mem_cons_self _ _
              · exact List.mem_cons_of_mem _ (hsub _ (hm np h1))
            · rw [hs2 j (by omega), hs1 j hj]
              simp only [List.map_cons, List.sum_cons]
              ring

theorem sum_filter_of_zero {α : Type} (f : α → ℚ) (p : α → Bool) :
    ∀ (R : List α), (∀ a ∈ R, p a = false → f a = 0) →
      ((R.filter p).map f).sum = (R.map f).sum := by
  intro R
  induction R with
  | nil => intro _; rfl
  | cons a R ih =>
    intro h
    have hR := ih (fun b hb => h b (List.mem_cons_of_mem _ hb))
    cases hp : p a with
    | true => simp [List.filter_cons, hp, hR]
    | false => simp [List.filter_cons, hp, hR, h a (List.mem_cons_self _ _) hp]

set_option maxRecDepth 1000000 in
/-- C26 (counterexample): in the game `interiorOutcome` the root is a personal
node that carries the payoffs (5,7) and its first child, a terminal node,
carries (1,2).  Under the profile that selects the first action the nodes
reached are the root and that child, both with probability 1; `Payoff` gives
(6,9), while the sum over the terminal nodes reached is (1,2). -/
theorem Payoff_counts_interior_outcome :
    ∃ g, interiorOutcome = .ok g ∧
      reached g [[1], []] g.nodes.length g.root 1 = .ok [(g.root, 1), (1, 1)] ∧
      isTerminal g g.root = false ∧ isTerminal g 1 = true ∧
      PayoffProfile g [[1], []] [0, 0] = .ok [6, 9] ∧
      terminalPayoff g [(g.root, 1), (1, 1)] = [1, 2] ∧
      expectedPayoff g [(g.root, 1), (1, 1)] = [6, 9] := by
  refine ⟨_, rfl, ?_, rfl, rfl, ?_, ?_, ?_⟩ <;> with_unfolding_all decide

/-- C26 (amended): let `L` be the preorder list of the tree.  If at every node
of `L` the walk can go on (`playableAt`), every outcome on a node of `L` is live
with one payoff per player, and the vector handed in has one entry per player,
then the walk from the root with probability 1 defines the list `R` of the
nodes reached with their reach probabilities, and `Payoff(profile)` returns, for
every player, the sum over ALL nodes of `R`, terminal or not, of the reach
probability times the payoff of the node's outcome (zero without outcome).  If
no node of `R` with children carries an outcome with a non-zero payoff, this is
the sum over the terminal nodes reached. -/
theorem Payoff_spec (g : efgGame) (profile : List (List Nat)) (payoff : List ℚ) (L : List Nat)
    (hN : Nodes g = .ok L) (hplay : ∀ n ∈ L, playableAt g profile n = true)
    (hout : ∀ n ∈ L, outcomeReady g n = true) (hlen : payoff.length = g.players.length) :
    ∃ R, reached g profile g.nodes.length g.root 1 = .ok R ∧
      PayoffProfile g profile payoff = .ok (expectedPayoff g R) ∧
      ((∀ np ∈ R, isTerminal g np.1 = false → ∀ pl, payoffOf g np.1 pl = 0) →
        PayoffProfile g profile payoff = .ok (terminalPayoff g R)) := by
  obtain ⟨R, v, hR, hv, hl, _, hs⟩ := Payoff_walk g profile g.nodes.length g.root L hN
    (fun m hm => ⟨hplay m hm, hout m hm⟩) 1 (payoff.map (fun _ => 0)) (by simpa using hlen)
  have hve : v = expectedPayoff g R := by
    apply List.ext_getElem
    · simp [expectedPayoff, hl, hlen]
    · intro j h1 h2
      have hj : j < (payoff.map (fun _ => (0 : ℚ))).length := by omega
      have := hs j hj
      rw [List.getD_eq_getElem _ _ h1, List.getD_eq_getElem _ _ hj] at this
      rw [this]
      simp [expectedPayoff]
  refine ⟨R, hR, ?_, fun hterm => ?_⟩
  · rw [← hve]
    exact hv
  · have : terminalPayoff g R = expectedPayoff g R := by
      simp only [terminalPayoff, expectedPayoff]
      apply List.map_congr_left
      intro i _
      exact sum_filter_of_zero (fun np => np.2 * payoffOf g np.1 (i + 1))
        (fun np => isTerminal g np.1) R
        (fun np hnp hf => by
          show np.2 * payoffOf g np.1 (i + 1) = 0
          rw [hterm np hnp hf (i + 1)]
          ring)
    rw [this, ← hve]
    exact hv

set_option maxRecDepth 1000000 in
/-- Witness for C26: the game `interiorOutcome` with the profile that selects
the first action at the root. -/
theorem Payoff_spec_witness :
    ∃ g, interiorOutcome = .ok g ∧ Nodes g = .ok [0, 1, 2] ∧
      (∀ n ∈ [0, 1, 2], playableAt g [[1], []] n = true) ∧
      (∀ n ∈ [0, 1, 2], outcomeReady g n = true) ∧ [(0 : ℚ), 0].length = g.players.length ∧
      ∃ R, reached g [[1], []] g.nodes.length g.root 1 = .ok R ∧
        PayoffProfile g [[1], []] [0, 0] = .ok (expectedPayoff g R) ∧
        ((∀ np ∈ R, isTerminal g np.1 = false → ∀ pl, payoffOf g np.1 pl = 0) →
          PayoffProfile g [[1], []] [0, 0] = .ok (terminalPayoff g R)) :=
  ⟨_, rfl, by decide, by decide, by decide, rfl,
    Payoff_spec _ [[1], []] [0, 0] [0, 1, 2] (by decide) (by decide) (by decide) rfl⟩

theorem probsAdd_spec (probs : List (List ℚ)) (pl i : Nat) (prob : ℚ)
    (h : 1 ≤ pl ∧ 1 ≤ i ∧ i ≤ (probs.map List.length).getD (pl - 1) 0) :
    ∃ out, probsAdd probs pl i prob = .ok out ∧
      out.map List.length = probs.map List.length ∧
      ∀ a b, cell out a b = cell probs a b + if a + 1 = pl ∧ b + 1 = i then prob else 0 := by
  obtain ⟨h1, h2, h3⟩ := h
  obtain ⟨a0, rfl⟩ : ∃ k, pl = k + 1 := ⟨pl - 1, by omega⟩
  obtain ⟨b0, rfl⟩ : ∃ k, i = k + 1 := ⟨i - 1, by omega⟩
  simp only [Nat.add_sub_cancel] at h3
  have ha : a0 < probs.length := by
    by_contra hc
    have : (probs.map List.length).getD a0 0 = 0 := by
      simp [List.getD, List.getElem?_eq_none (by simpa using hc : (probs.map List.length).length ≤ a0)]
    omega
  have hb : b0 < probs[a0].length := by
    have : (probs.map List.length).getD a0 0 = probs[a0].length := by
      simp [List.getD, ha]
    omega
  refine ⟨probs.set a0 (probs[a0].set b0 (probs[a0][b0] + prob)), ?_, ?_, fun a b => ?_⟩
  · simp only [probsAdd, bind_eq_ok, gAt_eq_ok, gSet_eq_ok]
    exact ⟨probs[a0], ⟨a0, rfl, by simp [ha]⟩, probs[a0][b0], ⟨b0, rfl, by simp [hb]⟩, _,
      ⟨b0, rfl, hb, rfl⟩, ⟨a0, rfl, ha, rfl⟩⟩
  · apply List.ext_getElem
    · simp
    · intro k hk1 hk2
      simp only [List.getElem_map, List.getElem_set]
      by_cases hk : a0 = k
      · subst hk
        simp
      · simp [hk]
  · unfold cell
    by_cases hka : a = a0
    · subst hka
      by_cases hkb : b = b0
      · subst hkb
        simp [List.getD, ha, hb]
      · have hne : b0 ≠ b := Ne.symm hkb
        simp [List.getD, ha, hkb, List.getElem?_set_ne hne]
    · have hne : a0 ≠ a := Ne.symm hka
      simp [List.getD, hka, List.getElem?_set_ne hne]

theorem InfosetProbs_chance_walk (g : efgGame) (profile : List (List Nat)) (fuel : Nat)
    (si : Infoset) (hpl : si.m_player = 0) (prob : ℚ) (sh : List Nat)
    (P : Nat → Prop)
    (ih : ∀ (c : Nat) (lc : List Nat), NDoChild g.nodes fuel c [] = .ok lc → (∀ m ∈ lc, P m) →
      ∀ (q : ℚ) (probs : List (List ℚ)), probs.map List.length = sh →
      ∃ R out, reached g profile fuel c q = .ok R ∧
        InfosetProbs g profile fuel c q probs = .ok out ∧
        out.map List.length = sh ∧ (∀ np ∈ R, np.1 ∈ lc) ∧
        ∀ a b, cell out a b = cell probs a b +
          (R.map (fun np => if personalKey g np.1 = some (a + 1, b + 1) then np.2 else 0)).sum) :
    ∀ (cs : List Nat) (ls : List (List Nat)) (i : Nat) (probs : List (List ℚ)),
      List.Forall₂ (fun c lc => NDoChild g.nodes fuel c [] = .ok lc) cs ls →
      (∀ m ∈ ls.flatten, P m) → i + cs.length ≤ si.m_chanceProbs.length →
      probs.map List.length = sh →
      ∃ R out, reached.chance (reached g profile fuel) si prob cs (i + 1) = .ok R ∧
        InfosetProbs.chance (InfosetProbs g profile fuel) si prob cs (i + 1) probs = .ok out ∧
        out.map List.length = sh ∧ (∀ np ∈ R, np.1 ∈ ls.flatten) ∧
        ∀ a b, cell out a b = cell probs a b +
          (R.map (fun np => if personalKey g np.1 = some (a + 1, b + 1) then np.2 else 0)).sum := by
  intro cs
  induction cs with
  | nil =>
    intro ls i probs hF _ _ hsh
    cases hF
    exact ⟨[], probs, rfl, rfl, hsh, fun _ h => absurd h (List.not_mem_nil _),
      fun a b => by simp⟩
  | cons c rest ihc =>
    intro ls i probs hF hP hi hsh
    cases hF with
    | cons hc hrest =>
      rename_i lc ls1
      simp only [List.length_cons] at hi
      have hlt : i < si.m_chanceProbs.length := by omega
      have hq : GetChanceProb si (i + 1) = .ok si.m_chanceProbs[i] := by
        simp [GetChanceProb, hpl, gAt, hlt]
      obtain ⟨R1, v1, hR1, hv1, hl1, hm1, hs1⟩ := ih c lc hc
        (fun m hm => hP m (by simp [hm])) (prob * si.m_chanceProbs[i]) probs hsh
      obtain ⟨R2, v2, hR2, hv2, hl2, hm2, hs2⟩ := ihc ls1 (i + 1) v1 hrest
        (fun m hm => hP m (by simp only [List.flatten_cons, List.mem_append]; exact Or.inr hm))
        (by omega) hl1
      refine ⟨R1 ++ R2, v2, ?_, ?_, hl2, ?_, fun a b => ?_⟩
      · simp only [reached.chance, hq, ok_bind, hR1, hR2, pure_eq_ok]
      · simp only [InfosetProbs.chance, hq, ok_bind, hv1, hv2]
      · intro np hnp
        simp only [List.flatten_cons, List.mem_append]
        rcases List.mem_append.1 hnp with h | h
        · exact Or.inl (hm1 np h)
        · exact Or.inr (hm2 np h)
      · rw [hs2 a b, hs1 a b]
        simp only [List.map_append, List.sum_append]
        ring

theorem InfosetProbs_walk (g : efgGame) (profile : List (List Nat)) (sh : List Nat) :
    ∀ (fuel n : Nat) (l : List Nat), NDoChild g.nodes fuel n [] = .ok l →
      (∀ m ∈ l, playableAt g profile m = true ∧ slotOk g sh m = true) →
      ∀ (prob : ℚ) (probs : List (List ℚ)), probs.map List.length = sh →
      ∃ R out, reached g profile fuel n prob = .ok R ∧
        InfosetProbs g profile fuel n prob probs = .ok out ∧
        out.map List.length = sh ∧ (∀ np ∈ R, np.1 ∈ l) ∧
        ∀ a b, cell out a b = cell probs a b +
          (R.map (fun np => if personalKey g np.1 = some (a + 1, b + 1) then np.2 else 0)).sum := by
  intro fuel
  induction fuel with
  | zero => intro n l h; cases h
  | succ fuel ih =>
    intro n l h hP prob probs hsh
    obtain ⟨x, ls, hx, hF, hl⟩ := NDoChild_ok g.nodes fuel n l h
    subst hl
    obtain ⟨hplay, hslot⟩ := hP n (List.mem_cons_self _ _)
    have hP2 : ∀ m ∈ ls.flatten, playableAt g profile m = true ∧ slotOk g sh m = true :=
      fun m hm => hP m (List.mem_cons_of_mem _ hm)
    simp only [playableAt, hx] at hplay
    simp only [slotOk] at hslot
    cases hi : x.infoset with
    | none =>
      have hkey : personalKey g n = none := by simp [personalKey, hx, hi]
      refine ⟨[(n, prob)], probs, ?_, ?_, hsh, ?_, fun a b => ?_⟩
      · simp [reached, hx, hi, pure_eq_ok]
      · simp [InfosetProbs, hx, hi, pure_eq_ok]
      · intro np hnp
        rw [List.mem_singleton.1 hnp]
        exact List.mem_cons_self _ _
      · simp [hkey]
    | some s =>
      simp only [hi] at hplay
      cases hsi : deref g.infosets s with
      | error e => simp [hsi] at hplay
      | ok si =>
        simp only [hsi] at hplay
        by_cases hpl : si.m_player = 0
        · have hkey : personalKey g n = none := by simp [personalKey, hx, hi, hsi, hpl]
          simp only [hpl, if_true, decide_eq_true_eq] at hplay
          obtain ⟨R, v, hR, hv, hl2, hm, hs2⟩ := InfosetProbs_chance_walk g profile fuel si hpl
            prob sh _ ih x.children ls 0 probs hF hP2 (by omega) hsh
          refine ⟨(n, prob) :: R, v, ?_, ?_, hl2, ?_, fun a b => ?_⟩
          · simp only [reached, hx, ok_bind, hi, hsi, hpl, if_true, hR, pure_eq_ok]
          · simp only [InfosetProbs, hx, ok_bind, hi, hsi, hpl, if_true, hv]
          · intro np hnp
            rcases List.mem_cons.1 hnp with h1 | h1
            · rw [h1]
              exact List.mem_cons_self _ _
            · exact List.mem_cons_of_mem _ (hm np h1)
          · rw [hs2 a b]
            simp [hkey]
        · have hkey : personalKey g n = some (si.m_player, si.m_id) := by
            simp [personalKey, hx, hi, hsi, hpl]
          simp only [hkey, decide_eq_true_eq] at hslot
          simp only [hpl, if_false] at hplay
          cases ha : profileAt profile si.m_player si.m_id with
          | error e => simp [ha] at hplay
          | ok a =>
            simp only [ha, decide_eq_true_eq] at hplay
            obtain ⟨k, rfl⟩ : ∃ k, a = k + 1 := ⟨a - 1, by omega⟩
            have hk : k < x.children.length := by omega
            have hc : gAt x.children (k + 1) = .ok x.children[k] := by simp [gAt, hk]
            obtain ⟨lc, hlc1, hlc2⟩ := forall₂_getElem hF k x.children[k] (by simp [hk])
            have hsub : ∀ m ∈ lc, m ∈ ls.flatten := fun m hm =>
              List.mem_flatten.2 ⟨lc, List.mem_iff_getElem?.2 ⟨k, hlc2⟩, hm⟩
            obtain ⟨p1, hp1, hl1, hs1⟩ := probsAdd_spec probs si.m_player si.m_id prob
              (by rw [hsh]; exact hslot)
            obtain ⟨R, v, hR, hv, hl2, hm, hs2⟩ := ih _ lc hlc1
              (fun m hm => hP2 m (hsub m hm)) prob p1 (by rw [hl1, hsh])
            refine ⟨(n, prob) :: R, v, ?_, ?_, hl2, ?_, fun a b => ?_⟩
            · simp only [reached, hx, ok_bind, hi, hsi, hpl, if_false, ha, hc, hR, pure_eq_ok]
            · simp only [InfosetProbs, hx, ok_bind, hi, hsi, hpl, if_false, hp1, ha, hc, hv]
            · intro np hnp
              rcases List.mem_cons.1 hnp with h1 | h1
              · rw [h1]
                exact List.mem_cons_self _ _
              · exact List.mem_cons_of_mem _ (hsub _ (hm np h1))
            · rw [hs2 a b, hs1 a b]
              simp only [List.map_cons, List.sum_cons, hkey, Option.some.injEq, Prod.mk.injEq]
              have : (si.m_player = a + 1 ∧ si.m_id = b + 1) ↔
                  (a + 1 = si.m_player ∧ b + 1 = si.m_id) := by
                constructor <;> rintro ⟨h1, h2⟩ <;> exact ⟨h1.symm, h2.symm⟩
              simp only [this]
              ring

theorem idsDense_spec (g : efgGame) (h : idsDense g = true) (pl : Nat) (p : Player)
    (hpl : pl ≠ 0) (hp : g.playerRep pl = .ok p) (k s : Nat)
    (hk : p.m_infosets[k]? = some s) :
    ∃ si, deref g.infosets s = .ok si ∧ si.m_id = k + 1 := by
  have hmem : p ∈ g.players := by
    simp only [efgGame.playerRep, hpl, if_false] at hp
    cases hq : g.players[pl - 1]? with
    | none => simp [hq] at hp
    | some q =>
      simp only [hq] at hp
      cases hp
      exact List.mem_iff_getElem?.2 ⟨_, hq⟩
  simp only [idsDense, List.all_eq_true] at h
  have hlt : k < p.m_infosets.length := by
    by_contra hc
    rw [List.getElem?_eq_none (by omega)] at hk
    cases hk
  have := h p hmem k (List.mem_range.2 hlt)
  simp only [hk] at this
  cases hsi : deref g.infosets s with
  | error e => simp [hsi] at this
  | ok si =>
    simp only [hsi, beq_iff_eq] at this
    exact ⟨si, rfl, this⟩

theorem sum_ite_filter {α : Type} (f : α → ℚ) (c : α → Prop) [DecidablePred c] (p : α → Bool) :
    ∀ (R : List α), (∀ a ∈ R, c a ↔ p a = true) →
      (R.map (fun a => if c a then f a else 0)).sum = ((R.filter p).map f).sum := by
  intro R
  induction R with
  | nil => intro _; rfl
  | cons a R ih =>
    intro h
    have hR := ih (fun b hb => h b (List.mem_cons_of_mem _ hb))
    have ha := h a (List.mem_cons_self _ _)
    cases hp : p a with
    | true =>
      have hc : c a := ha.2 hp
      simp [List.filter_cons, hp, hc, hR]
    | false =>
      have hc : ¬ c a := fun hc => by
        have := ha.1 hc
        rw [hp] at this
        cases this
      simp [List.filter_cons, hp, hc, hR]

theorem playerRep_getElem (g : efgGame) (pl : Nat) (p : Player) (hpl : pl ≠ 0)
    (hp : g.playerRep pl = .ok p) : g.players[pl - 1]? = some p := by
  simp only [efgGame.playerRep, hpl, if_false] at hp
  cases hq : g.players[pl - 1]? with
  | none => simp [hq] at hp
  | some q =>
    simp only [hq] at hp
    cases hp
    rfl

/-- C27: in a well-formed game in which every infoset of a personal player has
its position in the player's list as id, let `L` be the preorder list of the
tree, let the walk be able to go on at every node of `L` (`playableAt`), and let
the vector handed in have one row per personal player with one entry per infoset
of the player.  Then the walk from the root with probability 1 defines the list
`R` of the nodes reached with their reach probabilities, `InfosetProbs(profile)`
returns, and in the vector it leaves the entry for every infoset of every
personal player, read at the player's number and the infoset's id, is the sum
of the reach probabilities of the members of the infoset in `R`; it is zero if
no member is in `R`. -/
theorem InfosetProbs_spec (g : efgGame) (profile : List (List Nat)) (probs : List (List ℚ))
    (L : List Nat) (hwf : wellFormed g = true) (hN : Nodes g = .ok L)
    (hids : idsDense g = true) (hplay : ∀ n ∈ L, playableAt g profile n = true)
    (hshape : probsShaped g probs = true) :
    ∃ R out, reached g profile g.nodes.length g.root 1 = .ok R ∧
      InfosetProbsProfile g profile probs = .ok out ∧
      ∀ pl p, pl ≠ 0 → g.playerRep pl = .ok p → ∀ s ∈ p.m_infosets, ∀ si,
        deref g.infosets s = .ok si →
        probsAt out pl si.m_id =
          .ok ((R.filter (fun np => decide (np.1 ∈ si.m_members))).map Prod.snd).sum ∧
        ((∀ np ∈ R, np.1 ∉ si.m_members) → probsAt out pl si.m_id = .ok 0) := by
  obtain ⟨L0, W⟩ := wellFormed_spec g hwf
  have hLe : L0 = L := by
    have := W.nodes_ok
    rw [hN] at this
    cases this
    rfl
  subst hLe
  simp only [probsShaped, beq_iff_eq] at hshape
  have hsh0 : (probs.map (fun row => row.map (fun _ => (0 : ℚ)))).map List.length =
      g.players.map (fun p => p.m_infosets.length) := by
    rw [← hshape]
    simp [List.map_map, Function.comp_def]
  have hslot : ∀ m ∈ L0, slotOk g (g.players.map (fun p => p.m_infosets.length)) m = true := by
    intro m hm
    unfold slotOk
    cases hkey : personalKey g m with
    | none => rfl
    | some key =>
      obtain ⟨pl, i⟩ := key
      simp only [personalKey] at hkey
      cases hx : deref g.nodes m with
      | error e => simp [hx] at hkey
      | ok x =>
        simp only [hx] at hkey
        cases hi : x.infoset with
        | none => simp [hi] at hkey
        | some s =>
          simp only [hi] at hkey
          obtain ⟨si, p, hsi, _, hp, hs⟩ := W.fwd m hm s (by simp [infosetOf, hx, hi])
          simp only [hsi] at hkey
          by_cases hpl : si.m_player = 0
          · simp [hpl] at hkey
          · simp only [hpl, if_false, Option.some.injEq, Prod.mk.injEq] at hkey
            obtain ⟨rfl, rfl⟩ := hkey
            obtain ⟨k, hk⟩ := List.mem_iff_getElem?.1 hs
            obtain ⟨si', hsi', hid⟩ := idsDense_spec g hids _ p hpl hp k s hk
            rw [hsi] at hsi'
            cases hsi'
            have hlt : k < p.m_infosets.length := by
              by_contra hc
              rw [List.getElem?_eq_none (by omega)] at hk
              cases hk
            have hq := playerRep_getElem g _ p hpl hp
            simp only [decide_eq_true_eq]
            have hget : (g.players.map (fun p => p.m_infosets.length)).getD (si.m_player - 1) 0 =
                p.m_infosets.length := by
              rw [List.getD_eq_getElem?_getD, List.getElem?_map, hq]
              rfl
            rw [hget]
            omega
  obtain ⟨R, out, hR, hout, hlen, hm, hs⟩ := InfosetProbs_walk g profile _ g.nodes.length
    g.root L0 hN (fun m hm => ⟨hplay m hm, hslot m hm⟩) 1 _ hsh0
  have hzero : ∀ a b, cell (probs.map (fun row => row.map (fun _ => (0 : ℚ)))) a b = 0 := by
    intro a b
    unfold cell
    rw [List.getD_eq_getElem?_getD, List.getD_eq_getElem?_getD, List.getElem?_map]
    rcases hpa : probs[a]? with _ | row
    · simp
    · simp only [Option.map_some', Option.getD_some, List.getElem?_map]
      rcases hrb : row[b]? with _ | v <;> simp
  have hmain : ∀ pl p, pl ≠ 0 → g.playerRep pl = .ok p → ∀ s ∈ p.m_infosets, ∀ si,
      deref g.infosets s = .ok si →
      probsAt out pl si.m_id =
        .ok ((R.filter (fun np => decide (np.1 ∈ si.m_members))).map Prod.snd).sum := by
    intro pl p hpl hp s hsmem si hsi
    obtain ⟨k, hk⟩ := List.mem_iff_getElem?.1 hsmem
    obtain ⟨si', hsi', hid⟩ := idsDense_spec g hids pl p hpl hp k s hk
    rw [hsi] at hsi'
    cases hsi'
    have hlt : k < p.m_infosets.length := by
      by_contra hc
      rw [List.getElem?_eq_none (by omega)] at hk
      cases hk
    have hq := playerRep_getElem g pl p hpl hp
    obtain ⟨a, rfl⟩ : ∃ a, pl = a + 1 := ⟨pl - 1, by omega⟩
    simp only [Nat.add_sub_cancel] at hq
    have hrow : ∃ row, out[a]? = some row ∧ row.length = p.m_infosets.length := by
      have h1 : (out.map List.length)[a]? = some p.m_infosets.length := by
        rw [hlen]
        simp [hq]
      rw [List.getElem?_map] at h1
      cases ho : out[a]? with
      | none => simp [ho] at h1
      | some row =>
        simp only [ho, Option.map_some', Option.some.injEq] at h1
        exact ⟨row, rfl, h1⟩
    obtain ⟨row, hrow1, hrow2⟩ := hrow
    have hkr : k < row.length := by omega
    have hread : probsAt out (a + 1) si.m_id = .ok (cell out a k) := by
      rw [hid]
      simp [probsAt, gAt, hrow1, cell, List.getD, hkr, pure_eq_ok, bind, Except.bind]
    rw [hread, hs a k, hzero, zero_add]
    congr 1
    refine sum_ite_filter Prod.snd (fun np => personalKey g np.1 = some (a + 1, k + 1))
      (fun np => decide (np.1 ∈ si.m_members)) R (fun np hnp => ?_)
    simp only [decide_eq_true_eq]
    obtain ⟨_, hlist⟩ := W.lists _ p hp
    obtain ⟨si', hsi', hown, _, hmemb⟩ := hlist s hsmem
    rw [hsi] at hsi'
    cases hsi'
    constructor
    · intro hkey
      simp only [personalKey] at hkey
      cases hx : deref g.nodes np.1 with
      | error e => simp [hx] at hkey
      | ok x =>
        simp only [hx] at hkey
        cases hi : x.infoset with
        | none => simp [hi] at hkey
        | some s1 =>
          simp only [hi] at hkey
          obtain ⟨si1, p1, hsi1, hmem1, hp1, hs1⟩ := W.fwd np.1 (hm np hnp) s1
            (by simp [infosetOf, hx, hi])
          simp only [hsi1] at hkey
          by_cases hpl1 : si1.m_player = 0
          · simp [hpl1] at hkey
          · simp only [hpl1, if_false, Option.some.injEq, Prod.mk.injEq] at hkey
            obtain ⟨e1, e2⟩ := hkey
            rw [e1, hp] at hp1
            cases hp1
            obtain ⟨k1, hk1⟩ := List.mem_iff_getElem?.1 hs1
            obtain ⟨si2, hsi2, hid2⟩ := idsDense_spec g hids (a + 1) p hpl hp k1 s1 hk1
            rw [hsi1] at hsi2
            cases hsi2
            have hkk : k1 = k := by omega
            subst hkk
            rw [hk] at hk1
            cases hk1
            rw [hsi] at hsi1
            cases hsi1
            exact hmem1
    · intro hmem
      obtain ⟨_, hio⟩ := hmemb np.1 hmem
      simp only [infosetOf] at hio
      cases hx : deref g.nodes np.1 with
      | error e => simp [hx] at hio
      | ok x =>
        simp only [hx] at hio
        have hpl2 : si.m_player ≠ 0 := by rw [hown]; exact hpl
        simp [personalKey, hx, hio, hsi, hpl2, hown, hid]
  refine ⟨R, out, hR, hout, fun pl p hpl hp s hsmem si hsi => ⟨hmain pl p hpl hp s hsmem si hsi,
    fun hnone => ?_⟩⟩
  rw [hmain pl p hpl hp s hsmem si hsi]
  have : R.filter (fun np => decide (np.1 ∈ si.m_members)) = [] := by
    rw [List.filter_eq_nil_iff]
    intro np hnp
    simpa using hnone np hnp
  rw [this]
  rfl

set_option maxRecDepth 1000000 in
/-- Witness for C27: Scenario A with the profile that selects action 1 for
player 1 and action 2 for player 2. -/
theorem InfosetProbs_spec_witness :
    ∃ g, scenarioA = .ok g ∧ wellFormed g = true ∧ Nodes g = .ok [0, 1, 3, 4, 2, 5, 6] ∧
      idsDense g = true ∧ (∀ n ∈ [0, 1, 3, 4, 2, 5, 6], playableAt g [[1], [2]] n = true) ∧
      probsShaped g [[0], [0]] = true ∧
      ∃ R out, reached g [[1], [2]] g.nodes.length g.root 1 = .ok R ∧
        InfosetProbsProfile g [[1], [2]] [[0], [0]] = .ok out ∧
        ∀ pl p, pl ≠ 0 → g.playerRep pl = .ok p → ∀ s ∈ p.m_infosets, ∀ si,
          deref g.infosets s = .ok si →
          probsAt out pl si.m_id =
            .ok ((R.filter (fun np => decide (np.1 ∈ si.m_members))).map Prod.snd).sum ∧
          ((∀ np ∈ R, np.1 ∉ si.m_members) → probsAt out pl si.m_id = .ok 0) :=
  ⟨_, rfl, by decide, by decide, by decide, by decide, by decide,
    InfosetProbs_spec _ [[1], [2]] [[0], [0]] [0, 1, 3, 4, 2, 5, 6] (by decide) (by decide)
      (by decide) (by decide) (by decide)⟩

theorem numbered_of_eq {H : List (Option Node)} {u : Nat} {y : Node}
    (h : (deref H u).map (setNumber 0) = .ok (setNumber 0 y)) :
    ∃ k, deref H u = .ok (setNumber k y) := by
  cases hd : deref H u with
  | error e =>
    rw [hd] at h
    cases h
  | ok y1 =>
    rw [hd] at h
    have e : setNumber 0 y1 = setNumber 0 y := by injection h
    refine ⟨y1.number, ?_⟩
    have : y1 = setNumber y1.number y := by
      cases y1
      cases y
      simp only [setNumber, Node.mk.injEq] at e ⊢
      obtain ⟨h1, _, h3, h4, h5, h6, h7, h8, h9⟩ := e
      exact ⟨h1, trivial, h3, h4, h5, h6, h7, h8, h9⟩
    rw [← this]

theorem numbered_of_same {H H1 : List (Option Node)} {u : Nat} {y : Node}
    (h : (deref H1 u).map (setNumber 0) = (deref H u).map (setNumber 0))
    (hy : deref H u = .ok y) : ∃ k, deref H1 u = .ok (setNumber k y) := by
  rw [hy] at h
  exact numbered_of_eq h

theorem infosetOf_of_same {H H1 : List (Option Node)} {u : Nat}
    (h : (deref H1 u).map (setNumber 0) = (deref H u).map (setNumber 0)) :
    infosetOf H1 u = infosetOf H u := by
  unfold infosetOf
  cases h2 : deref H u with
  | error e =>
    rw [h2] at h
    cases h1 : deref H1 u with
    | error e1 => rfl
    | ok y1 =>
      rw [h1] at h
      cases h
  | ok y =>
    obtain ⟨k, hk⟩ := numbered_of_same h h2
    rw [hk]
    rfl

theorem SortResult.core_eq {g g1 : efgGame} {L : List Nat} (R : SortResult g g1 L)
    (t : Nat) : (deref g1.infosets t).map coreOf = (deref g.infosets t).map coreOf := by
  by_cases h : ∃ pl p, g.playerRep pl = .ok p ∧ t ∈ p.m_infosets
  · obtain ⟨pl, p0, hp0, hs⟩ := h
    obtain ⟨p1, B, hp1, _, _, hperm, _, hd⟩ := R.lists pl p0 hp0
    obtain ⟨si, hsi, hsi1⟩ := hd t (hperm.mem_iff.2 hs)
    rw [hsi, hsi1]
    rfl
  · have := R.unlisted t (fun pl p hp hs => h ⟨pl, p, hp, hs⟩)
    rw [this]

/-- The subtree of a node of a preorder list without repetition is a block of
the list. -/
theorem NDoChild_block (H : List (Option Node)) :
    ∀ (fuel v : Nat) (l : List Nat), NDoChild H fuel v [] = .ok l →
      ∀ u ∈ l, ∀ lu, Subtree H u lu → ∃ pre post, l = pre ++ lu ++ post := by
  intro fuel
  induction fuel with
  | zero => intro v l h; cases h
  | succ fuel ih =>
    intro v l h u hu lu hlu
    obtain ⟨x, ls, hx, hF, hl⟩ := NDoChild_ok H fuel v l h
    subst hl
    rcases List.mem_cons.1 hu with e | e
    · subst e
      have : lu = u :: ls.flatten := hlu.det ⟨_, h⟩
      exact ⟨[], [], by simp [this]⟩
    · obtain ⟨lc, hlc, hulc⟩ := List.mem_flatten.1 e
      obtain ⟨c, _, hc⟩ := forall₂_mem_right hF hlc
      obtain ⟨pre, post, hpp⟩ := ih c lc hc u hulc lu hlu
      obtain ⟨A, B, hAB⟩ := List.append_of_mem hlc
      refine ⟨v :: (A.flatten ++ pre), post ++ B.flatten, ?_⟩
      rw [hAB, List.flatten_append, List.flatten_cons, hpp]
      simp [List.append_assoc]

theorem filter_not_mem_nil (L : List Nat) :
    L.filter (fun z => decide (z ∉ ([] : List Nat))) = L := by
  rw [List.filter_eq_self]
  intro z _
  simp

/-- The loop of `DeleteAction` before its first round. -/
theorem Trimmed.start {j : Nat} {g : efgGame} {L : List Nat} (W : WellFormed g L)
    (hs : g.sortisets = true) (PO : ParentsOk g.nodes L) : Trimmed j g g L [] [] := by
  constructor
  · rw [filter_not_mem_nil]
    exact W
  · exact hs
  · rw [filter_not_mem_nil]
    exact PO
  · rfl
  · intro u hu
    cases hu
  · intro u _
    cases deref g.nodes u <;> simp [Except.map]
  · intro t
    rfl
  · intro pl p hp
    exact ⟨p, hp, List.Perm.refl _⟩
  · intro v l hl _ _
    rw [filter_not_mem_nil]
    exact hl

/-- Sorting keeps the emptiness of every infoset in a player's list. -/
theorem SortResult.emptyIn_eq {g g1 : efgGame} {L : List Nat} (hwf : WellFormed g L)
    (R : SortResult g g1 L) {pl : Nat} {p : Player} (hp : g.playerRep pl = .ok p) {s : Nat}
    (hs : s ∈ p.m_infosets) : emptyIn g1.infosets s = emptyIn g.infosets s := by
  obtain ⟨p1, B, hp1, _, hl, hperm, hB, hd⟩ := R.lists pl p hp
  obtain ⟨si, hsi, hsi1⟩ := hd s (hperm.mem_iff.2 hs)
  have hm := hwf.members_perm hp hs hsi
  simp only [emptyIn, hsi, hsi1, setMembers, hm.length_eq]

set_option maxRecDepth 1000000 in
/-- C39 (failing input): in the game with two empty one-action infosets `e1`, `e2`
of one player, `MergeInfoset(e1, e2)` reads the first member of an empty member
list and ends with the index error instead of returning. -/
theorem MergeInfoset_empty_out_of_range :
    ∃ g e1 e2 ti fi, twoEmpty = .ok (g, e1, e2) ∧ e1 ≠ e2 ∧ wellFormed g = true ∧
      deref g.infosets e1 = .ok ti ∧ deref g.infosets e2 = .ok fi ∧
      ti.m_actions.length = fi.m_actions.length ∧ ti.m_members = [] ∧ fi.m_members = [] ∧
      MergeInfoset g (some e1) (some e2) = .error .badIndex := by
  refine ⟨_, _, _, _, _, rfl, by decide, by decide, rfl, rfl, by decide, by decide, by decide,
    by decide⟩

set_option maxRecDepth 1000000 in
/-- C34 (counterexample): player 1 owns the empty infosets `e1`, `e2`, `e3` in
this order; `SortInfosets` leaves the list `[e2, e3, e1]`, so `e1` no longer
precedes `e2`. -/
theorem SortInfosets_reorders_empty :
    ∃ g e1 e2 e3 g1 p p1, threeEmpty = .ok (g, e1, e2, e3) ∧ wellFormed g = true ∧
      g.sortisets = true ∧ SortInfosets g = .ok g1 ∧
      g.playerRep 1 = .ok p ∧ g1.playerRep 1 = .ok p1 ∧
      p.m_infosets = [e1, e2, e3] ∧ p1.m_infosets = [e2, e3, e1] ∧
      p.m_infosets.filter (fun s => emptyIn g.infosets s) = [e1, e2, e3] ∧
      p1.m_infosets.filter (fun s => emptyIn g1.infosets s) = [e2, e3, e1] ∧
      p1.m_infosets.filter (fun s => emptyIn g1.infosets s) ≠
        p.m_infosets.filter (fun s => emptyIn g.infosets s) := by
  refine ⟨_, _, _, _, _, _, _, rfl, by decide, by decide, rfl, rfl, rfl, by decide, by decide,
    by decide, by decide, by decide⟩

/-- C34 (amended): for a well-formed game with sorting enabled, `SortInfosets`
returns, and afterwards in every player's (and chance's) list every empty infoset
stands after every non-empty one; the empty infosets of the list are the same as
before, each once, but not necessarily in the same order. -/
theorem SortInfosets_empty_last (g : efgGame) (hwf : wellFormed g = true)
    (hs : g.sortisets = true) :
    ∃ g1, SortInfosets g = .ok g1 ∧ ∀ pl p, g.playerRep pl = .ok p →
      ∃ p1, g1.playerRep pl = .ok p1 ∧
        (∀ (i j s t : Nat), p1.m_infosets[i]? = some s → p1.m_infosets[j]? = some t →
          emptyIn g1.infosets s = true → emptyIn g1.infosets t = false → j < i) ∧
        (p1.m_infosets.filter (fun s => emptyIn g1.infosets s)).Perm
          (p.m_infosets.filter (fun s => emptyIn g.infosets s)) := by
  obtain ⟨L, hL⟩ := wellFormed_spec g hwf
  obtain ⟨g1, hg1, R⟩ := SortInfosets_spec g L hL hs
  refine ⟨g1, hg1, fun pl p hp => ?_⟩
  obtain ⟨p1, _, hp1, _, _, hperm, _, _⟩ := R.lists pl p hp
  obtain ⟨B, hl, hB, hF⟩ := R.tail_empty hL hp1
  refine ⟨p1, hp1, ?_, ?_⟩
  · intro i j s t hi hj hse hte
    rw [hl] at hi hj
    have h1 : (firstMet g L pl).length ≤ i := by
      by_contra hlt
      rw [List.getElem?_append_left (by omega)] at hi
      have := hF s (List.mem_iff_getElem?.2 ⟨i, hi⟩)
      rw [hse] at this
      cases this
    have h2 : j < (firstMet g L pl).length := by
      by_contra hge
      rw [List.getElem?_append_right (by omega)] at hj
      have := hB t (List.mem_iff_getElem?.2 ⟨_, hj⟩)
      rw [hte] at this
      cases this
    omega
  · have h1 : p1.m_infosets.filter (fun s => emptyIn g1.infosets s) =
        p1.m_infosets.filter (fun s => emptyIn g.infosets s) := by
      apply List.filter_congr
      intro s hs1
      exact R.emptyIn_eq hL hp (hperm.mem_iff.1 hs1)
    rw [h1]
    exact hperm.filter _

set_option maxRecDepth 1000000 in
/-- Witness for C34: the game with three empty infosets of one player. -/
theorem SortInfosets_empty_last_witness :
    ∃ g e1 e2 e3, threeEmpty = .ok (g, e1, e2, e3) ∧ wellFormed g = true ∧
      g.sortisets = true ∧
      ∃ g1, SortInfosets g = .ok g1 ∧ ∀ pl p, g.playerRep pl = .ok p →
        ∃ p1, g1.playerRep pl = .ok p1 ∧
          (∀ (i j s t : Nat), p1.m_infosets[i]? = some s → p1.m_infosets[j]? = some t →
            emptyIn g1.infosets s = true → emptyIn g1.infosets t = false → j < i) ∧
          (p1.m_infosets.filter (fun s => emptyIn g1.infosets s)).Perm
            (p.m_infosets.filter (fun s => emptyIn g.infosets s)) :=
  ⟨_, _, _, _, rfl, by decide, by decide, SortInfosets_empty_last _ (by decide) (by decide)⟩
/-- In a list without repetition an element of a front part stands before an
element of the rest. -/
theorem indexOf_lt_of_split {L X Y : List Nat} (hnd : L.Nodup) (hL : L = X ++ Y) {a b : Nat}
    (ha : a ∈ X) (hb : b ∈ Y) : L.indexOf a < L.indexOf b := by
  subst hL
  have hbX : b ∉ X := fun h => (List.nodup_append.1 hnd).2.2 h hb
  rw [List.indexOf_append_of_mem ha, List.indexOf_append_of_not_mem hbX]
  have := List.indexOf_lt_length.2 ha
  omega

/-- In a list without repetition the element at position `k` has index `k`. -/
theorem indexOf_of_getElem? {L : List Nat} (hnd : L.Nodup) {k n : Nat} (h : L[k]? = some n) :
    L.indexOf n = k := by
  obtain ⟨hk, e⟩ := List.getElem?_eq_some.1 h
  rw [← e]
  exact List.indexOf_getElem hnd k hk

/-- After the sort the number of a tree node is its position in the preorder
list, counted from one. -/
theorem SortResult.number_eq {g g1 : efgGame} {L : List Nat} (R : SortResult g g1 L) {n : Nat}
    (hn : n ∈ L) {x : Node} (hx : deref g1.nodes n = .ok x) : x.number = L.indexOf n + 1 := by
  have h := R.nodes n
  rw [if_pos hn, hx] at h
  cases hy : deref g.nodes n with
  | error e => rw [hy] at h; cases h
  | ok y =>
    rw [hy] at h
    injection h with h
    rw [h]
    rfl

/-- C37: for a well-formed game with sorting enabled, `SortInfosets` returns, and
afterwards the node at position `k` (from zero) of the preorder list has the
number `k + 1`; the root has number 1; the number of a tree node is smaller
than the number of every other node of its subtree; and for two consecutive
children of a tree node every number in the subtree of the first is smaller
than every number in the subtree of the second. -/
theorem SortInfosets_numbers (g : efgGame) (hwf : wellFormed g = true)
    (hs : g.sortisets = true) :
    ∃ g1 L, SortInfosets g = .ok g1 ∧ Nodes g1 = .ok L ∧
      (∀ (k n : Nat), L[k]? = some n → ∃ x, deref g1.nodes n = .ok x ∧ x.number = k + 1) ∧
      (∃ r, deref g1.nodes g1.root = .ok r ∧ r.number = 1) ∧
      (∀ n ∈ L, ∀ T, Subtree g1.nodes n T → ∀ d ∈ T, d ≠ n →
        ∀ xn xd, deref g1.nodes n = .ok xn → deref g1.nodes d = .ok xd →
          xn.number < xd.number) ∧
      (∀ n ∈ L, ∀ x, deref g1.nodes n = .ok x → ∀ (i ci cj : Nat) (Ti Tj : List Nat),
        x.children[i]? = some ci → x.children[i + 1]? = some cj →
        Subtree g1.nodes ci Ti → Subtree g1.nodes cj Tj →
        ∀ a ∈ Ti, ∀ b ∈ Tj, ∀ xa xb, deref g1.nodes a = .ok xa → deref g1.nodes b = .ok xb →
          xa.number < xb.number) := by
  obtain ⟨L, hL⟩ := wellFormed_spec g hwf
  obtain ⟨g1, hg1, R⟩ := SortInfosets_spec g L hL hs
  have hN : Nodes g1 = .ok L := R.wf.nodes_ok
  have hroot : Subtree g1.nodes g1.root L := ⟨_, hN⟩
  have hnd : L.Nodup := hL.nodup
  refine ⟨g1, L, hg1, hN, ?_, ?_, ?_, ?_⟩
  · intro k n hk
    have hn : n ∈ L := List.mem_iff_getElem?.2 ⟨k, hk⟩
    obtain ⟨x, hx⟩ := R.wf.live n hn
    exact ⟨x, hx, by rw [R.number_eq hn hx, indexOf_of_getElem? hnd hk]⟩
  · obtain ⟨t, ht⟩ := NDoChild_head hN
    have hr : g1.root ∈ L := by rw [ht]; exact List.mem_cons_self _ _
    obtain ⟨r, hr1⟩ := R.wf.live _ hr
    refine ⟨r, hr1, ?_⟩
    rw [R.number_eq hr hr1]
    have : L.indexOf g1.root = 0 := by rw [ht]; exact List.indexOf_cons_self _ _
    omega
  · intro n hn T hT d hd hdn xn xd hxn hxd
    obtain ⟨pre, post, hpp⟩ := NDoChild_block g1.nodes _ _ L hN n hn T hT
    obtain ⟨f, hf⟩ := hT
    obtain ⟨t, ht⟩ := NDoChild_head hf
    subst ht
    have hdt : d ∈ t := by
      rcases List.mem_cons.1 hd with e | e
      · exact absurd e hdn
      · exact e
    have hdL : d ∈ L := by
      rw [hpp]
      exact List.mem_append_left _ (List.mem_append_right _ hd)
    rw [R.number_eq hn hxn, R.number_eq hdL hxd]
    have hsplit : L = (pre ++ [n]) ++ (t ++ post) := by rw [hpp]; simp
    have := indexOf_lt_of_split hnd hsplit (List.mem_append_right _ (List.mem_singleton_self n))
      (List.mem_append_left _ hdt)
    omega
  · intro n hn x hx i ci cj Ti Tj hi hj hTi hTj a ha b hb xa xb hxa hxb
    obtain ⟨T, hT, _⟩ := hroot.sub hn
    obtain ⟨pre, post, hpp⟩ := NDoChild_block g1.nodes _ _ L hN n hn T hT
    obtain ⟨x1, ls, hx1, hF, hl⟩ := hT.cases
    rw [hx] at hx1
    cases hx1
    obtain ⟨li, hli, hlsi⟩ := forall₂_getElem hF i ci hi
    obtain ⟨lj, hlj, hlsj⟩ := forall₂_getElem hF (i + 1) cj hj
    have e1 := hli.det hTi
    have e2 := hlj.det hTj
    subst e1
    subst e2
    have hfl : ls.flatten = (ls.take (i + 1)).flatten ++ (ls.drop (i + 1)).flatten := by
      rw [← List.flatten_append, List.take_append_drop]
    have ha1 : a ∈ (ls.take (i + 1)).flatten := by
      refine List.mem_flatten.2 ⟨li, ?_, ha⟩
      refine List.mem_iff_getElem?.2 ⟨i, ?_⟩
      rw [List.getElem?_take_of_lt (by omega)]
      exact hlsi
    have hb1 : b ∈ (ls.drop (i + 1)).flatten := by
      refine List.mem_flatten.2 ⟨lj, ?_, hb⟩
      refine List.mem_iff_getElem?.2 ⟨0, ?_⟩
      rw [List.getElem?_drop]
      exact hlsj
    have hsplit : L = (pre ++ n :: (ls.take (i + 1)).flatten) ++
        ((ls.drop (i + 1)).flatten ++ post) := by
      rw [hpp, hl, hfl]
      simp
    have haL : a ∈ L := by
      rw [hsplit]
      exact List.mem_append_left _ (List.mem_append_right _ (List.mem_cons_of_mem _ ha1))
    have hbL : b ∈ L := by
      rw [hsplit]
      exact List.mem_append_right _ (List.mem_append_left _ hb1)
    rw [R.number_eq haL hxa, R.number_eq hbL hxb]
    have := indexOf_lt_of_split hnd hsplit
      (List.mem_append_right _ (List.mem_cons_of_mem _ ha1)) (List.mem_append_left _ hb1)
    omega

set_option maxRecDepth 1000000 in
/-- Witness for C37: Scenario A. -/
theorem SortInfosets_numbers_witness :
    ∃ g, scenarioA = .ok g ∧ wellFormed g = true ∧ g.sortisets = true ∧
      ∃ g1 L, SortInfosets g = .ok g1 ∧ Nodes g1 = .ok L ∧
        (∀ (k n : Nat), L[k]? = some n → ∃ x, deref g1.nodes n = .ok x ∧ x.number = k + 1) ∧
        (∃ r, deref g1.nodes g1.root = .ok r ∧ r.number = 1) ∧
        (∀ n ∈ L, ∀ T, Subtree g1.nodes n T → ∀ d ∈ T, d ≠ n →
          ∀ xn xd, deref g1.nodes n = .ok xn → deref g1.nodes d = .ok xd →
            xn.number < xd.number) ∧
        (∀ n ∈ L, ∀ x, deref g1.nodes n = .ok x → ∀ (i ci cj : Nat) (Ti Tj : List Nat),
          x.children[i]? = some ci → x.children[i + 1]? = some cj →
          Subtree g1.nodes ci Ti → Subtree g1.nodes cj Tj →
          ∀ a ∈ Ti, ∀ b ∈ Tj, ∀ xa xb, deref g1.nodes a = .ok xa →
            deref g1.nodes b = .ok xb → xa.number < xb.number) :=
  ⟨_, rfl, by decide, by decide, SortInfosets_numbers _ (by decide) (by decide)⟩
theorem addNew_prefix : ∀ (l acc : List Nat), ∃ R, addNew acc l = acc ++ R := by
  intro l
  induction l with
  | nil => intro acc; exact ⟨[], by simp [addNew]⟩
  | cons h l ih =>
    intro acc
    rw [addNew_cons]
    by_cases hh : h ∈ acc
    · rw [if_pos hh]
      exact ih acc
    · rw [if_neg hh]
      obtain ⟨R, hR⟩ := ih (acc ++ [h])
      exact ⟨h :: R, by rw [hR]; simp⟩

/-- The list `addNew acc l` keeps the new elements of `l` in the order of their
first occurrence in `l`. -/
theorem addNew_order : ∀ (l acc : List Nat) (a b : Nat), a ∉ acc → b ∉ acc →
    ((addNew acc l).indexOf a < (addNew acc l).indexOf b ↔ l.indexOf a < l.indexOf b) := by
  intro l
  induction l with
  | nil =>
    intro acc a b ha hb
    have e : addNew acc [] = acc := rfl
    rw [e, List.indexOf_eq_length.2 ha, List.indexOf_eq_length.2 hb]
    simp
  | cons h l ih =>
    intro acc a b ha hb
    rw [addNew_cons]
    by_cases hh : h ∈ acc
    · rw [if_pos hh]
      have hah : h ≠ a := fun e => ha (e ▸ hh)
      have hbh : h ≠ b := fun e => hb (e ▸ hh)
      rw [List.indexOf_cons_ne _ hah, List.indexOf_cons_ne _ hbh, ih acc a b ha hb]
      omega
    · rw [if_neg hh]
      obtain ⟨R, hR⟩ := addNew_prefix l (acc ++ [h])
      have hidx : ∀ c, c ∉ acc → c ≠ h →
          (addNew (acc ++ [h]) l).indexOf c = acc.length + 1 + R.indexOf c := by
        intro c hc hch
        rw [hR, indexOf_append_right (by simp [hc, hch])]
        simp
      have hidh : (addNew (acc ++ [h]) l).indexOf h = acc.length := by
        rw [hR, indexOf_append_left (by simp), indexOf_append_right hh]
        simp
      by_cases hah : a = h
      · by_cases hbh : b = h
        · subst hah; subst hbh; simp
        · subst hah
          rw [hidh, hidx b hb hbh, List.indexOf_cons_self,
            List.indexOf_cons_ne _ (fun e => hbh e.symm)]
          omega
      · by_cases hbh : b = h
        · subst hbh
          rw [hidh, hidx a ha hah, List.indexOf_cons_self,
            List.indexOf_cons_ne _ (fun e => hah e.symm)]
          omega
        · rw [List.indexOf_cons_ne _ (fun e => hah e.symm),
            List.indexOf_cons_ne _ (fun e => hbh e.symm),
            ih (acc ++ [h]) a b (by simp [ha, hah]) (by simp [hb, hbh])]
          omega

/-- A value is met in `filterMap f L` before another one exactly when the first
element of `L` that gives it stands before the first that gives the other. -/
theorem filterMap_order (f : Nat → Option Nat) : ∀ (L : List Nat) (s t : Nat),
    ((L.filterMap f).indexOf s < (L.filterMap f).indexOf t ↔
      L.findIdx (fun n => f n == some s) < L.findIdx (fun n => f n == some t)) := by
  intro L
  induction L with
  | nil => intro s t; simp
  | cons n L ih =>
    intro s t
    rw [List.findIdx_cons, List.findIdx_cons]
    cases hf : f n with
    | none =>
      rw [List.filterMap_cons_none hf, ih s t]
      simp
    | some u =>
      rw [List.filterMap_cons_some hf]
      by_cases hus : u = s
      · by_cases hut : u = t
        · subst hus; subst hut; simp
        · subst hus
          have e : (u == t) = false := by simpa using hut
          rw [List.indexOf_cons_self, List.indexOf_cons_ne _ hut]
          simp [e]
      · by_cases hut : u = t
        · subst hut
          have e : (u == s) = false := by simpa using hus
          rw [List.indexOf_cons_self, List.indexOf_cons_ne _ hus]
          simp [e]
        · have e1 : (u == s) = false := by simpa using hus
          have e2 : (u == t) = false := by simpa using hut
          rw [List.indexOf_cons_ne _ hus, List.indexOf_cons_ne _ hut]
          simp [e1, e2, ih s t]

theorem ownerOf_of_firstMet {g : efgGame} {L : List Nat} {pl s : Nat}
    (h : s ∈ firstMet g L pl) : ownerOf g.infosets s = some pl := by
  unfold firstMet at h
  rw [mem_addNew] at h
  rcases h with h | h
  · cases h
  · unfold refs at h
    rw [List.mem_filterMap] at h
    obtain ⟨n, _, hf⟩ := h
    cases hi : infosetOf g.nodes n with
    | none => simp [hi] at hf
    | some t =>
      simp only [hi] at hf
      split at hf
      · rename_i ho
        cases hf
        exact ho
      · cases hf

/-- Of two infosets first met by the preorder list `L`, the one whose first
referring node comes earlier in `L` stands earlier in `firstMet`. -/
theorem firstMet_order {g : efgGame} {L : List Nat} {pl s t : Nat}
    (hs : s ∈ firstMet g L pl) (ht : t ∈ firstMet g L pl) :
    ((firstMet g L pl).indexOf s < (firstMet g L pl).indexOf t ↔
      L.findIdx (fun n => infosetOf g.nodes n == some s) <
        L.findIdx (fun n => infosetOf g.nodes n == some t)) := by
  unfold firstMet
  rw [addNew_order _ [] s t (by simp) (by simp)]
  unfold refs
  refine (filterMap_order _ L s t).trans (Iff.of_eq ?_)
  have key : ∀ u, ownerOf g.infosets u = some pl → ∀ (o : Option Nat),
      ((match o with
        | some s => if ownerOf g.infosets s = some pl then some s else none
        | none => none) == some u) = (o == some u) := by
    intro u hu o
    cases o with
    | none => rfl
    | some v =>
      by_cases hv : v = u
      · subst hv; simp [hu]
      · by_cases ho : ownerOf g.infosets v = some pl
        · simp [ho, hv]
        · simp [ho, hv]
  congr 2
  · funext n
    exact key s (ownerOf_of_firstMet hs) _
  · funext n
    exact key t (ownerOf_of_firstMet ht) _
/-- C35: for a well-formed game with sorting enabled (member lists and infoset
references of the tree agree), `SortInfosets` returns, and every player's (and
chance's) list afterwards is a rearrangement of the list before, naming no
infoset twice; it starts with the infosets that tree nodes refer to, each once, in
the order in which the preorder traversal first meets a node of each, followed
by the infosets without members; and every infoset of the list is owned by that
player and has as id its position in the list, counted from one. -/
theorem SortInfosets_lists (g : efgGame) (hwf : wellFormed g = true)
    (hs : g.sortisets = true) :
    ∃ g1 L, SortInfosets g = .ok g1 ∧ Nodes g = .ok L ∧
      ∀ pl p, g.playerRep pl = .ok p →
        ∃ p1 F B, g1.playerRep pl = .ok p1 ∧ p1.m_infosets.Perm p.m_infosets ∧
          p1.m_infosets.Nodup ∧ p1.m_infosets = F ++ B ∧
          (∀ s, s ∈ F ↔ s ∈ p.m_infosets ∧ ∃ n ∈ L, infosetOf g.nodes n = some s) ∧
          (∀ s ∈ F, ∀ t ∈ F, (F.indexOf s < F.indexOf t ↔
            L.findIdx (fun n => infosetOf g.nodes n == some s) <
              L.findIdx (fun n => infosetOf g.nodes n == some t))) ∧
          (∀ s ∈ F, emptyIn g.infosets s = false ∧ emptyIn g1.infosets s = false) ∧
          (∀ s ∈ B, emptyIn g.infosets s = true ∧ emptyIn g1.infosets s = true) ∧
          ∀ s ∈ p1.m_infosets, ∃ si1, deref g1.infosets s = .ok si1 ∧ si1.m_player = pl ∧
            si1.m_id = p1.m_infosets.indexOf s + 1 := by
  obtain ⟨L, hL⟩ := wellFormed_spec g hwf
  obtain ⟨g1, hg1, R⟩ := SortInfosets_spec g L hL hs
  refine ⟨g1, L, hg1, hL.nodes_ok, fun pl p hp => ?_⟩
  obtain ⟨p1, B, hp1, _, hl, hperm, hB, hd⟩ := R.lists pl p hp
  obtain ⟨B1, hl1, hB1, hF1⟩ := R.tail_empty hL hp1
  have hBB : B1 = B := List.append_cancel_left (hl1.symm.trans hl)
  subst hBB
  have hnd : p1.m_infosets.Nodup := (R.wf.lists pl p1 hp1).1
  have hsame : ∀ s ∈ p1.m_infosets, emptyIn g1.infosets s = emptyIn g.infosets s :=
    fun s hs1 => R.emptyIn_eq hL hp (hperm.mem_iff.1 hs1)
  refine ⟨p1, firstMet g L pl, B1, hp1, hperm, hnd, hl, ?_, ?_, ?_, ?_, ?_⟩
  · intro s
    constructor
    · intro h
      refine ⟨hperm.mem_iff.1 (by rw [hl]; exact List.mem_append_left _ h), mem_firstMet h⟩
    · rintro ⟨h1, n, hn, hni⟩
      have h2 : s ∈ p1.m_infosets := hperm.mem_iff.2 h1
      rw [hl] at h2
      rcases List.mem_append.1 h2 with h3 | h3
      · exact h3
      · exfalso
        have he := hB s h3
        obtain ⟨si, p0, hsi, hmem, _, _⟩ := hL.fwd n hn s hni
        simp only [emptyIn, hsi] at he
        have : si.m_members = [] := by
          cases hm : si.m_members with
          | nil => rfl
          | cons a l => simp [hm] at he
        rw [this] at hmem
        cases hmem
  · intro s hs1 t ht1
    exact firstMet_order hs1 ht1
  · intro s hs1
    have h1 := hF1 s hs1
    refine ⟨?_, h1⟩
    rw [← hsame s (by rw [hl]; exact List.mem_append_left _ hs1)]
    exact h1
  · intro s hs1
    exact ⟨hB s hs1, hB1 s hs1⟩
  · intro s hs1
    obtain ⟨si, hsi, hsi1⟩ := hd s hs1
    obtain ⟨_, hown⟩ := hL.lists pl p hp
    obtain ⟨si0, hsi0, hpl, _, _⟩ := hown s (hperm.mem_iff.1 hs1)
    rw [hsi] at hsi0
    cases hsi0
    exact ⟨_, hsi1, hpl, rfl⟩

set_option maxRecDepth 1000000 in
/-- Witness for C35: Scenario A. -/
theorem SortInfosets_lists_witness :
    ∃ g, scenarioA = .ok g ∧ wellFormed g = true ∧ g.sortisets = true ∧
      ∃ g1 L, SortInfosets g = .ok g1 ∧ Nodes g = .ok L ∧
        ∀ pl p, g.playerRep pl = .ok p →
          ∃ p1 F B, g1.playerRep pl = .ok p1 ∧ p1.m_infosets.Perm p.m_infosets ∧
            p1.m_infosets.Nodup ∧ p1.m_infosets = F ++ B ∧
            (∀ s, s ∈ F ↔ s ∈ p.m_infosets ∧ ∃ n ∈ L, infosetOf g.nodes n = some s) ∧
            (∀ s ∈ F, ∀ t ∈ F, (F.indexOf s < F.indexOf t ↔
              L.findIdx (fun n => infosetOf g.nodes n == some s) <
                L.findIdx (fun n => infosetOf g.nodes n == some t))) ∧
            (∀ s ∈ F, emptyIn g.infosets s = false ∧ emptyIn g1.infosets s = false) ∧
            (∀ s ∈ B, emptyIn g.infosets s = true ∧ emptyIn g1.infosets s = true) ∧
            ∀ s ∈ p1.m_infosets, ∃ si1, deref g1.infosets s = .ok si1 ∧ si1.m_player = pl ∧
              si1.m_id = p1.m_infosets.indexOf s + 1 :=
  ⟨_, rfl, by decide, by decide, SortInfosets_lists _ (by decide) (by decide)⟩

theorem FreeFrom.not_own {nodes : List (Option Node)} {v u : Nat} (h : FreeFrom nodes v u) :
    ∃ y, deref nodes u = .ok y ∧ y.gameroot ≠ some u := by
  induction h with
  | here v y hy hg => exact ⟨y, hy, hg⟩
  | down v c u y _ _ _ _ ih => exact ih

theorem FreeFrom.head {nodes : List (Option Node)} {v u : Nat} (h : FreeFrom nodes v u) :
    ∃ y, deref nodes v = .ok y ∧ y.gameroot ≠ some v := by
  match h with
  | FreeFrom.here _ y hy hg => exact ⟨y, hy, hg⟩
  | FreeFrom.down _ _ _ y hy hg _ _ => exact ⟨y, hy, hg⟩

theorem FreeFrom.inv {nodes : List (Option Node)} {v u : Nat} (h : FreeFrom nodes v u) :
    u = v ∨ ∃ y c, deref nodes v = .ok y ∧ c ∈ y.children ∧ FreeFrom nodes c u := by
  match h with
  | FreeFrom.here _ _ _ _ => exact Or.inl rfl
  | FreeFrom.down _ c _ y hy _ hc hcu => exact Or.inr ⟨y, c, hy, hc, hcu⟩

/-- A node reached without meeting a subgame root lies in the subtree. -/
theorem FreeFrom.mem {nodes : List (Option Node)} {v u : Nat} (h : FreeFrom nodes v u) :
    ∀ (fuel : Nat) (l : List Nat), NDoChild nodes fuel v [] = .ok l → u ∈ l := by
  induction h with
  | here v y hy hg =>
    intro fuel l hl
    obtain ⟨t, ht⟩ := NDoChild_head hl
    rw [ht]
    exact List.mem_cons_self _ _
  | down v c u y hy hg hc _ ih =>
    intro fuel l hl
    cases fuel with
    | zero => cases hl
    | succ fuel =>
      obtain ⟨x, ls, hx, hF, e⟩ := NDoChild_ok nodes fuel v l hl
      rw [hy] at hx
      cases hx
      obtain ⟨k, hk⟩ := List.mem_iff_getElem?.1 hc
      obtain ⟨lc, hlc, hlsk⟩ := forall₂_getElem hF k c hk
      rw [e]
      exact List.mem_cons_of_mem _
        (List.mem_flatten.2 ⟨lc, List.mem_iff_getElem?.2 ⟨k, hlsk⟩, ih fuel lc hlc⟩)

theorem FreeFrom.congr {H H1 : List (Option Node)}
    (hk : ∀ u, childrenOf H1 u = childrenOf H u) (hr : ∀ u, isOwnRoot H1 u = isOwnRoot H u)
    {v u : Nat} (h : FreeFrom H v u) : FreeFrom H1 v u := by
  have key : ∀ w y, deref H w = .ok y → y.gameroot ≠ some w →
      ∃ y1, deref H1 w = .ok y1 ∧ y1.gameroot ≠ some w ∧ y1.children = y.children := by
    intro w y hy hg
    have h1 := hk w
    have h2 := hr w
    unfold childrenOf at h1
    unfold isOwnRoot at h2
    rw [hy] at h1 h2
    cases hd : deref H1 w with
    | error e => rw [hd] at h1; cases h1
    | ok y1 =>
      rw [hd] at h1 h2
      simp only [Except.map, Except.ok.injEq, decide_eq_decide] at h1 h2
      exact ⟨y1, rfl, fun e => hg (h2.1 e), h1⟩
  induction h with
  | here v y hy hg =>
    obtain ⟨y1, hy1, hg1, _⟩ := key v y hy hg
    exact FreeFrom.here v y1 hy1 hg1
  | down v c u y hy hg hc _ ih =>
    obtain ⟨y1, hy1, hg1, hch⟩ := key v y hy hg
    exact FreeFrom.down v c u y1 hy1 hg1 (by rw [hch]; exact hc) ih

theorem Marked.childrenOf_eq {base : Option Nat} {P : Nat → Prop} {st st1 : List (Option Node)}
    (h : Marked base P st st1) (u : Nat) : childrenOf st1 u = childrenOf st u := by
  unfold childrenOf
  by_cases hp : P u
  · rw [(h.2 u).1 hp]
    cases deref st u <;> rfl
  · rw [(h.2 u).2 hp]

theorem Marked.isOwnRoot_eq {base : Option Nat} {P : Nat → Prop} {st st1 : List (Option Node)}
    (h : Marked base P st st1) (u : Nat) (hb : base ≠ some u)
    (hP : P u → ∀ y, deref st u = .ok y → y.gameroot ≠ some u) :
    isOwnRoot st1 u = isOwnRoot st u := by
  unfold isOwnRoot
  by_cases hp : P u
  · rw [(h.2 u).1 hp]
    cases hd : deref st u with
    | error e => rfl
    | ok y =>
      have := hP hp y hd
      simp [Except.map, setRoot, hb, this]
  · rw [(h.2 u).2 hp]

theorem setRoot_twice (base : Option Nat) (r : Res Node) :
    (r.map (setRoot base)).map (setRoot base) = r.map (setRoot base) := by
  cases r <;> rfl

/-- Two walks in a row mark the nodes marked by either. -/
theorem Marked.then {base : Option Nat} {P Q : Nat → Prop} {st st1 st2 : List (Option Node)}
    (h1 : Marked base P st st1) (h2 : Marked base Q st1 st2) :
    Marked base (fun u => P u ∨ Q u) st st2 := by
  refine ⟨h2.1.trans h1.1, fun u => ⟨?_, ?_⟩⟩
  · intro hpq
    by_cases hq : Q u
    · rw [(h2.2 u).1 hq]
      by_cases hp : P u
      · rw [(h1.2 u).1 hp, setRoot_twice]
      · rw [(h1.2 u).2 hp]
    · rw [(h2.2 u).2 hq]
      rcases hpq with hp | hq1
      · exact (h1.2 u).1 hp
      · exact absurd hq1 hq
  · intro hpq
    rw [(h2.2 u).2 (fun hq => hpq (Or.inr hq)), (h1.2 u).2 (fun hp => hpq (Or.inl hp))]

theorem Marked.of_iff {base : Option Nat} {P Q : Nat → Prop} {st st1 : List (Option Node)}
    (h : Marked base P st st1) (hpq : ∀ u, P u ↔ Q u) : Marked base Q st st1 :=
  ⟨h.1, fun u => ⟨fun hq => (h.2 u).1 ((hpq u).2 hq), fun hq => (h.2 u).2 (fun hp => hq ((hpq u).1 hp))⟩⟩

/-- The loop over the children in `MarkSubgame(n, base)`, given what the walk
does from each child. -/
theorem MarkSubgameBase_children (base : Option Nat) (R : List (Option Node)) (fuel : Nat)
    (ih : ∀ (v : Nat) (l : List Nat), NDoChild R fuel v [] = .ok l →
      (∀ u ∈ l, base ≠ some u) →
      ∀ st : List (Option Node), (∀ u, childrenOf st u = childrenOf R u) →
        (∀ u ∈ l, isOwnRoot st u = isOwnRoot R u) →
        ∃ st1, MarkSubgameBase base fuel v st = .ok st1 ∧
          Marked base (fun u => FreeFrom R v u) st st1) :
    ∀ (cs : List Nat) (ls : List (List Nat)),
      List.Forall₂ (fun c lc => NDoChild R fuel c [] = .ok lc) cs ls →
      (∀ u ∈ ls.flatten, base ≠ some u) →
      ∀ st : List (Option Node), (∀ u, childrenOf st u = childrenOf R u) →
        (∀ u ∈ ls.flatten, isOwnRoot st u = isOwnRoot R u) →
        ∃ st1, cs.foldlM (fun st c => MarkSubgameBase base fuel c st) st = .ok st1 ∧
          Marked base (fun u => ∃ c ∈ cs, FreeFrom R c u) st st1 := by
  intro cs ls hF
  induction hF with
  | nil =>
    intro _ st _ _
    refine ⟨st, rfl, rfl, fun u => ⟨?_, fun _ => rfl⟩⟩
    rintro ⟨c, hc, _⟩
    cases hc
  | @cons c lc cs ls hc _ ihf =>
    intro hb st hk hr
    rw [List.flatten_cons] at hb hr
    obtain ⟨st1, e1, M1⟩ := ih c lc hc (fun u hu => hb u (List.mem_append_left _ hu)) st hk
      (fun u hu => hr u (List.mem_append_left _ hu))
    have hk1 : ∀ u, childrenOf st1 u = childrenOf R u := fun u =>
      (M1.childrenOf_eq u).trans (hk u)
    have hr1 : ∀ u ∈ ls.flatten, isOwnRoot st1 u = isOwnRoot R u := by
      intro u hu
      rw [← hr u (List.mem_append_right _ hu)]
      refine M1.isOwnRoot_eq u (hb u (List.mem_append_right _ hu)) ?_
      intro hp y hy hg
      obtain ⟨y0, hy0, hg0⟩ := hp.not_own
      have := hr u (List.mem_append_right _ hu)
      unfold isOwnRoot at this
      rw [hy, hy0] at this
      simp only [Except.map, Except.ok.injEq, decide_eq_decide] at this
      exact hg0 (this.1 hg)
    obtain ⟨st2, e2, M2⟩ := ihf (fun u hu => hb u (List.mem_append_right _ hu)) st1 hk1 hr1
    refine ⟨st2, ?_, (M1.then M2).of_iff (fun u => ?_)⟩
    · simp only [List.foldlM_cons, e1, ok_bind]
      exact e2
    · constructor
      · rintro (h | ⟨d, hd, h⟩)
        · exact ⟨c, List.mem_cons_self _ _, h⟩
        · exact ⟨d, List.mem_cons_of_mem _ hd, h⟩
      · rintro ⟨d, hd, h⟩
        rcases List.mem_cons.1 hd with e | e
        · subst e; exact Or.inl h
        · exact Or.inr ⟨d, e, h⟩

/-- The walk `MarkSubgame(v, base)` returns within the recursion budget of the
subtree of `v`, and gives the subgame root `base` to exactly the nodes reached
from `v` without meeting a node that is its own subgame root. -/
theorem MarkSubgameBase_marks (base : Option Nat) (R : List (Option Node)) :
    ∀ (fuel v : Nat) (l : List Nat), NDoChild R fuel v [] = .ok l →
      (∀ u ∈ l, base ≠ some u) →
      ∀ st : List (Option Node), (∀ u, childrenOf st u = childrenOf R u) →
        (∀ u ∈ l, isOwnRoot st u = isOwnRoot R u) →
        ∃ st1, MarkSubgameBase base fuel v st = .ok st1 ∧
          Marked base (fun u => FreeFrom R v u) st st1 := by
  intro fuel
  induction fuel with
  | zero => intro v l h; cases h
  | succ fuel ih =>
    intro v l h hb st hk hr
    obtain ⟨x, ls, hx, hF, hl⟩ := NDoChild_ok R fuel v l h
    subst hl
    have hvno : v ∉ ls.flatten := by
      have hc := Subtree.count_self ⟨fuel + 1, h⟩
      intro hin
      have := List.count_pos_iff.2 hin
      simp only [List.count_cons_self] at hc
      omega
    obtain ⟨x1, hx1, hch⟩ : ∃ x1, deref st v = .ok x1 ∧ x1.children = x.children := by
      have := hk v
      rw [(childrenOf_eq_ok R v x.children).2 ⟨x, hx, rfl⟩] at this
      exact (childrenOf_eq_ok st v x.children).1 this
    have hown : x1.gameroot = some v ↔ x.gameroot = some v := by
      have := hr v (List.mem_cons_self _ _)
      unfold isOwnRoot at this
      rw [hx, hx1] at this
      simpa [Except.map] using this
    simp only [MarkSubgameBase, hx1, ok_bind]
    by_cases hg : x1.gameroot = some v
    · rw [if_pos hg]
      refine ⟨st, rfl, rfl, fun u => ⟨fun hp => ?_, fun _ => rfl⟩⟩
      obtain ⟨y, hy, hgy⟩ := hp.head
      rw [hx] at hy
      cases hy
      exact absurd (hown.1 hg) hgy
    · rw [if_neg hg]
      have hgx : x.gameroot ≠ some v := fun e => hg (hown.2 e)
      have hk0 : ∀ u, childrenOf (store st v { x1 with gameroot := base }) u = childrenOf R u :=
        fun u => (@childrenOf_store st v x1 { x1 with gameroot := base } hx1 rfl u).trans (hk u)
      have hr0 : ∀ u ∈ ls.flatten,
          isOwnRoot (store st v { x1 with gameroot := base }) u = isOwnRoot R u := by
        intro u hu
        have hne : v ≠ u := fun e => hvno (e ▸ hu)
        unfold isOwnRoot
        rw [deref_store_ne _ _ hne]
        exact hr u (List.mem_cons_of_mem _ hu)
      have hF1 : List.Forall₂ (fun c lc => NDoChild R fuel c [] = .ok lc) x1.children ls := by
        rw [hch]; exact hF
      obtain ⟨st1, e1, M0⟩ := MarkSubgameBase_children base R fuel ih x1.children ls hF1
        (fun u hu => hb u (List.mem_cons_of_mem _ hu)) _ hk0 hr0
      have M1 : Marked base (fun u => ∃ c ∈ x.children, FreeFrom R c u)
          (store st v { x1 with gameroot := base }) st1 := M0.of_iff (fun u => by rw [hch])
      refine ⟨st1, e1, ?_, fun u => ⟨?_, ?_⟩⟩
      · rw [M1.1, store_length]
      · intro hp
        rcases hp.inv with e | ⟨y, c, hy, hc, hcu⟩
        · subst e
          have hno : ¬ ∃ c ∈ x.children, FreeFrom R c u := by
            rintro ⟨c, hc, hcu⟩
            obtain ⟨k, hk1⟩ := List.mem_iff_getElem?.1 hc
            obtain ⟨lc, hlc, hlsk⟩ := forall₂_getElem hF k c hk1
            exact hvno (List.mem_flatten.2 ⟨lc, List.mem_iff_getElem?.2 ⟨k, hlsk⟩,
              hcu.mem fuel lc hlc⟩)
          rw [(M1.2 u).2 hno, deref_store_self _ (deref_lt hx1), hx1]
          rfl
        · rw [hx] at hy
          cases hy
          have hne : v ≠ u := by
            intro e
            obtain ⟨k, hk1⟩ := List.mem_iff_getElem?.1 hc
            obtain ⟨lc, hlc, hlsk⟩ := forall₂_getElem hF k c hk1
            exact hvno (e ▸ List.mem_flatten.2 ⟨lc, List.mem_iff_getElem?.2 ⟨k, hlsk⟩,
              hcu.mem fuel lc hlc⟩)
          rw [(M1.2 u).1 ⟨c, hc, hcu⟩, deref_store_ne _ _ hne]
      · intro hp
        have hno : ¬ ∃ c ∈ x.children, FreeFrom R c u := by
          rintro ⟨c, hc, hcu⟩
          exact hp (FreeFrom.down v c u x hx hgx hc hcu)
        have hne : v ≠ u := by
          intro e
          subst e
          exact hp (FreeFrom.here v x hx hgx)
        rw [(M1.2 u).2 hno, deref_store_ne _ _ hne]
/-- What a successful `IsLegalSubgame(n)` leaves behind: the nodes of the subtree
of `n` carry the mark `n`, nothing else differs. -/
theorem IsLegalSubgame_true {g g1 : efgGame} {n : Nat} {T : List Nat}
    (hT : NDoChild g.nodes g.nodes.length n [] = .ok T)
    (h : IsLegalSubgame g n = .ok (g1, true)) :
    g1 = { g with nodes := updAll (setPtr n) T g.nodes } := by
  have hmark := visit_eq (setPtr n) (fun _ => rfl) g.nodes.length n g.nodes T hT
  rw [← MarkTree_eq_visit_setPtr] at hmark
  unfold IsLegalSubgame at h
  rw [bind_eq_ok] at h
  obtain ⟨x, hx, h⟩ := h
  by_cases h0 : x.children.length = 0
  · rw [if_pos h0] at h
    cases h
  · rw [if_neg h0, hmark, ok_bind, bind_eq_ok] at h
    obtain ⟨r, _, h⟩ := h
    cases h
    rfl

/-- C38: let `n` be a node that is not its own subgame root, whose subtree walk
ends within the size of the node heap, and for which `IsLegalSubgame(n)` returns
`true`.  Then `MarkSubgame(n)` returns `true`; afterwards `n` is its own subgame
root; every other node `d` that is a descendant of `n` with no node that is its
own subgame root on the path from `n` (exclusive) to `d` (inclusive) has the
subgame root `n`; every other node keeps the subgame root it had; and no child
list changes. -/
theorem MarkSubgame_spec (g g1 : efgGame) (n : Nat) (x : Node) (T : List Nat)
    (hn : deref g.nodes n = .ok x) (hown : x.gameroot ≠ some n)
    (hT : NDoChild g.nodes g.nodes.length n [] = .ok T)
    (hlegal : IsLegalSubgame g n = .ok (g1, true)) :
    ∃ g2, MarkSubgame g n = .ok (g2, true) ∧
      (∃ x2, deref g2.nodes n = .ok x2 ∧ x2.gameroot = some n) ∧
      (∀ d y, d ≠ n → deref g.nodes d = .ok y →
        ∃ y2, deref g2.nodes d = .ok y2 ∧
          (FreeBelow g.nodes n d → y2.gameroot = some n) ∧
          (¬ FreeBelow g.nodes n d → y2.gameroot = y.gameroot)) ∧
      ∀ d, childrenOf g2.nodes d = childrenOf g.nodes d := by
  have hg1 := IsLegalSubgame_true hT hlegal
  have hd := deref_updAll (setPtr n) (fun _ => rfl) T g.nodes
  have hlen := updAll_length (setPtr n) T g.nodes
  have hkids := childrenOf_updAll (setPtr n) (fun _ => rfl) T g.nodes
  obtain ⟨N1, hN1⟩ : ∃ N1, N1 = updAll (setPtr n) T g.nodes := ⟨_, rfl⟩
  rw [← hN1] at hg1 hd hlen hkids
  have hnlt : n < g.nodes.length := deref_lt hn
  obtain ⟨f, hf⟩ : ∃ f, g.nodes.length = f + 1 := ⟨g.nodes.length - 1, by omega⟩
  rw [hf] at hT
  obtain ⟨x0, ls, hx0, hF, hl⟩ := NDoChild_ok g.nodes f n T hT
  rw [hn] at hx0
  cases hx0
  have hnT : n ∈ T := by rw [hl]; exact List.mem_cons_self _ _
  have hvno : n ∉ ls.flatten := by
    have hc := Subtree.count_self ⟨f + 1, hT⟩
    intro hin
    have := List.count_pos_iff.2 hin
    rw [hl] at hc
    simp only [List.count_cons_self] at hc
    omega
  have hy : deref N1 n = .ok (setPtr n x) := by
    rw [hd n, if_pos hnT, hn]
    rfl
  have hn1lt : n < N1.length := deref_lt hy
  obtain ⟨st0, hst0⟩ : ∃ st0, st0 = store (store N1 n (setRoot none (setPtr n x))) n
      (setRoot (some n) (setRoot none (setPtr n x))) := ⟨_, rfl⟩
  have hk0 : ∀ u, childrenOf st0 u = childrenOf g.nodes u := by
    intro u
    have h1 : deref (store N1 n (setRoot none (setPtr n x))) n =
        .ok (setRoot none (setPtr n x)) := deref_store_self _ hn1lt
    rw [hst0, @childrenOf_store _ n _ (setRoot (some n) (setRoot none (setPtr n x))) h1 rfl u,
      @childrenOf_store _ n _ (setRoot none (setPtr n x)) hy rfl u]
    exact hkids u
  have hst0d : ∀ u, u ≠ n → deref st0 u = deref N1 u := by
    intro u hu
    rw [hst0, deref_store_ne _ _ (Ne.symm hu), deref_store_ne _ _ (Ne.symm hu)]
  have hr0 : ∀ u ∈ ls.flatten, isOwnRoot st0 u = isOwnRoot g.nodes u := by
    intro u hu
    have hne : u ≠ n := fun e => hvno (e ▸ hu)
    unfold isOwnRoot
    rw [hst0d u hne, hd u]
    by_cases huT : u ∈ T
    · rw [if_pos huT]
      cases deref g.nodes u <;> rfl
    · rw [if_neg huT]
  obtain ⟨st1, e1, M⟩ := MarkSubgameBase_children (some n) g.nodes f
    (MarkSubgameBase_marks (some n) g.nodes f) x.children ls hF
    (fun u hu e => hvno (by injection e with e; rw [e]; exact hu)) st0 hk0 hr0
  have hPn : ∀ u, (∃ c ∈ x.children, FreeFrom g.nodes c u) ↔ FreeBelow g.nodes n u := by
    intro u
    constructor
    · rintro ⟨c, hc, h⟩
      exact ⟨x, c, hn, hc, h⟩
    · rintro ⟨x', c, hx', hc, h⟩
      rw [hn] at hx'
      cases hx'
      exact ⟨c, hc, h⟩
  have hPmem : ∀ u, FreeBelow g.nodes n u → u ∈ ls.flatten := by
    rintro u ⟨x', c, hx', hc, h⟩
    rw [hn] at hx'
    cases hx'
    obtain ⟨k, hk1⟩ := List.mem_iff_getElem?.1 hc
    obtain ⟨lc, hlc, hlsk⟩ := forall₂_getElem hF k c hk1
    exact List.mem_flatten.2 ⟨lc, List.mem_iff_getElem?.2 ⟨k, hlsk⟩, h.mem f lc hlc⟩
  have M1 := M.of_iff hPn
  have hst0n : deref st0 n = .ok (setRoot (some n) (setRoot none (setPtr n x))) := by
    rw [hst0]
    exact deref_store_self _ (by rw [store_length]; exact hn1lt)
  refine ⟨{ g1 with nodes := st1 }, ?_, ?_, ?_, ?_⟩
  · have hrun : MarkSubgameBase (some n) (f + 1) n
        (store N1 n (setRoot none (setPtr n x))) = .ok st1 := by
      have h1 : deref (store N1 n (setRoot none (setPtr n x))) n =
          .ok (setRoot none (setPtr n x)) := deref_store_self _ hn1lt
      simp only [MarkSubgameBase, h1, ok_bind]
      rw [if_neg (by simp [setRoot])]
      rw [hst0] at e1
      exact e1
    have hg1n : g1.nodes = N1 := by rw [hg1]
    have hrun2 : MarkSubgameBase (some n) (store N1 n (setRoot none (setPtr n x))).length n
        (store N1 n (setRoot none (setPtr n x))) = .ok st1 := by
      rw [store_length, hlen, hf]
      exact hrun
    simp only [MarkSubgame, hn, ok_bind, if_neg hown, hlegal, if_true, hg1n, hy]
    exact (congrArg (fun r => r >>= fun nodes2 =>
      (pure ({ g1 with nodes := nodes2 }, true) : Res (efgGame × Bool))) hrun2)
  · refine ⟨setRoot (some n) (setRoot none (setPtr n x)), ?_, rfl⟩
    show deref st1 n = _
    rw [(M1.2 n).2 (fun h => hvno (hPmem n h)), hst0n]
  · intro d y hdn hdy
    have h0 : deref st0 d = .ok (if d ∈ T then setPtr n y else y) := by
      rw [hst0d d hdn, hd d, hdy]
      by_cases hdT : d ∈ T <;> simp [hdT, Except.map]
    by_cases hp : FreeBelow g.nodes n d
    · refine ⟨setRoot (some n) (if d ∈ T then setPtr n y else y), ?_, fun _ => rfl,
        fun h => absurd hp h⟩
      show deref st1 d = _
      rw [(M1.2 d).1 hp, h0]
      rfl
    · refine ⟨if d ∈ T then setPtr n y else y, ?_, fun h => absurd h hp, fun _ => ?_⟩
      · show deref st1 d = _
        rw [(M1.2 d).2 hp, h0]
      · by_cases hdT : d ∈ T <;> simp [hdT, setPtr]
  · intro d
    show childrenOf st1 d = _
    rw [M1.childrenOf_eq d, hk0 d]

set_option maxRecDepth 1000000 in
/-- Witness for C38: the node `a` of `subgameMix`, below which `a1` is a subgame
root already and `a2` is not. -/
theorem MarkSubgame_spec_witness :
    ∃ g a a1 a2 x T g1, subgameMix = .ok (g, a, a1, a2) ∧ deref g.nodes a = .ok x ∧
      x.gameroot ≠ some a ∧ NDoChild g.nodes g.nodes.length a [] = .ok T ∧
      IsLegalSubgame g a = .ok (g1, true) ∧
      ∃ g2, MarkSubgame g a = .ok (g2, true) ∧
        (∃ x2, deref g2.nodes a = .ok x2 ∧ x2.gameroot = some a) ∧
        (∀ d y, d ≠ a → deref g.nodes d = .ok y →
          ∃ y2, deref g2.nodes d = .ok y2 ∧
            (FreeBelow g.nodes a d → y2.gameroot = some a) ∧
            (¬ FreeBelow g.nodes a d → y2.gameroot = y.gameroot)) ∧
        ∀ d, childrenOf g2.nodes d = childrenOf g.nodes d :=
  ⟨_, _, _, _, _, _, _, rfl, rfl, by decide, rfl, rfl,
    MarkSubgame_spec _ _ _ _ _ rfl (by decide) rfl rfl⟩

theorem renderAll_append (esc : String → String) (num : ℚ → String) (acts : Infoset → String) :
    ∀ (a b : List Piece),
      renderAll esc num acts (a ++ b) = renderAll esc num acts a ++ renderAll esc num acts b := by
  intro a
  induction a with
  | nil => intro b; simp [renderAll]
  | cons p a ih =>
    intro b
    show p.render esc num acts ++ renderAll esc num acts (a ++ b) =
      (p.render esc num acts ++ renderAll esc num acts a) ++ renderAll esc num acts b
    rw [ih, String.append_assoc]

set_option maxRecDepth 1000000 in
/-- C32 (failing input): the root of `chanceQuoted` is a chance node named `a"b`.
`WriteEfgFile` writes the name as it is, not through `EscapeQuotes`, so the text
holds `c "a"b" ` whatever the escaping function does; the title, the comment, the
infoset label and the name of the terminal node are passed through it. -/
theorem WriteEfgFile_chance_name_raw :
    ∃ g x s si f, chanceQuoted = .ok g ∧ deref g.nodes g.root = .ok x ∧
      x.name = "a\"b" ∧ x.children.length = 1 ∧ x.infoset = some s ∧
      deref g.infosets s = .ok si ∧ si.m_player = 0 ∧
      (WriteEfgFile g).map Prod.fst = .ok f ∧
      f = [.lit "EFG 2 R", .lit " \"", .escaped "UNTITLED", .lit "\" \x7b ", .lit "\x7d\n",
          .lit "\"", .escaped "", .lit "\"\n\n"] ++
        [.lit "c \"", .raw "a\"b", .lit "\" "] ++
        [.int 1, .lit " \"", .escaped "", .lit "\" ", .actions si, .lit " ", .lit "0\n",
          .lit "t \"", .escaped "", .lit "\" ", .lit "0\n"] ∧
      Piece.escaped "a\"b" ∉ f ∧
      ∀ (esc : String → String) (num : ℚ → String) (acts : Infoset → String),
        ∃ t u, renderAll esc num acts f = t ++ "c \"a\"b\" " ++ u := by
  refine ⟨_, _, _, ⟨1, 0, "", [⟨0, 1, ""⟩], [0], [0]⟩,
    [.lit "EFG 2 R", .lit " \"", .escaped "UNTITLED", .lit "\" \x7b ", .lit "\x7d\n",
          .lit "\"", .escaped "", .lit "\"\n\n"] ++
        [.lit "c \"", .raw "a\"b", .lit "\" "] ++
        [.int 1, .lit " \"", .escaped "", .lit "\" ",
          .actions ⟨1, 0, "", [⟨0, 1, ""⟩], [0], [0]⟩, .lit " ", .lit "0\n",
          .lit "t \"", .escaped "", .lit "\" ", .lit "0\n"],
    rfl, rfl, by decide, by decide, rfl, rfl, by decide, by decide,
    rfl, by decide, fun esc num acts =>
      ⟨renderAll esc num acts [.lit "EFG 2 R", .lit " \"", .escaped "UNTITLED", .lit "\" \x7b ",
          .lit "\x7d\n", .lit "\"", .escaped "", .lit "\"\n\n"],
        renderAll esc num acts [.int 1, .lit " \"", .escaped "", .lit "\" ",
          .actions ⟨1, 0, "", [⟨0, 1, ""⟩], [0], [0]⟩, .lit " ", .lit "0\n",
          .lit "t \"", .escaped "", .lit "\" ", .lit "0\n"], ?_⟩⟩
  rw [renderAll_append, renderAll_append]
  congr 2

set_option maxRecDepth 1000000 in
/-- C33 (failing input): in a game without players whose root is a terminal node
with an outcome, `WriteEfgFile` writes for the root `t "" 1 "" { ` and nothing
more: the loop over the players, whose last round writes ` }` and the newline,
has no round, so the record is neither closed nor ended by a newline. -/
theorem WriteEfgFile_no_players_open_record :
    ∃ g x o f, noPlayersOutcome = .ok g ∧ NumPlayers g = 0 ∧ Nodes g = .ok [g.root] ∧
      deref g.nodes g.root = .ok x ∧ x.children = [] ∧ x.outcome = some o ∧
      (WriteEfgFile g).map Prod.fst = .ok f ∧
      f = [.lit "EFG 2 R", .lit " \"", .escaped "UNTITLED", .lit "\" \x7b ", .lit "\x7d\n",
          .lit "\"", .escaped "", .lit "\"\n\n"] ++
        [.lit "t \"", .escaped "", .lit "\" ", .int 1, .lit " \"", .escaped "", .lit "\" ",
          .lit "\x7b "] ∧
      Piece.lit " \x7d\n" ∉ f ∧
      ∀ (esc : String → String) (num : ℚ → String) (acts : Infoset → String),
        ∃ t, renderAll esc num acts f = t ++ "\" \x7b " := by
  refine ⟨_, _, _,
    [.lit "EFG 2 R", .lit " \"", .escaped "UNTITLED", .lit "\" \x7b ", .lit "\x7d\n",
          .lit "\"", .escaped "", .lit "\"\n\n"] ++
        [.lit "t \"", .escaped "", .lit "\" ", .int 1, .lit " \"", .escaped "", .lit "\" ",
          .lit "\x7b "],
    rfl, by decide, by decide, rfl, by decide, rfl, by decide, rfl,
    by decide, fun esc num acts =>
      ⟨renderAll esc num acts ([.lit "EFG 2 R", .lit " \"", .escaped "UNTITLED", .lit "\" \x7b ",
          .lit "\x7d\n", .lit "\"", .escaped "", .lit "\"\n\n"] ++
        [.lit "t \"", .escaped "", .lit "\" ", .int 1, .lit " \"", .escaped ""]), ?_⟩⟩
  exact (renderAll_append esc num acts
    ([.lit "EFG 2 R", .lit " \"", .escaped "UNTITLED", .lit "\" \x7b ", .lit "\x7d\n",
      .lit "\"", .escaped "", .lit "\"\n\n"] ++
        [.lit "t \"", .escaped "", .lit "\" ", .int 1, .lit " \"", .escaped ""])
    [.lit "\" ", .lit "\x7b "]).trans (congrArg (_ ++ ·) rfl)

theorem Held.noop {g : efgGame} : Held g g := ⟨Eq.refl _, Eq.refl _⟩

theorem Held.seq {a b c : efgGame} (h1 : Held a b) (h2 : Held b c) : Held a c :=
  ⟨h2.1.trans h1.1, h2.2.trans h1.2⟩

theorem Held.asKept {a b : efgGame} (h : Held a b) : Kept a b :=
  ⟨by rw [h.1], fun hd => by rw [h.2, hd]⟩

theorem Stamped.toKept {a b : efgGame} (h : Stamped a b) : Kept a b :=
  ⟨Nat.le_of_lt h.1, fun _ => h.2⟩

theorem Kept.idle {g : efgGame} : Kept g g := ⟨Nat.le_refl _, fun h => h⟩

theorem Kept.follow {a b c : efgGame} (h1 : Kept a b) (h2 : Kept b c) : Kept a c :=
  ⟨Nat.le_trans h1.1 h2.1, fun h => h2.2 (h1.2 h)⟩

theorem Stamped.after {a b c : efgGame} (h1 : Stamped a b) (h2 : Kept b c) : Stamped a c :=
  ⟨Nat.lt_of_lt_of_le h1.1 h2.1, h2.2 h1.2⟩

/-- The statements `m_revision++; m_dirty = true;`. -/
theorem Stamped.bump (g : efgGame) :
    Stamped g { g with m_revision := g.m_revision + 1, m_dirty := true } :=
  ⟨Nat.lt_succ_self _, rfl⟩

theorem setPlayerRep_held (g : efgGame) (pl : Nat) (x : Player) :
    Held g (g.setPlayerRep pl x) := by
  unfold efgGame.setPlayerRep
  split <;> exact ⟨rfl, rfl⟩

theorem CreateInfoset_held {g g1 : efgGame} {n p br s : Nat}
    (h : CreateInfoset g n p br = .ok (g1, s)) : Held g g1 := by
  unfold CreateInfoset at h
  rw [bind_eq_ok] at h
  obtain ⟨player, _, h⟩ := h
  cases h
  exact Held.seq ⟨rfl, rfl⟩ (setPlayerRep_held _ _ _)

theorem sortPlayer_held {g g1 : efgGame} {pl : Nat}
    (h : SortInfosets.sortPlayer g pl = .ok g1) : Held g g1 := by
  unfold SortInfosets.sortPlayer at h
  simp only [bind_eq_ok] at h
  obtain ⟨_, _, _, _, _, _, _, _, ⟨_, _, _⟩, _, h⟩ := h
  cases h
  exact Held.seq ⟨rfl, rfl⟩ (setPlayerRep_held _ _ _)

theorem sortPlayers_held : ∀ (k pl : Nat) (g g1 : efgGame),
    SortInfosets.sortPlayers k pl g = .ok g1 → Held g g1 := by
  intro k
  induction k with
  | zero => intro pl g g1 h; cases h; exact Held.noop
  | succ k ih =>
    intro pl g g1 h
    simp only [SortInfosets.sortPlayers, bind_eq_ok] at h
    obtain ⟨g2, h2, h⟩ := h
    exact (sortPlayer_held h2).seq (ih _ _ _ h)

theorem SortInfosets_held {g g1 : efgGame} (h : SortInfosets g = .ok g1) : Held g g1 := by
  unfold SortInfosets at h
  split at h
  · cases h; exact Held.noop
  · simp only [bind_eq_ok] at h
    obtain ⟨g2, h2, _, _, _, _, ⟨_, _⟩, _, h⟩ := h
    cases h
    exact (sortPlayers_held _ _ _ _ h2).seq ⟨rfl, rfl⟩

/-- The tail `DeleteLexicon(); SortInfosets();` of the editing operations. -/
theorem sorted_held {g g1 : efgGame} (h : SortInfosets (DeleteLexicon g) = .ok g1) :
    Held g g1 :=
  Held.seq (show Held g (DeleteLexicon g) from ⟨rfl, rfl⟩) (SortInfosets_held h)

theorem Reindex_held {g g1 : efgGame} (h : Reindex g = .ok g1) : Held g g1 := by
  unfold Reindex at h
  simp only [bind_eq_ok] at h
  obtain ⟨_, _, _, _, h⟩ := h
  cases h
  exact ⟨rfl, rfl⟩

theorem replaceInParent_held {g g1 : efgGame} {parent : Option Nat} {n m : Nat}
    (h : replaceInParent g parent n m = .ok g1) : Held g g1 := by
  unfold replaceInParent at h
  split at h
  · simp only [bind_eq_ok] at h
    obtain ⟨_, _, _, _, h⟩ := h
    cases h
    exact ⟨rfl, rfl⟩
  · cases h
    exact ⟨rfl, rfl⟩

/-- An operation that ends with `DeleteLexicon(); SortInfosets();` after the
counter was advanced. -/
theorem Stamped.resorted {g g2 g3 : efgGame} (h2 : Stamped g g2)
    (h : SortInfosets (DeleteLexicon g2) = .ok g3) : Stamped g g3 :=
  h2.after (sorted_held h).asKept

theorem NewPlayer_stamped {g g1 : efgGame} {r : Nat} (h : NewPlayer g = .ok (g1, r)) :
    Stamped g g1 := by
  unfold NewPlayer at h
  simp only [bind_eq_ok] at h
  obtain ⟨_, _, h⟩ := h
  cases h
  exact ⟨Nat.lt_succ_self _, rfl⟩

theorem NewOutcome_stamped (g : efgGame) : Stamped g (NewOutcome g).1 :=
  ⟨Nat.lt_succ_of_lt (Nat.lt_succ_self _), rfl⟩

theorem DeleteOutcome_stamped {g g1 : efgGame} {o : Nat} (h : DeleteOutcome g o = .ok g1) :
    Stamped g g1 := by
  unfold DeleteOutcome at h
  simp only [bind_eq_ok] at h
  obtain ⟨_, _, ⟨_, _⟩, _, h⟩ := h
  cases h
  exact ⟨Nat.lt_succ_self _, rfl⟩

theorem SetPayoff_touch {g g1 : efgGame} {o : Option Nat} {pl : Nat} {v : ℚ}
    (h : SetPayoff g o pl v = .ok g1) : g1 = g ∨ Stamped g g1 := by
  unfold SetPayoff at h
  split at h
  · cases h; exact Or.inl rfl
  · simp only [bind_eq_ok] at h
    obtain ⟨_, _, _, _, h⟩ := h
    cases h
    exact Or.inr ⟨Nat.lt_succ_self _, rfl⟩

theorem SetChanceProb_touch {g g1 : efgGame} {s act : Nat} {v : ℚ}
    (h : SetChanceProb g s act v = .ok g1) : g1 = g ∨ Stamped g g1 := by
  unfold SetChanceProb at h
  simp only [bind_eq_ok] at h
  obtain ⟨si, _, h⟩ := h
  split at h
  · simp only [bind_eq_ok] at h
    obtain ⟨_, _, h⟩ := h
    cases h
    exact Or.inr ⟨Nat.lt_succ_self _, rfl⟩
  · cases h; exact Or.inl rfl

theorem CreateInfosetPublic_stamped {g g1 : efgGame} {p : Option Nat} {br s : Nat}
    (h : CreateInfosetPublic g p br = .ok (g1, s)) : Stamped g g1 := by
  unfold CreateInfosetPublic at h
  split at h
  · cases h
  · simp only [bind_eq_ok] at h
    obtain ⟨_, _, h⟩ := h
    exact (Stamped.bump g).after (CreateInfoset_held h).asKept

theorem DeleteEmptyInfoset_touch {g g1 : efgGame} {s : Option Nat} {b : Bool}
    (h : DeleteEmptyInfoset g s = .ok (g1, b)) : g1 = g ∨ Stamped g g1 := by
  unfold DeleteEmptyInfoset at h
  split at h
  · cases h
  · simp only [bind_eq_ok] at h
    obtain ⟨si, _, h⟩ := h
    split at h
    · cases h; exact Or.inl rfl
    · simp only [bind_eq_ok] at h
      obtain ⟨_, _, ⟨_, _⟩, _, h⟩ := h
      cases h
      refine Or.inr ((Stamped.bump g).after (Held.asKept ?_))
      exact Held.seq (setPlayerRep_held _ _ _) ⟨rfl, rfl⟩

theorem Stamped.of {a b c : efgGame} (hk : Held b c) (hs : Stamped a b) : Stamped a c :=
  hs.after hk.asKept

theorem AppendNode_stamped {g g1 : efgGame} {n p r : Option Nat} {count : Int}
    (h : AppendNode g n p count = .ok (g1, r)) : Stamped g g1 := by
  unfold AppendNode at h
  split at h
  · split at h
    · cases h
    · rw [bind_eq_ok] at h
      obtain ⟨x, _, h⟩ := h
      split at h
      · split at h
        · cases h
        · simp only [bind_eq_ok, pure_eq_ok, ok_bind] at h
          obtain ⟨_, _, ⟨ga, s⟩, hc, _, _, _, _, g3, h3, _, _, h⟩ := h
          cases h
          refine Stamped.of (sorted_held h3) (show Stamped g ga from ?_)
          exact Stamped.of (CreateInfoset_held hc) ⟨Nat.lt_succ_self _, rfl⟩
      · simp only [bind_eq_ok, pure_eq_ok, ok_bind] at h
        obtain ⟨g3, h3, _, _, h⟩ := h
        cases h
        exact Stamped.of (sorted_held h3) ⟨Nat.lt_succ_self _, rfl⟩
  · cases h

theorem InsertNode_stamped {g g1 : efgGame} {n p r : Option Nat} {count : Int}
    (h : InsertNode g n p count = .ok (g1, r)) : Stamped g g1 := by
  unfold InsertNode at h
  split at h
  · split at h
    · cases h
    · simp only [bind_eq_ok, pure_eq_ok, ok_bind] at h
      obtain ⟨x, _, ⟨nodes1, m⟩, _, _, _, ⟨ga, s⟩, hc, _, _, _, _, gc, hr, _, _, _, _, _, _,
        g3, h3, _, _, h⟩ := h
      cases h
      refine Stamped.of (sorted_held h3) (show Stamped g gc from ?_)
      refine Stamped.of (replaceInParent_held hr) (show Stamped g ga from ?_)
      exact Stamped.of (CreateInfoset_held hc) ⟨Nat.lt_succ_self _, rfl⟩
  · cases h

theorem InsertNodeInfoset_touch {g g1 : efgGame} {n s r : Option Nat}
    (h : InsertNodeInfoset g n s = .ok (g1, r)) : g1 = g ∨ Stamped g g1 := by
  unfold InsertNodeInfoset at h
  split at h
  · simp only [bind_eq_ok, pure_eq_ok, ok_bind] at h
    obtain ⟨x, _, si, _, h⟩ := h
    split at h
    · simp only [bind_eq_ok] at h
      obtain ⟨m1, _, y, _, h⟩ := h
      split at h
      · cases h; exact Or.inl rfl
      · simp only [bind_eq_ok] at h
        obtain ⟨⟨nodes1, m⟩, _, xm, _, gc, hr, ym, _, yn, _, sj, _, h⟩ := h
        split at h
        · cases h
        · simp only [bind_eq_ok] at h
          obtain ⟨nodes4, _, g3, h3, y, _, h⟩ := h
          cases h
          refine Or.inr (Stamped.of (sorted_held h3) (show Stamped g gc from ?_))
          exact Stamped.of (replaceInParent_held hr) ⟨Nat.lt_succ_self _, rfl⟩
    · simp only [Bool.false_eq_true, if_false, bind_eq_ok] at h
      obtain ⟨⟨nodes1, m⟩, _, xm, _, gc, hr, ym, _, yn, _, sj, _, h⟩ := h
      split at h
      · cases h
      · simp only [bind_eq_ok] at h
        obtain ⟨nodes4, _, g3, h3, y, _, h⟩ := h
        cases h
        refine Or.inr (Stamped.of (sorted_held h3) (show Stamped g gc from ?_))
        exact Stamped.of (replaceInParent_held hr) ⟨Nat.lt_succ_self _, rfl⟩
  · cases h

/-- What `AppendNode(n, s)` does to the counter: nothing happens at all, or the
counter advances, or (for a node that has children already) only the lexicon is
dropped and the infosets are sorted. -/
theorem AppendNodeInfoset_touch {g g1 : efgGame} {n s r : Option Nat}
    (h : AppendNodeInfoset g n s = .ok (g1, r)) :
    g1 = g ∨ Stamped g g1 ∨ SortInfosets (DeleteLexicon g) = .ok g1 := by
  unfold AppendNodeInfoset at h
  split at h
  · simp only [bind_eq_ok, pure_eq_ok, ok_bind] at h
    obtain ⟨x, _, si, _, h⟩ := h
    split at h
    · simp only [bind_eq_ok] at h
      obtain ⟨m1, _, y, _, h⟩ := h
      split at h
      · cases h; exact Or.inl rfl
      · split at h
        · simp only [bind_eq_ok] at h
          obtain ⟨nodes, _, g3, h3, h⟩ := h
          cases h
          exact Or.inr (Or.inl (Stamped.of (sorted_held h3) ⟨Nat.lt_succ_self _, rfl⟩))
        · simp only [bind_eq_ok] at h
          obtain ⟨g3, h3, h⟩ := h
          cases h
          exact Or.inr (Or.inr h3)
    · simp only [Bool.false_eq_true, if_false] at h
      split at h
      · simp only [bind_eq_ok] at h
        obtain ⟨nodes, _, g3, h3, h⟩ := h
        cases h
        exact Or.inr (Or.inl (Stamped.of (sorted_held h3) ⟨Nat.lt_succ_self _, rfl⟩))
      · simp only [bind_eq_ok] at h
        obtain ⟨g3, h3, h⟩ := h
        cases h
        exact Or.inr (Or.inr h3)
  · cases h

theorem AppendNodeInfoset_kept {g g1 : efgGame} {n s r : Option Nat}
    (h : AppendNodeInfoset g n s = .ok (g1, r)) : Kept g g1 := by
  rcases AppendNodeInfoset_touch h with e | e | e
  · rw [e]; exact Kept.idle
  · exact e.toKept
  · exact (sorted_held e).asKept

theorem JoinInfoset_touch {g g1 : efgGame} {n s r : Option Nat}
    (h : JoinInfoset g s n = .ok (g1, r)) : g1 = g ∨ Stamped g g1 := by
  unfold JoinInfoset at h
  split at h
  · simp only [bind_eq_ok, pure_eq_ok, ok_bind] at h
    obtain ⟨x, _, si, _, h⟩ := h
    split at h
    · simp only [bind_eq_ok] at h
      obtain ⟨m1, _, y, _, h⟩ := h
      split at h
      · cases h; exact Or.inl rfl
      · split at h
        · cases h; exact Or.inl rfl
        · split at h
          · cases h; exact Or.inl rfl
          · split at h
            · cases h; exact Or.inl rfl
            · simp only [bind_eq_ok] at h
              obtain ⟨ti, _, _, _, si1, _, g3, h3, h⟩ := h
              cases h
              exact Or.inr (Stamped.of (sorted_held h3) ⟨Nat.lt_succ_self _, rfl⟩)
    · simp only [Bool.false_eq_true, if_false] at h
      split at h
      · cases h; exact Or.inl rfl
      · split at h
        · cases h; exact Or.inl rfl
        · split at h
          · cases h; exact Or.inl rfl
          · simp only [bind_eq_ok] at h
            obtain ⟨ti, _, _, _, si1, _, g3, h3, h⟩ := h
            cases h
            exact Or.inr (Stamped.of (sorted_held h3) ⟨Nat.lt_succ_self _, rfl⟩)
  · cases h

theorem LeaveInfoset_touch {g g1 : efgGame} {n r : Option Nat}
    (h : LeaveInfoset g n = .ok (g1, r)) : g1 = g ∨ Stamped g g1 := by
  unfold LeaveInfoset at h
  split at h
  · cases h
  · simp only [bind_eq_ok, pure_eq_ok, ok_bind] at h
    obtain ⟨x, _, h⟩ := h
    split at h
    · cases h; exact Or.inl rfl
    · simp only [bind_eq_ok] at h
      obtain ⟨si, _, h⟩ := h
      split at h
      · cases h; exact Or.inl rfl
      · simp only [bind_eq_ok] at h
        obtain ⟨_, _, player, _, ⟨g3, t⟩, hc, ti, _, acts, _, g5, h5, y, _, h⟩ := h
        cases h
        refine Or.inr (Stamped.of (sorted_held h5) (show Stamped g g3 from ?_))
        exact Stamped.of (CreateInfoset_held hc) ⟨Nat.lt_succ_self _, rfl⟩

theorem MergeInfoset_touch {g g1 : efgGame} {dst src r : Option Nat}
    (h : MergeInfoset g dst src = .ok (g1, r)) : g1 = g ∨ Stamped g g1 := by
  unfold MergeInfoset at h
  split at h
  · simp only [bind_eq_ok, pure_eq_ok, ok_bind] at h
    obtain ⟨ti, _, fi, _, h⟩ := h
    split at h
    · cases h; exact Or.inl rfl
    · simp only [bind_eq_ok] at h
      obtain ⟨a, _, b, _, xa, _, xb, _, h⟩ := h
      split at h
      · cases h; exact Or.inl rfl
      · simp only [bind_eq_ok] at h
        obtain ⟨fj, _, nodes1, _, g2, h2, h⟩ := h
        cases h
        exact Or.inr (Stamped.of (sorted_held h2) ⟨Nat.lt_succ_self _, rfl⟩)
  · cases h

theorem SwitchPlayer_touch {g g1 : efgGame} {s p r : Option Nat}
    (h : SwitchPlayer g s p = .ok (g1, r)) : g1 = g ∨ Stamped g g1 := by
  unfold SwitchPlayer at h
  split at h
  · simp only [bind_eq_ok, pure_eq_ok, ok_bind] at h
    obtain ⟨si, _, h⟩ := h
    split at h
    · cases h
    · split at h
      · cases h; exact Or.inl rfl
      · simp only [bind_eq_ok] at h
        obtain ⟨old, _, ⟨_, l⟩, _, np, _, g5, h5, h⟩ := h
        cases h
        refine Or.inr (Stamped.of (sorted_held h5) ?_)
        refine Stamped.of (setPlayerRep_held _ _ _) ?_
        refine Stamped.of (c := { (efgGame.setPlayerRep _ si.m_player _) with infosets := _ })
          (b := efgGame.setPlayerRep _ si.m_player _) ⟨rfl, rfl⟩ ?_
        exact Stamped.of (setPlayerRep_held _ _ _) ⟨Nat.lt_succ_self _, rfl⟩
  · cases h

theorem MoveTree_touch {g g1 : efgGame} {src dest r : Option Nat}
    (h : MoveTree g src dest = .ok (g1, r)) : g1 = g ∨ Stamped g g1 := by
  unfold MoveTree at h
  simp only [pure_eq_ok, ok_bind] at h
  repeat' (first | (rw [bind_eq_ok] at h; obtain ⟨_, _, h⟩ := h) | split at h)
  all_goals first
    | (cases h; done)
    | (cases h; exact Or.inl rfl)
    | (cases h
       have h3 := sorted_held (by assumption)
       exact Or.inr (Stamped.of h3 ⟨Nat.lt_succ_self _, rfl⟩))

theorem InsertAction_stamped {g g1 : efgGame} {s r : Option Nat}
    (h : InsertAction g s = .ok (g1, r)) : Stamped g g1 := by
  unfold InsertAction at h
  simp only [pure_eq_ok, ok_bind] at h
  repeat' (first | (rw [bind_eq_ok] at h; obtain ⟨_, _, h⟩ := h) | split at h)
  all_goals first
    | (cases h; done)
    | (cases h
       have h3 := sorted_held (by assumption)
       exact Stamped.of h3 ⟨Nat.lt_succ_self _, rfl⟩)

theorem InsertActionAt_stamped {g g1 : efgGame} {s a r : Option Nat}
    (h : InsertActionAt g s a = .ok (g1, r)) : Stamped g g1 := by
  unfold InsertActionAt at h
  simp only [pure_eq_ok, ok_bind] at h
  repeat' (first | (rw [bind_eq_ok] at h; obtain ⟨_, _, h⟩ := h) | split at h)
  all_goals first
    | (cases h; done)
    | (cases h; exact ⟨Nat.lt_succ_self _, rfl⟩)
    | (cases h
       have h3 := sorted_held (by assumption)
       exact Stamped.of h3 ⟨Nat.lt_succ_self _, rfl⟩)

theorem SplitInfoset_move_held (s ns : Nat) : ∀ (r i : Nat) (g g1 : efgGame),
    SplitInfoset.move s ns r i g = .ok g1 → Held g g1 := by
  intro r
  induction r with
  | zero => intro i g g1 h; cases h; exact Held.noop
  | succ r ih =>
    intro i g g1 h
    unfold SplitInfoset.move at h
    simp only [pure_eq_ok, ok_bind] at h
    repeat' (first | (rw [bind_eq_ok] at h; obtain ⟨_, _, h⟩ := h) | split at h)
    all_goals
      have h1 := ih _ _ _ h
      exact Held.seq ⟨rfl, rfl⟩ h1

theorem SplitInfoset_touch {g g1 : efgGame} {n r : Option Nat}
    (h : SplitInfoset g n = .ok (g1, r)) : g1 = g ∨ Stamped g g1 := by
  unfold SplitInfoset at h
  simp only [pure_eq_ok, ok_bind] at h
  repeat' (first | (rw [bind_eq_ok] at h; obtain ⟨_, _, h⟩ := h) | split at h)
  all_goals first
    | (cases h; done)
    | (cases h; exact Or.inl rfl)
    | (cases h
       have h3 := sorted_held (by assumption)
       have hm := SplitInfoset_move_held _ _ _ _ _ _ (by assumption)
       have hc := CreateInfoset_held (by assumption)
       exact Or.inr (Stamped.of h3 (Stamped.of hm (Stamped.of hc ⟨Nat.lt_succ_self _, rfl⟩))))

/-- A loop whose rounds keep the counter keeps it. -/
theorem foldlM_kept {α : Type} (f : efgGame → α → Res efgGame)
    (hf : ∀ ga a gb, f ga a = .ok gb → Kept ga gb) :
    ∀ (l : List α) (g g1 : efgGame), l.foldlM f g = .ok g1 → Kept g g1 := by
  intro l
  induction l with
  | nil => intro g g1 h; cases h; exact Kept.idle
  | cons a l ih =>
    intro g g1 h
    simp only [List.foldlM_cons, bind_eq_ok] at h
    obtain ⟨g2, h2, h⟩ := h
    exact (hf _ _ _ h2).follow (ih _ _ h)

theorem DeleteTree_go_stamped : ∀ (fuel : Nat) (g g1 : efgGame) (n : Option Nat) (r : Nat),
    DeleteTree.go fuel g n = .ok (g1, r) → Stamped g g1 := by
  intro fuel
  induction fuel with
  | zero => intro g g1 n r h; cases h
  | succ fuel ih =>
    intro g g1 n r h
    cases n with
    | none => cases h
    | some n =>
      rw [DeleteTree.go] at h
      simp only [pure_eq_ok, ok_bind] at h
      rw [bind_eq_ok] at h
      obtain ⟨x, _, h⟩ := h
      rw [bind_eq_ok] at h
      obtain ⟨g2, hfold, h⟩ := h
      have hk : Kept { g with m_revision := g.m_revision + 1, m_dirty := true } g2 := by
        refine foldlM_kept _ ?_ _ _ _ hfold
        intro ga a gb hb
        simp only [bind_eq_ok] at hb
        obtain ⟨_, _, _, _, ⟨gc, _⟩, hc, _, _, ⟨_, _⟩, _, hb⟩ := hb
        cases hb
        exact (ih _ _ _ _ hc).toKept.follow (Held.asKept ⟨rfl, rfl⟩)
      have hs : Stamped g g2 := Stamped.after ⟨Nat.lt_succ_self _, rfl⟩ hk
      repeat' (first | (rw [bind_eq_ok] at h; obtain ⟨_, _, h⟩ := h) | split at h)
      all_goals first
        | (cases h; done)
        | (cases h
           have h3 := sorted_held (by assumption)
           exact Stamped.of h3 hs)

theorem DeleteTree_stamped {g g1 : efgGame} {n : Option Nat} {r : Nat}
    (h : DeleteTree g n = .ok (g1, r)) : Stamped g g1 :=
  DeleteTree_go_stamped _ _ _ _ _ h

theorem DeleteAction_loop_kept (s wh : Nat) : ∀ (fuel i : Nat) (g g1 : efgGame),
    DeleteAction.loop s wh fuel i g = .ok g1 → Kept g g1 := by
  intro fuel
  induction fuel with
  | zero => intro i g g1 h; cases h
  | succ fuel ih =>
    intro i g g1 h
    rw [DeleteAction.loop] at h
    simp only [pure_eq_ok, ok_bind] at h
    repeat' (first | (rw [bind_eq_ok] at h; obtain ⟨_, _, h⟩ := h) | split at h)
    all_goals first
      | (cases h; exact Kept.idle)
      | (have h1 := ih _ _ _ h
         have h2 := DeleteTree_stamped (by assumption)
         exact h2.toKept.follow (Kept.follow (Held.asKept ⟨rfl, rfl⟩) h1))

theorem DeleteAction_stamped {g g1 : efgGame} {s a r : Option Nat}
    (h : DeleteAction g s a = .ok (g1, r)) : Stamped g g1 := by
  unfold DeleteAction at h
  simp only [pure_eq_ok, ok_bind] at h
  repeat' (first | (rw [bind_eq_ok] at h; obtain ⟨_, _, h⟩ := h) | split at h)
  all_goals first
    | (cases h; done)
    | (cases h; exact ⟨Nat.lt_succ_self _, rfl⟩)
    | (cases h
       have h3 := sorted_held (by assumption)
       have hl := DeleteAction_loop_kept _ _ _ _ _ _ (by assumption)
       exact Stamped.of h3 (Stamped.after ⟨Nat.lt_succ_self _, rfl⟩ hl))

theorem DeleteNode_touch {g g1 : efgGame} {n keep r : Option Nat}
    (h : DeleteNode g n keep = .ok (g1, r)) : g1 = g ∨ Stamped g g1 := by
  unfold DeleteNode at h
  simp only [pure_eq_ok, ok_bind] at h
  repeat' (first | (rw [bind_eq_ok] at h; obtain ⟨_, _, h⟩ := h) | split at h)
  all_goals first
    | (cases h; done)
    | (cases h; exact Or.inl rfl)
    | (cases h
       have h3 := SortInfosets_held (by assumption)
       have hr := replaceInParent_held (by assumption)
       have hd := DeleteTree_stamped (by assumption)
       exact Or.inr (Stamped.of h3 (Stamped.of hr (Stamped.after ⟨Nat.lt_succ_self _, rfl⟩ hd.toKept))))

theorem CopySubtree_loop_kept (call : efgGame → Nat → Nat → Res efgGame) (src dest : Nat)
    (hc : ∀ g a b g1, call g a b = .ok g1 → Kept g g1) : ∀ (r i : Nat) (g g1 : efgGame),
    CopySubtree.loop call src dest r i g = .ok g1 → Kept g g1 := by
  intro r
  induction r with
  | zero => intro i g g1 h; cases h
  | succ r ih =>
    intro i g g1 h
    rw [CopySubtree.loop] at h
    simp only [pure_eq_ok, ok_bind] at h
    repeat' (first | (rw [bind_eq_ok] at h; obtain ⟨_, _, h⟩ := h) | split at h)
    all_goals first
      | (cases h; exact Kept.idle)
      | (have h1 := ih _ _ _ h
         have h2 := hc _ _ _ _ (by assumption)
         exact h2.follow h1)

theorem CopySubtree_kept (stop : Nat) : ∀ (fuel : Nat) (g : efgGame) (src dest : Nat)
    (g1 : efgGame), CopySubtree stop fuel g src dest = .ok g1 → Kept g g1 := by
  intro fuel
  induction fuel with
  | zero => intro g src dest g1 h; cases h
  | succ fuel ih =>
    intro g src dest g1 h
    rw [CopySubtree] at h
    simp only [pure_eq_ok, ok_bind] at h
    repeat' (first | (rw [bind_eq_ok] at h; obtain ⟨_, _, h⟩ := h) | split at h)
    all_goals first
      | (cases h; done)
      | (cases h; exact Held.asKept ⟨rfl, rfl⟩)
      | (cases h
         have h1 := AppendNodeInfoset_kept (by assumption)
         have h2 := CopySubtree_loop_kept _ _ _ (fun g a b g1 => ih g a b g1) _ _ _ _
           (by assumption)
         exact (h1.follow h2).follow (Held.asKept ⟨rfl, rfl⟩))

theorem CopyTree_touch {g g1 : efgGame} {src dest r : Option Nat}
    (h : CopyTree g src dest = .ok (g1, r)) : g1 = g ∨ Stamped g g1 := by
  unfold CopyTree at h
  simp only [pure_eq_ok, ok_bind] at h
  repeat' (first | (rw [bind_eq_ok] at h; obtain ⟨_, _, h⟩ := h) | split at h)
  all_goals first
    | (cases h; done)
    | (cases h; exact Or.inl rfl)
    | (cases h
       have h3 := sorted_held (by assumption)
       have h1 := AppendNodeInfoset_kept (by assumption)
       have h2 := CopySubtree_loop_kept _ _ _
         (fun g a b g1 => CopySubtree_kept _ _ g a b g1) _ _ _ _ (by assumption)
       exact Or.inr (Stamped.of h3 (Stamped.after ⟨Nat.lt_succ_self _, rfl⟩ (h1.follow h2))))

theorem touch_kept {g g1 : efgGame} (h : g1 = g ∨ Stamped g g1) : Kept g g1 := by
  rcases h with e | e
  · rw [e]; exact Kept.idle
  · exact e.toKept

theorem touch_follow {a b c : efgGame} (h1 : b = a ∨ Stamped a b) (h2 : c = b ∨ Stamped b c) :
    c = a ∨ Stamped a c := by
  rcases h1 with e1 | e1
  · rw [e1] at h2; exact h2
  · exact Or.inr (e1.after (touch_kept h2))

theorem Reveal_members_kept : ∀ (l : List Nat) (g g1 : efgGame) (t r : Option Nat),
    Reveal.members l (g, t) = .ok (g1, r) → Kept g g1 := by
  intro l
  induction l with
  | nil => intro g g1 t r h; cases h; exact Kept.idle
  | cons n l ih =>
    intro g g1 t r h
    rw [Reveal.members] at h
    simp only [pure_eq_ok, ok_bind] at h
    repeat' (first | (rw [bind_eq_ok] at h; obtain ⟨_, _, h⟩ := h) | split at h)
    all_goals first
      | exact ih _ _ _ _ h
      | (have h1 := ih _ _ _ _ h
         have h2 := touch_kept (LeaveInfoset_touch (by assumption))
         exact (Kept.follow (Held.asKept ⟨rfl, rfl⟩) h2).follow h1)
      | (have h1 := ih _ _ _ _ h
         have h2 := touch_kept (JoinInfoset_touch (by assumption))
         exact (Kept.follow (Held.asKept ⟨rfl, rfl⟩) h2).follow h1)

theorem Reveal_infosets_kept (who : Nat) : ∀ (fuel k : Nat) (g g1 : efgGame),
    Reveal.infosets who fuel k g = .ok g1 → Kept g g1 := by
  intro fuel
  induction fuel with
  | zero => intro k g g1 h; cases h
  | succ fuel ih =>
    intro k g g1 h
    rw [Reveal.infosets] at h
    simp only [pure_eq_ok, ok_bind] at h
    repeat' (first | (rw [bind_eq_ok] at h; obtain ⟨_, _, h⟩ := h) | split at h)
    all_goals first
      | (cases h; exact Kept.idle)
      | (have h1 := ih _ _ _ h
         have h2 := Reveal_members_kept _ _ _ _ _ (by assumption)
         exact h2.follow h1)

theorem Reveal_actions_kept (wh who : Nat) : ∀ (r i : Nat) (g g1 : efgGame),
    Reveal.actions wh who r i g = .ok g1 → Kept g g1 := by
  intro r
  induction r with
  | zero => intro i g g1 h; cases h; exact Kept.idle
  | succ r ih =>
    intro i g g1 h
    rw [Reveal.actions] at h
    simp only [pure_eq_ok, ok_bind] at h
    repeat' (first | (rw [bind_eq_ok] at h; obtain ⟨_, _, h⟩ := h) | split at h)
    all_goals
      have h1 := ih _ _ _ h
      have h2 := Reveal_infosets_kept _ _ _ _ _ (by assumption)
      exact (Kept.follow (Held.asKept ⟨rfl, rfl⟩) h2).follow h1

theorem Reveal_touch {g g1 : efgGame} {wh who : Nat}
    (h : Reveal g wh who = .ok g1) : g1 = g ∨ Stamped g g1 := by
  unfold Reveal at h
  simp only [pure_eq_ok, ok_bind] at h
  repeat' (first | (rw [bind_eq_ok] at h; obtain ⟨_, _, h⟩ := h) | split at h)
  all_goals first
    | (cases h; exact Or.inl rfl)
    | (have h3 := Reindex_held h
       have h2 := Reveal_actions_kept _ _ _ _ _ _ (by assumption)
       exact Or.inr (Stamped.of h3 (Stamped.after ⟨Nat.lt_succ_self _, rfl⟩ h2)))

theorem DeleteEmptyInfosets_inner_touch (pl : Nat) : ∀ (fuel iset : Nat) (g g1 : efgGame),
    DeleteEmptyInfosets.inner pl fuel iset g = .ok g1 → g1 = g ∨ Stamped g g1 := by
  intro fuel
  induction fuel with
  | zero => intro iset g g1 h; cases h
  | succ fuel ih =>
    intro iset g g1 h
    rw [DeleteEmptyInfosets.inner] at h
    repeat' (first | (rw [bind_eq_ok] at h; obtain ⟨_, _, h⟩ := h) | split at h)
    all_goals first
      | (cases h; exact Or.inl rfl)
      | (have h1 := ih _ _ _ h
         have h2 := DeleteEmptyInfoset_touch (by assumption)
         exact touch_follow h2 h1)

theorem DeleteEmptyInfosets_outer_touch : ∀ (k pl : Nat) (g g1 : efgGame),
    DeleteEmptyInfosets.outer k pl g = .ok g1 → g1 = g ∨ Stamped g g1 := by
  intro k
  induction k with
  | zero => intro pl g g1 h; cases h; exact Or.inl rfl
  | succ k ih =>
    intro pl g g1 h
    rw [DeleteEmptyInfosets.outer] at h
    repeat' (first | (rw [bind_eq_ok] at h; obtain ⟨_, _, h⟩ := h) | split at h)
    all_goals
      have h1 := ih _ _ _ h
      have h2 := DeleteEmptyInfosets_inner_touch _ _ _ _ _ (by assumption)
      exact touch_follow h2 h1

theorem WriteEfgFile_result {g g1 : efgGame} {f : List Piece}
    (h : WriteEfgFile g = .ok (f, g1)) :
    g1 = { g with m_revision := g.m_revision + 1, m_dirty := false } := by
  unfold WriteEfgFile at h
  simp only [pure_eq_ok, ok_bind] at h
  rw [bind_eq_ok] at h
  obtain ⟨_, _, h⟩ := h
  cases h
  rfl
theorem SameTree.unchanged {st : List (Option Node)} : SameTree st st := ⟨Eq.refl _, fun _ => Eq.refl _⟩

theorem SameTree.chain {a b c : List (Option Node)} (h1 : SameTree a b) (h2 : SameTree b c) :
    SameTree a c :=
  ⟨h2.1.trans h1.1, fun u => (h2.2 u).trans (h1.2 u)⟩

theorem SameTree.put {st : List (Option Node)} {n : Nat} {x y : Node}
    (hx : deref st n = .ok x) (hy : y.structure = x.structure) :
    SameTree st (store st n y) := by
  refine ⟨store_length _ _ _, fun u => ?_⟩
  rw [deref_store _ _ (deref_lt hx)]
  by_cases hu : u = n
  · subst hu
    rw [if_pos rfl, hx]
    exact congrArg Except.ok hy
  · rw [if_neg hu]

theorem foldlM_sameTree {α : Type} (f : List (Option Node) → α → Res (List (Option Node)))
    (hf : ∀ st a st1, f st a = .ok st1 → SameTree st st1) :
    ∀ (l : List α) (st st1 : List (Option Node)), l.foldlM f st = .ok st1 → SameTree st st1 := by
  intro l
  induction l with
  | nil => intro st st1 h; cases h; exact SameTree.unchanged
  | cons a l ih =>
    intro st st1 h
    simp only [List.foldlM_cons, bind_eq_ok] at h
    obtain ⟨st2, h2, h⟩ := h
    exact (hf _ _ _ h2).chain (ih _ _ h)

theorem MarkTree_sameTree (base : Nat) : ∀ (fuel n : Nat) (st st1 : List (Option Node)),
    MarkTree base fuel n st = .ok st1 → SameTree st st1 := by
  intro fuel
  induction fuel with
  | zero => intro n st st1 h; cases h
  | succ fuel ih =>
    intro n st st1 h
    rw [MarkTree, bind_eq_ok] at h
    obtain ⟨x, hx, h⟩ := h
    refine SameTree.chain (SameTree.put hx ?_)
      (foldlM_sameTree _ (fun st a st1 => ih a st st1) _ _ _ h)
    rfl

theorem MarkSubgameBase_sameTree (base : Option Nat) :
    ∀ (fuel n : Nat) (st st1 : List (Option Node)),
      MarkSubgameBase base fuel n st = .ok st1 → SameTree st st1 := by
  intro fuel
  induction fuel with
  | zero => intro n st st1 h; cases h
  | succ fuel ih =>
    intro n st st1 h
    rw [MarkSubgameBase, bind_eq_ok] at h
    obtain ⟨x, hx, h⟩ := h
    split at h
    · cases h; exact SameTree.unchanged
    · refine SameTree.chain (SameTree.put hx ?_)
        (foldlM_sameTree _ (fun st a st1 => ih a st st1) _ _ _ h)
      rfl

theorem NodesOnly.untouched {g : efgGame} : NodesOnly g g := ⟨g.nodes, Eq.refl _, SameTree.unchanged⟩

theorem NodesOnly.link {a b c : efgGame} (h1 : NodesOnly a b) (h2 : NodesOnly b c) :
    NodesOnly a c := by
  obtain ⟨N1, e1, s1⟩ := h1
  obtain ⟨N2, e2, s2⟩ := h2
  subst e1
  subst e2
  exact ⟨N2, rfl, s1.chain s2⟩

theorem NodesOnly.of_tree {g : efgGame} {N : List (Option Node)} (h : SameTree g.nodes N) :
    NodesOnly g { g with nodes := N } := ⟨N, rfl, h⟩

theorem foldlM_nodesOnly {α : Type} (f : efgGame → α → Res efgGame)
    (hf : ∀ ga a gb, f ga a = .ok gb → NodesOnly ga gb) :
    ∀ (l : List α) (g g1 : efgGame), l.foldlM f g = .ok g1 → NodesOnly g g1 := by
  intro l
  induction l with
  | nil => intro g g1 h; cases h; exact NodesOnly.untouched
  | cons a l ih =>
    intro g g1 h
    simp only [List.foldlM_cons, bind_eq_ok] at h
    obtain ⟨g2, h2, h⟩ := h
    exact (hf _ _ _ h2).link (ih _ _ h)

theorem IsLegalSubgame_nodesOnly {g g1 : efgGame} {n : Nat} {b : Bool}
    (h : IsLegalSubgame g n = .ok (g1, b)) : NodesOnly g g1 := by
  unfold IsLegalSubgame at h
  simp only [pure_eq_ok, ok_bind] at h
  repeat' (first | (rw [bind_eq_ok] at h; obtain ⟨_, _, h⟩ := h) | split at h)
  all_goals first
    | (cases h; exact NodesOnly.untouched)
    | (cases h
       exact NodesOnly.of_tree (MarkTree_sameTree _ _ _ _ _ (by assumption)))

theorem MarkSubgame_nodesOnly {g g1 : efgGame} {n : Nat} {b : Bool}
    (h : MarkSubgame g n = .ok (g1, b)) : NodesOnly g g1 := by
  unfold MarkSubgame at h
  simp only [pure_eq_ok, ok_bind] at h
  rw [bind_eq_ok] at h
  obtain ⟨x, hx, h⟩ := h
  split at h
  · cases h; exact NodesOnly.untouched
  · rw [bind_eq_ok] at h
    obtain ⟨⟨ga, legal⟩, hl, h⟩ := h
    have h1 := IsLegalSubgame_nodesOnly hl
    split at h
    · simp only [bind_eq_ok] at h
      obtain ⟨y, hy, nodes2, h2, h⟩ := h
      cases h
      refine h1.link (NodesOnly.of_tree ?_)
      refine SameTree.chain (SameTree.put hy ?_) (MarkSubgameBase_sameTree _ _ _ _ _ h2)
      rfl
    · cases h
      exact h1

theorem UnmarkSubgame_nodesOnly {g g1 : efgGame} {n : Nat}
    (h : UnmarkSubgame g n = .ok g1) : NodesOnly g g1 := by
  unfold UnmarkSubgame at h
  simp only [pure_eq_ok, ok_bind] at h
  rw [bind_eq_ok] at h
  obtain ⟨x, hx, h⟩ := h
  split at h
  · split at h
    · simp only [bind_eq_ok] at h
      obtain ⟨xp, _, nodes2, h2, h⟩ := h
      cases h
      refine NodesOnly.of_tree
        (SameTree.chain (SameTree.put hx ?_) (MarkSubgameBase_sameTree _ _ _ _ _ h2))
      rfl
    · cases h; exact NodesOnly.untouched
  · cases h; exact NodesOnly.untouched

theorem UnmarkSubgames_nodesOnly : ∀ (fuel : Nat) (g : efgGame) (n : Nat) (g1 : efgGame),
    UnmarkSubgames fuel g n = .ok g1 → NodesOnly g g1 := by
  intro fuel
  induction fuel with
  | zero => intro g n g1 h; cases h
  | succ fuel ih =>
    intro g n g1 h
    rw [UnmarkSubgames, bind_eq_ok] at h
    obtain ⟨x, hx, h⟩ := h
    split at h
    · cases h; exact NodesOnly.untouched
    · rw [bind_eq_ok] at h
      obtain ⟨g2, h2, h⟩ := h
      exact (foldlM_nodesOnly _ (fun ga a gb => ih ga a gb) _ _ _ h2).link
        (UnmarkSubgame_nodesOnly h)

theorem MarkSubgames_nodesOnly {g g1 : efgGame} {roots : List Nat}
    (h : MarkSubgames g roots = .ok g1) : NodesOnly g g1 := by
  unfold MarkSubgames at h
  refine foldlM_nodesOnly _ ?_ _ _ _ h
  intro ga n gb hb
  simp only [bind_eq_ok, pure_eq_ok] at hb
  obtain ⟨x, hx, nodes2, h2, hb⟩ := hb
  cases hb
  refine NodesOnly.of_tree
    (SameTree.chain (SameTree.put hx ?_) (MarkSubgameBase_sameTree _ _ _ _ _ h2))
  rfl

theorem SameContent.itself {g : efgGame} : SameContent g g :=
  ⟨rfl, rfl, rfl, rfl, rfl, fun _ => rfl, rfl, fun _ => rfl, rfl, fun _ => rfl,
    fun s si si1 h h1 => by rw [h] at h1; cases h1; exact List.Perm.refl _, rfl,
    fun pl p hp => ⟨p, hp, rfl, List.Perm.refl _⟩⟩

theorem SameContent.of_nodesOnly {g g1 : efgGame} (h : NodesOnly g g1) : SameContent g g1 := by
  obtain ⟨N, e, hlen, hN⟩ := h
  subst e
  exact ⟨rfl, rfl, rfl, rfl, rfl, fun _ => rfl, hlen, hN, rfl, fun _ => rfl,
    fun s si si1 h h1 => by
      have h2 : deref g.infosets s = .ok si1 := h1
      rw [h] at h2; cases h2; exact List.Perm.refl _, rfl,
    fun pl p hp => ⟨p, hp, rfl, List.Perm.refl _⟩⟩

/-- A change of the counter and the flag alone leaves the content. -/
theorem SameContent.of_stamp (g : efgGame) (r : Nat) (d : Bool) :
    SameContent g { g with m_revision := r, m_dirty := d } :=
  ⟨rfl, rfl, rfl, rfl, rfl, fun _ => rfl, rfl, fun _ => rfl, rfl, fun _ => rfl,
    fun s si si1 h h1 => by
      have h2 : deref g.infosets s = .ok si1 := h1
      rw [h] at h2; cases h2; exact List.Perm.refl _, rfl,
    fun pl p hp => ⟨p, hp, rfl, List.Perm.refl _⟩⟩

/-- Dropping the lexicon and sorting the infosets of a well-formed game leaves
the content. -/
theorem SameContent.of_sorted {g g1 : efgGame} {L : List Nat} (hwf : WellFormed g L)
    (h : SortInfosets (DeleteLexicon g) = .ok g1) (hs : g.sortisets = true) :
    SameContent g g1 := by
  have hwf1 : WellFormed (DeleteLexicon g) L :=
    hwf.of_shape rfl rfl (fun _ => rfl) (fun _ => rfl) rfl (fun _ => rfl)
  obtain ⟨g2, hg2, R⟩ := SortInfosets_spec (DeleteLexicon g) L hwf1 hs
  rw [h] at hg2
  cases hg2
  have hsc := R.scalars
  simp only [scalars, Prod.mk.injEq] at hsc
  have hreps : g1.outcomeReps = g.outcomeReps := hsc.2.2.2.2.2.2.2.1
  refine ⟨R.root, hsc.2.2.2.1, hsc.2.2.2.2.1, hsc.2.2.2.2.2.1, by rw [hreps],
    fun _ => by rw [hreps], R.nodes_len, ?_, R.infosets_len, R.core_eq, ?_, R.nplayers, ?_⟩
  · intro n
    rw [R.nodes n]
    by_cases hn : n ∈ L
    · rw [if_pos hn]
      show ((deref g.nodes n).map (setNumber (L.indexOf n + 1))).map Node.structure =
        (deref g.nodes n).map Node.structure
      cases deref g.nodes n with
      | error e => rfl
      | ok y => rfl
    · rw [if_neg hn]
      rfl
  · intro s si si1 hsi hsi1
    by_cases hl : ∃ pl p, g.playerRep pl = .ok p ∧ s ∈ p.m_infosets
    · obtain ⟨pl, p0, hp0, hs0⟩ := hl
      obtain ⟨p1, B, hp1, _, _, hperm, _, hd⟩ := R.lists pl p0 hp0
      obtain ⟨si0, hsi0, hsi2⟩ := hd s (hperm.mem_iff.2 hs0)
      have e0 : deref g.infosets s = .ok si0 := hsi0
      rw [hsi] at e0
      cases e0
      rw [hsi1] at hsi2
      cases hsi2
      exact (hwf.members_perm hp0 hs0 hsi).symm
    · have := R.unlisted s (fun pl p hp hs0 => hl ⟨pl, p, hp, hs0⟩)
      have e0 : deref g1.infosets s = deref g.infosets s := this
      rw [hsi, hsi1] at e0
      cases e0
      exact List.Perm.refl _
  · intro pl p hp
    obtain ⟨p1, B, hp1, hlab, _, hperm, _, _⟩ := R.lists pl p hp
    exact ⟨p1, hp1, hlab, hperm⟩

theorem map_fst_eq_ok {α β : Type} (x : Res (α × β)) (a : α) :
    x.map Prod.fst = .ok a ↔ ∃ b, x = .ok (a, b) := by
  cases x with
  | error e => simp [Except.map]
  | ok v =>
    obtain ⟨v1, v2⟩ := v
    simp [Except.map]

theorem map_snd_eq_ok {α β : Type} (x : Res (α × β)) (b : β) :
    x.map Prod.snd = .ok b ↔ ∃ a, x = .ok (a, b) := by
  cases x with
  | error e => simp [Except.map]
  | ok v =>
    obtain ⟨v1, v2⟩ := v
    simp [Except.map]

theorem counter_of_stamped {g g1 : efgGame} (h : Stamped g g1) :
    g.m_revision ≤ g1.m_revision ∧
      ((g.m_revision < g1.m_revision ∧ g1.m_dirty = true) ∨ SameContent g g1) :=
  ⟨Nat.le_of_lt h.1, Or.inl h⟩

theorem counter_of_touch {g g1 : efgGame} (h : g1 = g ∨ Stamped g g1) :
    g.m_revision ≤ g1.m_revision ∧
      ((g.m_revision < g1.m_revision ∧ g1.m_dirty = true) ∨ SameContent g g1) := by
  rcases h with e | e
  · rw [e]
    exact ⟨Nat.le_refl _, Or.inr SameContent.itself⟩
  · exact counter_of_stamped e

theorem counter_of_nodesOnly {g g1 : efgGame} (h : NodesOnly g g1) :
    g.m_revision ≤ g1.m_revision ∧
      ((g.m_revision < g1.m_revision ∧ g1.m_dirty = true) ∨ SameContent g g1) := by
  refine ⟨?_, Or.inr (SameContent.of_nodesOnly h)⟩
  obtain ⟨N, e, _⟩ := h
  rw [e]

theorem Reindex.infosetIds_same :
    ∀ (l : List Nat) (H H1 : List (Option Infoset)) (j : Nat),
      Reindex.infosetIds H l j = .ok H1 → SameUpToId H H1 := by
  intro l
  induction l with
  | nil =>
    intro H H1 j h
    cases h
    exact SameUpToId.refl H
  | cons h t ih =>
    intro H H1 j hr
    simp only [Reindex.infosetIds, bind_eq_ok] at hr
    obtain ⟨s, hs, hr⟩ := hr
    exact (SameUpToId.store j hs).trans (ih _ _ _ hr)

theorem Reindex.players_same :
    ∀ (ps : List Player) (H H1 : List (Option Infoset)),
      Reindex.players H ps = .ok H1 → SameUpToId H H1 := by
  intro ps
  induction ps with
  | nil =>
    intro H H1 h
    cases h
    exact SameUpToId.refl H
  | cons p ps ih =>
    intro H H1 hr
    simp only [Reindex.players, bind_eq_ok] at hr
    obtain ⟨H2, h2, hr⟩ := hr
    exact (Reindex.infosetIds_same _ _ _ _ h2).trans (ih _ _ hr)

theorem Reindex.outcomeIds_same :
    ∀ (l : List Nat) (reps reps1 : List (Option Outcome)) (i : Nat),
      Reindex.outcomeIds reps l i = .ok reps1 →
      reps1.length = reps.length ∧
        ∀ o, (deref reps1 o).map Outcome.content = (deref reps o).map Outcome.content := by
  intro l
  induction l with
  | nil =>
    intro reps reps1 i h
    cases h
    exact ⟨rfl, fun _ => rfl⟩
  | cons h t ih =>
    intro reps reps1 i hr
    simp only [Reindex.outcomeIds, bind_eq_ok] at hr
    obtain ⟨oc, hoc, hr⟩ := hr
    obtain ⟨h1, h2⟩ := ih _ _ _ hr
    refine ⟨by rw [h1, store_length], fun o => ?_⟩
    rw [h2 o, deref_store _ _ (deref_lt hoc)]
    by_cases e : o = h
    · rw [if_pos e, e, hoc]
      rfl
    · rw [if_neg e]

/-- `Reindex` leaves the content: it writes ids only. -/
theorem Reindex_content {g g1 : efgGame} (h : Reindex g = .ok g1) : SameContent g g1 := by
  unfold Reindex at h
  simp only [bind_eq_ok, pure_eq_ok] at h
  obtain ⟨H1, h1, reps1, h2, h⟩ := h
  cases h
  obtain ⟨hl, hI⟩ := Reindex.players_same _ _ _ h1
  obtain ⟨hol, hO⟩ := Reindex.outcomeIds_same _ _ _ _ h2
  have hcore : ∀ s, (deref H1 s).map coreOf = (deref g.infosets s).map coreOf := by
    intro s
    have hcomp : ∀ r : Res Infoset, r.map coreOf = (r.map (setId 0)).map coreOf := by
      intro r
      cases r <;> rfl
    rw [hcomp, hI s, ← hcomp]
  refine ⟨rfl, rfl, rfl, rfl, hol, hO, rfl, fun _ => rfl, hl, hcore, ?_, rfl, ?_⟩
  · intro s si si1 hsi hsi1
    have := hI s
    rw [show deref H1 s = .ok si1 from hsi1, hsi] at this
    have e := congrArg (fun r => r.map Infoset.m_members) this
    simp only [Except.map, setId, Except.ok.injEq] at e
    rw [e]
  · intro pl p hp
    exact ⟨p, hp, rfl, List.Perm.refl _⟩

theorem longOf_of_lt {n : Nat} (h : n < 2 ^ 63) : longOf n = (n : Int) := by
  unfold longOf
  norm_num at h ⊢
  omega

/-- The revision number, read as a `long`, follows the count of the increments
while that count is below `2 ^ 63`. -/
theorem RevisionNumber_of_count {g g1 : efgGame} (hr : g1.m_revision < 2 ^ 63)
    (h : g.m_revision ≤ g1.m_revision ∧
      ((g.m_revision < g1.m_revision ∧ g1.m_dirty = true) ∨ SameContent g g1)) :
    RevisionNumber g ≤ RevisionNumber g1 ∧
      ((RevisionNumber g < RevisionNumber g1 ∧ g1.m_dirty = true) ∨ SameContent g g1) := by
  obtain ⟨h1, h2⟩ := h
  have e1 : RevisionNumber g1 = (g1.m_revision : Int) := longOf_of_lt hr
  have e0 : RevisionNumber g = (g.m_revision : Int) :=
    longOf_of_lt (Nat.lt_of_le_of_lt h1 hr)
  rw [e0, e1]
  refine ⟨by exact_mod_cast h1, ?_⟩
  rcases h2 with ⟨h3, h4⟩ | h3
  · exact Or.inl ⟨by exact_mod_cast h3, h4⟩
  · exact Or.inr h3

/-- C31: let the revision counter, a `long`, have been incremented fewer than
`2 ^ 63` times when the call returns.  For every call of a public operation on a
well-formed game with sorting enabled that returns, the revision number
afterwards is not smaller than before; and either it is strictly greater and the
dirty flag is set, or the content of the game is as before: the same root,
title, comment, outcomes and payoffs (up to outcome ids), the same tree (nodes
up to numbers and marks), the same infosets with the same members, actions and
chance probabilities (up to ids and member order) and the same players with the
same infosets (up to list order).  `CreateInfosetByIndex`, of which the sources
hold the declaration only, enters as the function `byIndex`, assumed to act in
this way on the count of the increments. -/
theorem revision_counter (byIndex : efgGame → Option Nat → Int → Int → Res efgGame)
    (hby : ∀ ga p index br gb, byIndex ga p index br = .ok gb →
      ga.m_revision ≤ gb.m_revision ∧
        ((ga.m_revision < gb.m_revision ∧ gb.m_dirty = true) ∨ SameContent ga gb))
    (g g1 : efgGame) (op : Op) (hwf : wellFormed g = true) (hs : g.sortisets = true)
    (hr : g1.m_revision < 2 ^ 63) (h : Op.run byIndex g op = .ok g1) :
    RevisionNumber g ≤ RevisionNumber g1 ∧
      ((RevisionNumber g < RevisionNumber g1 ∧ g1.m_dirty = true) ∨ SameContent g g1) := by
  refine RevisionNumber_of_count hr ?_
  cases op with
  | setTitle s =>
    cases h
    exact counter_of_stamped ⟨Nat.lt_succ_self _, rfl⟩
  | setComment s =>
    cases h
    exact counter_of_stamped ⟨Nat.lt_succ_self _, rfl⟩
  | setIsDirty d =>
    cases h
    exact ⟨Nat.le_refl _, Or.inr (SameContent.of_stamp g g.m_revision d)⟩
  | writeEfgFile =>
    obtain ⟨f, hf⟩ := (map_snd_eq_ok _ _).1 h
    rw [WriteEfgFile_result hf]
    exact ⟨Nat.le_succ _, Or.inr (SameContent.of_stamp g _ _)⟩
  | newPlayer =>
    obtain ⟨r, hr⟩ := (map_fst_eq_ok _ _).1 h
    exact counter_of_stamped (NewPlayer_stamped hr)
  | newOutcome =>
    cases h
    exact counter_of_stamped (NewOutcome_stamped g)
  | deleteOutcome o => exact counter_of_stamped (DeleteOutcome_stamped h)
  | setPayoff o pl v => exact counter_of_touch (SetPayoff_touch h)
  | appendNode n p count =>
    obtain ⟨r, hr⟩ := (map_fst_eq_ok _ _).1 h
    exact counter_of_stamped (AppendNode_stamped hr)
  | appendNodeInfoset n s =>
    obtain ⟨r, hr⟩ := (map_fst_eq_ok _ _).1 h
    rcases AppendNodeInfoset_touch hr with e | e | e
    · exact counter_of_touch (Or.inl e)
    · exact counter_of_stamped e
    · obtain ⟨L, hL⟩ := wellFormed_spec g hwf
      refine ⟨?_, Or.inr (SameContent.of_sorted hL e hs)⟩
      rw [(sorted_held e).1]
  | deleteNode n keep =>
    obtain ⟨r, hr⟩ := (map_fst_eq_ok _ _).1 h
    exact counter_of_touch (DeleteNode_touch hr)
  | insertNode n p count =>
    obtain ⟨r, hr⟩ := (map_fst_eq_ok _ _).1 h
    exact counter_of_stamped (InsertNode_stamped hr)
  | insertNodeInfoset n s =>
    obtain ⟨r, hr⟩ := (map_fst_eq_ok _ _).1 h
    exact counter_of_touch (InsertNodeInfoset_touch hr)
  | createInfoset p br =>
    obtain ⟨r, hr⟩ := (map_fst_eq_ok _ _).1 h
    exact counter_of_stamped (CreateInfosetPublic_stamped hr)
  | deleteEmptyInfoset s =>
    obtain ⟨r, hr⟩ := (map_fst_eq_ok _ _).1 h
    exact counter_of_touch (DeleteEmptyInfoset_touch hr)
  | deleteEmptyInfosets => exact counter_of_touch (DeleteEmptyInfosets_outer_touch _ _ _ _ h)
  | joinInfoset s n =>
    obtain ⟨r, hr⟩ := (map_fst_eq_ok _ _).1 h
    exact counter_of_touch (JoinInfoset_touch hr)
  | leaveInfoset n =>
    obtain ⟨r, hr⟩ := (map_fst_eq_ok _ _).1 h
    exact counter_of_touch (LeaveInfoset_touch hr)
  | splitInfoset n =>
    obtain ⟨r, hr⟩ := (map_fst_eq_ok _ _).1 h
    exact counter_of_touch (SplitInfoset_touch hr)
  | mergeInfoset dst src =>
    obtain ⟨r, hr⟩ := (map_fst_eq_ok _ _).1 h
    exact counter_of_touch (MergeInfoset_touch hr)
  | switchPlayer s p =>
    obtain ⟨r, hr⟩ := (map_fst_eq_ok _ _).1 h
    exact counter_of_touch (SwitchPlayer_touch hr)
  | copyTree src dest =>
    obtain ⟨r, hr⟩ := (map_fst_eq_ok _ _).1 h
    exact counter_of_touch (CopyTree_touch hr)
  | moveTree src dest =>
    obtain ⟨r, hr⟩ := (map_fst_eq_ok _ _).1 h
    exact counter_of_touch (MoveTree_touch hr)
  | deleteTree n =>
    obtain ⟨r, hr⟩ := (map_fst_eq_ok _ _).1 h
    exact counter_of_stamped (DeleteTree_stamped hr)
  | insertAction s =>
    obtain ⟨r, hr⟩ := (map_fst_eq_ok _ _).1 h
    exact counter_of_stamped (InsertAction_stamped hr)
  | insertActionAt s a =>
    obtain ⟨r, hr⟩ := (map_fst_eq_ok _ _).1 h
    exact counter_of_stamped (InsertActionAt_stamped hr)
  | deleteAction s a =>
    obtain ⟨r, hr⟩ := (map_fst_eq_ok _ _).1 h
    exact counter_of_stamped (DeleteAction_stamped hr)
  | reveal wh who => exact counter_of_touch (Reveal_touch h)
  | setChanceProb s act v => exact counter_of_touch (SetChanceProb_touch h)
  | isLegalSubgame n =>
    obtain ⟨r, hr⟩ := (map_fst_eq_ok _ _).1 h
    exact counter_of_nodesOnly (IsLegalSubgame_nodesOnly hr)
  | markSubgames roots => exact counter_of_nodesOnly (MarkSubgames_nodesOnly h)
  | markSubgame n =>
    obtain ⟨r, hr⟩ := (map_fst_eq_ok _ _).1 h
    exact counter_of_nodesOnly (MarkSubgame_nodesOnly hr)
  | unmarkSubgame n => exact counter_of_nodesOnly (UnmarkSubgame_nodesOnly h)
  | unmarkSubgames n => exact counter_of_nodesOnly (UnmarkSubgames_nodesOnly _ _ _ _ h)
  | reindex =>
    refine ⟨?_, Or.inr (Reindex_content h)⟩
    rw [(Reindex_held h).1]
  | createOutcomeByIndex index =>
    cases h
    exact counter_of_stamped ⟨Nat.lt_succ_self _, rfl⟩
  | createInfosetByIndex p index br => exact hby g p index br g1 h

set_option maxRecDepth 1000000 in
/-- Witness for C31: `AppendNode(n, player 1, 2)` at the first terminal node `n`
of Scenario A, which advances the counter by one; `CreateInfoset` stands in for
the function without a definition. -/
theorem revision_counter_witness :
    ∃ g g1, scenarioA = .ok g ∧ wellFormed g = true ∧ g.sortisets = true ∧
      g1.m_revision < 2 ^ 63 ∧
      Op.run (fun ga p _ br => (CreateInfosetPublic ga p br.toNat).map Prod.fst) g
        (.appendNode (some 3) (some 1) 2) = .ok g1 ∧
      g1.m_revision = g.m_revision + 1 ∧
      RevisionNumber g ≤ RevisionNumber g1 ∧
        ((RevisionNumber g < RevisionNumber g1 ∧ g1.m_dirty = true) ∨ SameContent g g1) :=
  ⟨_, _, rfl, by decide, by decide, by decide, rfl, by decide,
    revision_counter (fun ga p _ br => (CreateInfosetPublic ga p br.toNat).map Prod.fst)
      (fun _ _ _ _ _ hb => by
        obtain ⟨r, hr⟩ := (map_fst_eq_ok _ _).1 hb
        exact counter_of_stamped (CreateInfosetPublic_stamped hr))
      _ _ (.appendNode (some 3) (some 1) 2) (by decide) (by decide) (by decide) rfl⟩

set_option maxRecDepth 1000000 in
/-- C40 (failing input): in `copyAcrossRoot` the root is interior, `dest` is a
terminal child of the root, so a node of the subtree of the root, with the same
subgame root and the outcome `o`, and
the other child `a` of the root is interior and its own subgame root.
`CopyTree(root, dest)` does not complete: the copy of `a` is refused its
children and the call ends with the index error, before the copy of `dest`
receives the outcome of `dest`. -/
theorem CopyTree_into_descendant_aborts :
    ∃ g a dest o xs xd xa ls, copyAcrossRoot = .ok (g, a, dest, o) ∧ wellFormed g = true ∧
      NDoChild g.nodes g.nodes.length g.root [] = .ok ls ∧ dest ∈ ls ∧
      deref g.nodes g.root = .ok xs ∧ xs.children = [a, dest] ∧
      deref g.nodes dest = .ok xd ∧ xd.children = [] ∧ xd.outcome = some o ∧
      xs.gameroot = xd.gameroot ∧
      deref g.nodes a = .ok xa ∧ xa.children ≠ [] ∧ xa.gameroot = some a ∧
      CopyTree g (some g.root) (some dest) = .error .badIndex := by
  refine ⟨_, _, _, _, _, _, _, _, rfl, by decide, rfl, by decide, rfl, by decide, rfl,
    by decide, by decide, by decide, rfl, by decide, by decide, rfl⟩

set_option maxRecDepth 1000000 in
/-- Without the nested subgame root the same call completes: `CopyTree(root,
dest)` in `copyPlain` returns `dest`, adds three nodes to the four of the tree,
and the second child of `dest`, the copy of `dest`, is terminal and carries the
outcome `o`. -/
theorem CopyTree_into_descendant_plain :
    ∃ g a dest o g1 L L1 yd c yc, copyPlain = .ok (g, a, dest, o) ∧ Nodes g = .ok L ∧
      CopyTree g (some g.root) (some dest) = .ok (g1, some dest) ∧ Nodes g1 = .ok L1 ∧
      L.length = 4 ∧ L1.length = L.length + 3 ∧
      deref g1.nodes dest = .ok yd ∧ yd.children.length = 2 ∧ yd.children[1]? = some c ∧
      deref g1.nodes c = .ok yc ∧ yc.children = [] ∧ yc.outcome = some o := by
  refine ⟨_, _, _, _, _, _, _, _, _, _, rfl, rfl, rfl, rfl, by decide, by decide, rfl,
    by decide, rfl, rfl, by decide, by decide⟩

end Gambit
